import Mathlib

/-!
# pkg-json: a shallow embedding of `jsondecode`, `jsonencode` and `make_valid_name`

The development follows the three source files

* `src/octave7.h`     (`make_valid_name`, `make_valid_name_options`),
* `src/jsondecode.cc` (`decode` and its helpers),
* `src/jsonencode.cc` (`encode` and its helpers).

Conventions of the embedding.

* A `std::string` is a list of bytes (`Str`); the `<cctype>` predicates are those of
  the "C" locale.
* A binary64 value is `Double`: a finite value is stored exactly as an integer
  multiple of `2 ^ (-1074)`, next to `NaN` and the two infinities.
* An `octave_value` is stored by its class, its dimension vector and its flat
  column-major data.  A real scalar is the 1x1 array, as in Octave.
* The RapidJSON writer is the list of events sent to it.
* `error (...)` and out-of-range accesses are the `Except.error` results.
-/

namespace PkgJson

/-! ## Strings and characters -/

/-- A `std::string`: the list of its bytes. -/
abbrev Str := List Nat

/-- The bytes of an ASCII string literal. -/
def bytes (s : String) : Str := s.toList.map Char.toNat

/-- The `std::isspace` of the "C" locale: space, `\t`, `\n`, `\v`, `\f`, `\r`. -/
def isspace (c : Nat) : Bool := c == 32 || (9 ≤ c && c ≤ 13)

/-- The `std::isalpha` of the "C" locale. -/
def isalpha (c : Nat) : Bool := (65 ≤ c && c ≤ 90) || (97 ≤ c && c ≤ 122)

/-- The `std::isdigit`. -/
def isdigit (c : Nat) : Bool := 48 ≤ c && c ≤ 57

/-- The `std::isalnum` of the "C" locale. -/
def isalnum (c : Nat) : Bool := isalpha c || isdigit c

/-- The `std::toupper` of the "C" locale. -/
def toupper (c : Nat) : Nat := if 97 ≤ c && c ≤ 122 then c - 32 else c

/-- The character `_`. -/
def underscore_char : Nat := 95

/-! ## `octave7.h`: the identifier sanitizer -/

/-- Modelled from the spec: `octave::valid_identifier` is not part of `src/`.  A valid
identifier is a non-empty string whose first character is a letter or underscore and
whose remaining characters are all letters, digits or underscores.  (Octave scans the
C string, so the two agree on every string without a NUL byte, as every key of a JSON
object is once `decode_object` has read it with `GetString`.) -/
def valid_identifier : Str → Bool
  | [] => false
  | c :: cs =>
    (isalpha c || c == underscore_char) && cs.all (fun x => isalnum x || x == underscore_char)

/-- The reserved words for which Octave 6 `iskeyword` answers true.  The table belongs to
the Octave lexer and is not part of `src/`; `make_valid_name` takes the predicate as a
parameter and this table is the instance used to evaluate it. -/
def octave_keywords : List String :=
  ["__FILE__", "__LINE__", "break", "case", "catch", "classdef", "continue", "do",
   "else", "elseif", "end", "end_try_catch", "end_unwind_protect", "endclassdef",
   "endenumeration", "endevents", "endfor", "endfunction", "endif", "endmethods",
   "endparfor", "endproperties", "endswitch", "endwhile", "for", "function", "global",
   "if", "otherwise", "parfor", "persistent", "return", "switch", "try", "until",
   "unwind_protect", "unwind_protect_cleanup", "while"]

/-- The `octave::iskeyword` over the table `octave_keywords`. -/
def octave_iskeyword (s : Str) : Bool := (octave_keywords.map bytes).contains s

/-- The class `make_valid_name_options`: the two option strings. -/
structure make_valid_name_options where
  m_replacement_style : Str
  m_prefix : Str
deriving DecidableEq

/-- The default constructor: `ReplacementStyle = "underscore"`, `Prefix = "x"`. -/
def make_valid_name_options.default : make_valid_name_options :=
  ⟨bytes "underscore", bytes "x"⟩

/-- The first loop of `make_valid_name`: a letter that follows whitespace is made upper
case once a non-space character has been seen.  `previous` and `any_non_space` are the
two flags of the loop. -/
def capitalize_after_space : Bool → Bool → Str → Str
  | _, _, [] => []
  | previous, any_non_space, c :: cs =>
    let c1 := if any_non_space && previous && isalpha c then toupper c else c
    let previous1 := isspace c1
    c1 :: capitalize_after_space previous1 (any_non_space || !previous1) cs

/-- The two hex digits of `"%02X"` for a value below 256. -/
def hex_digit (n : Nat) : Nat := if n < 10 then 48 + n else 55 + n

/-- The buffer filled by `std::snprintf (hex_str, 5, "0x%02X", str[pos])`.  The `char` is
promoted to `int`: a byte below 128 prints its two digits, a byte from 128 on is negative
as a signed `char`, prints as `FFFFFF..` and is cut to `0xFF` by the buffer size. -/
def hex_str (c : Nat) : Str :=
  if c < 128 then [48, 120, hex_digit (c / 16), hex_digit (c % 16)] else [48, 120, 70, 70]

/-- The `"hex"` loop: the string is scanned from the left for the first character outside
`permitted_chars`; it is replaced by `hex_str` and the scan goes on behind the four
inserted characters. -/
def hex_replace : Str → Str
  | [] => []
  | c :: cs =>
    if isalnum c || c == underscore_char then c :: hex_replace cs
    else hex_str c ++ hex_replace cs

/-- The statement `str[0] = std::toupper (str[0])`. -/
def upper_first : Str → Str
  | [] => []
  | c :: cs => toupper c :: cs

/-- The function `octave::make_valid_name`: the returned flag, and `str` as it is left by
the call.  `iskeyword` is the keyword predicate of the Octave lexer. -/
def make_valid_name (iskeyword : Str → Bool) (str : Str)
    (options : make_valid_name_options) : Bool × Str :=
  if valid_identifier str && !iskeyword str then (false, str)
  else
    let s1 := capitalize_after_space false false str
    let s2 := s1.filter (fun x => !isspace x)
    let s3 := if s2.isEmpty then options.m_prefix else s2
    let s4 := if iskeyword s3 then options.m_prefix ++ upper_first s3 else s3
    let s5 := if !isalpha (s4.headD 0) && s4.headD 0 != underscore_char
              then options.m_prefix ++ s4 else s4
    let s6 :=
      if options.m_replacement_style = bytes "underscore" then
        s5.map (fun c => if isalnum c then c else underscore_char)
      else if options.m_replacement_style = bytes "delete" then
        s5.filter (fun x => !(!isalnum x && x != underscore_char))
      else if options.m_replacement_style = bytes "hex" then
        hex_replace s5
      else s5
    (true, s6)

/-! ## Values -/

/-- A binary64 value.  `finite n` is the real number `n * 2 ^ (-1074)`; every finite
binary64 value has this form.  The two zeros are not told apart. -/
inductive Double where
  | finite (n : Int)
  | nan
  | inf (negative : Bool)
deriving DecidableEq

/-- The number 1 in the unit of `Double.finite`: `2 ^ 1074`. -/
def Double.one : Nat := 1 <<< 1074

/-- The constant `octave_NaN`. -/
def octave_NaN : Double := Double.nan

/-- Round to nearest, ties to even, of a natural number below `2 ^ 64` to 53 significant
bits: the conversion of a 64-bit integer to binary64.  Numbers below `2 ^ 53` are kept. -/
def round53 (n : Nat) : Nat :=
  if n < 2 ^ 53 then n
  else
    let s := ((List.range 11).filter (fun k => 2 ^ (53 + k) ≤ n)).length
    let q := n / 2 ^ s
    let r := n % 2 ^ s
    if 2 * r < 2 ^ s then q * 2 ^ s
    else if 2 ^ s < 2 * r then (q + 1) * 2 ^ s
    else if q % 2 = 0 then q * 2 ^ s else (q + 1) * 2 ^ s

/-- The conversion of a C++ integer to `double`. -/
def Double.of_int (i : Int) : Double :=
  Double.finite (Int.sign i * (round53 i.natAbs : Int) * (Double.one : Int))

/-- The conversion `double (bool)`. -/
def Double.of_bool (b : Bool) : Double := if b then Double.of_int 1 else Double.of_int 0

/-- The conversion `bool (double)`: every value but zero is true. -/
def Double.to_bool (x : Double) : Bool := x != Double.finite 0

/-- The errors of the embedding: the two `error (...)` messages of the sources, an
accessor applied to a value of another class, an access outside a container, and the
end of the recursion budget of the embedding. -/
inductive Error where
  | unidentified_type
  | unsupported_type
  | invalid_conversion
  | index_out_of_range
  | out_of_fuel
deriving DecidableEq

/-- A number of a `rapidjson::Value`: an integer literal within the 64-bit ranges is
stored as an integer, every other number as a `double`. -/
inductive JNumber where
  | int (i : Int)
  | double (d : Double)
deriving DecidableEq

/-- The enumeration `rapidjson::Type`. -/
inductive JType where
  | kNullType | kFalseType | kTrueType | kObjectType | kArrayType | kStringType | kNumberType
deriving DecidableEq

/-- A parsed `rapidjson::Value`.  An object keeps its members in the order of the text,
duplicate keys included. -/
inductive JsonValue where
  | null
  | bool (b : Bool)
  | number (n : JNumber)
  | string (s : Str)
  | array (elems : List JsonValue)
  | object (members : List (Str × JsonValue))

/-- The method `GetType`. -/
def JsonValue.GetType : JsonValue → JType
  | .null => .kNullType
  | .bool false => .kFalseType
  | .bool true => .kTrueType
  | .number _ => .kNumberType
  | .string _ => .kStringType
  | .array _ => .kArrayType
  | .object _ => .kObjectType

/-- The method `IsNull`. -/
def JsonValue.IsNull (v : JsonValue) : Bool := v.GetType == JType.kNullType
/-- The method `IsBool`. -/
def JsonValue.IsBool (v : JsonValue) : Bool :=
  v.GetType == JType.kTrueType || v.GetType == JType.kFalseType
/-- The method `IsNumber`. -/
def JsonValue.IsNumber (v : JsonValue) : Bool := v.GetType == JType.kNumberType
/-- The method `IsString`. -/
def JsonValue.IsString (v : JsonValue) : Bool := v.GetType == JType.kStringType
/-- The method `IsObject`. -/
def JsonValue.IsObject (v : JsonValue) : Bool := v.GetType == JType.kObjectType
/-- The method `IsArray`. -/
def JsonValue.IsArray (v : JsonValue) : Bool := v.GetType == JType.kArrayType

/-- The method `IsUint`: an integer that fits `unsigned`. -/
def JsonValue.IsUint : JsonValue → Bool
  | .number (.int i) => 0 ≤ i && i < 2 ^ 32
  | _ => false
/-- The method `IsInt`: an integer that fits `int`. -/
def JsonValue.IsInt : JsonValue → Bool
  | .number (.int i) => -(2 ^ 31) ≤ i && i < 2 ^ 31
  | _ => false
/-- The method `IsUint64`. -/
def JsonValue.IsUint64 : JsonValue → Bool
  | .number (.int i) => 0 ≤ i && i < 2 ^ 64
  | _ => false
/-- The method `IsInt64`. -/
def JsonValue.IsInt64 : JsonValue → Bool
  | .number (.int i) => -(2 ^ 63) ≤ i && i < 2 ^ 63
  | _ => false
/-- The method `IsDouble`. -/
def JsonValue.IsDouble : JsonValue → Bool
  | .number (.double _) => true
  | _ => false

/-- The integer read by `GetUint`, `GetInt`, `GetUint64` and `GetInt64`. -/
def JsonValue.GetInteger : JsonValue → Int
  | .number (.int i) => i
  | _ => 0
/-- The method `GetDouble`. -/
def JsonValue.GetDouble : JsonValue → Double
  | .number (.double d) => d
  | _ => Double.finite 0
/-- The method `GetBool`. -/
def JsonValue.GetBool : JsonValue → Bool
  | .bool b => b
  | _ => false

/-- The `std::string` built from `GetString ()`: the bytes up to the first NUL. -/
def c_string (s : Str) : Str := s.takeWhile (fun c => c != 0)

/-- The method `GetString`, as the `std::string` built from it. -/
def JsonValue.GetString : JsonValue → Str
  | .string s => c_string s
  | _ => []

/-- An `octave_value` of the classes the codec produces and consumes: `double` and
`logical` arrays, character arrays, cell arrays and struct arrays, each with its
dimension vector and its flat column-major data.  A struct array stores one cell of
values per field, as `octave_map` does.  The 1x1 array is the scalar: Octave narrows a
1x1 `NDArray` to `octave_scalar`, a 1x1 `boolNDArray` to `octave_bool` and a 1x1
`octave_map` to `octave_scalar_map` when the `octave_value` is built. -/
inductive octave_value where
  | matrix (dims : List Nat) (data : List Double)
  | bool_matrix (dims : List Nat) (data : List Bool)
  | char_matrix (dims : List Nat) (data : List Nat)
  | cell (dims : List Nat) (data : List octave_value)
  | map (dims : List Nat) (fields : List (Str × List octave_value))

/-- The class `NDArray`: a dimension vector and the flat column-major data. -/
structure NDArray where
  dims : List Nat
  data : List Double
deriving DecidableEq

/-- The class `Cell`. -/
structure Cell where
  dims : List Nat
  data : List octave_value

/-- The class `octave_scalar_map`: the fields of one struct, in insertion order. -/
abbrev octave_scalar_map := List (Str × octave_value)

/-- The class `octave_map`: the dimensions of a struct array and one cell of values per
field, in insertion order. -/
structure octave_map where
  dims : List Nat
  fields : List (Str × List octave_value)

/-- The method `dim_vector::chop_trailing_singletons`, on the reversed vector. -/
def chop_reversed : List Nat → List Nat
  | d :: rest => if 2 ≤ rest.length ∧ d = 1 then chop_reversed rest else d :: rest
  | [] => []

/-- The method `dim_vector::chop_trailing_singletons`: trailing dimensions equal to 1 are
dropped while more than two dimensions are left. -/
def chop_trailing_singletons (dv : List Nat) : List Nat := (chop_reversed dv.reverse).reverse

/-- The method `dim_vector::numel`. -/
def dim_numel (dv : List Nat) : Nat := dv.prod

/-- The element access `a (i)`; an index outside the container is an error. -/
def elem {α : Type} (a : List α) (i : Nat) : Except Error α :=
  match a[i]? with
  | some x => .ok x
  | none => .error .index_out_of_range

/-- The assignment `a (i) = v`; an index outside the container is an error. -/
def assign_elem {α : Type} (a : List α) (i : Nat) (v : α) : Except Error (List α) :=
  if i < a.length then .ok (a.set i v) else .error .index_out_of_range

/-- The loop `for (i = 0; i < n; ++i) body`, threading the state `s`: the first `n`
iterations are the first `n - 1` iterations followed by `body (n - 1)`. -/
def for_loop {σ : Type} (body : Nat → σ → Except Error σ) : Nat → σ → Except Error σ
  | 0, s => .ok s
  | n + 1, s =>
    match for_loop body n s with
    | .ok s1 => body n s1
    | .error e => .error e

/-- A range-based `for` that stores one result per element: `retval (index++) = f (elem)`. -/
def mapE {α β : Type} (f : α → Except Error β) : List α → Except Error (List β)
  | [] => .ok []
  | x :: xs =>
    match f x with
    | .error e => .error e
    | .ok y =>
      match mapE f xs with
      | .error e => .error e
      | .ok ys => .ok (y :: ys)

namespace octave_value

/-- The constructor `octave_value (double)`. -/
def scalar (x : Double) : octave_value := .matrix [1, 1] [x]

/-- The constructor `octave_value (bool)`. -/
def bool (b : Bool) : octave_value := .bool_matrix [1, 1] [b]

/-- The constructor `octave_value (const char *)`: a row of characters, 0x0 when empty. -/
def string (s : Str) : octave_value :=
  .char_matrix (if s.isEmpty then [0, 0] else [1, s.length]) s

/-- The constructor `octave_value (const NDArray&)`. -/
def of_array (a : NDArray) : octave_value := .matrix a.dims a.data

/-- The constructor `octave_value (const Cell&)`. -/
def of_cell (c : Cell) : octave_value := .cell c.dims c.data

/-- The constructor `octave_value (const octave_map&)`. -/
def of_map (m : octave_map) : octave_value := .map m.dims m.fields

/-- The constructor `octave_value (const octave_scalar_map&)`: the 1x1 struct. -/
def of_scalar_map (m : octave_scalar_map) : octave_value :=
  .map [1, 1] (m.map (fun kv => (kv.1, [kv.2])))

/-- The method `dims`. -/
def dims : octave_value → List Nat
  | .matrix d _ => d
  | .bool_matrix d _ => d
  | .char_matrix d _ => d
  | .cell d _ => d
  | .map d _ => d

/-- The method `ndims`. -/
def ndims (v : octave_value) : Nat := v.dims.length

/-- The method `is_real_scalar`: true for `octave_scalar` and `octave_bool`, the classes
of the 1x1 `double` and `logical` values. -/
def is_real_scalar : octave_value → Bool
  | .matrix d _ => d == [1, 1]
  | .bool_matrix d _ => d == [1, 1]
  | _ => false

/-- The method `is_bool_scalar`: true for `octave_bool`. -/
def is_bool_scalar : octave_value → Bool
  | .bool_matrix d _ => d == [1, 1]
  | _ => false

/-- The method `is_bool_matrix`: true for `octave_bool_matrix`, the class of the
`logical` values that are not 1x1 (a 1x1 one is an `octave_bool`, which answers false). -/
def is_bool_matrix : octave_value → Bool
  | .bool_matrix d _ => d != [1, 1]
  | _ => false

/-- The method `isnumeric`. -/
def isnumeric : octave_value → Bool
  | .matrix _ _ => true
  | _ => false

/-- The method `islogical`. -/
def islogical : octave_value → Bool
  | .bool_matrix _ _ => true
  | _ => false

/-- The method `is_double_type`. -/
def is_double_type : octave_value → Bool
  | .matrix _ _ => true
  | _ => false

/-- The method `is_string`. -/
def is_string : octave_value → Bool
  | .char_matrix _ _ => true
  | _ => false

/-- The method `isstruct`. -/
def isstruct : octave_value → Bool
  | .map _ _ => true
  | _ => false

/-- The method `iscell`. -/
def iscell : octave_value → Bool
  | .cell _ _ => true
  | _ => false

/-- The method `array_value`: the `double` array of a `double` or `logical` value. -/
def array_value : octave_value → Except Error NDArray
  | .matrix d x => .ok ⟨d, x⟩
  | .bool_matrix d x => .ok ⟨d, x.map Double.of_bool⟩
  | _ => .error .invalid_conversion

/-- The method `cell_value`. -/
def cell_value : octave_value → Except Error Cell
  | .cell d x => .ok ⟨d, x⟩
  | _ => .error .invalid_conversion

/-- The method `map_value`. -/
def map_value : octave_value → Except Error octave_map
  | .map d f => .ok ⟨d, f⟩
  | _ => .error .invalid_conversion

/-- The method `scalar_map_value`: the one element of a 1x1 struct. -/
def scalar_map_value : octave_value → Except Error octave_scalar_map
  | .map d f =>
    if d = [1, 1] then mapE (fun kv => (elem kv.2 0).map (fun v => (kv.1, v))) f
    else .error .invalid_conversion
  | _ => .error .invalid_conversion

/-- The methods `scalar_value` and `double_value` of a real scalar. -/
def scalar_value : octave_value → Except Error Double
  | .matrix d x => if d = [1, 1] then elem x 0 else .error .invalid_conversion
  | .bool_matrix d x =>
    if d = [1, 1] then (elem x 0).map Double.of_bool else .error .invalid_conversion
  | _ => .error .invalid_conversion

/-- The method `bool_value` of a real scalar. -/
def bool_value : octave_value → Except Error Bool
  | .matrix d x => if d = [1, 1] then (elem x 0).map Double.to_bool else .error .invalid_conversion
  | .bool_matrix d x => if d = [1, 1] then elem x 0 else .error .invalid_conversion
  | _ => .error .invalid_conversion

end octave_value

/-- The method `fieldnames` of an `octave_scalar_map`. -/
def octave_scalar_map.fieldnames (m : octave_scalar_map) : List Str := m.map Prod.fst

/-- The method `octave_scalar_map::getfield`; a missing field is an error here (Octave
answers an undefined value). -/
def octave_scalar_map.getfield (m : octave_scalar_map) (k : Str) : Except Error octave_value :=
  match m.lookup k with
  | some v => .ok v
  | none => .error .index_out_of_range

/-- The method `octave_scalar_map::assign` (`setfield`): an existing key keeps its place
and takes the new value, a new key is appended. -/
def octave_scalar_map.assign : octave_scalar_map → Str → octave_value → octave_scalar_map
  | [], k, v => [(k, v)]
  | (k1, v1) :: rest, k, v =>
    if k1 = k then (k1, v) :: rest else (k1, v1) :: octave_scalar_map.assign rest k v

/-- The default constructor `octave_map ()`: 0x0, no field. -/
def octave_map.empty : octave_map := ⟨[0, 0], []⟩

/-- The method `fieldnames` of an `octave_map`. -/
def octave_map.fieldnames (m : octave_map) : List Str := m.fields.map Prod.fst

/-- The method `octave_map::getfield`: the cell of the values of one field. -/
def octave_map.getfield (m : octave_map) (k : Str) : Except Error (List octave_value) :=
  match m.fields.lookup k with
  | some c => .ok c
  | none => .error .index_out_of_range

/-- The `setfield` step of `octave_map::assign` on the list of fields. -/
def setfield_cells :
    List (Str × List octave_value) → Str → List octave_value → List (Str × List octave_value)
  | [], k, c => [(k, c)]
  | (k1, c1) :: rest, k, c =>
    if k1 = k then (k1, c) :: rest else (k1, c1) :: setfield_cells rest k c

/-- The method `octave_map::assign (key, Cell)`: the first field fixes the dimensions,
later cells must have the same dimensions. -/
def octave_map.assign (m : octave_map) (k : Str) (c : Cell) : Except Error octave_map :=
  if m.fields.isEmpty then .ok ⟨c.dims, [(k, c.data)]⟩
  else if c.dims = m.dims then .ok ⟨m.dims, setfield_cells m.fields k c.data⟩
  else .error .invalid_conversion

/-- The method `octave_map::resize (dv, true)` of a map without fields. -/
def octave_map.resize (m : octave_map) (dv : List Nat) : octave_map := ⟨dv, m.fields⟩

/-! ## `jsondecode.cc` -/

/-- The function `decode_number`. -/
def decode_number (val : JsonValue) : Except Error octave_value :=
  if val.IsUint then .ok (octave_value.scalar (Double.of_int val.GetInteger))
  else if val.IsInt then .ok (octave_value.scalar (Double.of_int val.GetInteger))
  else if val.IsUint64 then .ok (octave_value.scalar (Double.of_int val.GetInteger))
  else if val.IsInt64 then .ok (octave_value.scalar (Double.of_int val.GetInteger))
  else if val.IsDouble then .ok (octave_value.scalar val.GetDouble)
  else .error .unidentified_type

/-- The loop of `decode_object` over the members of the object.  `dec` is the function
`decode` declared at the head of the file, with `options` already passed. -/
def decode_object_loop (iskeyword : Str → Bool) (dec : JsonValue → Except Error octave_value)
    (options : Option make_valid_name_options) :
    List (Str × JsonValue) → octave_scalar_map → Except Error octave_scalar_map
  | [], retval => .ok retval
  | pair :: rest, retval =>
    let varname := c_string pair.1
    let varname1 :=
      match options with
      | some o => (make_valid_name iskeyword varname o).2
      | none => varname
    match dec pair.2 with
    | .error e => .error e
    | .ok v => decode_object_loop iskeyword dec options rest (retval.assign varname1 v)

/-- The function `decode_object`. -/
def decode_object (iskeyword : Str → Bool) (dec : JsonValue → Except Error octave_value)
    (val : List (Str × JsonValue)) (options : Option make_valid_name_options) :
    Except Error octave_value :=
  (decode_object_loop iskeyword dec options val []).map octave_value.of_scalar_map

/-- The function `decode_numeric_array`, on the elements of the JSON array. -/
def decode_numeric_array (val : List JsonValue) : Except Error octave_value :=
  (mapE (fun e => if e.IsNull then .ok octave_NaN
                  else (decode_number e).bind octave_value.scalar_value) val).map
    (fun data => octave_value.of_array ⟨[val.length, 1], data⟩)

/-- The function `decode_boolean_array`, on the elements of the JSON array. -/
def decode_boolean_array (val : List JsonValue) : Except Error octave_value :=
  (mapE (fun e => if e.IsBool then .ok e.GetBool else .error .invalid_conversion) val).map
    (fun data => octave_value.bool_matrix [val.length, 1] data)

/-- The function `decode_string_and_mixed_array`, on the elements of the JSON array. -/
def decode_string_and_mixed_array (dec : JsonValue → Except Error octave_value)
    (val : List JsonValue) : Except Error octave_value :=
  (mapE dec val).map (fun data => octave_value.of_cell ⟨[val.length, 1], data⟩)

/-- The comparison loop of `decode_object_array` over the elements from index 1 on:
false as soon as one element has other field names. -/
def same_field_names_loop (field_names : List Str) : List octave_value → Except Error Bool
  | [] => .ok true
  | x :: xs =>
    match x.scalar_map_value with
    | .error e => .error e
    | .ok m => if field_names ≠ m.fieldnames then .ok false
               else same_field_names_loop field_names xs

/-- The loop of `decode_object_array` over the field names: one cell per field, holding
the value of the field in each struct. -/
def object_array_fields (struct_cell : Cell) (struct_array_dims : List Nat) :
    List Str → octave_map → Except Error octave_map
  | [], struct_array => .ok struct_array
  | name :: rest, struct_array =>
    match mapE (fun s => (octave_value.scalar_map_value s).bind
                  (fun m => m.getfield name)) struct_cell.data with
    | .error e => .error e
    | .ok value =>
      match struct_array.assign name ⟨struct_array_dims, value⟩ with
      | .error e => .error e
      | .ok struct_array1 => object_array_fields struct_cell struct_array_dims rest struct_array1

/-- The function `decode_object_array`, on the elements of the JSON array. -/
def decode_object_array (dec : JsonValue → Except Error octave_value)
    (val : List JsonValue) : Except Error octave_value := do
  let struct_cell ← (decode_string_and_mixed_array dec val).bind octave_value.cell_value
  let first ← (elem struct_cell.data 0).bind octave_value.scalar_map_value
  let field_names := first.fieldnames
  let same_field_names ← same_field_names_loop field_names struct_cell.data.tail
  if same_field_names then
    let struct_array_dims := [struct_cell.data.length, 1]
    if field_names.length ≠ 0 then
      (object_array_fields struct_cell struct_array_dims field_names octave_map.empty).map
        octave_value.of_map
    else
      .ok (octave_value.of_map (octave_map.empty.resize struct_array_dims))
  else
    .ok (octave_value.of_cell struct_cell)

/-- The checks of the first loop of `decode_array_of_arrays` on one element: true when
the function returns the cell. -/
def sub_array_mismatch (is_bool is_struct : Bool) (field_names : List Str)
    (sub_array_dims : List Nat) (x : octave_value) : Except Error Bool :=
  if x.iscell then .ok true
  else if x.dims ≠ sub_array_dims ∨ sub_array_dims = [0, 0] then .ok true
  else if x.is_bool_matrix ≠ is_bool then .ok true
  else if x.isstruct ≠ is_struct then .ok true
  else if is_struct then
    match x.map_value with
    | .error e => .error e
    | .ok m => .ok (decide (field_names ≠ m.fieldnames))
  else .ok false

/-- The first loop of `decode_array_of_arrays`: true when some element makes the function
return the cell. -/
def any_sub_array_mismatch (is_bool is_struct : Bool) (field_names : List Str)
    (sub_array_dims : List Nat) : List octave_value → Except Error Bool
  | [] => .ok false
  | x :: xs =>
    match sub_array_mismatch is_bool is_struct field_names sub_array_dims x with
    | .error e => .error e
    | .ok true => .ok true
    | .ok false => any_sub_array_mismatch is_bool is_struct field_names sub_array_dims xs

/-- The inner loop of the two populate loops of `decode_array_of_arrays`:
`for (i = 0; i < sub_array_numel; ++i) array (k + i * cell_numel) = sub_array_value (i)`. -/
def populate_inner {α : Type} (sub_array_value : List α) (k cell_numel sub_array_numel : Nat)
    (array : List α) : Except Error (List α) :=
  for_loop (fun i a =>
    match elem sub_array_value i with
    | .error e => .error e
    | .ok v => assign_elem a (k + i * cell_numel) v) sub_array_numel array

/-- The populate loop of the numeric branch of `decode_array_of_arrays`, over `k`. -/
def populate_array (cell : List octave_value) (cell_numel sub_array_numel : Nat)
    (array : List Double) : Except Error (List Double) :=
  for_loop (fun k a =>
    match (elem cell k).bind octave_value.array_value with
    | .error e => .error e
    | .ok sub_array_value => populate_inner sub_array_value.data k cell_numel sub_array_numel a)
    cell_numel array

/-- The populate loop of the struct branch of `decode_array_of_arrays` for one field,
over `k`. -/
def populate_field (cell : List octave_value) (name : Str) (cell_numel sub_array_numel : Nat)
    (value : List octave_value) : Except Error (List octave_value) :=
  for_loop (fun k a =>
    match ((elem cell k).bind octave_value.map_value).bind (fun m => m.getfield name) with
    | .error e => .error e
    | .ok sub_array_value => populate_inner sub_array_value k cell_numel sub_array_numel a)
    cell_numel value

/-- The loop of the struct branch of `decode_array_of_arrays` over the field names.  The
cell `value` is declared before the loop and written anew for each field. -/
def array_of_arrays_fields (cell : List octave_value) (array_dims : List Nat)
    (cell_numel sub_array_numel : Nat) :
    List Str → List octave_value → octave_map → Except Error octave_map
  | [], _, struct_array => .ok struct_array
  | name :: rest, value, struct_array =>
    match populate_field cell name cell_numel sub_array_numel value with
    | .error e => .error e
    | .ok value1 =>
      match struct_array.assign name ⟨array_dims, value1⟩ with
      | .error e => .error e
      | .ok struct_array1 =>
        array_of_arrays_fields cell array_dims cell_numel sub_array_numel rest value1
          struct_array1

/-- The function `decode_array_of_arrays`, on the elements of the JSON array.  A fresh
`Cell` is filled with empty matrices, as its constructor does; a fresh `NDArray` is not
initialised by Octave and is taken as filled with zeros.  Every element is written by
the populate loops. -/
def decode_array_of_arrays (dec : JsonValue → Except Error octave_value)
    (val : List JsonValue) : Except Error octave_value := do
  let cell ← (decode_string_and_mixed_array dec val).bind octave_value.cell_value
  let cell0 ← elem cell.data 0
  let is_bool := cell0.is_bool_matrix
  let is_struct := cell0.isstruct
  let field_names ← if is_struct then cell0.map_value.map octave_map.fieldnames else .ok []
  let sub_array_dims := cell0.dims
  let cell_numel := cell.data.length
  let mismatch ← any_sub_array_mismatch is_bool is_struct field_names sub_array_dims cell.data
  if mismatch then .ok (octave_value.of_cell cell)
  else
    let array_dims := cell_numel :: sub_array_dims
    if is_struct then
      let array_dims1 := chop_trailing_singletons array_dims
      if field_names.length ≠ 0 then
        let value := List.replicate (dim_numel array_dims1) (octave_value.matrix [0, 0] [])
        let sub_array_numel := dim_numel sub_array_dims
        (array_of_arrays_fields cell.data array_dims1 cell_numel sub_array_numel field_names
          value octave_map.empty).map octave_value.of_map
      else .ok (octave_value.of_map (octave_map.empty.resize array_dims1))
    else
      let array_dims1 := chop_trailing_singletons array_dims
      let array := List.replicate (dim_numel array_dims1) (Double.finite 0)
      let sub_array_numel := dim_numel array_dims1 / cell_numel
      let array1 ← populate_array cell.data cell_numel sub_array_numel array
      if is_bool then .ok (octave_value.bool_matrix array_dims1 (array1.map Double.to_bool))
      else .ok (octave_value.of_array ⟨array_dims1, array1⟩)

/-- The type scan of `decode_array`: the flags `same_type` and `is_numeric` after the
loop over the elements. -/
def scan_types (array_type : JType) : List JsonValue → Bool × Bool → Bool × Bool
  | [], flags => flags
  | e :: rest, (same_type, is_numeric) =>
    let current_elem_type := e.GetType
    let is_numeric1 :=
      if is_numeric && !(current_elem_type == JType.kNullType
                          || current_elem_type == JType.kNumberType) then false
      else is_numeric
    let same_type1 :=
      if same_type && current_elem_type != array_type then
        if !((current_elem_type == JType.kTrueType && array_type == JType.kFalseType)
              || (current_elem_type == JType.kFalseType && array_type == JType.kTrueType))
        then false else same_type
      else same_type
    scan_types array_type rest (same_type1, is_numeric1)

/-- The function `decode_array`, on the elements of the JSON array. -/
def decode_array (dec : JsonValue → Except Error octave_value)
    (val : List JsonValue) : Except Error octave_value :=
  match val with
  | [] => .ok (octave_value.of_array ⟨[0, 0], []⟩)
  | val0 :: _ =>
    let array_type := val0.GetType
    let flags := scan_types array_type val (true, true)
    let same_type := flags.1
    let is_numeric := flags.2
    if is_numeric then decode_numeric_array val
    else if same_type && array_type != JType.kStringType then
      if array_type == JType.kTrueType || array_type == JType.kFalseType then
        decode_boolean_array val
      else if array_type == JType.kObjectType then decode_object_array dec val
      else if array_type == JType.kArrayType then decode_array_of_arrays dec val
      else .error .unidentified_type
    else decode_string_and_mixed_array dec val

/-- The function `decode`.  `options` is `none` for the null pointer.  The first argument
after the keyword predicate bounds the nesting depth of the calls. -/
def decode (iskeyword : Str → Bool) :
    Nat → JsonValue → Option make_valid_name_options → Except Error octave_value
  | 0, _, _ => .error .out_of_fuel
  | fuel + 1, val, options =>
    if val.IsBool then .ok (octave_value.bool val.GetBool)
    else if val.IsNumber then decode_number val
    else if val.IsString then .ok (octave_value.string val.GetString)
    else
      match val with
      | .object members =>
        decode_object iskeyword (fun v => decode iskeyword fuel v options) members options
      | .null => .ok (octave_value.of_array ⟨[0, 0], []⟩)
      | .array elems => decode_array (fun v => decode iskeyword fuel v options) elems
      | _ => .error .unidentified_type

/-- The number `i` as a JSON value. -/
def jint (i : Int) : JsonValue := .number (.int i)

/-- The double `i`. -/
def dbl (i : Int) : Double := Double.of_int i

/-! ## `jsonencode.cc` -/

/-- The calls received by the RapidJSON writer. -/
inductive Event where
  | StartArray
  | EndArray
  | StartObject
  | EndObject
  | Key (k : Str)
  | Null
  | Bool (b : Bool)
  | Int64 (i : Int)
  | Double (d : PkgJson.Double)
  | String (s : Str)
deriving DecidableEq

/-- The function `floor`. -/
def Double.floor : Double → Double
  | .finite n => .finite (n / (Double.one : Int) * (Double.one : Int))
  | x => x

/-- The subtraction of two `double`s.  The difference of two finite values is taken
exactly; it is used for `floor (value) - value` only, which binary64 computes exactly. -/
def Double.sub : Double → Double → Double
  | .finite a, .finite b => .finite (a - b)
  | .nan, _ => .nan
  | _, .nan => .nan
  | .inf s, .inf t => if s = t then .nan else .inf s
  | .inf s, .finite _ => .inf s
  | .finite _, .inf t => .inf (!t)

/-- The function `fabs`. -/
def Double.fabs : Double → Double
  | .finite n => .finite (Int.natAbs n : Int)
  | .nan => .nan
  | .inf _ => .inf false

/-- The comparison `<` of two `double`s; false when one of them is `NaN`. -/
def Double.lt : Double → Double → Bool
  | .finite a, .finite b => decide (a < b)
  | .finite _, .inf t => !t
  | .inf s, .finite _ => s
  | .inf s, .inf t => s && !t
  | _, _ => false

/-- The comparison `<=` of two `double`s; false when one of them is `NaN`. -/
def Double.le : Double → Double → Bool
  | .finite a, .finite b => decide (a ≤ b)
  | .finite _, .inf t => !t
  | .inf s, .finite _ => s
  | .inf s, .inf t => s || !t
  | _, _ => false

/-- The constant `std::numeric_limits<double>::epsilon ()`: `2 ^ (-52)`. -/
def Double.epsilon : Double := .finite ((1 <<< 1022 : Nat) : Int)

/-- The function `octave::math::isfinite`. -/
def Double.isfinite : Double → Bool
  | .finite _ => true
  | _ => false

/-- The conversion of a `double` to `int64_t` in the call `writer.Int64 (value)`: the
fraction is cut off.  It is only reached for values between -999999 and 999999. -/
def Double.to_int64 : Double → Int
  | .finite n => Int.tdiv n (Double.one : Int)
  | _ => 0

/-- The function `encode_numeric`: the events written for a scalar. -/
def encode_numeric (obj : octave_value) (ConvertInfAndNaN : Bool) :
    Except Error (List Event) :=
  match obj.scalar_value with
  | .error e => .error e
  | .ok value =>
    if obj.is_bool_scalar then obj.bool_value.map (fun b => [Event.Bool b])
    else if Double.lt (Double.fabs (Double.sub (Double.floor value) value)) Double.epsilon
        && Double.le value (Double.of_int 999999) && Double.le (Double.of_int (-999999)) value
    then .ok [Event.Int64 (Double.to_int64 value)]
    else if ConvertInfAndNaN && !Double.isfinite value then .ok [Event.Null]
    else if obj.is_double_type then .ok [Event.Double value]
    else .error .unsupported_type

/-- The method `isempty` of an array with the dimension vector `dv`. -/
def dims_isempty (dv : List Nat) : Bool := dim_numel dv == 0

/-- The method `dim_vector::isvector`: two dimensions, one of them 1. -/
def dims_isvector (dv : List Nat) : Bool :=
  dv.length == 2 && (dv.headD 0 == 1 || dv.getD 1 0 == 1)

/-- The method `dim_vector::num_ones`. -/
def num_ones (dv : List Nat) : Nat := dv.count 1

/-- The dimension vector after `as_row`: `1 x numel` unless it is a row already. -/
def as_row_dims (dv : List Nat) : List Nat :=
  if dv.length ≠ 2 ∨ dv.headD 0 ≠ 1 then [1, dim_numel dv] else dv

/-- The loop `for (idx = 0; idx < ndims; ++idx) if (dims (idx) != 1) break;`: the index
of the first dimension that is not 1, or `ndims`. -/
def first_not_one : List Nat → Nat
  | [] => 0
  | d :: ds => if d != 1 then 0 else first_not_one ds + 1

/-- The row vector `conversion_dims` built for `num2cell`: the numbers of all dimensions
but dimension `idx + 1`. -/
def conversion_dims (ndims idx : Nat) : List Nat :=
  (List.range (ndims - 1)).map (fun i => if i < idx then i + 1 else i + 2)

/-- The multi-index of the flat offset `p` in an array of dimensions `dv`. -/
def ind2sub : List Nat → Nat → List Nat
  | [], _ => []
  | d :: ds, p => p % d :: ind2sub ds (p / d)

/-- The flat column-major offset of a multi-index in an array of dimensions `dv`. -/
def sub2ind : List Nat → List Nat → Nat
  | d :: ds, i :: rest => i + d * sub2ind ds rest
  | _, _ => 0

/-- The dimension vector `dv` in which the dimensions numbered (from `j + 1`) in `conv` are
kept and the others set to 1 (`keep = true`), or the other way round (`keep = false`). -/
def mask_dims (conv : List Nat) (keep : Bool) : Nat → List Nat → List Nat
  | _, [] => []
  | j, d :: ds =>
    (if decide ((j + 1) ∈ conv) == keep then d else 1) :: mask_dims conv keep (j + 1) ds

/-- The Octave builtin `num2cell (A, dims)`, which is not part of `src/`: the cell has the
dimensions of `A` with the dimensions listed in `dims` set to 1, and each element is the
sub-array of `A` that spans the listed dimensions at the position of the element. -/
def num2cell {α : Type} (filler : α) (dv : List Nat) (data : List α) (conv : List Nat) :
    List (List Nat × List α) :=
  let cell_dims := mask_dims conv false 0 dv
  let sub_dims := mask_dims conv true 0 dv
  (List.range (dim_numel cell_dims)).map (fun c =>
    (chop_trailing_singletons sub_dims,
     (List.range (dim_numel sub_dims)).map (fun q =>
       data.getD (sub2ind dv (List.zipWith (fun a b => a + b) (ind2sub cell_dims c)
         (ind2sub sub_dims q))) filler)))

/-- The function `encode_array`.  The first argument bounds the depth of the recursion.
The elements `array (i)` for `i < numel` are the stored data. -/
def encode_array : Nat → octave_value → Bool → List Nat → Nat → Bool → Except Error (List Event)
  | 0, _, _, _, _, _ => .error .out_of_fuel
  | fuel + 1, obj, ConvertInfAndNaN, original_dims, level, is_logical0 =>
    match obj.array_value with
    | .error e => .error e
    | .ok array =>
      let is_logical := if level == 0 then obj.islogical else is_logical0
      if dims_isempty array.dims then .ok [Event.StartArray, Event.EndArray]
      else if dims_isvector array.dims then
        (mapE (fun x =>
            if is_logical then encode_numeric (octave_value.bool (Double.to_bool x)) ConvertInfAndNaN
            else encode_numeric (octave_value.scalar x) ConvertInfAndNaN) array.data).map
          (fun parts => [Event.StartArray] ++ parts.flatten ++ [Event.EndArray])
      else
        let ndims := array.dims.length
        let dims := array.dims
        if num_ones dims == ndims - 1 then
          let brackets := if level != 0 then ndims - 1 - level else 0
          (encode_array fuel (octave_value.of_array ⟨as_row_dims array.dims, array.data⟩)
              ConvertInfAndNaN original_dims (level + 1) is_logical).map
            (fun inner => List.replicate brackets Event.StartArray ++ inner
                            ++ List.replicate brackets Event.EndArray)
        else
          match elem original_dims level with
          | .error e => .error e
          | .ok d =>
            if d == 1 then
              (encode_array fuel (octave_value.of_array array) ConvertInfAndNaN original_dims
                  (level + 1) is_logical).map
                (fun inner => [Event.StartArray] ++ inner ++ [Event.EndArray])
            else
              let idx := first_not_one dims
              let sub_arrays := num2cell (Double.finite 0) dims array.data (conversion_dims ndims idx)
              (mapE (fun sub =>
                  encode_array fuel (octave_value.of_array ⟨sub.1, sub.2⟩) ConvertInfAndNaN
                    original_dims (level + 1) is_logical) sub_arrays).map
                (fun parts => [Event.StartArray] ++ parts.flatten ++ [Event.EndArray])

/-- The statement `dims (1) = 1` of `encode_string`. -/
def set_second_to_one : List Nat → List Nat
  | d0 :: _ :: ds => d0 :: 1 :: ds
  | dv => dv

/-- The function `encode_string`.  The first argument bounds the depth of the recursion.
`writer.String (s.c_str ())` writes the characters before the first NUL. -/
def encode_string : Nat → List Nat → List Nat → List Nat → Nat → Except Error (List Event)
  | 0, _, _, _, _ => .error .out_of_fuel
  | fuel + 1, array_dims, array_data, original_dims, level =>
    if dims_isempty array_dims then .ok [Event.String []]
    else if dims_isvector array_dims then
      if level == 0 then .ok [Event.String (c_string array_data)]
      else
        match elem original_dims 1 with
        | .error e => .error e
        | .ok len =>
          (mapE (fun i => (mapE (fun k => elem array_data (i * len + k)) (List.range len)).map
              (fun char_vector => Event.String (c_string char_vector)))
            (List.range (dim_numel array_dims / len)))
    else
      let ndims := array_dims.length
      if num_ones array_dims == ndims - 1 then
        let brackets := if level != 0 then ndims - 1 - level else 0
        (encode_string fuel (as_row_dims array_dims) array_data original_dims level).map
          (fun inner => List.replicate brackets Event.StartArray ++ inner
                          ++ List.replicate brackets Event.EndArray)
      else
        match elem original_dims level with
        | .error e => .error e
        | .ok d =>
          if d == 1 && level != 1 then
            (encode_string fuel array_dims array_data original_dims (level + 1)).map
              (fun inner => [Event.StartArray] ++ inner ++ [Event.EndArray])
          else
            let dims := set_second_to_one array_dims
            let idx := first_not_one dims
            let sub_arrays := num2cell 0 array_dims array_data (conversion_dims ndims idx)
            (mapE (fun sub => encode_string fuel sub.1 sub.2 original_dims (level + 1))
                sub_arrays).map
              (fun parts => [Event.StartArray] ++ parts.flatten ++ [Event.EndArray])

/-- The function `encode_struct`.  `enc` is the function `encode` with the option passed. -/
def encode_struct (enc : octave_value → Except Error (List Event)) (obj : octave_value) :
    Except Error (List Event) :=
  match obj.map_value with
  | .error e => .error e
  | .ok struct_array =>
    let numel := dim_numel struct_array.dims
    let is_array := decide (numel > 1)
    let keys := struct_array.fieldnames
    (mapE (fun i =>
        (mapE (fun k =>
            match (struct_array.getfield k).bind (fun c => elem c i) with
            | .error e => .error e
            | .ok v => (enc v).map (fun es => Event.Key (c_string k) :: es)) keys).map
          (fun members => [Event.StartObject] ++ members.flatten ++ [Event.EndObject]))
      (List.range numel)).map
      (fun objects =>
        (if is_array then [Event.StartArray] else []) ++ objects.flatten
          ++ (if is_array then [Event.EndArray] else []))

/-- The function `encode_cell`. -/
def encode_cell (enc : octave_value → Except Error (List Event)) (obj : octave_value) :
    Except Error (List Event) :=
  match obj.cell_value with
  | .error e => .error e
  | .ok cell =>
    (mapE enc cell.data).map (fun parts => [Event.StartArray] ++ parts.flatten ++ [Event.EndArray])

/-- The function `encode`.  The first argument bounds the nesting depth of the calls.
The classes `containers.Map` and classdef objects are outside the value model, so their
two branches are not reached. -/
def encode : Nat → octave_value → Bool → Except Error (List Event)
  | 0, _, _ => .error .out_of_fuel
  | fuel + 1, obj, ConvertInfAndNaN =>
    if obj.is_real_scalar then encode_numeric obj ConvertInfAndNaN
    else if obj.isnumeric || obj.islogical then
      encode_array (obj.ndims + 1) obj ConvertInfAndNaN obj.dims 0 false
    else
      match obj with
      | .char_matrix dv data => encode_string (dv.length + 1) dv data dv 0
      | .map _ _ => encode_struct (fun v => encode fuel v ConvertInfAndNaN) obj
      | .cell _ _ => encode_cell (fun v => encode fuel v ConvertInfAndNaN) obj
      | _ => .error .unsupported_type

/-! ## Definitions used to state the claims -/

/-- A JSON value that is `null` or a number. -/
def null_or_number (e : JsonValue) : Bool :=
  e.GetType == JType.kNullType || e.GetType == JType.kNumberType

/-- Two element types that the scan of `decode_array` takes as the same type. -/
def same_json_type (t : JType) (e : JsonValue) : Bool :=
  e.GetType == t
    || (e.GetType == JType.kTrueType && t == JType.kFalseType)
    || (e.GetType == JType.kFalseType && t == JType.kTrueType)

/-- The numbers a RapidJSON value can hold: an integer within the ranges of `int64_t` and
`uint64_t`, or a `double`. -/
def JNumber.valid : JNumber → Bool
  | .int i => -(2 ^ 63) ≤ i && i < 2 ^ 64
  | .double _ => true

/-- The `double` value of a JSON number. -/
def number_value : JNumber → Double
  | .int i => Double.of_int i
  | .double d => d

/-- The element that a JSON number or `null` contributes to a numeric array: the number,
or `NaN` for `null`. -/
def element_value : JsonValue → Double
  | .number n => number_value n
  | _ => octave_NaN

/-- The value of the field `f` in the struct `m`; the empty matrix when `m` has no such
field. -/
def field_of (m : octave_scalar_map) (f : Str) : octave_value :=
  (m.lookup f).getD (octave_value.matrix [0, 0] [])

/-- The events of the rectangular nested JSON array that has `dims[j]` children in every
array of nesting level `j`, and at the path `(i0, ..., i(n-1))` the scalar `leaf path`. -/
def nested_events : List Nat → (List Nat → List Event) → List Event
  | [], leaf => leaf []
  | d :: ds, leaf =>
    [Event.StartArray]
      ++ ((List.range d).map (fun i => nested_events ds (fun path => leaf (i :: path)))).flatten
      ++ [Event.EndArray]

/-- A multi-index within the dimensions `dv`: one index below the size of each
dimension. -/
def valid_index : List Nat → List Nat → Bool
  | [], [] => true
  | d :: ds, i :: rest => decide (i < d) && valid_index ds rest
  | _, _ => false

/-- The events written by `encode_numeric` for the `double` scalar `x`. -/
def numeric_events (x : Double) (ConvertInfAndNaN : Bool) : List Event :=
  if Double.lt (Double.fabs (Double.sub (Double.floor x) x)) Double.epsilon
      && Double.le x (Double.of_int 999999) && Double.le (Double.of_int (-999999)) x
  then [Event.Int64 (Double.to_int64 x)]
  else if ConvertInfAndNaN && !Double.isfinite x then [Event.Null]
  else [Event.Double x]

/-- The events written for one element of the array by the loop of the vector branch of
`encode_array`. -/
def element_events (is_logical : Bool) (ConvertInfAndNaN : Bool) (x : Double) : List Event :=
  if is_logical then [Event.Bool (Double.to_bool x)] else numeric_events x ConvertInfAndNaN

mutual
/-- The writer events of a JSON document: the calls `Null`, `Bool`, `Int64`, `Double`,
`String`, `Key` and the start and end calls that write the text of the value.  Reading
that text back, the parser yields the value again. -/
def JsonValue.events : JsonValue → List Event
  | .null => [Event.Null]
  | .bool b => [Event.Bool b]
  | .number (.int i) => [Event.Int64 i]
  | .number (.double d) => [Event.Double d]
  | .string s => [Event.String s]
  | .array elems => [Event.StartArray] ++ events_of_elems elems ++ [Event.EndArray]
  | .object members => [Event.StartObject] ++ events_of_members members ++ [Event.EndObject]
/-- The writer events of the elements of a JSON array. -/
def events_of_elems : List JsonValue → List Event
  | [] => []
  | x :: xs => x.events ++ events_of_elems xs
/-- The writer events of the members of a JSON object. -/
def events_of_members : List (Str × JsonValue) → List Event
  | [] => []
  | (k, v) :: ms => Event.Key k :: v.events ++ events_of_members ms
end

/-- The `double` `-(1 - 2 ^ (-53))`, about `-0.99999999999999989`: the `double` next to
`-1` towards zero. -/
def almost_minus_one : Double :=
  Double.finite (-(((1 <<< 1074 : Nat) : Int) - ((1 <<< 1021 : Nat) : Int)))

/-- The events of the JSON object written for element `i` of a struct array: for each
field, in the order of the fields, the key as a C string and the events `ev` of the
value of the field in element `i`. -/
def object_events (ev : octave_value → List Event) (fields : List (Str × List octave_value))
    (i : Nat) : List Event :=
  [Event.StartObject]
    ++ (fields.map (fun f =>
          Event.Key (c_string f.1) :: ev (f.2.getD i (octave_value.matrix [0, 0] [])))).flatten
    ++ [Event.EndObject]

/-- The struct array `struct ('a', {1; 3}, 'b', {2; 4})` of the documentation. -/
def doc_struct_array : octave_value :=
  octave_value.map [2, 1]
    [(bytes "a", [octave_value.scalar (dbl 1), octave_value.scalar (dbl 3)]),
     (bytes "b", [octave_value.scalar (dbl 2), octave_value.scalar (dbl 4)])]

/-- The JSON value `[{"a":1},{"a":3},{"a":2},{"a":4}]`. -/
def flat_objects : JsonValue :=
  .array [.object [(bytes "a", jint 1)], .object [(bytes "a", jint 3)],
    .object [(bytes "a", jint 2)], .object [(bytes "a", jint 4)]]

/-- The JSON scalar read back from the text that `encode_numeric` writes for the `double`
`x`: an integer for `writer.Int64`, `null` for `writer.Null`, a `double` for
`writer.Double`. -/
def json_of_double (x : Double) (ConvertInfAndNaN : Bool) : JsonValue :=
  if Double.lt (Double.fabs (Double.sub (Double.floor x) x)) Double.epsilon
      && Double.le x (Double.of_int 999999) && Double.le (Double.of_int (-999999)) x
  then .number (.int (Double.to_int64 x))
  else if ConvertInfAndNaN && !Double.isfinite x then .null
  else .number (.double x)

/-- A `double` that is an integer, or that differs from its floor by the machine epsilon
or more, or that is not finite: the values for which the integer test of `encode_numeric`
holds only when the value is an integer. -/
def written_exactly : Double → Bool
  | .finite n => decide (n % (Double.one : Int) = 0)
      || decide (((1 <<< 1022 : Nat) : Int) ≤ n % (Double.one : Int))
  | _ => true

/-- The element that comes back for the `double` `x` of a vector: `NaN` for a non-finite
value written as `null`, the value itself otherwise. -/
def read_back (ConvertInfAndNaN : Bool) (x : Double) : Double :=
  if ConvertInfAndNaN && !Double.isfinite x then octave_NaN else x

/-- The data-model invariant on the outermost container of a value: the flat data has as
many elements as the product of the dimensions; for a struct array, each field has. -/
def octave_value.data_fits_dims : octave_value → Bool
  | .matrix d x => x.length == d.prod
  | .bool_matrix d x => x.length == d.prod
  | .char_matrix d x => x.length == d.prod
  | .cell d x => x.length == d.prod
  | .map d f => f.all (fun kv => kv.2.length == d.prod)

mutual
/-- A JSON value that a RapidJSON document can hold: every integer in it is within the
ranges of `int64_t` and `uint64_t`. -/
def JsonValue.valid : JsonValue → Bool
  | .number n => n.valid
  | .array elems => valid_elems elems
  | .object members => valid_members members
  | _ => true
/-- The elements of a JSON array are valid. -/
def valid_elems : List JsonValue → Bool
  | [] => true
  | x :: xs => x.valid && valid_elems xs
/-- The values of the members of a JSON object are valid. -/
def valid_members : List (Str × JsonValue) → Bool
  | [] => true
  | (_, v) :: ms => v.valid && valid_members ms
end

mutual
/-- The nesting depth of a JSON value: 1 for a scalar, an empty array and an empty
object, and one more than the deepest element for another array or object. -/
def JsonValue.depth : JsonValue → Nat
  | .array elems => depth_elems elems + 1
  | .object members => depth_members members + 1
  | _ => 1
/-- The largest depth among the elements of a JSON array. -/
def depth_elems : List JsonValue → Nat
  | [] => 0
  | x :: xs => max x.depth (depth_elems xs)
/-- The largest depth among the values of the members of a JSON object. -/
def depth_members : List (Str × JsonValue) → Nat
  | [] => 0
  | (_, v) :: ms => max v.depth (depth_members ms)
end

/-- What the array rules of the decoder use of the value `r` decoded from the element
`e`: an object has become a scalar struct with distinct field names, and an array a value
other than a string whose data fit its dimensions. -/
def decoded_ok (e : JsonValue) (r : octave_value) : Prop :=
  (e.GetType = JType.kObjectType →
      ∃ m : octave_scalar_map, r = octave_value.of_scalar_map m ∧ m.fieldnames.Nodup)
    ∧ (e.GetType = JType.kArrayType → r.data_fits_dims = true ∧ r.is_string = false)

/-- A character that an identifier may hold: a letter, a digit or the underscore. -/
def is_name_char (c : Nat) : Bool := isalnum c || c == underscore_char

/-- The character at index `i` of the whitespace-collapsed name, before the whitespace is
deleted: a letter right behind a whitespace character, with a character other than
whitespace somewhere before it, is put in upper case; every other character is kept. -/
def collapse_char (str : Str) (i : Nat) : Nat :=
  if (str.take i).any (fun x => !isspace x) && isspace (str.getD (i - 1) 0)
      && isalpha (str.getD i 0)
  then toupper (str.getD i 0) else str.getD i 0

/-- The whitespace-collapsed name: the characters `collapse_char` of all indices, without
the whitespace characters. -/
def collapse (str : Str) : Str :=
  ((List.range str.length).map (collapse_char str)).filter (fun x => !isspace x)

/-! ## `jsondecode.cc`: the entry point `jsondecode` -/

/-- The function `std::tolower` on the bytes of the C locale. -/
def tolower (c : Nat) : Nat := if 65 ≤ c && c ≤ 90 then c + 32 else c

/-- The lambda `str_to_lower` of the constructor of `make_valid_name_options`. -/
def str_to_lower (s : Str) : Str := s.map tolower

/-- The function `octave::string::strcmpi`: equality of two strings up to the case of
their letters. -/
def strcmpi (a b : Str) : Bool := str_to_lower a == str_to_lower b

/-- The ways in which a call of `jsondecode` ends without a value: `print_usage`, an
`error` raised while the options are read, the error `JSON_TXT must be a character
string`, the error `parse error at offset ...` with the offset it reports, and an error
raised by `decode`. -/
inductive CallError where
  | usage
  | invalid_option
  | not_a_string
  | parse_error (offset : Nat)
  | decode_error (e : Error)
deriving DecidableEq

/-- The functions of Octave and RapidJSON that the entry point calls and that are not
part of `src/`: the keyword predicate of the lexer, the conversions `xstring_value` and
`xbool_value` of an `octave_value` (`none` when the conversion raises its error), and the
parser `Document::Parse`, which answers the document or the offset of `GetErrorOffset`. -/
structure jsondecode_library where
  iskeyword : Str → Bool
  xstring_value : octave_value → Option Str
  xbool_value : octave_value → Option Bool
  Parse : Str → Except Nat JsonValue

/-- The loop of the constructor `make_valid_name_options (args)` over the pairs of
arguments. -/
def make_valid_name_options.read_pairs (lib : jsondecode_library) :
    List octave_value → make_valid_name_options → Except CallError make_valid_name_options
  | p :: v :: rest, o =>
    match lib.xstring_value p with
    | none => .error .invalid_option
    | some parameter0 =>
      let parameter := str_to_lower parameter0
      if parameter = bytes "replacementstyle" then
        match lib.xstring_value v with
        | none => .error .invalid_option
        | some style0 =>
          let style := str_to_lower style0
          if style ≠ bytes "underscore" ∧ style ≠ bytes "delete" ∧ style ≠ bytes "hex" then
            .error .invalid_option
          else make_valid_name_options.read_pairs lib rest ⟨style, o.m_prefix⟩
      else if parameter = bytes "prefix" then
        match lib.xstring_value v with
        | none => .error .invalid_option
        | some pfx =>
          if !valid_identifier pfx || lib.iskeyword pfx then .error .invalid_option
          else make_valid_name_options.read_pairs lib rest ⟨o.m_replacement_style, pfx⟩
      else .error .invalid_option
  | _, o => .ok o

/-- The constructor `make_valid_name_options (const octave_value_list& args)`. -/
def make_valid_name_options.of_args (lib : jsondecode_library) (args : List octave_value) :
    Except CallError make_valid_name_options :=
  if args.length = 0 then .ok make_valid_name_options.default
  else if args.length % 2 ≠ 0 then .error .invalid_option
  else make_valid_name_options.read_pairs lib args make_valid_name_options.default

/-- The loop of `jsondecode` over the pairs `args (i)`, `args (i + 1)` from `i = 1` on:
the flag `use_makeValidName` and the list `make_valid_name_params` after the loop. -/
def jsondecode_scan (lib : jsondecode_library) :
    List octave_value → Bool × List octave_value → Except CallError (Bool × List octave_value)
  | p :: v :: rest, (use_makeValidName, make_valid_name_params) =>
    match lib.xstring_value p with
    | none => .error .invalid_option
    | some parameter =>
      if strcmpi parameter (bytes "makeValidName") then
        match lib.xbool_value v with
        | none => .error .invalid_option
        | some b => jsondecode_scan lib rest (b, make_valid_name_params)
      else jsondecode_scan lib rest (use_makeValidName, make_valid_name_params ++ [p, v])
  | _, state => .ok state

/-- The statements of `Fjsondecode` that follow the reading of the options: the check of
`args (0)`, the call of the parser on the C string of the text, the parse error with the
offset raised by one, and the call of `decode`, which is given the nesting depth of the
document as its budget.  The text `args (0).string_value ()` is read with the conversion
of the library. -/
def jsondecode_text (lib : jsondecode_library) (args0 : octave_value)
    (options : Option make_valid_name_options) : Except CallError octave_value :=
  if !args0.is_string then .error .not_a_string
  else
    match lib.xstring_value args0 with
    | none => .error .not_a_string
    | some json =>
      match lib.Parse (c_string json) with
      | .error offset => .error (.parse_error (offset + 1))
      | .ok d =>
        match decode lib.iskeyword d.depth d options with
        | .error e => .error (.decode_error e)
        | .ok retval => .ok retval

/-- The function `Fjsondecode`, the body of `jsondecode (args)`: the check of the number
of arguments, the loop over the option pairs, the construction of the sanitizer options
unless `makeValidName` is false, and the statements of `jsondecode_text`. -/
def Fjsondecode (lib : jsondecode_library) (args : List octave_value) :
    Except CallError octave_value :=
  match args with
  | [] => .error .usage
  | args0 :: rest =>
    if (rest.length + 1) % 2 = 0 then .error .usage
    else
      match jsondecode_scan lib rest (true, []) with
      | .error e => .error e
      | .ok (use_makeValidName, make_valid_name_params) =>
        match (if use_makeValidName then
                (make_valid_name_options.of_args lib make_valid_name_params).map some
              else .ok none) with
        | .error e => .error e
        | .ok options => jsondecode_text lib args0 options

/-- The conversion `xstring_value` used to evaluate the entry point: the characters of a
character row vector or of the empty string. -/
def octave_xstring_value : octave_value → Option Str
  | .char_matrix dv data => if dv = [1, data.length] ∨ dv = [0, 0] then some data else none
  | _ => none

/-- The conversion `xbool_value` used to evaluate the entry point: the value of a logical
scalar, and whether a `double` scalar other than `NaN` differs from 0. -/
def octave_xbool_value : octave_value → Option Bool
  | .bool_matrix dv data => if dv = [1, 1] then data.head? else none
  | .matrix dv data =>
    if dv = [1, 1] then
      match data.head? with
      | some Double.nan => none
      | some x => some (Double.to_bool x)
      | none => none
    else none
  | _ => none

/-- A stand-in for the parser that knows the texts of a table and answers each with the
document or the error offset listed for it. -/
def table_parse (table : List (Str × Except Nat JsonValue)) (text : Str) :
    Except Nat JsonValue :=
  (table.lookup text).getD (.error 0)

/-- The library used to evaluate the entry point at concrete calls. -/
def example_library (table : List (Str × Except Nat JsonValue)) : jsondecode_library :=
  ⟨octave_iskeyword, octave_xstring_value, octave_xbool_value, table_parse table⟩

/-- The argument list `name1, value1, name2, value2, ...` of a list of option pairs. -/
def unpairs : List (octave_value × octave_value) → List octave_value
  | [] => []
  | (n, v) :: rest => n :: v :: unpairs rest

/-- An option pair at which the loop of `jsondecode` raises an error: the name is not a
string, or the name is `makeValidName` and the value is not read as a `bool`. -/
def unreadable_pair (lib : jsondecode_library) (p : octave_value × octave_value) : Bool :=
  match lib.xstring_value p.1 with
  | none => true
  | some name => strcmpi name (bytes "makeValidName") && (lib.xbool_value p.2).isNone

/-- An option pair other than `makeValidName` that the sanitizer options refuse: an
unknown name, a `ReplacementStyle` that is not a string or not one of the three styles
(compared in lower case), or a `Prefix` that is not a string, not a valid identifier or
a keyword. -/
def refused_pair (lib : jsondecode_library) (p : octave_value × octave_value) : Bool :=
  match lib.xstring_value p.1 with
  | none => false
  | some name =>
    if strcmpi name (bytes "makeValidName") then false
    else if str_to_lower name = bytes "replacementstyle" then
      match lib.xstring_value p.2 with
      | none => true
      | some style =>
        !(str_to_lower style == bytes "underscore" || str_to_lower style == bytes "delete"
          || str_to_lower style == bytes "hex")
    else if str_to_lower name = bytes "prefix" then
      match lib.xstring_value p.2 with
      | none => true
      | some pfx => !valid_identifier pfx || lib.iskeyword pfx
    else true

/-- An option pair with the name `makeValidName`, in any case of the letters. -/
def is_make_valid_name_pair (lib : jsondecode_library) (p : octave_value × octave_value) :
    Bool :=
  match lib.xstring_value p.1 with
  | none => false
  | some name => strcmpi name (bytes "makeValidName")

/-- The value of `makeValidName` that a list of option pairs sets: that of the last pair
of this name, true when there is none. -/
def make_valid_name_on (lib : jsondecode_library) :
    List (octave_value × octave_value) → Bool → Bool
  | [], b => b
  | p :: rest, b =>
    match lib.xstring_value p.1, lib.xbool_value p.2 with
    | some name, some v =>
      make_valid_name_on lib rest (if strcmpi name (bytes "makeValidName") then v else b)
    | _, _ => make_valid_name_on lib rest b


/-- The text `{}`. -/
def empty_object_text : Str := bytes "\x7b\x7d"

/-- The text `{"nu#m#ber": 7, "s#tr#ing": "hi"}` of the documentation. -/
def doc_object_text : Str := bytes "\x7b\"nu#m#ber\": 7, \"s#tr#ing\": \"hi\"\x7d"

/-- The library used in the examples.  The parser belongs to RapidJSON and is not part of
`src/`; this table lists what it answers for three texts: the document of `{}`, the
document of `doc_object_text`, and for `12-` the error offset 2, the index of the `-`
that follows the complete number `12`. -/
def doc_library : jsondecode_library :=
  example_library
    [(empty_object_text, .ok (.object [])),
     (doc_object_text,
       .ok (.object [(bytes "nu#m#ber", jint 7), (bytes "s#tr#ing", .string (bytes "hi"))])),
     (bytes "12-", .error 2)]


/-! ## The invariants of the data model -/

mutual
/-- The invariants of the data model on a value and on every value nested in it: at
least two dimensions; the flat data of an array, a string and a cell have as many elements
as the product of the dimensions; each field of a struct array has. -/
def octave_value.well_formed : octave_value → Bool
  | .matrix d x => decide (2 ≤ d.length) && x.length == d.prod
  | .bool_matrix d x => decide (2 ≤ d.length) && x.length == d.prod
  | .char_matrix d x => decide (2 ≤ d.length) && x.length == d.prod
  | .cell d x => decide (2 ≤ d.length) && x.length == d.prod && well_formed_list x
  | .map d f => decide (2 ≤ d.length) && well_formed_fields d.prod f
/-- Every value of the list is well formed. -/
def well_formed_list : List octave_value → Bool
  | [] => true
  | v :: vs => v.well_formed && well_formed_list vs
/-- Every field holds `n` values, all of them well formed. -/
def well_formed_fields (n : Nat) : List (Str × List octave_value) → Bool
  | [] => true
  | (_, c) :: fs => c.length == n && well_formed_list c && well_formed_fields n fs
end


/-! ## `jsonencode.cc`: the options of the entry point `jsonencode` -/

/-- The ways in which the argument processing of `jsonencode` ends without the options:
`print_usage`, the errors `option must be a string`, `option value must be a logical
scalar` and `Valid options are "ConvertInfAndNaN" and "PrettyPrint"`, and an error raised
by a conversion of Octave. -/
inductive OptionError where
  | usage
  | option_not_string
  | value_not_logical
  | invalid_option
  | conversion
deriving DecidableEq

/-- The loop of `Fjsonencode` over the option pairs `args (i)`, `args (i + 1)` from
`i = 1` on: the flags `ConvertInfAndNaN` and `PrettyPrint` after the loop.  The
conversion `string_value` belongs to Octave and is a parameter (`none` when it raises an
error). -/
def jsonencode_scan (string_value : octave_value → Option Str) :
    List octave_value → Bool × Bool → Except OptionError (Bool × Bool)
  | name :: value :: rest, (ConvertInfAndNaN, PrettyPrint) =>
    if !name.is_string then .error .option_not_string
    else if !value.is_bool_scalar then .error .value_not_logical
    else
      match string_value name with
      | none => .error .conversion
      | some option_name =>
        if strcmpi option_name (bytes "ConvertInfAndNaN") then
          match value.bool_value with
          | .error _ => .error .conversion
          | .ok b => jsonencode_scan string_value rest (b, PrettyPrint)
        else if strcmpi option_name (bytes "PrettyPrint") then
          match value.bool_value with
          | .error _ => .error .conversion
          | .ok b => jsonencode_scan string_value rest (ConvertInfAndNaN, b)
        else .error .invalid_option
  | _, state => .ok state

/-- The statements of `Fjsonencode` before the writer is built: the check of the number
of arguments and the loop over the option pairs, which starts from the default values of
the two options.  The result is the pair of `ConvertInfAndNaN` and `PrettyPrint`. -/
def jsonencode_options (string_value : octave_value → Option Str)
    (args : List octave_value) : Except OptionError (Bool × Bool) :=
  if args.length ≠ 1 ∧ args.length ≠ 3 ∧ args.length ≠ 5 then .error .usage
  else jsonencode_scan string_value args.tail (true, false)

/-! ## Definitions used to state the claims on the entry points, the collisions and the
arrays of arrays -/

/-- The option pairs `(name, value)` of the arguments that follow the first one. -/
def option_pairs : List octave_value → List (octave_value × octave_value)
  | name :: value :: rest => (name, value) :: option_pairs rest
  | _ => []

/-- An option pair that `jsonencode` accepts: the name is a string equal to
`ConvertInfAndNaN` or to `PrettyPrint` up to the case of the letters, and the value is a
logical scalar. -/
def accepted_pair (string_value : octave_value → Option Str)
    (p : octave_value × octave_value) : Bool :=
  p.1.is_string && p.2.is_bool_scalar &&
    match string_value p.1 with
    | some s => strcmpi s (bytes "ConvertInfAndNaN") || strcmpi s (bytes "PrettyPrint")
    | none => false

/-- Row `i` of the character matrix with `m` rows, `n` columns and the column-major data
`data`. -/
def char_row (m n : Nat) (data : Str) (i : Nat) : Str :=
  (List.range n).map (fun j => data.getD (i + m * j) 0)

/-- The `double` `2 ^ (-60)`, a value between 0 and the machine epsilon `2 ^ (-52)`. -/
def tiny_double : Double := Double.finite (((1 <<< 1014 : Nat)) : Int)

/-- The struct array of dimensions 0x0 with the one field `a`, `struct ('a', {})`. -/
def empty_struct_array : octave_value := octave_value.map [0, 0] [(bytes "a", [])]

/-- The field name under which `decode_object` stores the member with the key `key`: the
key as a C string, passed through `make_valid_name` when there are options. -/
def field_name (iskeyword : Str → Bool) (options : Option make_valid_name_options)
    (key : Str) : Str :=
  match options with
  | some o => (make_valid_name iskeyword (c_string key) o).2
  | none => c_string key

/-- The names of a list without repetition, each at the place where it occurs first. -/
def first_occurrences : List Str → List Str
  | [] => []
  | n :: ns => n :: (first_occurrences ns).filter (fun x => x != n)

/-- The assignments `retval.assign (name, value)` of a list of pairs, from the left. -/
def assign_all (retval : octave_scalar_map) (kvs : List (Str × octave_value)) :
    octave_scalar_map :=
  kvs.foldl (fun m kv => m.assign kv.1 kv.2) retval

/-- The members of the object `{"a b": 1, "x": 2, "aB": 3, "x": 4}`. -/
def collision_members : List (Str × JsonValue) :=
  [(bytes "a b", jint 1), (bytes "x", jint 2), (bytes "aB", jint 3), (bytes "x", jint 4)]

/-- The cell of the values of the field `name` in the struct array `v`; empty when `v` is
no struct array or has no such field. -/
def field_cell (v : octave_value) (name : Str) : List octave_value :=
  match v with
  | .map _ f => (f.lookup name).getD []
  | _ => []

/-- The cell of the field `name` in the struct array merged from the struct arrays
`cell`, each of `M` elements: the value at the flat offset `k + i * count` is the value at
the flat offset `i` of the field in the struct array `k`. -/
def merged_field (cell : List octave_value) (M : Nat) (name : Str) : List octave_value :=
  (List.range (cell.length * M)).map (fun p =>
    (field_cell (cell.getD (p % cell.length) (octave_value.matrix [0, 0] [])) name).getD
      (p / cell.length) (octave_value.matrix [0, 0] []))

/-- What the claims on arrays of arrays use of a value decoded from a JSON array: no
dimension is 0 unless the value is the empty matrix, and the field names of a struct
array are distinct. -/
def decoded_array_inv (r : octave_value) : Prop :=
  ((∀ d ∈ r.dims, 1 ≤ d) ∨ r = octave_value.matrix [0, 0] [])
    ∧ ∀ d f, r = octave_value.map d f → (f.map Prod.fst).Nodup

/-- The array `[[{"a":1},{"a":2}],[{"a":3},{"a":4}]]`. -/
def struct_rows : List JsonValue :=
  [.array [.object [(bytes "a", jint 1)], .object [(bytes "a", jint 2)]],
   .array [.object [(bytes "a", jint 3)], .object [(bytes "a", jint 4)]]]

/-- The rectangular nested JSON array that has `dims[j]` children in every array of
nesting level `j`, and at the path `(i0, ..., i(n-1))` the value `leaf path`. -/
def nested_json : List Nat → (List Nat → JsonValue) → JsonValue
  | [], leaf => leaf []
  | d :: ds, leaf =>
    .array ((List.range d).map (fun i => nested_json ds (fun path => leaf (i :: path))))

/-- The leaves of the array `[[[1, null]], [[3, 4]]]` of the shape `(2, 1, 2)`. -/
def example_leaf : List Nat → JsonValue
  | [0, 0, 0] => jint 1
  | [1, 0, 0] => jint 3
  | [1, 0, 1] => jint 4
  | _ => .null

/-! ## The sanitizer: lemmas -/

theorem isalpha_isalnum {c : Nat} (h : isalpha c = true) : isalnum c = true := by
  simp [isalnum, h]

theorem underscore_not_isalnum : isalnum underscore_char = false := by decide

theorem hex_digit_isalnum {n : Nat} (h : n < 16) : isalnum (hex_digit n) = true := by
  unfold hex_digit isalnum isalpha isdigit
  split <;> simp <;> omega

theorem hex_str_name_chars (c : Nat) :
    ∀ x ∈ hex_str c, (isalnum x || x == underscore_char) = true := by
  intro x hx
  unfold hex_str at hx
  split at hx
  · simp only [List.mem_cons, List.mem_singleton, List.not_mem_nil, or_false] at hx
    rcases hx with h | h | h | h
    · subst h; decide
    · subst h; decide
    · subst h; rw [hex_digit_isalnum (by omega)]; rfl
    · subst h; rw [hex_digit_isalnum (by omega)]; rfl
  · simp only [List.mem_cons, List.mem_singleton, List.not_mem_nil, or_false] at hx
    rcases hx with h | h | h | h <;> subst h <;> decide

theorem hex_replace_name_chars (s : Str) :
    ∀ x ∈ hex_replace s, (isalnum x || x == underscore_char) = true := by
  induction s with
  | nil => intro x hx; simp [hex_replace] at hx
  | cons c cs ih =>
    intro x hx
    unfold hex_replace at hx
    split at hx
    · rcases List.mem_cons.mp hx with h | h
      · subst h; assumption
      · exact ih x h
    · rcases List.mem_append.mp hx with h | h
      · exact hex_str_name_chars c x h
      · exact ih x h

theorem valid_identifier_cons (c : Nat) (cs : Str) :
    valid_identifier (c :: cs) = true ↔
      (isalpha c || c == underscore_char) = true ∧
        ∀ x ∈ cs, (isalnum x || x == underscore_char) = true := by
  simp [valid_identifier, List.all_eq_true]

theorem valid_identifier_ne_nil {s : Str} (h : valid_identifier s = true) : s ≠ [] := by
  intro hs; subst hs; simp [valid_identifier] at h

/-- The replacement step of `make_valid_name` keeps a leading letter or underscore and
leaves only letters, digits and underscores. -/
theorem replacement_valid (style : Str) (c : Nat) (cs : Str)
    (hstyle : style = bytes "underscore" ∨ style = bytes "delete" ∨ style = bytes "hex")
    (hc : (isalpha c || c == underscore_char) = true) :
    valid_identifier
      (if style = bytes "underscore" then
        (c :: cs).map (fun c => if isalnum c then c else underscore_char)
      else if style = bytes "delete" then
        (c :: cs).filter (fun x => !(!isalnum x && x != underscore_char))
      else if style = bytes "hex" then hex_replace (c :: cs)
      else c :: cs) = true := by
  have hc1 : (isalnum c || c == underscore_char) = true := by
    rcases Bool.or_eq_true _ _ |>.mp hc with h | h
    · simp [isalpha_isalnum h]
    · simp [h]
  rcases hstyle with h | h | h
  · subst h
    rw [if_pos rfl, List.map_cons, valid_identifier_cons]
    constructor
    · by_cases ha : isalnum c = true
      · rw [if_pos ha]; exact hc
      · rw [if_neg ha]; decide
    · intro x hx
      obtain ⟨y, -, rfl⟩ := List.mem_map.mp hx
      by_cases ha : isalnum y = true
      · rw [if_pos ha]; simp [ha]
      · rw [if_neg ha]; decide
  · subst h
    rw [if_neg (by decide), if_pos rfl]
    have hkeep : (!(!isalnum c && c != underscore_char)) = true := by
      revert hc1
      cases isalnum c <;> cases hcu : (c == underscore_char) <;> simp [bne, hcu]
    have hf : (c :: cs).filter (fun x => !(!isalnum x && x != underscore_char))
        = c :: cs.filter (fun x => !(!isalnum x && x != underscore_char)) := by
      simp only [List.filter_cons, hkeep, if_true]
    rw [hf, valid_identifier_cons]
    refine ⟨hc, ?_⟩
    intro x hx
    have := (List.mem_filter.mp hx).2
    revert this
    cases isalnum x <;> cases hxu : (x == underscore_char) <;> simp [bne, hxu]
  · subst h
    rw [if_neg (by decide), if_neg (by decide), if_pos rfl]
    unfold hex_replace
    rw [if_pos hc1, valid_identifier_cons]
    exact ⟨hc, hex_replace_name_chars cs⟩

/-- After the prefix step of `make_valid_name` the name starts with a letter or an
underscore. -/
theorem prefixed_head (pfx s4 : Str) (hp : valid_identifier pfx = true) :
    ∃ c cs, (if !isalpha (s4.headD 0) && s4.headD 0 != underscore_char then pfx ++ s4 else s4)
        = c :: cs ∧ (isalpha c || c == underscore_char) = true := by
  by_cases h : (!isalpha (s4.headD 0) && s4.headD 0 != underscore_char) = true
  · rw [if_pos h]
    cases pfx with
    | nil => simp [valid_identifier] at hp
    | cons p ps =>
      exact ⟨p, ps ++ s4, rfl, ((valid_identifier_cons p ps).mp hp).1⟩
  · rw [if_neg h]
    cases s4 with
    | nil => exact absurd (by decide) h
    | cons c cs =>
      refine ⟨c, cs, rfl, ?_⟩
      simp only [List.headD_cons] at h
      revert h
      cases isalpha c <;> cases hcu : (c == underscore_char) <;> simp [bne, hcu]

theorem sanitized_name_valid (iskeyword : Str → Bool) (str : Str)
    (options : make_valid_name_options)
    (hstyle : options.m_replacement_style = bytes "underscore"
      ∨ options.m_replacement_style = bytes "delete"
      ∨ options.m_replacement_style = bytes "hex")
    (hp : valid_identifier options.m_prefix = true) :
    valid_identifier (make_valid_name iskeyword str options).2 = true := by
  unfold make_valid_name
  split
  · rename_i h
    simp only [Bool.and_eq_true] at h
    exact h.1
  · simp only
    obtain ⟨c, cs, hs5, hc⟩ := prefixed_head options.m_prefix
      (if iskeyword (if (List.filter (fun x => !isspace x)
          (capitalize_after_space false false str)).isEmpty = true then options.m_prefix
        else List.filter (fun x => !isspace x) (capitalize_after_space false false str)) = true
       then options.m_prefix ++ upper_first (if (List.filter (fun x => !isspace x)
          (capitalize_after_space false false str)).isEmpty = true then options.m_prefix
        else List.filter (fun x => !isspace x) (capitalize_after_space false false str))
       else (if (List.filter (fun x => !isspace x)
          (capitalize_after_space false false str)).isEmpty = true then options.m_prefix
        else List.filter (fun x => !isspace x) (capitalize_after_space false false str))) hp
    rw [hs5]
    exact replacement_valid _ c cs hstyle hc

/-! ## The decoder: lemmas -/

theorem mapE_map_ok {α β : Type} (f : α → Except Error β) (g : α → β) (xs : List α)
    (h : ∀ x ∈ xs, f x = .ok (g x)) : mapE f xs = .ok (xs.map g) := by
  induction xs with
  | nil => rfl
  | cons x xs ih =>
    have hx := h x (List.mem_cons_self x xs)
    have hxs := ih (fun y hy => h y (List.mem_cons_of_mem x hy))
    simp only [mapE, hx, hxs, List.map_cons]

theorem mapE_ok_iff {α β : Type} (f : α → Except Error β) (xs : List α) (ys : List β) :
    mapE f xs = .ok ys ↔ List.Forall₂ (fun x y => f x = .ok y) xs ys := by
  induction xs generalizing ys with
  | nil =>
    constructor
    · intro h
      simp only [mapE, Except.ok.injEq] at h
      subst h
      exact List.Forall₂.nil
    · intro h
      cases h
      rfl
  | cons x xs ih =>
    constructor
    · intro h
      unfold mapE at h
      split at h
      · exact absurd h (by simp)
      · rename_i y hy
        split at h
        · exact absurd h (by simp)
        · rename_i zs hzs
          simp only [Except.ok.injEq] at h
          subst h
          exact List.Forall₂.cons hy ((ih zs).mp hzs)
    · intro h
      cases h with
      | cons hy hrest =>
        simp only [mapE, hy, (ih _).mpr hrest]

theorem mapE_length {α β : Type} (f : α → Except Error β) (xs : List α) (ys : List β)
    (h : mapE f xs = .ok ys) : ys.length = xs.length :=
  (((mapE_ok_iff f xs ys).mp h).length_eq).symm

theorem scan_types_eq (t : JType) (val : List JsonValue) (same_type is_numeric : Bool) :
    scan_types t val (same_type, is_numeric)
      = (same_type && val.all (same_json_type t), is_numeric && val.all null_or_number) := by
  induction val generalizing same_type is_numeric with
  | nil => simp [scan_types]
  | cons e rest ih =>
    rw [scan_types, ih]
    simp only [List.all_cons, same_json_type, null_or_number]
    cases same_type <;> cases is_numeric <;> cases e.GetType <;> cases t <;> simp

theorem decode_number_valid (n : JNumber) (h : n.valid = true) :
    decode_number (.number n) = .ok (octave_value.scalar (number_value n)) := by
  cases n with
  | double d => rfl
  | int i =>
    simp only [JNumber.valid, Bool.and_eq_true, decide_eq_true_eq] at h
    unfold decode_number
    simp only [JsonValue.IsUint, JsonValue.IsInt, JsonValue.IsUint64, JsonValue.IsInt64,
      JsonValue.GetInteger, number_value, Bool.and_eq_true, decide_eq_true_eq]
    split_ifs with h1 h2 h3 h4
    · rfl
    · rfl
    · rfl
    · rfl
    · rename_i h5
      exact absurd h5 (by simp [JsonValue.IsDouble])
    · exfalso
      have : (0 : Int) ≤ i ∨ i < 0 := by omega
      rcases this with h0 | h0
      · exact h3 ⟨h0, h.2⟩
      · exact h4 ⟨h.1, by norm_num at h ⊢; omega⟩

theorem decode_succ_array (iskeyword : Str → Bool) (fuel : Nat) (elems : List JsonValue)
    (options : Option make_valid_name_options) :
    decode iskeyword (fuel + 1) (.array elems) options
      = decode_array (fun v => decode iskeyword fuel v options) elems := rfl

theorem decode_succ_object (iskeyword : Str → Bool) (fuel : Nat)
    (members : List (Str × JsonValue)) (options : Option make_valid_name_options) :
    decode iskeyword (fuel + 1) (.object members) options
      = decode_object iskeyword (fun v => decode iskeyword fuel v options) members options :=
  rfl

theorem decode_array_numeric (dec : JsonValue → Except Error octave_value)
    (val : List JsonValue) (h0 : val ≠ [])
    (h : ∀ e ∈ val, e = JsonValue.null ∨ ∃ n, e = JsonValue.number n ∧ n.valid = true) :
    decode_array dec val
      = .ok (octave_value.matrix [val.length, 1] (val.map element_value)) := by
  cases val with
  | nil => exact absurd rfl h0
  | cons val0 rest =>
    have hall : (val0 :: rest).all null_or_number = true := by
      rw [List.all_eq_true]
      intro e he
      rcases h e he with rfl | ⟨n, rfl, -⟩ <;> rfl
    simp only [decode_array, scan_types_eq, hall, Bool.true_and, if_true]
    unfold decode_numeric_array
    rw [mapE_map_ok _ element_value]
    · rfl
    · intro e he
      rcases h e he with rfl | ⟨n, rfl, hn⟩
      · rfl
      · simp only [JsonValue.IsNull, JsonValue.GetType, decode_number_valid n hn]
        rfl

theorem of_scalar_map_injective (m1 m2 : octave_scalar_map)
    (h : octave_value.of_scalar_map m1 = octave_value.of_scalar_map m2) : m1 = m2 := by
  simp only [octave_value.of_scalar_map, octave_value.map.injEq, true_and] at h
  induction m1 generalizing m2 with
  | nil =>
    cases m2 with
    | nil => rfl
    | cons b bs => simp at h
  | cons a as ih =>
    cases m2 with
    | nil => simp at h
    | cons b bs =>
      simp only [List.map_cons, List.cons.injEq, Prod.mk.injEq, and_true] at h
      obtain ⟨⟨h1, h2⟩, h3⟩ := h
      rw [ih bs h3]
      congr 1
      exact Prod.ext h1 h2

theorem scalar_map_value_of_scalar_map (m : octave_scalar_map) :
    (octave_value.of_scalar_map m).scalar_map_value = .ok m := by
  simp only [octave_value.of_scalar_map, octave_value.scalar_map_value, if_true]
  have h := mapE_map_ok (fun kv : Str × List octave_value =>
      (elem kv.2 0).map (fun v => (kv.1, v)))
    (fun kv => (kv.1, kv.2.headD (octave_value.matrix [0, 0] [])))
    (m.map (fun kv => (kv.1, [kv.2])))
    (by
      intro x hx
      obtain ⟨kv, -, rfl⟩ := List.mem_map.mp hx
      rfl)
  rw [h, List.map_map]
  congr 1
  conv_rhs => rw [← List.map_id m]
  apply List.map_congr_left
  intro kv _
  rfl

theorem decode_array_objects (dec : JsonValue → Except Error octave_value)
    (val : List JsonValue) (h0 : val ≠ [])
    (h : ∀ e ∈ val, e.GetType = JType.kObjectType) :
    decode_array dec val = decode_object_array dec val := by
  cases val with
  | nil => exact absurd rfl h0
  | cons val0 rest =>
    have h00 := h val0 (List.mem_cons_self _ _)
    have hnum : (val0 :: rest).all null_or_number = false := by
      simp [null_or_number, h00]
    have hsame : (val0 :: rest).all (same_json_type val0.GetType) = true := by
      rw [List.all_eq_true]
      intro e he
      simp [same_json_type, h e he, h00]
    rw [h00] at hsame
    simp only [decode_array, scan_types_eq, hnum, hsame, h00]
    rfl

theorem decode_array_arrays (dec : JsonValue → Except Error octave_value)
    (val : List JsonValue) (h0 : val ≠ [])
    (h : ∀ e ∈ val, e.GetType = JType.kArrayType) :
    decode_array dec val = decode_array_of_arrays dec val := by
  cases val with
  | nil => exact absurd rfl h0
  | cons val0 rest =>
    have h00 := h val0 (List.mem_cons_self _ _)
    have hnum : (val0 :: rest).all null_or_number = false := by
      simp [null_or_number, h00]
    have hsame : (val0 :: rest).all (same_json_type val0.GetType) = true := by
      rw [List.all_eq_true]
      intro e he
      simp [same_json_type, h e he, h00]
    rw [h00] at hsame
    simp only [decode_array, scan_types_eq, hnum, hsame, h00]
    rfl

theorem same_field_names_loop_eq (names : List Str) (ms : List octave_scalar_map) :
    same_field_names_loop names (ms.map octave_value.of_scalar_map)
      = .ok (ms.all (fun m => decide (names = m.fieldnames))) := by
  induction ms with
  | nil => rfl
  | cons m rest ih =>
    simp only [List.map_cons, same_field_names_loop, scalar_map_value_of_scalar_map,
      List.all_cons]
    by_cases h : names = m.fieldnames
    · simp [h, ih]
      rw [← h, ih]
    · simp [h]

theorem getfield_of_mem (m : octave_scalar_map) (f : Str) (h : f ∈ m.fieldnames) :
    m.getfield f = .ok (field_of m f) := by
  unfold octave_scalar_map.getfield field_of
  cases hl : List.lookup f m with
  | some v => rfl
  | none =>
    exfalso
    rw [List.lookup_eq_none_iff] at hl
    obtain ⟨p, hp, rfl⟩ := List.mem_map.mp h
    exact absurd (hl p hp) (by simp)

theorem setfield_cells_append (fs : List (Str × List octave_value)) (k : Str)
    (c : List octave_value) (h : k ∉ fs.map Prod.fst) :
    setfield_cells fs k c = fs ++ [(k, c)] := by
  induction fs with
  | nil => rfl
  | cons p rest ih =>
    obtain ⟨k1, c1⟩ := p
    simp only [List.map_cons, List.mem_cons, not_or] at h
    simp only [setfield_cells, if_neg (Ne.symm h.1), ih h.2, List.cons_append]

theorem object_array_fields_eq (ms : List octave_scalar_map) (dv : List Nat)
    (names : List Str) (fs : List (Str × List octave_value)) (acc_dims : List Nat)
    (hnd : names.Nodup) (hdis : ∀ f ∈ names, f ∉ fs.map Prod.fst)
    (hms : ∀ m ∈ ms, ∀ f ∈ names, f ∈ m.fieldnames)
    (hdims : fs = [] ∨ acc_dims = dv) (hres : names ≠ [] ∨ acc_dims = dv) :
    object_array_fields ⟨dv, ms.map octave_value.of_scalar_map⟩ dv names ⟨acc_dims, fs⟩
      = .ok ⟨dv, fs ++ names.map (fun f => (f, ms.map (fun m => field_of m f)))⟩ := by
  induction names generalizing fs acc_dims with
  | nil =>
    rcases hres with h | h
    · exact absurd rfl h
    · simp [object_array_fields, h]
  | cons f rest ih =>
    have hval : mapE (fun s => (octave_value.scalar_map_value s).bind
        (fun m => m.getfield f)) (ms.map octave_value.of_scalar_map)
        = .ok (ms.map (fun m => field_of m f)) := by
      have := mapE_map_ok (fun s => (octave_value.scalar_map_value s).bind
        (fun m => octave_scalar_map.getfield m f))
        (fun s => match octave_value.scalar_map_value s with
                  | .ok m => field_of m f
                  | .error _ => octave_value.matrix [0, 0] [])
        (ms.map octave_value.of_scalar_map)
        (by
          intro s hs
          obtain ⟨m, hm, rfl⟩ := List.mem_map.mp hs
          simp only [scalar_map_value_of_scalar_map]
          exact getfield_of_mem m f (hms m hm f (List.mem_cons_self _ _)))
      rw [this, List.map_map]
      congr 1
      apply List.map_congr_left
      intro m _
      simp only [Function.comp, scalar_map_value_of_scalar_map]
    have hassign : octave_map.assign ⟨acc_dims, fs⟩ f
        ⟨dv, ms.map (fun m => field_of m f)⟩
        = .ok ⟨dv, fs ++ [(f, ms.map (fun m => field_of m f))]⟩ := by
      unfold octave_map.assign
      cases fs with
      | nil => rfl
      | cons p ps =>
        have hd : acc_dims = dv := by
          rcases hdims with h | h
          · exact absurd h (by simp)
          · exact h
        subst hd
        simp only [List.isEmpty_cons, Bool.false_eq_true, if_false, if_true]
        rw [setfield_cells_append _ _ _ (hdis f (List.mem_cons_self _ _))]
    rw [object_array_fields]
    simp only [hval, hassign]
    rw [ih]
    · simp
    · exact (List.nodup_cons.mp hnd).2
    · intro g hg
      simp only [List.map_append, List.map_cons, List.map_nil, List.mem_append,
        List.mem_singleton, not_or]
      refine ⟨hdis g (List.mem_cons_of_mem _ hg), ?_⟩
      rintro rfl
      exact (List.nodup_cons.mp hnd).1 hg
    · intro m hm g hg
      exact hms m hm g (List.mem_cons_of_mem _ hg)
    · exact Or.inr rfl
    · exact Or.inr rfl

theorem except_bind_ok {α β : Type} (a : α) (f : α → Except Error β) :
    (Except.ok a : Except Error α) >>= f = f a := rfl

theorem except_map_ok {α β : Type} (a : α) (f : α → β) :
    Except.map f (Except.ok a : Except Error α) = Except.ok (f a) := rfl

theorem decode_object_array_eq (dec : JsonValue → Except Error octave_value)
    (val : List JsonValue) (m0 : octave_scalar_map) (ms : List octave_scalar_map)
    (hdec : mapE dec val = .ok ((m0 :: ms).map octave_value.of_scalar_map))
    (hnd : m0.fieldnames.Nodup) :
    decode_object_array dec val =
      if ms.all (fun m => decide (m0.fieldnames = m.fieldnames)) then
        .ok (octave_value.map [val.length, 1]
          (m0.fieldnames.map (fun f => (f, (m0 :: ms).map (fun m => field_of m f)))))
      else
        .ok (octave_value.cell [val.length, 1] ((m0 :: ms).map octave_value.of_scalar_map)) := by
  have hlen := mapE_length _ _ _ hdec
  simp only [List.length_map, List.length_cons] at hlen
  rw [← hlen]
  unfold decode_object_array
  simp only [decode_string_and_mixed_array, hdec, except_map_ok, Except.bind,
    octave_value.of_cell, octave_value.cell_value, except_bind_ok, List.map_cons, elem,
    List.getElem?_cons_zero, scalar_map_value_of_scalar_map, List.tail_cons,
    same_field_names_loop_eq, ← hlen]
  by_cases hall : ms.all (fun m => decide (m0.fieldnames = m.fieldnames)) = true
  · simp only [hall, if_true]
    by_cases hn : m0.fieldnames.length = 0
    · have hnil : m0.fieldnames = [] := List.length_eq_zero.mp hn
      simp [hn, hnil, octave_map.resize, octave_map.empty, octave_value.of_map]
    · have hne : m0.fieldnames ≠ [] := fun h => hn (by rw [h]; rfl)
      simp only [ne_eq, hn, not_false_eq_true, if_true]
      have h := object_array_fields_eq (m0 :: ms) [ms.length + 1, 1] m0.fieldnames []
        [0, 0] hnd (by simp) (by
          intro m hm f hf
          rcases List.mem_cons.mp hm with rfl | hm
          · exact hf
          · have := List.all_eq_true.mp hall m hm
            simp only [decide_eq_true_eq] at this
            rw [← this]; exact hf) (Or.inl rfl) (Or.inl hne)
      simp only [List.map_cons, List.length_cons, List.length_map, List.nil_append,
        octave_map.empty] at h ⊢
      rw [h]
      rfl
  · simp only [hall, Bool.false_eq_true, if_false]

theorem assign_fieldnames (m : octave_scalar_map) (k : Str) (v : octave_value) :
    (m.assign k v).fieldnames
      = if k ∈ m.fieldnames then m.fieldnames else m.fieldnames ++ [k] := by
  induction m with
  | nil => simp [octave_scalar_map.assign, octave_scalar_map.fieldnames]
  | cons p rest ih =>
    obtain ⟨k1, v1⟩ := p
    unfold octave_scalar_map.fieldnames at ih ⊢
    by_cases h : k1 = k
    · simp [octave_scalar_map.assign, h]
    · simp only [octave_scalar_map.assign, if_neg h, List.map_cons, ih, List.mem_cons]
      have h1 : ¬ k = k1 := fun e => h e.symm
      by_cases hk : k ∈ List.map Prod.fst rest
      · simp [hk]
      · simp [hk, h1]

theorem assign_fieldnames_nodup (m : octave_scalar_map) (k : Str) (v : octave_value)
    (h : m.fieldnames.Nodup) : (m.assign k v).fieldnames.Nodup := by
  rw [assign_fieldnames]
  split
  · exact h
  · rename_i hk
    rw [List.nodup_append]
    refine ⟨h, List.nodup_singleton k, ?_⟩
    intro a ha hb
    rw [List.mem_singleton] at hb
    subst hb
    exact hk ha

theorem decode_object_loop_nodup (iskeyword : Str → Bool)
    (dec : JsonValue → Except Error octave_value) (options : Option make_valid_name_options)
    (members : List (Str × JsonValue)) (retval m : octave_scalar_map)
    (hnd : retval.fieldnames.Nodup)
    (h : decode_object_loop iskeyword dec options members retval = .ok m) :
    m.fieldnames.Nodup := by
  induction members generalizing retval with
  | nil =>
    simp only [decode_object_loop, Except.ok.injEq] at h
    subst h
    exact hnd
  | cons pair rest ih =>
    unfold decode_object_loop at h
    simp only at h
    split at h
    · exact absurd h (by simp)
    · exact ih _ (assign_fieldnames_nodup _ _ _ hnd) h

/-- The field names of a struct decoded from a JSON object are pairwise different. -/
theorem decoded_object_nodup (iskeyword : Str → Bool) (fuel : Nat) (e : JsonValue)
    (options : Option make_valid_name_options) (m : octave_scalar_map)
    (he : e.GetType = JType.kObjectType)
    (h : decode iskeyword fuel e options = .ok (octave_value.of_scalar_map m)) :
    m.fieldnames.Nodup := by
  cases fuel with
  | zero => simp [decode] at h
  | succ fuel =>
    cases e with
    | object members =>
      rw [decode_succ_object] at h
      unfold decode_object at h
      cases hl : decode_object_loop iskeyword (fun v => decode iskeyword fuel v options)
          options members [] with
      | error err => rw [hl] at h; simp [Except.map] at h
      | ok m1 =>
        rw [hl] at h
        simp only [except_map_ok, Except.ok.injEq] at h
        have := of_scalar_map_injective _ _ h
        subst this
        exact decode_object_loop_nodup _ _ _ _ _ _ (by simp [octave_scalar_map.fieldnames]) hl
    | null => simp [JsonValue.GetType] at he
    | bool b => cases b <;> simp [JsonValue.GetType] at he
    | number n => simp [JsonValue.GetType] at he
    | string s => simp [JsonValue.GetType] at he
    | array xs => simp [JsonValue.GetType] at he

/-! ## The claims on the decoder -/

/-- C5 (null-in-numeric-array law).  A non-empty JSON array of `n` elements, each a
number or `null`, decodes to the `double` array of dimensions `(n, 1)` whose `i`-th
element is the `i`-th number, or `NaN` where the `i`-th element is `null`. -/
theorem decode_null_in_numeric_array (iskeyword : Str → Bool) (fuel : Nat)
    (options : Option make_valid_name_options) (val : List JsonValue) (h0 : val ≠ [])
    (h : ∀ e ∈ val, e = JsonValue.null ∨ ∃ n, e = JsonValue.number n ∧ n.valid = true) :
    decode iskeyword (fuel + 1) (.array val) options
      = .ok (octave_value.matrix [val.length, 1] (val.map element_value)) := by
  rw [decode_succ_array]
  exact decode_array_numeric _ val h0 h

/-- The array `[1, 2, null, 3]` decodes to `[1; 2; NaN; 3]` with dimensions `(4, 1)`. -/
theorem decode_null_in_numeric_array_witness :
    decode octave_iskeyword 1 (.array [jint 1, jint 2, .null, jint 3]) none
      = .ok (octave_value.matrix [4, 1] [dbl 1, dbl 2, Double.nan, dbl 3]) :=
  decode_null_in_numeric_array octave_iskeyword 0 none [jint 1, jint 2, .null, jint 3]
    (by simp)
    (by
      intro e he
      simp only [List.mem_cons, List.mem_singleton, List.not_mem_nil, or_false] at he
      rcases he with rfl | rfl | rfl | rfl
      · exact Or.inr ⟨_, rfl, by decide⟩
      · exact Or.inr ⟨_, rfl, by decide⟩
      · exact Or.inl rfl
      · exact Or.inr ⟨_, rfl, by decide⟩)

/-- C3 (struct-array merge law).  When the `n >= 1` objects of a JSON array decode to
structs with one and the same ordered sequence `names` of field names, the array decodes
to a struct array of dimensions `(n, 1)` with the fields `names` in that order, and the
`k`-th value of every field `f` is the value of `f` in the struct of the `k`-th object. -/
theorem decode_object_array_same_fields (iskeyword : Str → Bool) (fuel : Nat)
    (options : Option make_valid_name_options) (val : List JsonValue)
    (ms : List octave_scalar_map) (names : List Str)
    (hne : val ≠ [])
    (hobj : ∀ e ∈ val, e.GetType = JType.kObjectType)
    (hdec : List.Forall₂
      (fun e m => decode iskeyword fuel e options = .ok (octave_value.of_scalar_map m)) val ms)
    (hnames : ∀ m ∈ ms, m.fieldnames = names) :
    ∃ fields, decode iskeyword (fuel + 1) (.array val) options
        = .ok (octave_value.map [val.length, 1] fields)
      ∧ fields.map Prod.fst = names
      ∧ ∀ f vs, (f, vs) ∈ fields → vs.length = val.length
          ∧ ∀ (k : Nat) (m : octave_scalar_map), ms[k]? = some m →
              ∃ v, vs[k]? = some v ∧ m.getfield f = .ok v := by
  cases hdec with
  | nil => exact absurd rfl hne
  | @cons e0 m0 erest ms hd htl =>
    have hlen : (e0 :: erest).length = (m0 :: ms).length :=
      List.Forall₂.length_eq (List.Forall₂.cons hd htl)
    have hm0 : m0.fieldnames = names := hnames m0 (List.mem_cons_self _ _)
    have hnd : m0.fieldnames.Nodup :=
      decoded_object_nodup iskeyword fuel e0 options m0 (hobj e0 (List.mem_cons_self _ _)) hd
    have hmap : mapE (fun v => decode iskeyword fuel v options) (e0 :: erest)
        = .ok ((m0 :: ms).map octave_value.of_scalar_map) := by
      rw [mapE_ok_iff]
      rw [List.forall₂_map_right_iff]
      exact List.Forall₂.cons hd htl
    have hall : ms.all (fun m => decide (m0.fieldnames = m.fieldnames)) = true := by
      rw [List.all_eq_true]
      intro m hm
      simp [hm0, hnames m (List.mem_cons_of_mem _ hm)]
    refine ⟨m0.fieldnames.map (fun f => (f, (m0 :: ms).map (fun m => field_of m f))), ?_, ?_, ?_⟩
    · rw [decode_succ_array, decode_array_objects _ _ hne hobj,
        decode_object_array_eq _ _ m0 ms hmap hnd, hall, if_pos rfl]
    · rw [List.map_map, ← hm0]
      conv_rhs => rw [← List.map_id m0.fieldnames]
      apply List.map_congr_left
      intro f _
      rfl
    · intro f vs hmem
      obtain ⟨g, hg, heq⟩ := List.mem_map.mp hmem
      simp only [Prod.mk.injEq] at heq
      obtain ⟨rfl, rfl⟩ := heq
      refine ⟨by rw [List.length_map]; exact hlen.symm, ?_⟩
      intro k m hk
      refine ⟨field_of m g, ?_, ?_⟩
      · rw [List.getElem?_map, hk]; rfl
      · apply getfield_of_mem
        rw [hnames m (List.getElem?_mem hk), ← hm0]
        exact hg

/-- C4.  When the objects of a JSON array decode to structs of which one has a sequence
of field names other than that of the first, the array decodes to the cell of dimensions
`(n, 1)` that holds the struct of each object. -/
theorem decode_object_array_different_fields (iskeyword : Str → Bool) (fuel : Nat)
    (options : Option make_valid_name_options) (val : List JsonValue)
    (m0 : octave_scalar_map) (ms : List octave_scalar_map)
    (hobj : ∀ e ∈ val, e.GetType = JType.kObjectType)
    (hdec : List.Forall₂
      (fun e m => decode iskeyword fuel e options = .ok (octave_value.of_scalar_map m))
      val (m0 :: ms))
    (hdiff : ∃ m ∈ ms, m.fieldnames ≠ m0.fieldnames) :
    decode iskeyword (fuel + 1) (.array val) options
      = .ok (octave_value.cell [val.length, 1] ((m0 :: ms).map octave_value.of_scalar_map)) := by
  have hne : val ≠ [] := by
    rintro rfl
    cases hdec
  have hmap : mapE (fun v => decode iskeyword fuel v options) val
      = .ok ((m0 :: ms).map octave_value.of_scalar_map) := by
    rw [mapE_ok_iff, List.forall₂_map_right_iff]
    exact hdec
  have hnd : m0.fieldnames.Nodup := by
    cases hdec with
    | cons hd htl =>
      exact decoded_object_nodup iskeyword fuel _ options m0 (hobj _ (List.mem_cons_self _ _)) hd
  have hall : ms.all (fun m => decide (m0.fieldnames = m.fieldnames)) = false := by
    rw [Bool.eq_false_iff]
    intro hall
    obtain ⟨m, hm, hne⟩ := hdiff
    have := List.all_eq_true.mp hall m hm
    simp only [decide_eq_true_eq] at this
    exact hne this.symm
  rw [decode_succ_array, decode_array_objects _ _ hne hobj,
    decode_object_array_eq _ _ m0 ms hmap hnd, hall]
  rfl

/-- The struct-array merge law at `[{"a":1,"b":2},{"a":3,"b":4}]`. -/
theorem decode_object_array_same_fields_witness :
    ∃ fields, decode octave_iskeyword 3
          (JsonValue.array [.object [(bytes "a", jint 1), (bytes "b", jint 2)],
                            .object [(bytes "a", jint 3), (bytes "b", jint 4)]]) none
        = .ok (octave_value.map [2, 1] fields)
      ∧ fields.map Prod.fst = [bytes "a", bytes "b"]
      ∧ ∀ f vs, (f, vs) ∈ fields → vs.length = 2
          ∧ ∀ (k : Nat) (m : octave_scalar_map),
              [[(bytes "a", octave_value.scalar (dbl 1)), (bytes "b", octave_value.scalar (dbl 2))],
               [(bytes "a", octave_value.scalar (dbl 3)), (bytes "b", octave_value.scalar (dbl 4))]][k]?
                = some m →
              ∃ v, vs[k]? = some v ∧ m.getfield f = .ok v :=
  decode_object_array_same_fields octave_iskeyword 2 none
    [.object [(bytes "a", jint 1), (bytes "b", jint 2)],
     .object [(bytes "a", jint 3), (bytes "b", jint 4)]]
    [[(bytes "a", octave_value.scalar (dbl 1)), (bytes "b", octave_value.scalar (dbl 2))],
     [(bytes "a", octave_value.scalar (dbl 3)), (bytes "b", octave_value.scalar (dbl 4))]]
    [bytes "a", bytes "b"]
    (by simp)
    (by
      intro e he
      simp only [List.mem_cons, List.mem_singleton, List.not_mem_nil, or_false] at he
      rcases he with rfl | rfl <;> rfl)
    (List.Forall₂.cons rfl (List.Forall₂.cons rfl List.Forall₂.nil))
    (by
      intro m hm
      simp only [List.mem_cons, List.mem_singleton, List.not_mem_nil, or_false] at hm
      rcases hm with rfl | rfl <;> rfl)

/-- The example of the documentation: `[{"a":1,"b":2},{"a":3,"b":4}]` decodes to the 2x1
struct array with `a = [1, 3]` and `b = [2, 4]`. -/
theorem decode_struct_array_example :
    decode octave_iskeyword 3
        (JsonValue.array [.object [(bytes "a", jint 1), (bytes "b", jint 2)],
                          .object [(bytes "a", jint 3), (bytes "b", jint 4)]]) none
      = .ok (octave_value.map [2, 1]
          [(bytes "a", [octave_value.scalar (dbl 1), octave_value.scalar (dbl 3)]),
           (bytes "b", [octave_value.scalar (dbl 2), octave_value.scalar (dbl 4)])]) := by
  rfl

/-- The array `[{"a":1,"b":2},{"b":3,"a":4}]` decodes to a cell of two structs. -/
theorem decode_object_array_different_fields_witness :
    decode octave_iskeyword 3
        (JsonValue.array [.object [(bytes "a", jint 1), (bytes "b", jint 2)],
                          .object [(bytes "b", jint 3), (bytes "a", jint 4)]]) none
      = .ok (octave_value.cell [2, 1]
          ([[(bytes "a", octave_value.scalar (dbl 1)), (bytes "b", octave_value.scalar (dbl 2))],
            [(bytes "b", octave_value.scalar (dbl 3)), (bytes "a", octave_value.scalar (dbl 4))]].map
            octave_value.of_scalar_map)) :=
  decode_object_array_different_fields octave_iskeyword 2 none
    [.object [(bytes "a", jint 1), (bytes "b", jint 2)],
     .object [(bytes "b", jint 3), (bytes "a", jint 4)]]
    [(bytes "a", octave_value.scalar (dbl 1)), (bytes "b", octave_value.scalar (dbl 2))]
    [[(bytes "b", octave_value.scalar (dbl 3)), (bytes "a", octave_value.scalar (dbl 4))]]
    (by
      intro e he
      simp only [List.mem_cons, List.mem_singleton, List.not_mem_nil, or_false] at he
      rcases he with rfl | rfl <;> rfl)
    (List.Forall₂.cons rfl (List.Forall₂.cons rfl List.Forall₂.nil))
    ⟨_, List.mem_singleton.mpr rfl, by decide⟩

/-! ## The populate loops of `decode_array_of_arrays` -/

theorem strided_index_inj {count k1 i1 k2 i2 : Nat} (h1 : k1 < count) (h2 : k2 < count)
    (h : k1 + i1 * count = k2 + i2 * count) : k1 = k2 ∧ i1 = i2 := by
  have hk : k1 = k2 := by
    have := congrArg (fun x => x % count) h
    simp only [Nat.add_mul_mod_self_right, Nat.mod_eq_of_lt h1, Nat.mod_eq_of_lt h2] at this
    exact this
  subst hk
  have hc : 0 < count := by omega
  have : i1 * count = i2 * count := by omega
  exact ⟨rfl, Nat.eq_of_mul_eq_mul_right hc this⟩

theorem strided_index_lt {count M k i : Nat} (hk : k < count) (hi : i < M) :
    k + i * count < count * M := by
  have : (i + 1) * count ≤ M * count := Nat.mul_le_mul_right count hi
  rw [Nat.mul_comm count M]
  rw [Nat.add_mul] at this
  omega

theorem populate_inner_spec {α : Type} (sub : List α) (k count M m : Nat) (a : List α)
    (hsub : m ≤ sub.length) (hk : k < count) (ha : a.length = count * M) (hm : m ≤ M) :
    ∃ a1, populate_inner sub k count m a = .ok a1 ∧ a1.length = a.length
      ∧ (∀ i, i < m → a1[k + i * count]? = sub[i]?)
      ∧ (∀ p, (∀ i, i < m → p ≠ k + i * count) → a1[p]? = a[p]?) := by
  induction m with
  | zero =>
    refine ⟨a, rfl, rfl, ?_, ?_⟩
    · intro i hi; omega
    · intro p _; rfl
  | succ m ih =>
    obtain ⟨a1, h1, hl1, hin1, hout1⟩ := ih (by omega) (by omega)
    have hidx : k + m * count < a1.length := by
      rw [hl1, ha]; exact strided_index_lt hk (by omega)
    have hsm : m < sub.length := by omega
    refine ⟨a1.set (k + m * count) sub[m], ?_, ?_, ?_, ?_⟩
    · unfold populate_inner at h1 ⊢
      rw [for_loop, h1]
      simp only [elem, List.getElem?_eq_getElem hsm, assign_elem, hidx, if_true]
    · rw [List.length_set, hl1]
    · intro i hi
      by_cases him : i = m
      · subst him
        rw [List.getElem?_set_self hidx, List.getElem?_eq_getElem hsm]
      · have hne : k + m * count ≠ k + i * count := by
          intro h
          exact him (strided_index_inj hk hk h).2.symm
        rw [List.getElem?_set_ne hne]
        exact hin1 i (by omega)
    · intro p hp
      have hne : k + m * count ≠ p := fun h => hp m (by omega) h.symm
      rw [List.getElem?_set_ne hne]
      exact hout1 p (fun i hi => hp i (by omega))

theorem populate_outer_spec {α : Type} (body : Nat → List α → Except Error (List α))
    (subs : Nat → List α) (count M n : Nat) (a : List α)
    (hbody : ∀ k, k < count → ∀ b, body k b = populate_inner (subs k) k count M b)
    (hlen : ∀ k, k < count → M ≤ (subs k).length) (ha : a.length = count * M)
    (hn : n ≤ count) :
    ∃ a1, for_loop body n a = .ok a1 ∧ a1.length = a.length
      ∧ (∀ k i, k < n → i < M → a1[k + i * count]? = (subs k)[i]?)
      ∧ (∀ p, (∀ k i, k < n → i < M → p ≠ k + i * count) → a1[p]? = a[p]?) := by
  induction n with
  | zero =>
    refine ⟨a, rfl, rfl, ?_, ?_⟩
    · intro k i hk; omega
    · intro p _; rfl
  | succ n ih =>
    obtain ⟨a1, h1, hl1, hin1, hout1⟩ := ih (by omega)
    obtain ⟨a2, h2, hl2, hin2, hout2⟩ :=
      populate_inner_spec (subs n) n count M M a1 (hlen n (by omega)) (by omega)
        (by rw [hl1, ha]) (Nat.le_refl M)
    refine ⟨a2, ?_, by rw [hl2, hl1], ?_, ?_⟩
    · rw [for_loop, h1]
      simp only [hbody n (by omega), h2]
    · intro k i hk hi
      by_cases hkn : k = n
      · subst hkn
        exact hin2 i hi
      · rw [hout2]
        · exact hin1 k i (by omega) hi
        · intro j _ h
          exact hkn (strided_index_inj (by omega) (by omega) h).1
    · intro p hp
      rw [hout2 p (fun i hi => hp n i (by omega) hi)]
      exact hout1 p (fun k i hk hi => hp k i (by omega) hi)

theorem chop_reversed_prod (l : List Nat) : (chop_reversed l).prod = l.prod := by
  induction l with
  | nil => rfl
  | cons d rest ih =>
    unfold chop_reversed
    split
    · rename_i h
      rw [ih, h.2, List.prod_cons, Nat.one_mul]
    · rfl

theorem chop_trailing_singletons_prod (dv : List Nat) :
    dim_numel (chop_trailing_singletons dv) = dim_numel dv := by
  unfold dim_numel chop_trailing_singletons
  rw [List.prod_reverse, chop_reversed_prod, List.prod_reverse]

theorem any_sub_array_mismatch_false (is_bool : Bool) (S : List Nat) (l : List octave_value)
    (hS : S ≠ [0, 0])
    (h : ∀ v ∈ l, v.iscell = false ∧ v.isstruct = false ∧ v.dims = S
      ∧ v.is_bool_matrix = is_bool) :
    any_sub_array_mismatch is_bool false [] S l = .ok false := by
  induction l with
  | nil => rfl
  | cons v rest ih =>
    obtain ⟨h1, h2, h3, h4⟩ := h v (List.mem_cons_self _ _)
    have hstep : sub_array_mismatch is_bool false [] S v = .ok false := by
      unfold sub_array_mismatch
      simp [h1, h2, h3, h4, hS]
    rw [any_sub_array_mismatch, hstep]
    exact ih (fun w hw => h w (List.mem_cons_of_mem _ hw))

/-- The numeric branch of `decode_array_of_arrays`: sub-arrays of one shape `S`, all
`double` or all `logical` arrays, are merged with the outer index running fastest. -/
theorem decode_array_of_arrays_merge (dec : JsonValue → Except Error octave_value)
    (val : List JsonValue) (vs : List octave_value) (arrs : Nat → List Double)
    (S : List Nat) (b0 : Bool)
    (hmap : mapE dec val = .ok vs) (hne : vs ≠ []) (hS : S ≠ [0, 0])
    (hv : ∀ k v, vs[k]? = some v → v.iscell = false ∧ v.isstruct = false ∧ v.dims = S
      ∧ v.is_bool_matrix = b0 ∧ v.array_value = .ok ⟨S, arrs k⟩
      ∧ (arrs k).length = S.prod) :
    ∃ combined, decode_array_of_arrays dec val
        = .ok (if b0 then
                octave_value.bool_matrix (chop_trailing_singletons (vs.length :: S))
                  (combined.map Double.to_bool)
              else octave_value.matrix (chop_trailing_singletons (vs.length :: S)) combined)
      ∧ combined.length = vs.length * S.prod
      ∧ ∀ k i, k < vs.length → i < S.prod → combined[k + i * vs.length]? = (arrs k)[i]? := by
  obtain ⟨v0, rest, rfl⟩ := List.exists_cons_of_ne_nil hne
  obtain ⟨h01, h02, h03, h04, h05, h06⟩ := hv 0 v0 (by simp)
  have hmem : ∀ v ∈ v0 :: rest, v.iscell = false ∧ v.isstruct = false ∧ v.dims = S
      ∧ v.is_bool_matrix = b0 := by
    intro v hv1
    obtain ⟨k, hk⟩ := List.mem_iff_getElem?.mp hv1
    obtain ⟨a, b, c, d, -⟩ := hv k v hk
    exact ⟨a, b, c, d⟩
  have hnum : dim_numel (chop_trailing_singletons ((v0 :: rest).length :: S))
      = (v0 :: rest).length * S.prod := by
    rw [chop_trailing_singletons_prod]; rfl
  have hpos : 0 < (v0 :: rest).length := by simp
  have hdiv : (v0 :: rest).length * S.prod / (v0 :: rest).length = S.prod :=
    Nat.mul_div_cancel_left _ hpos
  obtain ⟨a1, hloop, hl1, hin1, -⟩ := populate_outer_spec
    (fun k a =>
      match (elem (v0 :: rest) k).bind octave_value.array_value with
      | .error e => .error e
      | .ok sub_array_value =>
        populate_inner sub_array_value.data k (v0 :: rest).length S.prod a)
    arrs (v0 :: rest).length S.prod (v0 :: rest).length
    (List.replicate ((v0 :: rest).length * S.prod) (Double.finite 0))
    (by
      intro k hk b
      have hk1 : (v0 :: rest)[k]? = some (v0 :: rest)[k] := List.getElem?_eq_getElem hk
      obtain ⟨-, -, -, -, hav, -⟩ := hv k _ hk1
      simp only [elem, hk1, Except.bind, hav])
    (by
      intro k hk
      have hk1 : (v0 :: rest)[k]? = some (v0 :: rest)[k] := List.getElem?_eq_getElem hk
      obtain ⟨-, -, -, -, -, hlen⟩ := hv k _ hk1
      exact Nat.le_of_eq hlen.symm)
    (by rw [List.length_replicate])
    (Nat.le_refl _)
  refine ⟨a1, ?_, ?_, ?_⟩
  · unfold decode_array_of_arrays
    simp only [decode_string_and_mixed_array, hmap, except_map_ok, Except.bind,
      octave_value.of_cell, octave_value.cell_value, except_bind_ok, elem,
      List.getElem?_cons_zero, h02, h03, h04, Bool.false_eq_true, if_false,
      any_sub_array_mismatch_false b0 S (v0 :: rest) hS hmem, hnum, hdiv]
    unfold populate_array
    rw [hloop]
    cases b0 <;> rfl
  · rw [hl1, List.length_replicate]
  · intro k i hk hi
    exact hin1 k i hk hi

/-! ## The encoder: lemmas -/

theorem nested_events_congr (dv : List Nat) (leaf1 leaf2 : List Nat → List Event)
    (h : ∀ path, valid_index dv path = true → leaf1 path = leaf2 path) :
    nested_events dv leaf1 = nested_events dv leaf2 := by
  induction dv generalizing leaf1 leaf2 with
  | nil => exact h [] rfl
  | cons d ds ih =>
    unfold nested_events
    congr 3
    apply List.map_congr_left
    intro i hi
    apply ih
    intro path hp
    exact h (i :: path) (by simp [valid_index, List.mem_range.mp hi, hp])

theorem sub2ind_lt (dv path : List Nat) (h : valid_index dv path = true) :
    sub2ind dv path < dv.prod := by
  induction dv generalizing path with
  | nil =>
    cases path with
    | nil => simp [sub2ind]
    | cons i rest => exact absurd h (by simp [valid_index])
  | cons d ds ih =>
    cases path with
    | nil => exact absurd h (by simp [valid_index])
    | cons i rest =>
      simp only [valid_index, Bool.and_eq_true, decide_eq_true_eq] at h
      obtain ⟨hi, hr⟩ := h
      have := ih rest hr
      simp only [sub2ind, List.prod_cons]
      calc i + d * sub2ind ds rest < d + d * sub2ind ds rest := by omega
        _ = d * (sub2ind ds rest + 1) := by ring
        _ ≤ d * ds.prod := Nat.mul_le_mul_left d this

theorem sub2ind_ind2sub (dv : List Nat) (q : Nat) (h : q < dv.prod) :
    sub2ind dv (ind2sub dv q) = q := by
  induction dv generalizing q with
  | nil =>
    have hq : q = 0 := by simpa using h
    subst hq
    rfl
  | cons d ds ih =>
    simp only [List.prod_cons] at h
    have hd : 0 < d := by
      rcases Nat.eq_zero_or_pos d with h0 | h0
      · subst h0; simp at h
      · exact h0
    have hq : q / d < ds.prod := by
      rw [Nat.div_lt_iff_lt_mul hd, Nat.mul_comm]; exact h
    simp only [ind2sub, sub2ind, ih _ hq]
    exact Nat.mod_add_div q d

theorem ind2sub_length (dv : List Nat) (q : Nat) : (ind2sub dv q).length = dv.length := by
  induction dv generalizing q with
  | nil => rfl
  | cons d ds ih => simp [ind2sub, ih]

theorem ind2sub_ones (m q : Nat) : ind2sub (List.replicate m 1) q = List.replicate m 0 := by
  induction m generalizing q with
  | zero => rfl
  | succ m ih => simp [List.replicate_succ, ind2sub, ih, Nat.mod_one]

theorem ind2sub_ones_append (L : Nat) (dv : List Nat) (q : Nat) :
    ind2sub (List.replicate L 1 ++ dv) q = List.replicate L 0 ++ ind2sub dv q := by
  induction L generalizing q with
  | zero => simp
  | succ L ih => simp [List.replicate_succ, ind2sub, ih, Nat.mod_one]

theorem sub2ind_ones_append (L : Nat) (dv idx : List Nat) :
    sub2ind (List.replicate L 1 ++ dv) (List.replicate L 0 ++ idx) = sub2ind dv idx := by
  induction L with
  | zero => simp
  | succ L ih => simp [List.replicate_succ, sub2ind, ih]

theorem zipWith_add_zeros_left (m : Nat) (l : List Nat) (h : l.length = m) :
    List.zipWith (fun a b => a + b) (List.replicate m 0) l = l := by
  induction m generalizing l with
  | zero => cases l with
    | nil => rfl
    | cons a as => simp at h
  | succ m ih =>
    cases l with
    | nil => simp at h
    | cons a as =>
      simp only [List.length_cons, Nat.add_right_cancel_iff] at h
      simp [List.replicate_succ, ih as h]

theorem zipWith_add_zeros_both (L : Nat) (a b : List Nat) :
    List.zipWith (fun a b => a + b) (List.replicate L 0 ++ a) (List.replicate L 0 ++ b)
      = List.replicate L 0 ++ List.zipWith (fun a b => a + b) a b := by
  induction L with
  | zero => simp
  | succ L ih => simp [List.replicate_succ, ih]

theorem mem_conversion_dims (n idx j : Nat) (hidx : idx < n) :
    (j + 1) ∈ conversion_dims n idx ↔ j < n ∧ j ≠ idx := by
  unfold conversion_dims
  simp only [List.mem_map, List.mem_range]
  constructor
  · rintro ⟨i, hi, h⟩
    split at h <;> omega
  · rintro ⟨h1, h2⟩
    by_cases hj : j < idx
    · exact ⟨j, by omega, by simp [hj]⟩
    · refine ⟨j - 1, by omega, ?_⟩
      have : ¬ (j - 1 < idx) := by omega
      simp only [this, if_false]
      omega

theorem mask_dims_append (conv : List Nat) (keep : Bool) (j : Nat) (a b : List Nat) :
    mask_dims conv keep j (a ++ b)
      = mask_dims conv keep j a ++ mask_dims conv keep (j + a.length) b := by
  induction a generalizing j with
  | nil => simp [mask_dims]
  | cons x xs ih =>
    have h1 : j + 1 + xs.length = j + (xs.length + 1) := by omega
    have h2 := ih (j + 1)
    rw [h1] at h2
    simp only [List.cons_append, mask_dims, List.length_cons]
    exact congrArg _ h2

theorem mask_dims_ones (conv : List Nat) (keep : Bool) (j m : Nat) :
    mask_dims conv keep j (List.replicate m 1) = List.replicate m 1 := by
  induction m generalizing j with
  | zero => rfl
  | succ m ih => simp [List.replicate_succ, mask_dims, ih]

theorem mask_dims_all_listed (conv : List Nat) (keep : Bool) (j : Nat) (dv : List Nat)
    (h : ∀ i, j ≤ i → i < j + dv.length → (i + 1) ∈ conv) :
    mask_dims conv keep j dv = if keep then dv else List.replicate dv.length 1 := by
  induction dv generalizing j with
  | nil => cases keep <;> rfl
  | cons d ds ih =>
    have hj : (j + 1) ∈ conv := h j (Nat.le_refl j) (by simp)
    have htl := ih (j + 1) (fun i h1 h2 => h i (by omega) (by simp only [List.length_cons]; omega))
    simp only [mask_dims, htl, hj, decide_True]
    cases keep <;> simp [List.replicate_succ]

theorem ind2sub_cell (L d m c : Nat) (hc : c < d) :
    ind2sub (List.replicate L 1 ++ d :: List.replicate m 1) c
      = List.replicate L 0 ++ c :: List.replicate m 0 := by
  rw [ind2sub_ones_append]
  simp only [ind2sub, Nat.mod_eq_of_lt hc, ind2sub_ones]

theorem ind2sub_sub (L : Nat) (r : List Nat) (q : Nat) :
    ind2sub (List.replicate L 1 ++ 1 :: r) q = List.replicate L 0 ++ 0 :: ind2sub r q := by
  rw [ind2sub_ones_append]
  simp only [ind2sub, Nat.mod_one, Nat.div_one]

theorem num2cell_split {α : Type} (filler : α) (L d : Nat) (r : List Nat) (data : List α) :
    num2cell filler (List.replicate L 1 ++ d :: r) data
        (conversion_dims (L + (r.length + 1)) L)
      = (List.range d).map (fun c =>
          (chop_trailing_singletons (List.replicate L 1 ++ 1 :: r),
           (List.range r.prod).map (fun q => data.getD (c + d * q) filler))) := by
  have hconv : ∀ j, (j + 1) ∈ conversion_dims (L + (r.length + 1)) L
      ↔ j < L + (r.length + 1) ∧ j ≠ L :=
    fun j => mem_conversion_dims _ L j (by omega)
  have hL : ¬ (L + 1) ∈ conversion_dims (L + (r.length + 1)) L := by
    rw [hconv]; omega
  have htail : ∀ keep, mask_dims (conversion_dims (L + (r.length + 1)) L) keep (L + 1) r
      = if keep then r else List.replicate r.length 1 := by
    intro keep
    apply mask_dims_all_listed
    intro i h1 h2
    rw [hconv]; omega
  have hcell : mask_dims (conversion_dims (L + (r.length + 1)) L) false 0
      (List.replicate L 1 ++ d :: r) = List.replicate L 1 ++ d :: List.replicate r.length 1 := by
    rw [mask_dims_append, mask_dims_ones]
    simp only [List.length_replicate, Nat.zero_add, mask_dims, hL, decide_False, htail]
    simp
  have hsub : mask_dims (conversion_dims (L + (r.length + 1)) L) true 0
      (List.replicate L 1 ++ d :: r) = List.replicate L 1 ++ 1 :: r := by
    rw [mask_dims_append, mask_dims_ones]
    simp only [List.length_replicate, Nat.zero_add, mask_dims, hL, decide_False, htail]
    simp
  have hcn : dim_numel (List.replicate L 1 ++ d :: List.replicate r.length 1) = d := by
    simp [dim_numel]
  have hsn : dim_numel (List.replicate L 1 ++ 1 :: r) = r.prod := by
    simp [dim_numel]
  unfold num2cell
  simp only [hcell, hsub, hcn, hsn]
  apply List.map_congr_left
  intro c hc
  have hc1 : c < d := List.mem_range.mp hc
  congr 1
  apply List.map_congr_left
  intro q hq
  have hq1 : q < r.prod := List.mem_range.mp hq
  rw [ind2sub_cell L d r.length c hc1, ind2sub_sub, zipWith_add_zeros_both]
  simp only [List.zipWith_cons_cons, Nat.add_zero,
    zipWith_add_zeros_left r.length (ind2sub r q) (ind2sub_length r q)]
  rw [sub2ind_ones_append]
  simp only [sub2ind, sub2ind_ind2sub r q hq1]

theorem chop_of_last_ne_one (dv : List Nat) (x : Nat) (h : dv.getLast? = some x)
    (hx : x ≠ 1) : chop_trailing_singletons dv = dv := by
  have hdv : dv = dv.dropLast ++ [x] := by
    have := List.dropLast_append_getLast? x h
    exact this.symm
  unfold chop_trailing_singletons
  rw [hdv, List.reverse_append]
  simp only [List.reverse_cons, List.reverse_nil, List.nil_append, List.singleton_append]
  unfold chop_reversed
  simp [hx]

theorem encode_numeric_scalar (x : Double) (conv : Bool) :
    encode_numeric (octave_value.scalar x) conv = .ok (numeric_events x conv) := by
  unfold encode_numeric numeric_events
  simp only [octave_value.scalar, octave_value.scalar_value, if_true, elem,
    List.getElem?_cons_zero, octave_value.is_bool_scalar, Bool.false_eq_true, if_false,
    octave_value.is_double_type]
  split_ifs <;> rfl

theorem encode_numeric_bool (b : Bool) (conv : Bool) :
    encode_numeric (octave_value.bool b) conv = .ok [Event.Bool b] := by
  unfold encode_numeric
  simp [octave_value.bool, octave_value.scalar_value, elem, octave_value.is_bool_scalar,
    octave_value.bool_value, Except.map]

theorem encode_element (is_logical conv : Bool) (x : Double) :
    (if is_logical then encode_numeric (octave_value.bool (Double.to_bool x)) conv
      else encode_numeric (octave_value.scalar x) conv)
      = .ok (element_events is_logical conv x) := by
  unfold element_events
  cases is_logical
  · simp [encode_numeric_scalar]
  · simp [encode_numeric_bool]

theorem encode_array_flat (fuel : Nat) (obj : octave_value) (conv : Bool) (od : List Nat)
    (level : Nat) (isl0 isl : Bool) (d : Nat) (data : List Double)
    (hval : obj.array_value = .ok ⟨[1, d], data⟩)
    (hisl : (if level == 0 then obj.islogical else isl0) = isl) (hd : 1 ≤ d) :
    encode_array (fuel + 1) obj conv od level isl0
      = .ok ([Event.StartArray] ++ (data.map (element_events isl conv)).flatten
              ++ [Event.EndArray]) := by
  have he : dims_isempty [1, d] = false := by
    simp [dims_isempty, dim_numel]; omega
  have hv : dims_isvector [1, d] = true := by simp [dims_isvector]
  unfold encode_array
  simp only [hval, he, hv, hisl, Bool.false_eq_true, if_false, if_true, encode_element]
  rw [mapE_map_ok _ (element_events isl conv) data (fun x _ => rfl)]
  rfl

theorem nested_events_vector (m d : Nat) (leaf : List Nat → List Event) :
    nested_events (List.replicate m 1 ++ [d]) leaf
      = List.replicate m Event.StartArray
        ++ ([Event.StartArray]
            ++ ((List.range d).map (fun i => leaf (List.replicate m 0 ++ [i]))).flatten
            ++ [Event.EndArray])
        ++ List.replicate m Event.EndArray := by
  induction m generalizing leaf with
  | zero => simp [nested_events]
  | succ m ih =>
    have h1 : List.replicate (m + 1) 1 ++ [d] = 1 :: (List.replicate m 1 ++ [d]) := by
      simp [List.replicate_succ]
    have h2 : List.range 1 = [0] := rfl
    rw [h1, nested_events, h2]
    simp only [List.map_cons, List.map_nil, List.flatten_cons,
      List.flatten_nil, List.append_nil, ih]
    rw [List.replicate_succ' (n := m) (a := Event.EndArray)]
    simp [List.replicate_succ]

theorem first_not_one_ones (L d : Nat) (r : List Nat) (hd : d ≠ 1) :
    first_not_one (List.replicate L 1 ++ d :: r) = L := by
  induction L with
  | zero => simp [first_not_one, hd]
  | succ L ih => simp [List.replicate_succ, first_not_one, ih]

theorem num_ones_append (L : Nat) (r : List Nat) :
    num_ones (List.replicate L 1 ++ r) = L + r.count 1 := by
  unfold num_ones
  rw [List.count_append, List.count_replicate_self]

theorem prod_pos_of_all_pos (r : List Nat) (h : ∀ x ∈ r, 1 ≤ x) : 1 ≤ r.prod := by
  induction r with
  | nil => simp
  | cons d ds ih =>
    have h1 := h d (List.mem_cons_self _ _)
    have h2 := ih (fun x hx => h x (List.mem_cons_of_mem _ hx))
    rw [List.prod_cons]
    exact Nat.mul_pos h1 h2

theorem count_one_lt_of_last (r : List Nat) (dl : Nat) (h : r.getLast? = some dl)
    (hdl : dl ≠ 1) : r.count 1 < r.length := by
  have hr : r = r.dropLast ++ [dl] := (List.dropLast_append_getLast? dl h).symm
  rw [hr, List.count_append, List.length_append]
  have h1 : List.count 1 [dl] = 0 := by
    simp [List.count_cons, hdl]
  have h2 := List.count_le_length 1 r.dropLast
  simp only [h1, List.length_singleton]
  omega

theorem vector_like_form (r : List Nat) (dl : Nat) (h : r.getLast? = some dl)
    (hdl : dl ≠ 1) (hc : r.count 1 + 1 = r.length) :
    r = List.replicate (r.length - 1) 1 ++ [dl] := by
  have hr : r = r.dropLast ++ [dl] := (List.dropLast_append_getLast? dl h).symm
  have h1 : List.count 1 [dl] = 0 := by
    simp [List.count_cons, hdl]
  have hcount : r.dropLast.count 1 = r.dropLast.length := by
    have := hc
    rw [hr, List.count_append, List.length_append, h1] at this
    simp only [List.length_singleton] at this
    omega
  have hall : r.dropLast = List.replicate r.dropLast.length 1 := by
    rw [List.eq_replicate_iff]
    refine ⟨rfl, ?_⟩
    intro b hb
    exact (List.count_eq_length.mp hcount b hb).symm
  have hlen : r.dropLast.length = r.length - 1 := List.length_dropLast r
  rw [← hlen, ← hall]
  exact hr

theorem getD_map_range {α : Type} (n q : Nat) (f : Nat → α) (dflt : α) (h : q < n) :
    ((List.range n).map f).getD q dflt = f q := by
  rw [List.getD_eq_getElem?_getD, List.getElem?_map, List.getElem?_range h]
  rfl

theorem map_eq_map_range {α β : Type} (data : List α) (g : α → β) (dflt : α) :
    data.map g = (List.range data.length).map (fun i => g (data.getD i dflt)) := by
  apply List.ext_getElem
  · simp
  · intro i h1 h2
    simp only [List.getElem_map, List.getElem_range]
    rw [List.getD_eq_getElem?_getD, List.getElem?_eq_getElem (by simpa using h1)]
    rfl

theorem getLast?_tail_of_cons (d : Nat) (r : List Nat) (dl : Nat) (hr : r ≠ [])
    (h : (d :: r).getLast? = some dl) : r.getLast? = some dl := by
  cases r with
  | nil => exact absurd rfl hr
  | cons x xs => simpa [List.getLast?_cons_cons] using h

theorem getLast?_ones_append (L : Nat) (r : List Nat) (hr : r ≠ []) :
    (List.replicate L 1 ++ r).getLast? = r.getLast? := by
  rw [List.getLast?_append]
  cases h : r.getLast? with
  | none => exact absurd (List.getLast?_eq_none_iff.mp h) hr
  | some x => rfl

/-- The recursion of `encode_array` from level `L` on: the array has the dimensions of
the original with the first `L` set to 1, `r` are the dimensions from `L` on. -/
theorem encode_array_level (conv isl : Bool) (dl : Nat) (hdl : 2 ≤ dl) :
    ∀ (r : List Nat) (L : Nat) (od : List Nat) (data : List Double) (fuel : Nat)
      (obj : octave_value) (isl0 : Bool),
      obj.array_value = .ok ⟨List.replicate L 1 ++ r, data⟩ →
      (if L == 0 then obj.islogical else isl0) = isl →
      r.getLast? = some dl → (∀ x ∈ r, 1 ≤ x) → od.drop L = r → 2 ≤ L + r.length →
      (1 ≤ L ∨ r.count 1 + 2 ≤ r.length) → data.length = r.prod → r.length + 1 ≤ fuel →
      encode_array fuel obj conv od L isl0
        = .ok (nested_events r (fun path =>
            element_events isl conv (data.getD (sub2ind r path) (Double.finite 0)))) := by
  intro r
  induction r with
  | nil => intro L od data fuel obj isl0 _ _ hlast; simp at hlast
  | cons d r ih =>
    intro L od data fuel obj isl0 hval hisl hlast hall hod hnd hnv hlen hfuel
    obtain ⟨f, rfl⟩ : ∃ f, fuel = f + 1 := ⟨fuel - 1, by omega⟩
    have hdl1 : dl ≠ 1 := by omega
    have hprod : 1 ≤ (d :: r).prod := prod_pos_of_all_pos _ hall
    have hempty : dims_isempty (List.replicate L 1 ++ d :: r) = false := by
      simp only [dims_isempty, dim_numel, List.prod_append, List.prod_replicate, one_pow,
        one_mul, beq_eq_false_iff_ne]
      omega
    have hclt := count_one_lt_of_last (d :: r) dl hlast hdl1
    have hdpos : 1 ≤ d := hall d (List.mem_cons_self _ _)
    by_cases hvl : (d :: r).count 1 + 1 = (d :: r).length
    · -- one dimension other than 1 is left: the last one
      have hL : 1 ≤ L := by
        rcases hnv with h | h
        · exact h
        · omega
      have hform0 := vector_like_form (d :: r) dl hlast hdl1 hvl
      obtain ⟨m, hm⟩ : ∃ m, m = (d :: r).length - 1 := ⟨_, rfl⟩
      rw [← hm] at hform0
      have hpd : (d :: r).prod = dl := by
        rw [hform0]; simp
      have hs : ∀ i, sub2ind (d :: r) (List.replicate m 0 ++ [i]) = i := by
        intro i
        rw [hform0, sub2ind_ones_append]
        simp [sub2ind]
      have hdata : data.map (element_events isl conv)
          = (List.range dl).map (fun i => element_events isl conv
              (data.getD (sub2ind (d :: r) (List.replicate m 0 ++ [i]))
                (Double.finite 0))) := by
        rw [map_eq_map_range data _ (Double.finite 0), hlen, hpd]
        apply List.map_congr_left
        intro i _
        rw [hs]
      have htarget : nested_events (d :: r) (fun path =>
            element_events isl conv (data.getD (sub2ind (d :: r) path) (Double.finite 0)))
          = List.replicate m Event.StartArray
            ++ ([Event.StartArray] ++ (data.map (element_events isl conv)).flatten
                ++ [Event.EndArray])
            ++ List.replicate m Event.EndArray := by
        rw [hdata]
        generalize hleaf : (fun path => element_events isl conv
          (data.getD (sub2ind (d :: r) path) (Double.finite 0))) = leaf
        have : (fun i => element_events isl conv
              (data.getD (sub2ind (d :: r) (List.replicate m 0 ++ [i])) (Double.finite 0)))
            = (fun i => leaf (List.replicate m 0 ++ [i])) := by
          rw [← hleaf]
        rw [this, hform0, nested_events_vector]
      rw [htarget]
      by_cases hvec : dims_isvector (List.replicate L 1 ++ d :: r) = true
      · -- the 2-D row vector
        have hlen2 : L + (r.length + 1) = 2 := by
          simp only [dims_isvector, Bool.and_eq_true, beq_iff_eq, List.length_append,
            List.length_replicate, List.length_cons] at hvec
          exact hvec.1
        have hL1 : L = 1 := by omega
        have hr : r = [] := by
          have : r.length = 0 := by omega
          exact List.length_eq_zero.mp this
        subst hL1 hr
        simp only [List.getLast?_singleton, Option.some.injEq] at hlast
        subst hlast
        have := encode_array_flat f obj conv od 1 isl0 isl d data
          (by simpa using hval) hisl hdpos
        rw [this]
        have hm0 : m = 0 := by simpa using hm
        subst hm0
        simp
      · -- more than two dimensions
        have hvec' : dims_isvector (List.replicate L 1 ++ d :: r) = false := by
          simpa using hvec
        have hlen3 : L + (r.length + 1) ≠ 2 := by
          intro h2
          have hL1 : L = 1 := by omega
          have hr : r = [] := by
            have : r.length = 0 := by omega
            exact List.length_eq_zero.mp this
          subst hL1 hr
          simp [dims_isvector] at hvec'
        have hno : (num_ones (List.replicate L 1 ++ d :: r)
            == (List.replicate L 1 ++ d :: r).length - 1) = true := by
          rw [num_ones_append, beq_iff_eq]
          simp only [List.length_append, List.length_replicate]
          omega
        have hrow : as_row_dims (List.replicate L 1 ++ d :: r) = [1, dl] := by
          unfold as_row_dims
          rw [if_pos]
          · simp only [dim_numel, List.prod_append, List.prod_replicate, one_pow, one_mul, hpd]
          · left
            simpa using hlen3
        have hL0 : (L != 0) = true := by
          simp only [bne_iff_ne, ne_eq]; omega
        have hL0' : (L == 0) = false := by
          simp only [beq_eq_false_iff_ne, ne_eq]; omega
        have hisl' : isl0 = isl := by simpa [hL0'] using hisl
        obtain ⟨f1, rfl⟩ : ∃ f1, f = f1 + 1 := ⟨f - 1, by
          simp only [List.length_cons] at hfuel; omega⟩
        have hinner := encode_array_flat f1
          (octave_value.of_array ⟨[1, dl], data⟩) conv od (L + 1) isl isl dl data rfl
          (by simp) (by omega)
        unfold encode_array
        simp only [hval, hempty, hvec', hno, hrow, hL0, hL0', hisl', Bool.false_eq_true,
          if_false, if_true, hinner, except_map_ok]
        have hb : (List.replicate L 1 ++ d :: r).length - 1 - L = m := by
          simp only [List.length_append, List.length_replicate, List.length_cons] at hm ⊢
          omega
        rw [hb]
    · -- at least two dimensions other than 1 are left
      have hc2 : (d :: r).count 1 + 2 ≤ (d :: r).length := by omega
      have hrne : r ≠ [] := by
        rintro rfl
        simp only [List.length_singleton] at hc2
        omega
      have hvec' : dims_isvector (List.replicate L 1 ++ d :: r) = false := by
        rcases Nat.eq_zero_or_pos L with hL | hL
        · subst hL
          cases r with
          | nil => exact absurd rfl hrne
          | cons d2 r2 =>
            cases r2 with
            | nil =>
              have h1 : d ≠ 1 := by
                rintro rfl
                simp [List.count_cons] at hc2
              have h2 : d2 ≠ 1 := by
                rintro rfl
                simp [List.count_cons] at hc2
              simp [dims_isvector, h1, h2]
            | cons d3 r3 => simp [dims_isvector]
        · have h3 : (List.replicate L 1 ++ d :: r).length ≠ 2 := by
            have := List.length_pos.mpr hrne
            simp only [List.length_append, List.length_replicate, List.length_cons]
            omega
          unfold dims_isvector
          rw [Bool.and_eq_false_iff]
          left
          simpa using h3
      have hno : (num_ones (List.replicate L 1 ++ d :: r)
          == (List.replicate L 1 ++ d :: r).length - 1) = false := by
        rw [num_ones_append, beq_eq_false_iff_ne]
        simp only [List.length_append, List.length_replicate, List.length_cons] at hc2 ⊢
        omega
      have helem : elem od L = .ok d := by
        unfold elem
        have : od[L]? = some d := by
          have h1 : (od.drop L)[0]? = some d := by rw [hod]; simp
          rw [List.getElem?_drop] at h1
          simpa using h1
        rw [this]
      have hod' : od.drop (L + 1) = r := by
        have : od.drop (L + 1) = (od.drop L).tail := by
          rw [List.tail_drop]
        rw [this, hod]
        rfl
      have hlast' : r.getLast? = some dl := getLast?_tail_of_cons d r dl hrne hlast
      have hall' : ∀ x ∈ r, 1 ≤ x := fun x hx => hall x (List.mem_cons_of_mem _ hx)
      have hisl' : (if L == 0 then obj.islogical else isl0) = isl := hisl
      have hfuel' : r.length + 1 ≤ f := by
        simp only [List.length_cons] at hfuel; omega
      have hcat : List.replicate L 1 ++ 1 :: r = List.replicate (L + 1) 1 ++ r := by
        rw [List.replicate_succ', List.append_assoc]
        rfl
      by_cases hd1 : d = 1
      · -- a dimension equal to 1: one more pair of brackets
        subst hd1
        have hrec := ih (L + 1) od data f
          (octave_value.of_array ⟨List.replicate L 1 ++ 1 :: r, data⟩) isl
          (by rw [hcat]; rfl) (by simp) hlast' hall' hod' (by
            have := List.length_pos.mpr hrne
            omega) (Or.inl (by omega)) (by simpa using hlen) hfuel'
        unfold encode_array
        simp only [hval, hempty, hvec', hno, helem, hisl', Bool.false_eq_true, if_false,
          beq_self_eq_true, if_true, hrec, except_map_ok]
        have h2 : List.range 1 = [0] := rfl
        simp only [nested_events, h2, List.map_cons, List.map_nil, List.flatten_cons,
          List.flatten_nil, List.append_nil, sub2ind, Nat.zero_add, Nat.one_mul]
      · -- split along dimension `L`
        have hd2 : (d == 1) = false := by simpa using hd1
        have hidx : first_not_one (List.replicate L 1 ++ d :: r) = L :=
          first_not_one_ones L d r hd1
        have hnd' : (List.replicate L 1 ++ d :: r).length = L + (r.length + 1) := by simp
        have hchop : chop_trailing_singletons (List.replicate L 1 ++ 1 :: r)
            = List.replicate (L + 1) 1 ++ r := by
          rw [hcat]
          apply chop_of_last_ne_one _ dl _ hdl1
          rw [getLast?_ones_append _ _ hrne]
          exact hlast'
        have hparts : mapE (fun sub : List Nat × List Double =>
              encode_array f (octave_value.of_array ⟨sub.1, sub.2⟩) conv od (L + 1) isl)
            ((List.range d).map (fun c =>
              (List.replicate (L + 1) 1 ++ r,
               (List.range r.prod).map (fun q => data.getD (c + d * q) (Double.finite 0)))))
            = .ok (((List.range d).map (fun c =>
              (List.replicate (L + 1) 1 ++ r,
               (List.range r.prod).map (fun q => data.getD (c + d * q) (Double.finite 0))))).map
              (fun sub => nested_events r (fun path =>
                element_events isl conv (sub.2.getD (sub2ind r path) (Double.finite 0))))) := by
          apply mapE_map_ok
          intro sub hsub
          obtain ⟨c, -, rfl⟩ := List.mem_map.mp hsub
          exact ih (L + 1) od _ f _ isl rfl (by simp) hlast' hall' hod' (by
            have := List.length_pos.mpr hrne
            omega) (Or.inl (by omega)) (by simp) hfuel'
        have hno' := hno
        rw [hnd'] at hno'
        unfold encode_array
        simp only [hval, hempty, hvec', hno', helem, hisl', hd2, Bool.false_eq_true, if_false,
          hidx, hnd', num2cell_split, hchop, hparts, except_map_ok]
        simp only [nested_events, List.map_map]
        congr 4
        apply List.map_congr_left
        intro c hc
        simp only [Function.comp]
        apply nested_events_congr
        intro path hpath
        rw [getD_map_range _ _ _ _ (sub2ind_lt r path hpath)]
        rfl

theorem chop_reversed_length_le (l : List Nat) : (chop_reversed l).length ≤ l.length := by
  induction l with
  | nil => simp [chop_reversed]
  | cons d rest ih =>
    unfold chop_reversed
    split
    · simp only [List.length_cons]; omega
    · exact Nat.le_refl _

theorem last_ne_one_of_chopped (dv : List Nat) (h : chop_trailing_singletons dv = dv)
    (hlen : 2 < dv.length) : dv.getLast? ≠ some 1 := by
  intro hl
  have hdv : dv = dv.dropLast ++ [1] := (List.dropLast_append_getLast? 1 hl).symm
  have hdl : dv.dropLast.length = dv.length - 1 := List.length_dropLast dv
  have h1 : (chop_trailing_singletons dv).length < dv.length := by
    unfold chop_trailing_singletons
    rw [List.length_reverse]
    conv_lhs => rw [hdv]
    rw [List.reverse_append]
    simp only [List.reverse_cons, List.reverse_nil, List.nil_append, List.singleton_append]
    unfold chop_reversed
    rw [if_pos ⟨by rw [List.length_reverse]; omega, rfl⟩]
    have := chop_reversed_length_le dv.dropLast.reverse
    rw [List.length_reverse] at this
    omega
  rw [h] at h1
  exact absurd h1 (Nat.lt_irrefl _)

theorem count_one_of_countP (dv : List Nat) (hpos : ∀ d ∈ dv, 1 ≤ d) :
    dv.count 1 + dv.countP (fun d => decide (1 < d)) = dv.length := by
  induction dv with
  | nil => rfl
  | cons d ds ih =>
    have h1 := hpos d (List.mem_cons_self _ _)
    have h2 := ih (fun x hx => hpos x (List.mem_cons_of_mem _ hx))
    rw [List.count_cons, List.countP_cons, List.length_cons]
    by_cases hd : d = 1
    · subst hd; simp; omega
    · have : 1 < d := by omega
      simp [hd, this]; omega

theorem last_of_array_dims (dv : List Nat) (hpos : ∀ d ∈ dv, 1 ≤ d)
    (hchop : chop_trailing_singletons dv = dv)
    (hnv : 2 ≤ dv.countP (fun d => decide (1 < d))) :
    ∃ dl, dv.getLast? = some dl ∧ 2 ≤ dl := by
  have hlen : 2 ≤ dv.length := Nat.le_trans hnv (List.countP_le_length _)
  cases hl : dv.getLast? with
  | none =>
    have := List.getLast?_eq_none_iff.mp hl
    subst this
    simp at hlen
  | some dl =>
    refine ⟨dl, rfl, ?_⟩
    have hmem : dl ∈ dv := List.mem_of_getLast?_eq_some hl
    have h1 := hpos dl hmem
    rcases Nat.lt_or_ge 2 dv.length with h3 | h3
    · have := last_ne_one_of_chopped dv hchop h3
      rw [hl] at this
      have : dl ≠ 1 := fun h => this (by rw [h])
      omega
    · have h2 : dv.length = 2 := by omega
      match dv, h2 with
      | [a, b], _ =>
        simp only [List.getLast?_cons_cons, List.getLast?_singleton, Option.some.injEq] at hl
        subst hl
        simp only [List.countP_cons, List.countP_nil] at hnv
        by_contra hb
        have : ¬ (1 < b) := by omega
        simp [this] at hnv
        split at hnv <;> omega

theorem to_bool_of_bool (b : Bool) : Double.to_bool (Double.of_bool b) = b := by
  cases b <;> rfl

theorem getD_map_of_bool (data : List Bool) (i : Nat) :
    Double.to_bool ((data.map Double.of_bool).getD i (Double.finite 0)) = data.getD i false := by
  simp only [List.getD_eq_getElem?_getD, List.getElem?_map]
  cases data[i]? with
  | none => rfl
  | some b => exact to_bool_of_bool b

/-- The top-level call of `encode` on a `double` or `logical` array with at least two
dimensions other than 1. -/
theorem encode_matrix_nested (fuel : Nat) (obj : octave_value) (conv : Bool)
    (dv : List Nat) (data : List Double)
    (hobj : (obj.isnumeric || obj.islogical) = true) (hdims : obj.dims = dv)
    (hval : obj.array_value = .ok ⟨dv, data⟩)
    (hpos : ∀ d ∈ dv, 1 ≤ d) (hchop : chop_trailing_singletons dv = dv)
    (hnv : 2 ≤ dv.countP (fun d => decide (1 < d))) (hlen : data.length = dv.prod) :
    encode (fuel + 1) obj conv
      = .ok (nested_events dv (fun path =>
          element_events obj.islogical conv (data.getD (sub2ind dv path) (Double.finite 0)))) := by
  obtain ⟨dl, hlast, hdl⟩ := last_of_array_dims dv hpos hchop hnv
  have hcount := count_one_of_countP dv hpos
  have hlen2 : 2 ≤ dv.length := Nat.le_trans hnv (List.countP_le_length _)
  have hne11 : dv ≠ [1, 1] := by
    rintro rfl
    simp at hnv
  have hscalar : obj.is_real_scalar = false := by
    cases obj <;> simp_all [octave_value.is_real_scalar, octave_value.dims]
  have hlevel := encode_array_level conv obj.islogical dl hdl dv 0 dv data (dv.length + 1)
    obj false (by simpa using hval) (by simp) hlast hpos (by simp) (by omega)
    (Or.inr (by omega)) hlen (Nat.le_refl _)
  unfold encode
  simp only [hscalar, hobj, Bool.false_eq_true, if_false, if_true, octave_value.ndims, hdims]
  exact hlevel

/-! ## The claims on the encoder -/

/-- C6 (encoder shape law).  For a non-empty `double` or `logical` array with the
dimension vector `dv`, at least two of whose dimensions exceed 1, `encode` writes the
rectangular nested JSON array of depth `dv.length` in which every array of nesting level
`j` has `dv[j]` children, and the scalar at the path `(i0, ..., i(n-1))` is what
`encode_numeric` writes for the element at that multi-index. -/
theorem encode_array_shape (fuel : Nat) (conv : Bool) (dv : List Nat)
    (hpos : ∀ d ∈ dv, 1 ≤ d) (hchop : chop_trailing_singletons dv = dv)
    (hnv : 2 ≤ dv.countP (fun d => decide (1 < d))) :
    (∀ data : List Double, data.length = dv.prod →
      ∃ leaf, encode (fuel + 1) (octave_value.matrix dv data) conv
          = .ok (nested_events dv leaf)
        ∧ ∀ path, valid_index dv path = true →
            encode_numeric
                (octave_value.scalar (data.getD (sub2ind dv path) (Double.finite 0))) conv
              = .ok (leaf path))
    ∧ (∀ data : List Bool, data.length = dv.prod →
      ∃ leaf, encode (fuel + 1) (octave_value.bool_matrix dv data) conv
          = .ok (nested_events dv leaf)
        ∧ ∀ path, valid_index dv path = true →
            encode_numeric (octave_value.bool (data.getD (sub2ind dv path) false)) conv
              = .ok (leaf path)) := by
  constructor
  · intro data hlen
    refine ⟨fun path => element_events false conv
      (data.getD (sub2ind dv path) (Double.finite 0)), ?_, ?_⟩
    · exact encode_matrix_nested fuel (octave_value.matrix dv data) conv dv data rfl rfl rfl
        hpos hchop hnv hlen
    · intro path _
      exact encode_numeric_scalar _ conv
  · intro data hlen
    refine ⟨fun path => [Event.Bool (data.getD (sub2ind dv path) false)], ?_, ?_⟩
    · have h := encode_matrix_nested fuel (octave_value.bool_matrix dv data) conv dv
        (data.map Double.of_bool) rfl rfl rfl hpos hchop hnv (by simpa using hlen)
      rw [h]
      congr 1
      apply nested_events_congr
      intro path _
      simp only [octave_value.islogical, element_events, if_true, getD_map_of_bool]
    · intro path _
      exact encode_numeric_bool _ conv

/-- The shape law at the dimensions `(2, 1, 3)`. -/
theorem encode_array_shape_witness :
    (∀ data : List Double, data.length = [2, 1, 3].prod →
      ∃ leaf, encode 1 (octave_value.matrix [2, 1, 3] data) true
          = .ok (nested_events [2, 1, 3] leaf)
        ∧ ∀ path, valid_index [2, 1, 3] path = true →
            encode_numeric
                (octave_value.scalar (data.getD (sub2ind [2, 1, 3] path) (Double.finite 0)))
                true
              = .ok (leaf path))
    ∧ (∀ data : List Bool, data.length = [2, 1, 3].prod →
      ∃ leaf, encode 1 (octave_value.bool_matrix [2, 1, 3] data) true
          = .ok (nested_events [2, 1, 3] leaf)
        ∧ ∀ path, valid_index [2, 1, 3] path = true →
            encode_numeric (octave_value.bool (data.getD (sub2ind [2, 1, 3] path) false)) true
              = .ok (leaf path)) :=
  encode_array_shape 0 true [2, 1, 3] (by decide) (by decide) (by decide)

/-- The example of the documentation: `jsonencode ([1, NaN; 3, 4])` is `[[1,null],[3,4]]`. -/
theorem encode_doc_example :
    encode 1 (octave_value.matrix [2, 2] [dbl 1, dbl 3, Double.nan, dbl 4]) true
      = .ok (JsonValue.array [.array [jint 1, .null], .array [jint 3, jint 4]]).events := by
  rfl

/-- C1 at a failing input.  The 2x2 array with the elements `-(1 - 2 ^ (-53))`, 3 (first
column) and 2, 4 (second column) is written as `[[0,2],[3,4]]`: the first element passes
the integer test of `encode_numeric` and is cut to 0.  Decoding that text gives the array
with 0 in the place of the first element. -/
theorem roundtrip_changes_element :
    encode 1 (octave_value.matrix [2, 2] [almost_minus_one, dbl 3, dbl 2, dbl 4]) true
        = .ok (JsonValue.array [.array [jint 0, jint 2], .array [jint 3, jint 4]]).events
      ∧ decode octave_iskeyword 2
          (JsonValue.array [.array [jint 0, jint 2], .array [jint 3, jint 4]]) none
        = .ok (octave_value.matrix [2, 2] [dbl 0, dbl 3, dbl 2, dbl 4])
      ∧ almost_minus_one ≠ dbl 0 := by
  refine ⟨rfl, rfl, by decide⟩

/-! ## The claims on the decoder: arrays of arrays -/

/-- C2 at a failing input.  In `[[true],[false]]` each sub-array decodes to a 1x1
`logical` value, which is a logical scalar and no `octave_bool_matrix`; the merged result
is the `double` array `[1; 0]` and not a `logical` array. -/
theorem decode_logical_singletons_merge_to_double :
    decode octave_iskeyword 1 (JsonValue.array [.bool true]) none
        = .ok (octave_value.bool_matrix [1, 1] [true])
      ∧ decode octave_iskeyword 1 (JsonValue.array [.bool false]) none
        = .ok (octave_value.bool_matrix [1, 1] [false])
      ∧ decode octave_iskeyword 2
          (JsonValue.array [.array [.bool true], .array [.bool false]]) none
        = .ok (octave_value.matrix [2, 1] [dbl 1, dbl 0]) := by
  refine ⟨rfl, rfl, rfl⟩

/-! ## The claims on the sanitizer -/

/-- C7 at a failing input.  With the style `delete`, `for#` is sanitized to the keyword
`for`, and sanitizing `for` again gives `xFor`. -/
theorem make_valid_name_not_idempotent :
    make_valid_name octave_iskeyword (bytes "for#") ⟨bytes "delete", bytes "x"⟩
        = (true, bytes "for")
      ∧ make_valid_name octave_iskeyword (bytes "for") ⟨bytes "delete", bytes "x"⟩
        = (true, bytes "xFor") := by
  decide

/-- C8.  For every name, each of the three styles and every prefix that is a valid
identifier, the name left by `make_valid_name` is a valid identifier. -/
theorem make_valid_name_valid (iskeyword : Str → Bool) (str : Str)
    (options : make_valid_name_options)
    (hstyle : options.m_replacement_style = bytes "underscore"
      ∨ options.m_replacement_style = bytes "delete"
      ∨ options.m_replacement_style = bytes "hex")
    (hp : valid_identifier options.m_prefix = true) :
    valid_identifier (make_valid_name iskeyword str options).2 = true :=
  sanitized_name_valid iskeyword str options hstyle hp

/-- The name `1#` with the style `hex` and the prefix `m_`. -/
theorem make_valid_name_valid_witness :
    valid_identifier
      (make_valid_name octave_iskeyword (bytes "1#") ⟨bytes "hex", bytes "m_"⟩).2 = true :=
  make_valid_name_valid octave_iskeyword (bytes "1#") ⟨bytes "hex", bytes "m_"⟩
    (Or.inr (Or.inr rfl)) (by decide)

/-- C9 at a failing input.  With the style `delete`, the key `for#` of a JSON object
becomes the field name `for`, a reserved keyword. -/
theorem decode_object_keyword_field :
    decode octave_iskeyword 2 (JsonValue.object [(bytes "for#", jint 1)])
        (some ⟨bytes "delete", bytes "x"⟩)
        = .ok (octave_value.of_scalar_map [(bytes "for", octave_value.scalar (dbl 1))])
      ∧ octave_iskeyword (bytes "for") = true := by
  refine ⟨rfl, by decide⟩

/-- C10.  A name that is a valid identifier and no keyword is left as it is, and the
function reports that nothing was changed. -/
theorem make_valid_name_unchanged (iskeyword : Str → Bool) (str : Str)
    (options : make_valid_name_options)
    (hvalid : valid_identifier str = true) (hkw : iskeyword str = false) :
    make_valid_name iskeyword str options = (false, str) := by
  unfold make_valid_name
  simp [hvalid, hkw]

/-- The name `number` is left unchanged. -/
theorem make_valid_name_unchanged_witness :
    make_valid_name octave_iskeyword (bytes "number") ⟨bytes "delete", bytes "x"⟩
      = (false, bytes "number") :=
  make_valid_name_unchanged octave_iskeyword (bytes "number") ⟨bytes "delete", bytes "x"⟩
    (by decide) (by decide)

/-! ## Scalars and vectors in the encoder -/

theorem of_int_small (i : Int) (h : i.natAbs < 2 ^ 53) :
    Double.of_int i = Double.finite (i * (Double.one : Int)) := by
  unfold Double.of_int round53
  rw [if_pos h]
  congr 1
  rw [Int.sign_mul_natAbs]

theorem floor_distance (n : Int) :
    Double.fabs (Double.sub (Double.floor (Double.finite n)) (Double.finite n))
      = Double.finite (n % (Double.one : Int)) := by
  have hpos : (0 : Int) < (Double.one : Int) := by decide
  have h1 := Int.ediv_add_emod n (Double.one : Int)
  have h2 := Int.emod_nonneg n (Int.ne_of_gt hpos)
  simp only [Double.floor, Double.sub, Double.fabs]
  congr 1
  have h3 : n / (Double.one : Int) * (Double.one : Int) - n = -(n % (Double.one : Int)) := by
    rw [mul_comm]; omega
  rw [h3, Int.natAbs_neg]
  exact Int.natAbs_of_nonneg h2

theorem numeric_events_finite (n : Int) (conv : Bool) :
    numeric_events (Double.finite n) conv
      = if n % (Double.one : Int) < ((1 <<< 1022 : Nat) : Int)
            ∧ n ≤ 999999 * (Double.one : Int) ∧ -999999 * (Double.one : Int) ≤ n
        then [Event.Int64 (Int.tdiv n (Double.one : Int))]
        else [Event.Double (Double.finite n)] := by
  unfold numeric_events
  rw [floor_distance, of_int_small 999999 (by decide), of_int_small (-999999) (by decide)]
  simp only [Double.lt, Double.le, Double.epsilon, Double.isfinite, Double.to_int64,
    Bool.not_true, Bool.and_false, Bool.false_eq_true, if_false, Bool.and_eq_true,
    decide_eq_true_eq, and_assoc]


theorem encode_array_vector (fuel : Nat) (obj : octave_value) (conv : Bool) (od : List Nat)
    (level : Nat) (isl0 isl : Bool) (dv : List Nat) (data : List Double)
    (hval : obj.array_value = .ok ⟨dv, data⟩)
    (hisl : (if level == 0 then obj.islogical else isl0) = isl)
    (he : dims_isempty dv = false) (hv : dims_isvector dv = true) :
    encode_array (fuel + 1) obj conv od level isl0
      = .ok ([Event.StartArray] ++ (data.map (element_events isl conv)).flatten
              ++ [Event.EndArray]) := by
  unfold encode_array
  simp only [hval, he, hv, hisl, Bool.false_eq_true, if_false, if_true, encode_element]
  rw [mapE_map_ok _ (element_events isl conv) data (fun x _ => rfl)]
  rfl

theorem count_one_of_length_two (a b : Nat) (hc : [a, b].count 1 + 1 = [a, b].length) :
    a = 1 ∨ b = 1 := by
  by_contra h
  push_neg at h
  simp [List.count_cons, h.1, h.2] at hc

/-- The top-level call of `encode` on a `double` or `logical` vector: all dimensions but
one are 1. -/
theorem encode_vector_flat (fuel : Nat) (obj : octave_value) (conv : Bool)
    (dv : List Nat) (data : List Double)
    (hobj : (obj.isnumeric || obj.islogical) = true) (hdims : obj.dims = dv)
    (hval : obj.array_value = .ok ⟨dv, data⟩)
    (h2 : 2 ≤ dv.length) (hc : dv.count 1 + 1 = dv.length) (hn : 2 ≤ dv.prod) :
    encode (fuel + 1) obj conv
      = .ok ([Event.StartArray] ++ (data.map (element_events obj.islogical conv)).flatten
              ++ [Event.EndArray]) := by
  have hne11 : dv ≠ [1, 1] := by
    rintro rfl
    simp at hn
  have hscalar : obj.is_real_scalar = false := by
    cases obj <;> simp_all [octave_value.is_real_scalar, octave_value.dims]
  have he : dims_isempty dv = false := by
    simp only [dims_isempty, dim_numel, beq_eq_false_iff_ne, ne_eq]
    omega
  unfold encode
  simp only [hscalar, hobj, Bool.false_eq_true, if_false, if_true, octave_value.ndims, hdims]
  by_cases hl : dv.length = 2
  · have hv : dims_isvector dv = true := by
      match dv, hl with
      | [a, b], _ =>
        rcases count_one_of_length_two a b hc with h | h <;> simp [dims_isvector, h]
    rw [hl]
    exact encode_array_vector 2 obj conv dv 0 false obj.islogical dv data hval (by simp) he hv
  · have hv : dims_isvector dv = false := by
      simp [dims_isvector, hl]
    have hno : (num_ones dv == dv.length - 1) = true := by
      simp only [num_ones, beq_iff_eq]
      omega
    have hrow : as_row_dims dv = [1, dv.prod] := by
      simp [as_row_dims, hl, dim_numel]
    obtain ⟨f, hf⟩ : ∃ f, dv.length = f + 1 := ⟨dv.length - 1, by omega⟩
    rw [hf]
    unfold encode_array
    simp only [hval, he, hv, hno, Bool.false_eq_true, if_false, if_true, hrow,
      bne_self_eq_false, beq_self_eq_true]
    rw [hf] at h2 hl
    obtain ⟨g, hg⟩ : ∃ g, f = g + 1 := ⟨f - 1, by omega⟩
    rw [hg]
    rw [encode_array_flat (g + 1) (octave_value.of_array ⟨[1, dv.prod], data⟩) conv dv (0 + 1)
      obj.islogical obj.islogical dv.prod data rfl (by simp) (by omega)]
    simp [except_map_ok]


theorem numeric_events_nonfinite (x : Double) (conv : Bool) (hx : x.isfinite = false) :
    numeric_events x conv = if conv then [Event.Null] else [Event.Double x] := by
  cases x with
  | finite n => simp [Double.isfinite] at hx
  | nan => cases conv <;> rfl
  | inf s => cases conv <;> cases s <;> rfl

/-- C11 (non-finite option law).  A non-finite `double` (NaN, Infinity, -Infinity) is
written as `null` when `ConvertInfAndNaN` is true and as the floating-point value itself,
never `null`, when it is false: as a scalar, as the element at its place in the flat
array written for a vector, and as the leaf at its multi-index in the nested array
written for an array with at least two dimensions other than 1. -/
theorem encode_nonfinite (fuel : Nat) (conv : Bool) :
    (∀ x : Double, x.isfinite = false →
      encode (fuel + 1) (octave_value.scalar x) conv
        = .ok (if conv then [Event.Null] else [Event.Double x]))
    ∧ (∀ (dv : List Nat) (data : List Double), 2 ≤ dv.length →
        dv.count 1 + 1 = dv.length → 2 ≤ dv.prod → data.length = dv.prod →
        ∃ parts : List (List Event),
          encode (fuel + 1) (octave_value.matrix dv data) conv
            = .ok ([Event.StartArray] ++ parts.flatten ++ [Event.EndArray])
          ∧ parts.length = data.length
          ∧ ∀ (i : Nat) (x : Double), data[i]? = some x →
              ∃ p, parts[i]? = some p
                ∧ encode_numeric (octave_value.scalar x) conv = .ok p
                ∧ (x.isfinite = false →
                    p = if conv then [Event.Null] else [Event.Double x]))
    ∧ (∀ (dv : List Nat) (data : List Double), (∀ d ∈ dv, 1 ≤ d) →
        chop_trailing_singletons dv = dv → 2 ≤ dv.countP (fun d => decide (1 < d)) →
        data.length = dv.prod →
        ∃ leaf : List Nat → List Event,
          encode (fuel + 1) (octave_value.matrix dv data) conv = .ok (nested_events dv leaf)
          ∧ ∀ (path : List Nat) (x : Double), valid_index dv path = true →
              data[sub2ind dv path]? = some x →
              encode_numeric (octave_value.scalar x) conv = .ok (leaf path)
                ∧ (x.isfinite = false →
                    leaf path = if conv then [Event.Null] else [Event.Double x])) := by
  refine ⟨?_, ?_, ?_⟩
  · intro x hx
    have h : encode (fuel + 1) (octave_value.scalar x) conv
        = encode_numeric (octave_value.scalar x) conv := rfl
    rw [h, encode_numeric_scalar, numeric_events_nonfinite x conv hx]
  · intro dv data h2 hc hn _
    refine ⟨data.map (fun x => numeric_events x conv), ?_, by rw [List.length_map], ?_⟩
    · exact encode_vector_flat fuel (octave_value.matrix dv data) conv dv data rfl rfl rfl
        h2 hc hn
    · intro i x hi
      refine ⟨numeric_events x conv, ?_, encode_numeric_scalar x conv,
        numeric_events_nonfinite x conv⟩
      rw [List.getElem?_map, hi]
      rfl
  · intro dv data hpos hchop hnv hlen
    refine ⟨fun path => numeric_events (data.getD (sub2ind dv path) (Double.finite 0)) conv,
      ?_, ?_⟩
    · exact encode_matrix_nested fuel (octave_value.matrix dv data) conv dv data rfl rfl rfl
        hpos hchop hnv hlen
    · intro path x _ hx
      have hg : data.getD (sub2ind dv path) (Double.finite 0) = x := by
        rw [List.getD_eq_getElem?_getD, hx]
        rfl
      simp only [hg]
      exact ⟨encode_numeric_scalar x conv, numeric_events_nonfinite x conv⟩

/-- The documented example: with `ConvertInfAndNaN` false, `[1, NaN; 3, 4]` is written
as `[[1,NaN],[3,4]]`; the row vector `[Inf, -Inf, NaN]` is written as three `null`s when
the option is true. -/
theorem nonfinite_doc_example :
    encode 1 (octave_value.matrix [2, 2] [dbl 1, dbl 3, Double.nan, dbl 4]) false
        = .ok (JsonValue.array [.array [jint 1, .number (.double Double.nan)],
                .array [jint 3, jint 4]]).events
      ∧ encode 1 (octave_value.matrix [1, 3] [Double.inf false, Double.inf true, Double.nan])
          true
        = .ok (JsonValue.array [.null, .null, .null]).events := by
  refine ⟨rfl, rfl⟩

/-- The scalar `Inf`, the row vector `[Inf, -Inf, NaN]` and the array `[1, NaN; 3, 4]`,
written with `ConvertInfAndNaN` true. -/
theorem encode_nonfinite_witness :
    encode 1 (octave_value.scalar (Double.inf false)) true = .ok [Event.Null]
    ∧ (∃ parts : List (List Event),
        encode 1 (octave_value.matrix [1, 3]
            [Double.inf false, Double.inf true, Double.nan]) true
          = .ok ([Event.StartArray] ++ parts.flatten ++ [Event.EndArray])
        ∧ parts.length = 3
        ∧ ∀ (i : Nat) (x : Double),
            [Double.inf false, Double.inf true, Double.nan][i]? = some x →
            ∃ p, parts[i]? = some p
              ∧ encode_numeric (octave_value.scalar x) true = .ok p
              ∧ (x.isfinite = false → p = [Event.Null]))
    ∧ (∃ leaf : List Nat → List Event,
        encode 1 (octave_value.matrix [2, 2] [dbl 1, dbl 3, Double.nan, dbl 4]) true
          = .ok (nested_events [2, 2] leaf)
        ∧ ∀ (path : List Nat) (x : Double), valid_index [2, 2] path = true →
            [dbl 1, dbl 3, Double.nan, dbl 4][sub2ind [2, 2] path]? = some x →
            encode_numeric (octave_value.scalar x) true = .ok (leaf path)
              ∧ (x.isfinite = false → leaf path = [Event.Null])) :=
  ⟨(encode_nonfinite 0 true).1 (Double.inf false) rfl,
   (encode_nonfinite 0 true).2.1 [1, 3] [Double.inf false, Double.inf true, Double.nan]
     (by decide) (by decide) (by decide) (by decide),
   (encode_nonfinite 0 true).2.2 [2, 2] [dbl 1, dbl 3, Double.nan, dbl 4]
     (by decide) (by decide) (by decide) (by decide)⟩

/-- C12 (integer-literal rule).  For the finite `double` `n * 2 ^ (-1074)`, the function
`encode_numeric` writes an integer literal exactly when the distance of the value to its
floor is below the machine epsilon `2 ^ (-52)` and the value lies between -999999 and
999999, and the value as a floating-point literal otherwise.  The values 999999 and
-999999 are written as integers, and 1000000 as a floating-point literal. -/
theorem encode_numeric_integer_rule (n : Int) (conv : Bool) :
    encode_numeric (octave_value.scalar (Double.finite n)) conv
        = .ok (if n % (Double.one : Int) < ((1 <<< 1022 : Nat) : Int)
                  ∧ n ≤ 999999 * (Double.one : Int) ∧ -999999 * (Double.one : Int) ≤ n
               then [Event.Int64 (Int.tdiv n (Double.one : Int))]
               else [Event.Double (Double.finite n)])
      ∧ encode_numeric (octave_value.scalar (dbl 999999)) conv = .ok [Event.Int64 999999]
      ∧ encode_numeric (octave_value.scalar (dbl (-999999))) conv
          = .ok [Event.Int64 (-999999)]
      ∧ encode_numeric (octave_value.scalar (dbl 1000000)) conv
          = .ok [Event.Double (dbl 1000000)] := by
  refine ⟨?_, ?_, ?_, ?_⟩
  · rw [encode_numeric_scalar, numeric_events_finite]
  · cases conv <;> rfl
  · cases conv <;> rfl
  · cases conv <;> rfl

/-! ## The dispatch of `decode_array`: lemmas -/

theorem decode_array_booleans (dec : JsonValue → Except Error octave_value)
    (val : List JsonValue) (h0 : val ≠ []) (h : ∀ e ∈ val, e.IsBool = true) :
    decode_array dec val
      = .ok (octave_value.bool_matrix [val.length, 1] (val.map JsonValue.GetBool)) := by
  cases val with
  | nil => exact absurd rfl h0
  | cons val0 rest =>
    have hb : ∀ e ∈ val0 :: rest,
        e.GetType = JType.kTrueType ∨ e.GetType = JType.kFalseType := by
      intro e he
      have := h e he
      simpa [JsonValue.IsBool] using this
    have h00 := hb val0 (List.mem_cons_self _ _)
    have hnum : (val0 :: rest).all null_or_number = false := by
      rcases h00 with h00 | h00 <;> simp [null_or_number, h00]
    have hsame : (val0 :: rest).all (same_json_type val0.GetType) = true := by
      rw [List.all_eq_true]
      intro e he
      rcases hb e he with h1 | h1 <;> rcases h00 with h00 | h00 <;>
        simp [same_json_type, h1, h00]
    have hmap : mapE (fun e : JsonValue =>
        if e.IsBool then (.ok e.GetBool : Except Error Bool) else .error .invalid_conversion)
        (val0 :: rest) = .ok ((val0 :: rest).map JsonValue.GetBool) := by
      apply mapE_map_ok
      intro e he
      simp [h e he]
    simp only [decode_array, scan_types_eq, hnum, hsame]
    rcases h00 with h00 | h00 <;>
      simp [h00, decode_boolean_array, hmap, except_map_ok]

theorem decode_array_mixed (dec : JsonValue → Except Error octave_value)
    (val : List JsonValue)
    (h : (val ≠ [] ∧ ∀ e ∈ val, e.GetType = JType.kStringType)
      ∨ (val.all null_or_number = false
          ∧ ∃ a ∈ val, ∃ b ∈ val, same_json_type a.GetType b = false)) :
    decode_array dec val = decode_string_and_mixed_array dec val := by
  cases val with
  | nil =>
    rcases h with ⟨h0, -⟩ | ⟨-, a, ha, -⟩
    · exact absurd rfl h0
    · simp at ha
  | cons val0 rest =>
    rcases h with ⟨-, hs⟩ | ⟨hnum, a, ha, b, hb, hab⟩
    · have h00 := hs val0 (List.mem_cons_self _ _)
      have hnum : (val0 :: rest).all null_or_number = false := by
        simp [null_or_number, h00]
      simp [decode_array, scan_types_eq, hnum, h00]
    · have hsame : (val0 :: rest).all (same_json_type val0.GetType) = false := by
        by_contra hc
        rw [Bool.not_eq_false, List.all_eq_true] at hc
        have h1 := hc a ha
        have h2 := hc b hb
        revert h1 h2 hab
        unfold same_json_type
        cases val0.GetType <;> cases a.GetType <;> cases b.GetType <;> simp
      simp [decode_array, scan_types_eq, hnum, hsame]

theorem sub_array_mismatch_dims (is_bool is_struct : Bool) (names : List Str) (S : List Nat)
    (x : octave_value) (h : x.dims ≠ S) :
    sub_array_mismatch is_bool is_struct names S x = .ok true := by
  unfold sub_array_mismatch
  by_cases hc : x.iscell = true
  · simp [hc]
  · simp [hc, h]

theorem sub_array_mismatch_ok (is_bool is_struct : Bool) (names : List Str) (S : List Nat)
    (x : octave_value) : ∃ b, sub_array_mismatch is_bool is_struct names S x = .ok b := by
  unfold sub_array_mismatch
  split_ifs with h1 h2 h3 h4 h5
  · exact ⟨_, rfl⟩
  · exact ⟨_, rfl⟩
  · exact ⟨_, rfl⟩
  · exact ⟨_, rfl⟩
  · cases x with
    | map d f => exact ⟨_, rfl⟩
    | matrix d f => simp [octave_value.isstruct, h5] at h4
    | bool_matrix d f => simp [octave_value.isstruct, h5] at h4
    | char_matrix d f => simp [octave_value.isstruct, h5] at h4
    | cell d f => simp [octave_value.isstruct, h5] at h4
  · exact ⟨_, rfl⟩

theorem any_sub_array_mismatch_dims (is_bool is_struct : Bool) (names : List Str)
    (S : List Nat) (l : List octave_value) (h : ∃ x ∈ l, x.dims ≠ S) :
    any_sub_array_mismatch is_bool is_struct names S l = .ok true := by
  induction l with
  | nil =>
    obtain ⟨x, hx, -⟩ := h
    simp at hx
  | cons v rest ih =>
    obtain ⟨b, hb⟩ := sub_array_mismatch_ok is_bool is_struct names S v
    rw [any_sub_array_mismatch, hb]
    cases b with
    | true => rfl
    | false =>
      obtain ⟨x, hx, hd⟩ := h
      rcases List.mem_cons.mp hx with rfl | hx
      · rw [sub_array_mismatch_dims _ _ _ _ _ hd] at hb
        simp at hb
      · exact ih ⟨x, hx, hd⟩

theorem decode_array_of_arrays_cell (dec : JsonValue → Except Error octave_value)
    (val : List JsonValue) (vs : List octave_value)
    (hmap : mapE dec val = .ok vs) (hd : ∃ a ∈ vs, ∃ b ∈ vs, a.dims ≠ b.dims) :
    decode_array_of_arrays dec val = .ok (octave_value.cell [val.length, 1] vs) := by
  cases vs with
  | nil =>
    obtain ⟨a, ha, -⟩ := hd
    simp at ha
  | cons v0 rest =>
    have hx : ∃ x ∈ v0 :: rest, x.dims ≠ v0.dims := by
      obtain ⟨a, ha, b, hb, hab⟩ := hd
      by_cases h1 : a.dims = v0.dims
      · exact ⟨b, hb, fun h2 => hab (h1.trans h2.symm)⟩
      · exact ⟨a, ha, h1⟩
    unfold decode_array_of_arrays
    simp only [decode_string_and_mixed_array, hmap, except_map_ok, Except.bind,
      octave_value.of_cell, octave_value.cell_value, except_bind_ok, elem,
      List.getElem?_cons_zero]
    simp only [bind, Except.bind, any_sub_array_mismatch_dims _ _ _ _ _ hx, if_true]
    cases v0 <;> simp [octave_value.isstruct, octave_value.map_value, Except.map]

theorem forall₂_mapE {α β : Type} (f : α → Except Error β) (xs : List α) (ys : List β)
    (h : List.Forall₂ (fun x y => f x = .ok y) xs ys) : mapE f xs = .ok ys :=
  (mapE_ok_iff f xs ys).mpr h

theorem forall₂_getElem {α β : Type} (R : α → β → Prop) (xs : List α) (ys : List β)
    (h : List.Forall₂ R xs ys) (k : Nat) (x : α) (hk : xs[k]? = some x) :
    ∃ y, ys[k]? = some y ∧ R x y := by
  induction h generalizing k with
  | nil => simp at hk
  | @cons a b as bs h1 _ ih =>
    cases k with
    | zero =>
      simp only [List.getElem?_cons_zero, Option.some.injEq] at hk
      subst hk
      exact ⟨b, by simp, h1⟩
    | succ k =>
      simp only [List.getElem?_cons_succ] at hk ⊢
      exact ih k hk

/-! ## The claims on the dispatch of `decode_array` -/

/-- C15.  When the elements of a JSON array are arrays and two of them decode to values
of different dimensions, the array decodes to the cell of dimensions `(n, 1)` whose
`k`-th element is the decoded `k`-th sub-array. -/
theorem decode_array_of_arrays_different_dims (iskeyword : Str → Bool) (fuel : Nat)
    (options : Option make_valid_name_options) (val : List JsonValue)
    (vs : List octave_value)
    (harr : ∀ e ∈ val, e.GetType = JType.kArrayType)
    (hdec : List.Forall₂ (fun e v => decode iskeyword fuel e options = .ok v) val vs)
    (hdims : ∃ a ∈ vs, ∃ b ∈ vs, a.dims ≠ b.dims) :
    decode iskeyword (fuel + 1) (.array val) options
      = .ok (octave_value.cell [val.length, 1] vs) := by
  have hne : val ≠ [] := by
    rintro rfl
    cases hdec
    obtain ⟨a, ha, -⟩ := hdims
    simp at ha
  rw [decode_succ_array, decode_array_arrays _ _ hne harr]
  exact decode_array_of_arrays_cell _ val vs (forall₂_mapE _ _ _ hdec) hdims

/-- The array `[[1,2],[3,4,5]]` decodes to the cell of the `double` arrays `[1; 2]` and
`[3; 4; 5]`, of dimensions `(2, 1)` and `(3, 1)`. -/
theorem decode_array_of_arrays_different_dims_witness :
    decode octave_iskeyword 2
        (.array [.array [jint 1, jint 2], .array [jint 3, jint 4, jint 5]]) none
      = .ok (octave_value.cell [2, 1]
          [octave_value.matrix [2, 1] [dbl 1, dbl 2],
           octave_value.matrix [3, 1] [dbl 3, dbl 4, dbl 5]]) :=
  decode_array_of_arrays_different_dims octave_iskeyword 1 none
    [.array [jint 1, jint 2], .array [jint 3, jint 4, jint 5]]
    [octave_value.matrix [2, 1] [dbl 1, dbl 2],
     octave_value.matrix [3, 1] [dbl 3, dbl 4, dbl 5]]
    (by simp [JsonValue.GetType])
    (List.Forall₂.cons rfl (List.Forall₂.cons rfl List.Forall₂.nil))
    ⟨_, List.mem_cons_self _ _, _, List.mem_cons_of_mem _ (List.mem_cons_self _ _),
      by simp [octave_value.dims]⟩

/-- C16.  A non-empty JSON array of strings only, or an array that is not made of numbers
and `null`s only and has two elements of different types (`true` and `false` being one
type), decodes to the cell of dimensions `(n, 1)` whose `k`-th element is the decoded
`k`-th element. -/
theorem decode_string_or_mixed_array (iskeyword : Str → Bool) (fuel : Nat)
    (options : Option make_valid_name_options) (val : List JsonValue)
    (vs : List octave_value)
    (hkind : (val ≠ [] ∧ ∀ e ∈ val, e.GetType = JType.kStringType)
      ∨ (val.all null_or_number = false
          ∧ ∃ a ∈ val, ∃ b ∈ val, same_json_type a.GetType b = false))
    (hdec : List.Forall₂ (fun e v => decode iskeyword fuel e options = .ok v) val vs) :
    decode iskeyword (fuel + 1) (.array val) options
      = .ok (octave_value.cell [val.length, 1] vs) := by
  rw [decode_succ_array, decode_array_mixed _ val hkind]
  unfold decode_string_and_mixed_array
  rw [forall₂_mapE _ _ _ hdec]
  rfl

/-- The documented example: `["foo", "bar", ["foo", "bar"]]` decodes to the cell
`{foo; bar; {foo; bar}}`. -/
theorem decode_string_or_mixed_array_witness :
    decode octave_iskeyword 3
        (.array [.string (bytes "foo"), .string (bytes "bar"),
          .array [.string (bytes "foo"), .string (bytes "bar")]]) none
      = .ok (octave_value.cell [3, 1]
          [octave_value.string (bytes "foo"), octave_value.string (bytes "bar"),
           octave_value.cell [2, 1]
             [octave_value.string (bytes "foo"), octave_value.string (bytes "bar")]]) :=
  decode_string_or_mixed_array octave_iskeyword 2 none
    [.string (bytes "foo"), .string (bytes "bar"),
      .array [.string (bytes "foo"), .string (bytes "bar")]]
    [octave_value.string (bytes "foo"), octave_value.string (bytes "bar"),
     octave_value.cell [2, 1]
       [octave_value.string (bytes "foo"), octave_value.string (bytes "bar")]]
    (Or.inr ⟨by decide, _, List.mem_cons_self _ _, _,
      List.mem_cons_of_mem _ (List.mem_cons_of_mem _ (List.mem_cons_self _ _)), by decide⟩)
    (List.Forall₂.cons rfl (List.Forall₂.cons rfl (List.Forall₂.cons rfl List.Forall₂.nil)))

/-- C17.  A non-empty JSON array whose elements are all `true` or `false` decodes to the
`logical` array of dimensions `(n, 1)` that holds the truth values in order. -/
theorem decode_boolean_array_logical (iskeyword : Str → Bool) (fuel : Nat)
    (options : Option make_valid_name_options) (val : List JsonValue)
    (hne : val ≠ []) (hbool : ∀ e ∈ val, e.IsBool = true) :
    decode iskeyword (fuel + 1) (.array val) options
      = .ok (octave_value.bool_matrix [val.length, 1] (val.map JsonValue.GetBool)) := by
  rw [decode_succ_array]
  exact decode_array_booleans _ val hne hbool

/-- The array `[true, false, true]` decodes to the `logical` array `[1; 0; 1]`. -/
theorem decode_boolean_array_logical_witness :
    decode octave_iskeyword 1 (.array [.bool true, .bool false, .bool true]) none
      = .ok (octave_value.bool_matrix [3, 1] [true, false, true]) :=
  decode_boolean_array_logical octave_iskeyword 0 none
    [.bool true, .bool false, .bool true] (by simp) (by decide)

/-- C18.  `null` decodes to the empty 0x0 `double` array, at the top level and as an
element of an array that is not made of numbers and `null`s only (which decodes to a
cell); the empty JSON array decodes to the empty 0x0 `double` array too. -/
theorem decode_null_empty (iskeyword : Str → Bool) (fuel : Nat)
    (options : Option make_valid_name_options) :
    decode iskeyword (fuel + 1) .null options = .ok (octave_value.matrix [0, 0] [])
    ∧ decode iskeyword (fuel + 1) (.array []) options = .ok (octave_value.matrix [0, 0] [])
    ∧ ∀ (val : List JsonValue) (vs : List octave_value),
        JsonValue.null ∈ val → val.all null_or_number = false →
        List.Forall₂ (fun e v => decode iskeyword (fuel + 1) e options = .ok v) val vs →
        decode iskeyword (fuel + 2) (.array val) options
            = .ok (octave_value.cell [val.length, 1] vs)
          ∧ ∀ k : Nat, val[k]? = some JsonValue.null →
              vs[k]? = some (octave_value.matrix [0, 0] []) := by
  refine ⟨rfl, rfl, ?_⟩
  intro val vs hnull hnum hdec
  constructor
  · have hex : ∃ b ∈ val, null_or_number b = false := by
      by_contra hc
      push_neg at hc
      have : val.all null_or_number = true := by
        rw [List.all_eq_true]
        intro e he
        simpa using hc e he
      rw [this] at hnum
      exact absurd hnum (by simp)
    obtain ⟨b, hb, hbn⟩ := hex
    have hmixed := decode_array_mixed (fun v => decode iskeyword (fuel + 1) v options) val
      (Or.inr ⟨hnum, JsonValue.null, hnull, b, hb, by
        revert hbn
        unfold null_or_number same_json_type
        cases b.GetType <;> simp [JsonValue.GetType]⟩)
    rw [decode_succ_array, hmixed]
    unfold decode_string_and_mixed_array
    rw [forall₂_mapE _ _ _ hdec]
    rfl
  · intro k hk
    obtain ⟨y, hy, hdy⟩ := forall₂_getElem _ val vs hdec k _ hk
    have h2 : decode iskeyword (fuel + 1) .null options
        = .ok (octave_value.matrix [0, 0] []) := rfl
    rw [h2] at hdy
    injection hdy with hdy
    rw [hy, hdy]

/-- The array `[null, "a"]` decodes to the cell that holds the empty 0x0 array and the
string `a`. -/
theorem decode_null_empty_witness :
    decode octave_iskeyword 2 (.array [.null, .string (bytes "a")]) none
        = .ok (octave_value.cell [2, 1]
            [octave_value.matrix [0, 0] [], octave_value.string (bytes "a")])
      ∧ ∀ k : Nat, [JsonValue.null, JsonValue.string (bytes "a")][k]? = some JsonValue.null →
          [octave_value.matrix [0, 0] [], octave_value.string (bytes "a")][k]?
            = some (octave_value.matrix [0, 0] []) :=
  (decode_null_empty octave_iskeyword 0 none).2.2
    [.null, .string (bytes "a")]
    [octave_value.matrix [0, 0] [], octave_value.string (bytes "a")]
    (List.mem_cons_self _ _) (by decide)
    (List.Forall₂.cons rfl (List.Forall₂.cons rfl List.Forall₂.nil))

/-! ## Struct arrays in the encoder -/

theorem lookup_of_mem_nodup {β : Type} (fields : List (Str × β))
    (hnd : (fields.map Prod.fst).Nodup) (f : Str × β) (hf : f ∈ fields) :
    fields.lookup f.1 = some f.2 := by
  induction fields with
  | nil => simp at hf
  | cons g rest ih =>
    obtain ⟨k, c⟩ := g
    simp only [List.map_cons, List.nodup_cons] at hnd
    rcases List.mem_cons.mp hf with rfl | hf
    · simp [List.lookup]
    · have hne : f.1 ≠ k := by
        intro h
        apply hnd.1
        rw [← h]
        exact List.mem_map_of_mem Prod.fst hf
      have hb : (f.1 == k) = false := by simpa using hne
      simp only [List.lookup, hb]
      exact ih hnd.2 hf

/-- The function `encode_struct` on a struct array of any dimensions: one object per
element, in the order of the flat index, within one array when there is more than one
element. -/
theorem encode_struct_events (enc : octave_value → Except Error (List Event))
    (dv : List Nat) (fields : List (Str × List octave_value))
    (ev : octave_value → List Event)
    (hnd : (fields.map Prod.fst).Nodup)
    (hlen : ∀ f ∈ fields, f.2.length = dv.prod)
    (henc : ∀ f ∈ fields, ∀ v ∈ f.2, enc v = .ok (ev v)) :
    encode_struct enc (octave_value.map dv fields)
      = .ok ((if dv.prod > 1 then [Event.StartArray] else [])
              ++ ((List.range dv.prod).map (object_events ev fields)).flatten
              ++ (if dv.prod > 1 then [Event.EndArray] else [])) := by
  unfold encode_struct
  simp only [octave_value.map_value, dim_numel]
  rw [mapE_map_ok _ (object_events ev fields)]
  · simp only [except_map_ok, gt_iff_lt, decide_eq_true_eq]
  · intro i hi
    have hi1 : i < dv.prod := List.mem_range.mp hi
    simp only [octave_map.fieldnames]
    rw [mapE_map_ok _ (fun k => Event.Key (c_string k)
      :: ev (((fields.lookup k).getD []).getD i (octave_value.matrix [0, 0] [])))]
    · simp only [except_map_ok, object_events, List.map_map]
      congr 4
      apply List.map_congr_left
      intro f hf
      simp only [Function.comp, lookup_of_mem_nodup fields hnd f hf, Option.getD_some]
    · intro k hk
      obtain ⟨f, hf, rfl⟩ := List.mem_map.mp hk
      have hl := hlen f hf
      have hget : f.2[i]? = some f.2[i] := List.getElem?_eq_getElem (by omega)
      have hmem : f.2[i] ∈ f.2 := List.getElem_mem _
      simp only [octave_map.getfield, lookup_of_mem_nodup fields hnd f hf, Except.bind, elem,
        hget, henc f hf _ hmem, except_map_ok, List.getD_eq_getElem?_getD, Option.getD_some]

/-- C19 as stated, at a field name with a NUL byte.  The scalar struct with the one
field `a\0b` is written with the key `a`: `writer.Key` receives the name as a C string,
which ends at the first NUL byte. -/
theorem encode_struct_key_cut :
    encode 2 (octave_value.of_scalar_map [([97, 0, 98], octave_value.scalar (dbl 1))]) true
        = .ok [Event.StartObject, Event.Key [97], Event.Int64 1, Event.EndObject]
      ∧ Event.Key [97] ≠ Event.Key [97, 0, 98] := by
  refine ⟨rfl, by decide⟩

/-- C19, amended.  For a scalar struct `encode` writes one JSON object: for each field, in
field order, the key (the field name up to its first NUL byte, with no sanitization)
followed by the events of the value of the field.  For a struct vector with more than
one element it writes one JSON array that holds one such object per element, in order. -/
theorem encode_struct_objects (fuel : Nat) (conv : Bool) (dv : List Nat)
    (fields : List (Str × List octave_value)) (ev : octave_value → List Event)
    (_hvec : dims_isvector dv = true) (hnum : 1 ≤ dv.prod)
    (hnd : (fields.map Prod.fst).Nodup)
    (hlen : ∀ f ∈ fields, f.2.length = dv.prod)
    (henc : ∀ f ∈ fields, ∀ v ∈ f.2, encode fuel v conv = .ok (ev v)) :
    encode (fuel + 1) (octave_value.map dv fields) conv
      = .ok (if dv.prod = 1 then object_events ev fields 0
             else [Event.StartArray]
                    ++ ((List.range dv.prod).map (object_events ev fields)).flatten
                    ++ [Event.EndArray]) := by
  have h : encode (fuel + 1) (octave_value.map dv fields) conv
      = encode_struct (fun v => encode fuel v conv) (octave_value.map dv fields) := rfl
  rw [h, encode_struct_events _ dv fields ev hnd hlen henc]
  by_cases h1 : dv.prod = 1
  · have h2 : List.range 1 = [0] := rfl
    simp [h1, h2]
  · have h3 : dv.prod > 1 := by omega
    simp [h1, h3]

/-- The documented example: `struct ('structarray', struct ('a', {1; 3}, 'b', {2; 4}))`
is written as `{"structarray":[{"a":1,"b":2},{"a":3,"b":4}]}`. -/
theorem encode_struct_objects_witness :
    encode 3 (octave_value.of_scalar_map [(bytes "structarray", doc_struct_array)]) true
      = .ok (JsonValue.object [(bytes "structarray",
          .array [.object [(bytes "a", jint 1), (bytes "b", jint 2)],
                  .object [(bytes "a", jint 3), (bytes "b", jint 4)]])]).events :=
  (encode_struct_objects 2 true [1, 1] [(bytes "structarray", [doc_struct_array])]
    (fun _ => (JsonValue.array [.object [(bytes "a", jint 1), (bytes "b", jint 2)],
                  .object [(bytes "a", jint 3), (bytes "b", jint 4)]]).events)
    (by decide) (by decide) (by decide) (by decide)
    (by
      intro f hf v hv
      simp only [List.mem_singleton] at hf
      subst hf
      simp only [List.mem_singleton] at hv
      subst hv
      rfl)).trans rfl

/-- C20 at a failing input.  The 2x2 struct array `struct ('a', {1, 2; 3, 4})` is written
as the flat array `[{"a":1},{"a":3},{"a":2},{"a":4}]` of its four elements, with no
nesting, and that text decodes to a struct array of dimensions `(4, 1)`. -/
theorem encode_struct_matrix_flat :
    encode 2 (octave_value.map [2, 2]
        [(bytes "a", [octave_value.scalar (dbl 1), octave_value.scalar (dbl 3),
                      octave_value.scalar (dbl 2), octave_value.scalar (dbl 4)])]) true
        = .ok flat_objects.events
      ∧ decode octave_iskeyword 3 flat_objects none
        = .ok (octave_value.map [4, 1]
            [(bytes "a", [octave_value.scalar (dbl 1), octave_value.scalar (dbl 3),
                          octave_value.scalar (dbl 2), octave_value.scalar (dbl 4)])]) := by
  refine ⟨rfl, rfl⟩

/-! ## The round trip of vectors -/

theorem events_of_elems_map {α : Type} (f : α → JsonValue) (l : List α) :
    events_of_elems (l.map f) = (l.map (fun x => (f x).events)).flatten := by
  induction l with
  | nil => simp [events_of_elems]
  | cons x xs ih => simp [events_of_elems, ih]

theorem json_of_double_events (x : Double) (conv : Bool) :
    (json_of_double x conv).events = numeric_events x conv := by
  unfold json_of_double numeric_events
  split_ifs <;> simp [JsonValue.events]

theorem json_of_double_value (x : Double) (conv : Bool) (hx : written_exactly x = true) :
    (json_of_double x conv = JsonValue.null
      ∨ ∃ n, json_of_double x conv = JsonValue.number n ∧ n.valid = true)
    ∧ element_value (json_of_double x conv) = read_back conv x := by
  cases x with
  | nan =>
    cases conv
    · exact ⟨Or.inr ⟨_, rfl, rfl⟩, rfl⟩
    · exact ⟨Or.inl rfl, rfl⟩
  | inf s =>
    cases conv <;> cases s
    · exact ⟨Or.inr ⟨_, rfl, rfl⟩, rfl⟩
    · exact ⟨Or.inr ⟨_, rfl, rfl⟩, rfl⟩
    · exact ⟨Or.inl rfl, rfl⟩
    · exact ⟨Or.inl rfl, rfl⟩
  | finite n =>
    have hpos : (0 : Int) < (Double.one : Int) := by decide
    unfold json_of_double read_back
    rw [floor_distance, of_int_small 999999 (by decide), of_int_small (-999999) (by decide)]
    simp only [Double.lt, Double.le, Double.epsilon, Double.isfinite, Double.to_int64,
      Bool.not_true, Bool.and_false, Bool.false_eq_true, if_false, Bool.and_eq_true,
      decide_eq_true_eq]
    split_ifs with h
    · obtain ⟨⟨h1, h2⟩, h3⟩ := h
      simp only [written_exactly, Bool.or_eq_true, decide_eq_true_eq] at hx
      have h0 : n % (Double.one : Int) = 0 := by
        rcases hx with hx | hx
        · exact hx
        · omega
      have hdvd : (Double.one : Int) ∣ n := Int.dvd_of_emod_eq_zero h0
      obtain ⟨q, hq⟩ := hdvd
      have htd : Int.tdiv n (Double.one : Int) = q := by
        rw [hq, Int.mul_tdiv_cancel_left _ (Int.ne_of_gt hpos)]
      rw [htd]
      have hq1 : q ≤ 999999 := by
        by_contra hc
        have : (999999 + 1) * (Double.one : Int) ≤ q * (Double.one : Int) :=
          Int.mul_le_mul_of_nonneg_right (by omega) (Int.le_of_lt hpos)
        rw [hq, mul_comm] at h2
        linarith
      have hq2 : -999999 ≤ q := by
        by_contra hc
        have : q * (Double.one : Int) ≤ (-999999 - 1) * (Double.one : Int) :=
          Int.mul_le_mul_of_nonneg_right (by omega) (Int.le_of_lt hpos)
        rw [hq, mul_comm] at h3
        linarith
      refine ⟨Or.inr ⟨_, rfl, ?_⟩, ?_⟩
      · simp only [JNumber.valid, Bool.and_eq_true, decide_eq_true_eq]
        constructor <;> omega
      · simp only [element_value, number_value]
        rw [of_int_small q (by omega), hq, mul_comm]
    · exact ⟨Or.inr ⟨_, rfl, rfl⟩, rfl⟩


/-- C14 as stated, at a vector with an infinite element.  With `ConvertInfAndNaN` true
the row vector `[Inf, 2]` is written as `[null,2]`, which decodes to `[NaN; 2]`: the
first element is not the original one. -/
theorem infinity_read_back_as_nan :
    encode 1 (octave_value.matrix [1, 2] [Double.inf false, dbl 2]) true
        = .ok (JsonValue.array [.null, jint 2]).events
      ∧ decode octave_iskeyword 1 (JsonValue.array [.null, jint 2]) none
        = .ok (octave_value.matrix [2, 1] [Double.nan, dbl 2])
      ∧ Double.inf false ≠ Double.nan := by
  refine ⟨rfl, rfl, by decide⟩

/-- C14, amended.  For a `double` vector with `n >= 2` elements (one dimension is `n`,
all others are 1) whose elements are integers, or differ from their floor by the machine
epsilon or more, or are not finite, `encode` writes one flat JSON array of the `n`
encoded elements in order, and decoding it gives the `double` array of dimensions
`(n, 1)` that holds in order the same elements, except that a non-finite element comes
back as `NaN` when `ConvertInfAndNaN` is true. -/
theorem vector_roundtrip (iskeyword : Str → Bool) (fuel fuel1 : Nat)
    (options : Option make_valid_name_options) (conv : Bool)
    (dv : List Nat) (data : List Double)
    (h2 : 2 ≤ dv.length) (hc : dv.count 1 + 1 = dv.length) (hn : 2 ≤ dv.prod)
    (hlen : data.length = dv.prod) (hx : ∀ x ∈ data, written_exactly x = true) :
    ∃ elems : List JsonValue,
      encode (fuel + 1) (octave_value.matrix dv data) conv
          = .ok (JsonValue.array elems).events
        ∧ List.Forall₂ (fun x e => encode_numeric (octave_value.scalar x) conv = .ok e.events)
            data elems
        ∧ decode iskeyword (fuel1 + 1) (JsonValue.array elems) options
          = .ok (octave_value.matrix [dv.prod, 1] (data.map (read_back conv))) := by
  refine ⟨data.map (fun x => json_of_double x conv), ?_, ?_, ?_⟩
  · rw [encode_vector_flat fuel (octave_value.matrix dv data) conv dv data rfl rfl rfl h2 hc hn]
    have he : element_events false conv = fun x => numeric_events x conv := by
      funext x
      simp [element_events]
    simp only [JsonValue.events, events_of_elems_map, json_of_double_events,
      octave_value.islogical, he]
  · rw [List.forall₂_map_right_iff]
    apply List.forall₂_same.mpr
    intro x _
    rw [encode_numeric_scalar, json_of_double_events]
  · rw [decode_succ_array, decode_array_numeric]
    · simp only [List.length_map, List.map_map, hlen]
      congr 2
      apply List.map_congr_left
      intro x hxm
      exact (json_of_double_value x conv (hx x hxm)).2
    · intro h
      have h3 := congrArg List.length h
      simp only [List.length_map, List.length_nil] at h3
      omega
    · intro e he
      obtain ⟨x, hxm, rfl⟩ := List.mem_map.mp he
      exact (json_of_double_value x conv (hx x hxm)).1

/-- The array `ones (1, 1, 3)` with the elements `1.5`, `-Inf`, `7`, written with
`ConvertInfAndNaN` false. -/
theorem vector_roundtrip_witness :
    ∃ elems : List JsonValue,
      encode 1 (octave_value.matrix [1, 1, 3]
          [Double.finite (3 * (1 <<< 1073 : Nat)), Double.inf true, dbl 7]) false
          = .ok (JsonValue.array elems).events
        ∧ List.Forall₂
            (fun x e => encode_numeric (octave_value.scalar x) false = .ok e.events)
            [Double.finite (3 * (1 <<< 1073 : Nat)), Double.inf true, dbl 7] elems
        ∧ decode octave_iskeyword 1 (JsonValue.array elems) none
          = .ok (octave_value.matrix [[1, 1, 3].prod, 1]
              ([Double.finite (3 * (1 <<< 1073 : Nat)), Double.inf true, dbl 7].map
                (read_back false))) :=
  vector_roundtrip octave_iskeyword 0 0 none false [1, 1, 3]
    [Double.finite (3 * (1 <<< 1073 : Nat)), Double.inf true, dbl 7]
    (by decide) (by decide) (by decide) (by decide) (by decide)

/-! ## Totality of the decoder: arrays of arrays -/

theorem sub_array_mismatch_false (is_bool is_struct : Bool) (names : List Str) (S : List Nat)
    (x : octave_value) (h : sub_array_mismatch is_bool is_struct names S x = .ok false) :
    x.iscell = false ∧ x.dims = S ∧ S ≠ [0, 0] ∧ x.is_bool_matrix = is_bool
      ∧ x.isstruct = is_struct
      ∧ (is_struct = true → ∃ m, x.map_value = .ok m ∧ names = m.fieldnames) := by
  unfold sub_array_mismatch at h
  split_ifs at h with h1 h2 h3 h4 h5
  · simp at h
  · simp at h
  · simp at h
  · simp at h
  · push_neg at h2
    simp only [ne_eq, Decidable.not_not] at h3 h4
    refine ⟨by simpa using h1, h2.1, h2.2, h3, h4, fun _ => ?_⟩
    cases hm : x.map_value with
    | error e => rw [hm] at h; simp at h
    | ok m =>
      rw [hm] at h
      simp only [Except.ok.injEq, decide_eq_false_iff_not, ne_eq, Decidable.not_not] at h
      exact ⟨m, rfl, h⟩
  · push_neg at h2
    simp only [ne_eq, Decidable.not_not] at h3 h4
    refine ⟨by simpa using h1, h2.1, h2.2, h3, h4, fun hs => absurd hs h5⟩

theorem any_sub_array_mismatch_ok (is_bool is_struct : Bool) (names : List Str)
    (S : List Nat) (l : List octave_value) :
    any_sub_array_mismatch is_bool is_struct names S l = .ok true
      ∨ (any_sub_array_mismatch is_bool is_struct names S l = .ok false
          ∧ ∀ x ∈ l, sub_array_mismatch is_bool is_struct names S x = .ok false) := by
  induction l with
  | nil => exact Or.inr ⟨rfl, fun x hx => by simp at hx⟩
  | cons v rest ih =>
    obtain ⟨b, hb⟩ := sub_array_mismatch_ok is_bool is_struct names S v
    rw [any_sub_array_mismatch, hb]
    cases b with
    | true => exact Or.inl rfl
    | false =>
      rcases ih with ih | ⟨ih1, ih2⟩
      · exact Or.inl ih
      · refine Or.inr ⟨ih1, ?_⟩
        intro x hx
        rcases List.mem_cons.mp hx with rfl | hx
        · exact hb
        · exact ih2 x hx


theorem lookup_of_mem_keys {β : Type} (l : List (Str × β)) (k : Str)
    (h : k ∈ l.map Prod.fst) : ∃ c, l.lookup k = some c ∧ (k, c) ∈ l := by
  induction l with
  | nil => simp at h
  | cons g rest ih =>
    obtain ⟨k1, c1⟩ := g
    by_cases hk : k = k1
    · subst hk
      exact ⟨c1, by simp [List.lookup], List.mem_cons_self _ _⟩
    · have hb : (k == k1) = false := by simpa using hk
      have h1 : k ∈ rest.map Prod.fst := by
        simp only [List.map_cons, List.mem_cons] at h
        rcases h with h | h
        · exact absurd h hk
        · exact h
      obtain ⟨c, hc1, hc2⟩ := ih h1
      exact ⟨c, by simp only [List.lookup, hb, hc1], List.mem_cons_of_mem _ hc2⟩

theorem setfield_cells_mem (fs : List (Str × List octave_value)) (k : Str)
    (c : List octave_value) :
    setfield_cells fs k c ≠ [] ∧ ∀ kv ∈ setfield_cells fs k c, kv.2 = c ∨ kv ∈ fs := by
  induction fs with
  | nil => simp [setfield_cells]
  | cons g rest ih =>
    obtain ⟨k1, c1⟩ := g
    unfold setfield_cells
    by_cases hk : k1 = k
    · simp only [hk, if_true]
      refine ⟨by simp, ?_⟩
      intro kv hkv
      rcases List.mem_cons.mp hkv with rfl | hkv
      · exact Or.inl rfl
      · exact Or.inr (List.mem_cons_of_mem _ hkv)
    · simp only [hk, if_false]
      refine ⟨by simp, ?_⟩
      intro kv hkv
      rcases List.mem_cons.mp hkv with rfl | hkv
      · exact Or.inr (List.mem_cons_self _ _)
      · rcases ih.2 kv hkv with h | h
        · exact Or.inl h
        · exact Or.inr (List.mem_cons_of_mem _ h)

theorem populate_field_ok (cell : List octave_value) (name : Str) (M : Nat)
    (value : List octave_value)
    (hcell : ∀ x ∈ cell, ∃ d f, x = octave_value.map d f ∧ name ∈ f.map Prod.fst
      ∧ ∀ kv ∈ f, kv.2.length = M)
    (hvalue : value.length = cell.length * M) :
    ∃ value1, populate_field cell name cell.length M value = .ok value1
      ∧ value1.length = value.length := by
  have hk : ∀ k, k < cell.length → ∃ c, M ≤ c.length
      ∧ ((elem cell k).bind octave_value.map_value).bind (fun m => m.getfield name)
          = .ok c := by
    intro k hk
    obtain ⟨d, f, hx, hn, hl⟩ := hcell cell[k] (List.getElem_mem _)
    obtain ⟨c, hc1, hc2⟩ := lookup_of_mem_keys f name hn
    refine ⟨c, Nat.le_of_eq (hl _ hc2).symm, ?_⟩
    simp only [elem, List.getElem?_eq_getElem hk, hx, Except.bind, octave_value.map_value,
      octave_map.getfield, hc1]
  obtain ⟨a1, h1, h2, -, -⟩ := populate_outer_spec
    (fun k a =>
      match ((elem cell k).bind octave_value.map_value).bind (fun m => m.getfield name) with
      | .error e => .error e
      | .ok sub_array_value => populate_inner sub_array_value k cell.length M a)
    (fun k =>
      match ((elem cell k).bind octave_value.map_value).bind (fun m => m.getfield name) with
      | .error _ => []
      | .ok c => c)
    cell.length M cell.length value
    (by
      intro k hk1 b
      obtain ⟨c, -, hc⟩ := hk k hk1
      simp only [hc])
    (by
      intro k hk1
      obtain ⟨c, hl, hc⟩ := hk k hk1
      simp only [hc]
      exact hl)
    hvalue (Nat.le_refl _)
  exact ⟨a1, h1, h2⟩


theorem array_of_arrays_fields_ok (cell : List octave_value) (dims1 : List Nat) (M : Nat)
    (names : List Str)
    (hcell : ∀ x ∈ cell, ∃ d f, x = octave_value.map d f
      ∧ (∀ name ∈ names, name ∈ f.map Prod.fst) ∧ ∀ kv ∈ f, kv.2.length = M) :
    ∀ (value : List octave_value) (sa : octave_map),
      value.length = cell.length * M →
      (sa.fields = [] ∨ sa.dims = dims1) →
      (∀ kv ∈ sa.fields, kv.2.length = cell.length * M) →
      ∃ sa1, array_of_arrays_fields cell dims1 cell.length M names value sa = .ok sa1
        ∧ (∀ kv ∈ sa1.fields, kv.2.length = cell.length * M)
        ∧ (names ≠ [] ∨ sa.dims = dims1 → sa1.dims = dims1) := by
  induction names with
  | nil =>
    intro value sa _ _ hfields
    refine ⟨sa, rfl, hfields, ?_⟩
    intro h
    rcases h with h | h
    · exact absurd rfl h
    · exact h
  | cons name rest ih =>
    intro value sa hvalue hdims hfields
    obtain ⟨value1, hp, hl⟩ := populate_field_ok cell name M value
      (by
        intro x hx
        obtain ⟨d, f, h1, h2, h3⟩ := hcell x hx
        exact ⟨d, f, h1, h2 name (List.mem_cons_self _ _), h3⟩)
      hvalue
    have hassign : ∃ sa2, sa.assign name ⟨dims1, value1⟩ = .ok sa2 ∧ sa2.dims = dims1
        ∧ ∀ kv ∈ sa2.fields, kv.2.length = cell.length * M := by
      unfold octave_map.assign
      by_cases he : sa.fields.isEmpty = true
      · refine ⟨⟨dims1, [(name, value1)]⟩, by rw [if_pos he], rfl, ?_⟩
        intro kv hkv
        simp only [List.mem_singleton] at hkv
        subst hkv
        rw [hl, hvalue]
      · have hd : sa.dims = dims1 := by
          rcases hdims with h | h
          · rw [h] at he
            simp at he
          · exact h
        refine ⟨⟨sa.dims, setfield_cells sa.fields name value1⟩,
          by rw [if_neg he, if_pos hd.symm], hd, ?_⟩
        intro kv hkv
        rcases (setfield_cells_mem sa.fields name value1).2 kv hkv with h | h
        · rw [h, hl, hvalue]
        · exact hfields kv h
    obtain ⟨sa2, ha, hd2, hf2⟩ := hassign
    obtain ⟨sa1, hr, hf1, hd1⟩ := ih
      (by
        intro x hx
        obtain ⟨d, f, h1, h2, h3⟩ := hcell x hx
        exact ⟨d, f, h1, fun n hn => h2 n (List.mem_cons_of_mem _ hn), h3⟩)
      value1 sa2 (by rw [hl, hvalue]) (Or.inr hd2) hf2
    refine ⟨sa1, ?_, hf1, fun _ => hd1 (Or.inr hd2)⟩
    rw [array_of_arrays_fields, hp]
    simp only [ha]
    exact hr


theorem decode_array_of_arrays_ok (dec : JsonValue → Except Error octave_value)
    (val : List JsonValue) (vs : List octave_value)
    (hmap : mapE dec val = .ok vs) (hne : vs ≠ [])
    (hv : ∀ v ∈ vs, v.data_fits_dims = true ∧ v.is_string = false) :
    ∃ r, decode_array_of_arrays dec val = .ok r ∧ r.data_fits_dims = true
      ∧ r.is_string = false := by
  obtain ⟨v0, rest, rfl⟩ := List.exists_cons_of_ne_nil hne
  have hlen := mapE_length _ _ _ hmap
  have hnum : dim_numel (chop_trailing_singletons ((v0 :: rest).length :: v0.dims))
      = (v0 :: rest).length * v0.dims.prod := by
    rw [chop_trailing_singletons_prod]; rfl
  cases hs : v0.isstruct with
  | false =>
    rcases any_sub_array_mismatch_ok v0.is_bool_matrix false [] v0.dims (v0 :: rest)
      with hm | ⟨-, hm⟩
    · refine ⟨octave_value.cell [val.length, 1] (v0 :: rest), ?_, ?_, rfl⟩
      · unfold decode_array_of_arrays
        simp only [decode_string_and_mixed_array, hmap, except_map_ok, Except.bind,
          octave_value.of_cell, octave_value.cell_value, except_bind_ok, elem,
          List.getElem?_cons_zero]
        simp only [bind, Except.bind, hs, Bool.false_eq_true, if_false, hm, if_true]
      · simp [octave_value.data_fits_dims, hlen]
    · have hall : ∀ x ∈ v0 :: rest, x.iscell = false ∧ x.dims = v0.dims ∧ v0.dims ≠ [0, 0]
          ∧ x.is_bool_matrix = v0.is_bool_matrix ∧ x.isstruct = false := by
        intro x hx
        obtain ⟨h1, h2, h3, h4, h5, -⟩ := sub_array_mismatch_false _ _ _ _ x (hm x hx)
        exact ⟨h1, h2, h3, h4, h5⟩
      obtain ⟨combined, hres, hcl, -⟩ := decode_array_of_arrays_merge dec val (v0 :: rest)
        (fun k => match (v0 :: rest)[k]? with
          | some v => (match v.array_value with
            | .ok a => a.data
            | .error _ => [])
          | none => [])
        v0.dims v0.is_bool_matrix hmap hne (hall v0 (List.mem_cons_self _ _)).2.2.1
        (by
          intro k v hk
          have hmem := List.getElem?_mem hk
          obtain ⟨h1, h2, -, h4, h5⟩ := hall v hmem
          obtain ⟨hf, hstr⟩ := hv v hmem
          refine ⟨h1, h5, h2, h4, ?_⟩
          simp only [hk]
          cases v with
          | matrix d x =>
            have h2a : d = v0.dims := h2
            simp only [octave_value.data_fits_dims, beq_iff_eq] at hf
            subst h2a
            exact ⟨rfl, hf⟩
          | bool_matrix d x =>
            have h2a : d = v0.dims := h2
            simp only [octave_value.data_fits_dims, beq_iff_eq] at hf
            subst h2a
            refine ⟨rfl, ?_⟩
            show (x.map Double.of_bool).length = _
            rw [List.length_map]
            exact hf
          | char_matrix d x => simp [octave_value.is_string] at hstr
          | cell d x => simp [octave_value.iscell] at h1
          | map d x => simp [octave_value.isstruct] at h5)
      refine ⟨_, hres, ?_, ?_⟩
      · have hp : (chop_trailing_singletons ((v0 :: rest).length :: v0.dims)).prod
            = (v0 :: rest).length * v0.dims.prod := hnum
        cases v0.is_bool_matrix <;>
          simp only [octave_value.data_fits_dims, List.length_map, hcl, hp, beq_self_eq_true,
            Bool.false_eq_true, if_false, if_true]
      · cases v0.is_bool_matrix <;> rfl
  | true =>
    obtain ⟨d0, f0, rfl⟩ : ∃ d0 f0, v0 = octave_value.map d0 f0 := by
      cases v0 <;> simp [octave_value.isstruct] at hs
      exact ⟨_, _, rfl⟩
    rcases any_sub_array_mismatch_ok false true (f0.map Prod.fst) d0
      (octave_value.map d0 f0 :: rest) with hm | ⟨hm0, hm⟩
    · refine ⟨octave_value.cell [val.length, 1] (octave_value.map d0 f0 :: rest), ?_, ?_, rfl⟩
      · unfold decode_array_of_arrays
        simp only [decode_string_and_mixed_array, hmap, except_map_ok, Except.bind,
          octave_value.of_cell, octave_value.cell_value, except_bind_ok, elem,
          List.getElem?_cons_zero]
        simp only [bind, Except.bind, octave_value.isstruct, if_true, octave_value.map_value,
          except_map_ok, octave_map.fieldnames, octave_value.is_bool_matrix,
          octave_value.dims, hm]
      · simp [octave_value.data_fits_dims, hlen]
    · have hcell : ∀ x ∈ octave_value.map d0 f0 :: rest, ∃ d f, x = octave_value.map d f
          ∧ (∀ name ∈ f0.map Prod.fst, name ∈ f.map Prod.fst)
          ∧ ∀ kv ∈ f, kv.2.length = d0.prod := by
        intro x hx
        obtain ⟨-, h2, -, -, -, h6⟩ := sub_array_mismatch_false _ _ _ _ x (hm x hx)
        obtain ⟨m, hm1, hm2⟩ := h6 rfl
        obtain ⟨hf, -⟩ := hv x hx
        cases x with
        | map d f =>
          simp only [octave_value.dims] at h2
          subst h2
          simp only [octave_value.map_value, Except.ok.injEq] at hm1
          subst hm1
          refine ⟨d, f, rfl, ?_, ?_⟩
          · intro name hn
            rw [hm2] at hn
            exact hn
          · intro kv hkv
            simp only [octave_value.data_fits_dims, List.all_eq_true, beq_iff_eq] at hf
            exact hf kv hkv
        | matrix d f => simp [octave_value.map_value] at hm1
        | bool_matrix d f => simp [octave_value.map_value] at hm1
        | char_matrix d f => simp [octave_value.map_value] at hm1
        | cell d f => simp [octave_value.map_value] at hm1
      have hnum1 : dim_numel (chop_trailing_singletons ((rest.length + 1) :: d0))
          = (octave_value.map d0 f0 :: rest).length * d0.prod := hnum
      by_cases hn : (f0.map Prod.fst).length = 0
      · refine ⟨octave_value.map (chop_trailing_singletons ((rest.length + 1) :: d0)) [],
          ?_, rfl, rfl⟩
        unfold decode_array_of_arrays
        simp only [decode_string_and_mixed_array, hmap, except_map_ok, Except.bind,
          octave_value.of_cell, octave_value.cell_value, except_bind_ok, elem,
          List.getElem?_cons_zero]
        simp only [bind, Except.bind, octave_value.isstruct, if_true, octave_value.map_value,
          except_map_ok, octave_map.fieldnames, octave_value.is_bool_matrix,
          octave_value.dims, hm0, Bool.false_eq_true, if_false, hn, ne_eq,
          not_true_eq_false, List.length_cons]
        rfl
      · obtain ⟨sa1, hsa, hf1, hd1⟩ := array_of_arrays_fields_ok
          (octave_value.map d0 f0 :: rest)
          (chop_trailing_singletons ((rest.length + 1) :: d0)) d0.prod (f0.map Prod.fst) hcell
          (List.replicate (dim_numel (chop_trailing_singletons ((rest.length + 1) :: d0)))
            (octave_value.matrix [0, 0] []))
          octave_map.empty
          (by rw [List.length_replicate, hnum1])
          (Or.inl rfl)
          (by intro kv hkv; simp [octave_map.empty] at hkv)
        have hne1 : f0.map Prod.fst ≠ [] := fun h => hn (by rw [h]; rfl)
        refine ⟨octave_value.of_map sa1, ?_, ?_, rfl⟩
        · unfold decode_array_of_arrays
          simp only [decode_string_and_mixed_array, hmap, except_map_ok, Except.bind,
            octave_value.of_cell, octave_value.cell_value, except_bind_ok, elem,
            List.getElem?_cons_zero]
          simp only [bind, Except.bind, octave_value.isstruct, if_true, octave_value.map_value,
            except_map_ok, octave_map.fieldnames, octave_value.is_bool_matrix,
            octave_value.dims, hm0, Bool.false_eq_true, if_false, hn, ne_eq,
            not_false_eq_true, List.length_cons, dim_numel] at hsa ⊢
          rw [hsa]
          rfl
        · simp only [octave_value.of_map, octave_value.data_fits_dims, List.all_eq_true,
            beq_iff_eq]
          intro kv hkv
          rw [hf1 kv hkv, hd1 (Or.inl hne1)]
          exact hnum1.symm

/-! ## Totality of the decoder -/

theorem valid_of_mem_elems (elems : List JsonValue) (h : valid_elems elems = true)
    (e : JsonValue) (he : e ∈ elems) : e.valid = true := by
  induction elems with
  | nil => simp at he
  | cons x xs ih =>
    simp only [valid_elems, Bool.and_eq_true] at h
    rcases List.mem_cons.mp he with rfl | he
    · exact h.1
    · exact ih h.2 he

theorem valid_of_mem_members (members : List (Str × JsonValue))
    (h : valid_members members = true) (p : Str × JsonValue) (hp : p ∈ members) :
    p.2.valid = true := by
  induction members with
  | nil => simp at hp
  | cons x xs ih =>
    obtain ⟨k, v⟩ := x
    simp only [valid_members, Bool.and_eq_true] at h
    rcases List.mem_cons.mp hp with rfl | hp
    · exact h.1
    · exact ih h.2 hp

theorem depth_of_mem_elems (elems : List JsonValue) (e : JsonValue) (he : e ∈ elems) :
    e.depth ≤ depth_elems elems := by
  induction elems with
  | nil => simp at he
  | cons x xs ih =>
    simp only [depth_elems]
    rcases List.mem_cons.mp he with rfl | he
    · exact Nat.le_max_left _ _
    · exact Nat.le_trans (ih he) (Nat.le_max_right _ _)

theorem depth_of_mem_members (members : List (Str × JsonValue)) (p : Str × JsonValue)
    (hp : p ∈ members) : p.2.depth ≤ depth_members members := by
  induction members with
  | nil => simp at hp
  | cons x xs ih =>
    obtain ⟨k, v⟩ := x
    simp only [depth_members]
    rcases List.mem_cons.mp hp with rfl | hp
    · exact Nat.le_max_left _ _
    · exact Nat.le_trans (ih hp) (Nat.le_max_right _ _)

theorem exists_forall₂ {α β : Type} (P : α → β → Prop) (l : List α)
    (h : ∀ x ∈ l, ∃ y, P x y) : ∃ ys, List.Forall₂ P l ys := by
  induction l with
  | nil => exact ⟨[], List.Forall₂.nil⟩
  | cons x xs ih =>
    obtain ⟨y, hy⟩ := h x (List.mem_cons_self _ _)
    obtain ⟨ys, hys⟩ := ih (fun z hz => h z (List.mem_cons_of_mem _ hz))
    exact ⟨y :: ys, List.Forall₂.cons hy hys⟩

theorem forall₂_mem_right {α β : Type} (P : α → β → Prop) (l : List α) (ys : List β)
    (h : List.Forall₂ P l ys) (y : β) (hy : y ∈ ys) : ∃ x ∈ l, P x y := by
  induction h with
  | nil => simp at hy
  | @cons a b as bs h1 _ ih =>
    rcases List.mem_cons.mp hy with rfl | hy
    · exact ⟨a, List.mem_cons_self _ _, h1⟩
    · obtain ⟨x, hx, hp⟩ := ih hy
      exact ⟨x, List.mem_cons_of_mem _ hx, hp⟩


theorem forall₂_imp_mem {α β : Type} (P Q : α → β → Prop) (l : List α) (ys : List β)
    (hpq : ∀ x ∈ l, ∀ y, P x y → Q x y) (h : List.Forall₂ P l ys) : List.Forall₂ Q l ys := by
  induction h with
  | nil => exact List.Forall₂.nil
  | @cons a b as bs h1 _ ih =>
    exact List.Forall₂.cons (hpq a (List.mem_cons_self _ _) b h1)
      (ih (fun x hx y hp => hpq x (List.mem_cons_of_mem _ hx) y hp))

theorem scalar_maps_of_decoded (val : List JsonValue) (vs : List octave_value)
    (h : List.Forall₂ (fun _ v => ∃ m : octave_scalar_map,
      v = octave_value.of_scalar_map m ∧ m.fieldnames.Nodup) val vs) :
    ∃ ms : List octave_scalar_map, vs = ms.map octave_value.of_scalar_map
      ∧ ∀ m ∈ ms, m.fieldnames.Nodup := by
  induction h with
  | nil => exact ⟨[], rfl, fun m hm => by simp at hm⟩
  | @cons e v es vs1 h1 _ ih =>
    obtain ⟨m, rfl, hnd⟩ := h1
    obtain ⟨ms, rfl, hms⟩ := ih
    refine ⟨m :: ms, rfl, ?_⟩
    intro m1 hm1
    rcases List.mem_cons.mp hm1 with rfl | hm1
    · exact hnd
    · exact hms m1 hm1

/-- The function `decode_array` returns a value whenever the elements are valid and
decode to values that meet `decoded_ok`. -/
theorem decode_array_ok (dec : JsonValue → Except Error octave_value)
    (val : List JsonValue) (vs : List octave_value)
    (hvalid : ∀ e ∈ val, e.valid = true)
    (hdec : List.Forall₂ (fun e v => dec e = .ok v ∧ decoded_ok e v) val vs) :
    ∃ r, decode_array dec val = .ok r ∧ r.data_fits_dims = true ∧ r.is_string = false := by
  have hmap : mapE dec val = .ok vs :=
    forall₂_mapE _ _ _ (hdec.imp (fun _ _ h => h.1))
  have hlen : vs.length = val.length := mapE_length _ _ _ hmap
  have hcell : ∃ r, decode_string_and_mixed_array dec val = .ok r
      ∧ r.data_fits_dims = true ∧ r.is_string = false := by
    refine ⟨octave_value.cell [val.length, 1] vs, ?_, ?_, rfl⟩
    · simp only [decode_string_and_mixed_array, hmap, except_map_ok, octave_value.of_cell]
    · simp [octave_value.data_fits_dims, hlen]
  cases hval : val with
  | nil => exact ⟨_, rfl, rfl, rfl⟩
  | cons val0 rest =>
    have hne : val ≠ [] := by rw [hval]; simp
    have h0mem : val0 ∈ val := by rw [hval]; exact List.mem_cons_self _ _
    rw [← hval]
    by_cases hnum : val.all null_or_number = true
    · refine ⟨_, decode_array_numeric dec val hne ?_, ?_, rfl⟩
      · intro e he
        have h1 := List.all_eq_true.mp hnum e he
        have h2 := hvalid e he
        cases e with
        | null => exact Or.inl rfl
        | number n =>
          simp only [JsonValue.valid] at h2
          exact Or.inr ⟨n, rfl, h2⟩
        | bool b => cases b <;> simp [null_or_number, JsonValue.GetType] at h1
        | string s => simp [null_or_number, JsonValue.GetType] at h1
        | array xs => simp [null_or_number, JsonValue.GetType] at h1
        | object xs => simp [null_or_number, JsonValue.GetType] at h1
      · simp [octave_value.data_fits_dims]
    · have hnumf : val.all null_or_number = false := by simpa using hnum
      by_cases hsame : val.all (same_json_type val0.GetType) = true
      · have hs := List.all_eq_true.mp hsame
        cases h0 : val0.GetType with
        | kNullType =>
          exfalso
          apply hnum
          rw [List.all_eq_true]
          intro e he
          have := hs e he
          rw [h0] at this
          revert this
          unfold same_json_type null_or_number
          cases e.GetType <;> simp
        | kNumberType =>
          exfalso
          apply hnum
          rw [List.all_eq_true]
          intro e he
          have := hs e he
          rw [h0] at this
          revert this
          unfold same_json_type null_or_number
          cases e.GetType <;> simp
        | kFalseType =>
          refine ⟨_, decode_array_booleans dec val hne ?_, ?_, rfl⟩
          · intro e he
            have := hs e he
            rw [h0] at this
            revert this
            unfold same_json_type JsonValue.IsBool
            cases e.GetType <;> simp
          · simp [octave_value.data_fits_dims]
        | kTrueType =>
          refine ⟨_, decode_array_booleans dec val hne ?_, ?_, rfl⟩
          · intro e he
            have := hs e he
            rw [h0] at this
            revert this
            unfold same_json_type JsonValue.IsBool
            cases e.GetType <;> simp
          · simp [octave_value.data_fits_dims]
        | kStringType =>
          rw [decode_array_mixed dec val (Or.inl ⟨hne, ?_⟩)]
          · exact hcell
          · intro e he
            have := hs e he
            rw [h0] at this
            revert this
            unfold same_json_type
            cases e.GetType <;> simp
        | kObjectType =>
          have hobj : ∀ e ∈ val, e.GetType = JType.kObjectType := by
            intro e he
            have := hs e he
            rw [h0] at this
            revert this
            unfold same_json_type
            cases e.GetType <;> simp
          have hdec1 : List.Forall₂ (fun _ v => ∃ m : octave_scalar_map,
              v = octave_value.of_scalar_map m ∧ m.fieldnames.Nodup) val vs :=
            forall₂_imp_mem _ _ val vs (fun e he v hp => hp.2.1 (hobj e he)) hdec
          obtain ⟨ms, hms, hnd⟩ := scalar_maps_of_decoded val vs hdec1
          cases hmsc : ms with
          | nil =>
            rw [hms, hmsc, hval] at hlen
            simp at hlen
          | cons m0 ms1 =>
            rw [hms, hmsc] at hmap
            rw [decode_array_objects dec val hne hobj,
              decode_object_array_eq dec val m0 ms1 hmap
                (hnd m0 (by rw [hmsc]; exact List.mem_cons_self _ _))]
            have hl2 : (m0 :: ms1).length = val.length := by
              rw [← hlen, hms, hmsc, List.length_map]
            split_ifs
            · refine ⟨_, rfl, ?_, rfl⟩
              simp only [octave_value.data_fits_dims, List.all_eq_true, beq_iff_eq]
              intro kv hkv
              obtain ⟨f, -, rfl⟩ := List.mem_map.mp hkv
              simp only [List.length_map, hl2, List.prod_cons, List.prod_nil, Nat.mul_one]
            · refine ⟨_, rfl, ?_, rfl⟩
              simp only [octave_value.data_fits_dims, List.length_map, hl2, List.prod_cons,
                List.prod_nil, Nat.mul_one, beq_self_eq_true]
        | kArrayType =>
          have harr : ∀ e ∈ val, e.GetType = JType.kArrayType := by
            intro e he
            have := hs e he
            rw [h0] at this
            revert this
            unfold same_json_type
            cases e.GetType <;> simp
          rw [decode_array_arrays dec val hne harr]
          apply decode_array_of_arrays_ok dec val vs hmap
          · intro h
            rw [h] at hlen
            rw [hval] at hlen
            simp at hlen
          · intro v hv
            obtain ⟨e, he, -, hok⟩ := forall₂_mem_right _ val vs hdec v hv
            exact hok.2 (harr e he)
      · have hsamef : val.all (same_json_type val0.GetType) = false := by simpa using hsame
        rw [decode_array_mixed dec val (Or.inr ⟨hnumf, ?_⟩)]
        · exact hcell
        · by_contra hc
          push_neg at hc
          apply hsame
          rw [List.all_eq_true]
          intro e he
          have := hc val0 h0mem e he
          simpa using this


theorem decode_object_loop_ok (iskeyword : Str → Bool)
    (dec : JsonValue → Except Error octave_value) (options : Option make_valid_name_options)
    (members : List (Str × JsonValue)) (h : ∀ p ∈ members, ∃ v, dec p.2 = .ok v) :
    ∀ retval, ∃ m, decode_object_loop iskeyword dec options members retval = .ok m := by
  induction members with
  | nil => exact fun retval => ⟨retval, rfl⟩
  | cons pair rest ih =>
    intro retval
    obtain ⟨v, hv⟩ := h pair (List.mem_cons_self _ _)
    unfold decode_object_loop
    simp only [hv]
    exact ih (fun p hp => h p (List.mem_cons_of_mem _ hp)) _

/-- With a budget that reaches the nesting depth of a valid JSON value, `decode` returns
a value, and that value meets `decoded_ok`. -/
theorem decode_ok (iskeyword : Str → Bool) (options : Option make_valid_name_options) :
    ∀ (fuel : Nat) (v : JsonValue), v.valid = true → v.depth ≤ fuel →
      ∃ r, decode iskeyword fuel v options = .ok r ∧ decoded_ok v r := by
  intro fuel
  induction fuel with
  | zero =>
    intro v _ hd
    cases v <;> simp [JsonValue.depth] at hd
  | succ fuel ih =>
    intro v hv hd
    cases v with
    | null => exact ⟨_, rfl, by simp [decoded_ok, JsonValue.GetType]⟩
    | bool b => cases b <;> exact ⟨_, rfl, by simp [decoded_ok, JsonValue.GetType]⟩
    | number n =>
      simp only [JsonValue.valid] at hv
      refine ⟨octave_value.scalar (number_value n), ?_,
        by simp [decoded_ok, JsonValue.GetType]⟩
      have h : decode iskeyword (fuel + 1) (.number n) options
          = decode_number (.number n) := rfl
      rw [h, decode_number_valid n hv]
    | string s => exact ⟨_, rfl, by simp [decoded_ok, JsonValue.GetType]⟩
    | array elems =>
      simp only [JsonValue.valid] at hv
      simp only [JsonValue.depth, Nat.add_le_add_iff_right] at hd
      obtain ⟨vs, hvs⟩ := exists_forall₂
        (fun e r => decode iskeyword fuel e options = .ok r ∧ decoded_ok e r) elems
        (fun e he => ih e (valid_of_mem_elems elems hv e he)
          (Nat.le_trans (depth_of_mem_elems elems e he) hd))
      obtain ⟨r, hr, hfit, hstr⟩ := decode_array_ok
        (fun v => decode iskeyword fuel v options) elems vs
        (valid_of_mem_elems elems hv) hvs
      refine ⟨r, ?_, ?_⟩
      · rw [decode_succ_array, hr]
      · exact ⟨fun h => by simp [JsonValue.GetType] at h, fun _ => ⟨hfit, hstr⟩⟩
    | object members =>
      simp only [JsonValue.valid] at hv
      simp only [JsonValue.depth, Nat.add_le_add_iff_right] at hd
      obtain ⟨m, hm⟩ := decode_object_loop_ok iskeyword
        (fun v => decode iskeyword fuel v options) options members
        (fun p hp =>
          let ⟨r, hr, _⟩ := ih p.2 (valid_of_mem_members members hv p hp)
            (Nat.le_trans (depth_of_mem_members members p hp) hd)
          ⟨r, hr⟩) []
      have hres : decode iskeyword (fuel + 1) (.object members) options
          = .ok (octave_value.of_scalar_map m) := by
        rw [decode_succ_object]
        simp only [decode_object, hm, except_map_ok]
      refine ⟨_, hres, ?_⟩
      exact ⟨fun _ => ⟨m, rfl, decoded_object_nodup iskeyword (fuel + 1) (.object members) options m rfl hres⟩,
        fun h => by simp [JsonValue.GetType] at h⟩

/-- C13 (decode is total).  For every JSON value whose numbers a RapidJSON value can hold,
and every recursion budget that reaches the nesting depth of the value, `decode` returns a
native value: no `unidentified type` branch of `decode`, `decode_array` or
`decode_number` is taken and no access to element 0 fails.  The empty array is answered
by `decode_array` itself, before the helpers that read element 0; on an empty array these
helpers fail. -/
theorem decode_total (iskeyword : Str → Bool) (options : Option make_valid_name_options)
    (fuel : Nat) (v : JsonValue) (hv : v.valid = true) (hd : v.depth ≤ fuel) :
    (∃ r, decode iskeyword fuel v options = .ok r)
      ∧ (∀ dec, decode_array dec [] = .ok (octave_value.matrix [0, 0] []))
      ∧ (∀ dec, decode_object_array dec [] = .error .index_out_of_range)
      ∧ (∀ dec, decode_array_of_arrays dec [] = .error .index_out_of_range) := by
  obtain ⟨r, hr, -⟩ := decode_ok iskeyword options fuel v hv hd
  exact ⟨⟨r, hr⟩, fun _ => rfl, fun _ => rfl, fun _ => rfl⟩

/-- The value `{"a": [[1, 2], [true, null, "x"]], "b": [{"c": []}]}` of depth 4. -/
theorem decode_total_witness :
    (∃ r, decode octave_iskeyword 4
        (.object [(bytes "a", .array [.array [jint 1, jint 2],
                    .array [.bool true, .null, .string (bytes "x")]]),
                  (bytes "b", .array [.object [(bytes "c", .array [])]])]) none = .ok r)
      ∧ (∀ dec, decode_array dec [] = .ok (octave_value.matrix [0, 0] []))
      ∧ (∀ dec, decode_object_array dec [] = .error .index_out_of_range)
      ∧ (∀ dec, decode_array_of_arrays dec [] = .error .index_out_of_range) :=
  decode_total octave_iskeyword none 4 _ (by decide) (by decide)

/-! ## The rules of the sanitizer -/

theorem name_char_not_space {c : Nat} (h : is_name_char c = true) : isspace c = false := by
  simp only [is_name_char, isalnum, isalpha, isdigit, underscore_char, Bool.or_eq_true,
    Bool.and_eq_true, decide_eq_true_eq, beq_iff_eq] at h
  simp only [isspace, Bool.or_eq_false_iff, beq_eq_false_iff_ne, ne_eq, Bool.and_eq_false_iff,
    decide_eq_false_iff_not]
  omega

theorem valid_identifier_name_chars {s : Str} (h : valid_identifier s = true) :
    ∀ c ∈ s, is_name_char c = true := by
  cases s with
  | nil => simp [valid_identifier] at h
  | cons c cs =>
    obtain ⟨h1, h2⟩ := (valid_identifier_cons c cs).mp h
    intro x hx
    rcases List.mem_cons.mp hx with rfl | hx
    · simp only [is_name_char]
      revert h1
      cases hc : isalpha x <;> simp [isalnum, hc]
      exact fun h => Or.inr h
    · exact h2 x hx

theorem capitalize_no_space (a : Bool) (s : Str) (h : ∀ c ∈ s, isspace c = false) :
    capitalize_after_space false a s = s := by
  induction s generalizing a with
  | nil => rfl
  | cons c cs ih =>
    have hc := h c (List.mem_cons_self _ _)
    simp only [capitalize_after_space, Bool.and_false, Bool.false_and, Bool.false_eq_true,
      if_false, hc]
    rw [ih _ (fun x hx => h x (List.mem_cons_of_mem _ hx))]

theorem filter_no_space (s : Str) (h : ∀ c ∈ s, isspace c = false) :
    s.filter (fun x => !isspace x) = s := by
  rw [List.filter_eq_self]
  intro c hc
  simp [h c hc]

theorem hex_replace_name (s : Str) (h : ∀ c ∈ s, is_name_char c = true) :
    hex_replace s = s := by
  induction s with
  | nil => rfl
  | cons c cs ih =>
    have hc := h c (List.mem_cons_self _ _)
    simp only [is_name_char] at hc
    simp only [hex_replace, hc, if_true]
    rw [ih (fun x hx => h x (List.mem_cons_of_mem _ hx))]

/-- The replacement step of `make_valid_name`, whatever the style, leaves a string of
letters, digits and underscores as it is. -/
theorem replacement_name (style : Str) (s : Str) (h : ∀ c ∈ s, is_name_char c = true) :
    (if style = bytes "underscore" then s.map (fun c => if isalnum c then c else underscore_char)
      else if style = bytes "delete" then
        s.filter (fun x => !(!isalnum x && x != underscore_char))
      else if style = bytes "hex" then hex_replace s
      else s) = s := by
  split_ifs
  · conv_rhs => rw [← List.map_id s]
    apply List.map_congr_left
    intro c hc
    have := h c hc
    simp only [is_name_char, Bool.or_eq_true, beq_iff_eq] at this
    rcases this with h1 | h1
    · simp [h1]
    · by_cases h2 : isalnum c = true
      · simp [h2]
      · simp [h2, h1]
  · rw [List.filter_eq_self]
    intro c hc
    have := h c hc
    simp only [is_name_char, Bool.or_eq_true, beq_iff_eq] at this
    rcases this with h1 | h1
    · simp [h1]
    · simp [h1]
  · exact hex_replace_name s h
  · rfl


theorem octave_keywords_valid (s : Str) (h : octave_iskeyword s = true) :
    valid_identifier s = true := by
  have hall : ∀ k ∈ octave_keywords.map bytes, valid_identifier k = true := by decide
  apply hall
  simpa [octave_iskeyword] using h

theorem not_keyword_of_not_valid (iskeyword : Str → Bool)
    (hkw : ∀ s, iskeyword s = true → valid_identifier s = true) (s : Str)
    (h : valid_identifier s = false) : iskeyword s = false := by
  cases hk : iskeyword s with
  | false => rfl
  | true => rw [hkw s hk] at h; exact absurd h (by simp)

/-- C24 (delete style).  A name that begins with a letter or underscore, holds no
whitespace and holds a character that is no letter, digit or underscore is sanitized with
the style `delete` to the name without these characters, the others kept in order. -/
theorem make_valid_name_delete (iskeyword : Str → Bool)
    (hkw : ∀ s, iskeyword s = true → valid_identifier s = true)
    (c : Nat) (cs pfx : Str)
    (hfirst : (isalpha c || c == underscore_char) = true)
    (hspace : ∀ x ∈ c :: cs, isspace x = false)
    (hinv : ∃ x ∈ c :: cs, is_name_char x = false) :
    make_valid_name iskeyword (c :: cs) ⟨bytes "delete", pfx⟩
      = (true, (c :: cs).filter is_name_char) := by
  have hv : valid_identifier (c :: cs) = false := by
    cases hval : valid_identifier (c :: cs) with
    | false => rfl
    | true =>
      obtain ⟨x, hx, hxn⟩ := hinv
      rw [valid_identifier_name_chars hval x hx] at hxn
      exact absurd hxn (by simp)
  have hk := not_keyword_of_not_valid iskeyword hkw _ hv
  have hhead : (!isalpha c && c != underscore_char) = false := by
    revert hfirst
    cases isalpha c <;> cases hcu : (c == underscore_char) <;> simp [bne, hcu]
  have hfilter : (fun x => !(!isalnum x && x != underscore_char)) = is_name_char := by
    funext x
    simp only [is_name_char]
    cases isalnum x <;> cases hxu : (x == underscore_char) <;> simp [bne, hxu]
  simp only [make_valid_name, hv, Bool.false_and, Bool.false_eq_true, if_false,
    capitalize_no_space false _ hspace, filter_no_space _ hspace, List.isEmpty_cons, hk,
    List.headD_cons, hhead, hfilter]
  simp [bytes]

/-- The documented example: with the style `delete`, `nu#m#ber` gives `number`. -/
theorem make_valid_name_delete_witness :
    make_valid_name octave_iskeyword (bytes "nu#m#ber") ⟨bytes "delete", bytes "x"⟩
      = (true, bytes "number") :=
  make_valid_name_delete octave_iskeyword octave_keywords_valid 110 (bytes "u#m#ber")
    (bytes "x") (by decide) (by decide) (by decide)

/-- C25.  A non-empty name of letters, digits and underscores that begins with a digit is
sanitized to the prefix followed by the name, with every style. -/
theorem make_valid_name_digit_first (iskeyword : Str → Bool)
    (hkw : ∀ s, iskeyword s = true → valid_identifier s = true)
    (c : Nat) (cs : Str) (options : make_valid_name_options)
    (hp : valid_identifier options.m_prefix = true)
    (hdigit : isdigit c = true)
    (hchars : ∀ x ∈ cs, is_name_char x = true) :
    make_valid_name iskeyword (c :: cs) options = (true, options.m_prefix ++ c :: cs) := by
  have hc : is_name_char c = true := by simp [is_name_char, isalnum, hdigit]
  have hall : ∀ x ∈ c :: cs, is_name_char x = true := by
    intro x hx
    rcases List.mem_cons.mp hx with rfl | hx
    · exact hc
    · exact hchars x hx
  have hspace : ∀ x ∈ c :: cs, isspace x = false := fun x hx => name_char_not_space (hall x hx)
  have hna : isalpha c = false ∧ (c == underscore_char) = false := by
    simp only [isdigit, Bool.and_eq_true, decide_eq_true_eq] at hdigit
    simp only [isalpha, underscore_char, Bool.or_eq_false_iff, Bool.and_eq_false_iff,
      decide_eq_false_iff_not, beq_eq_false_iff_ne, ne_eq]
    omega
  have hv : valid_identifier (c :: cs) = false := by
    simp [valid_identifier, hna.1, hna.2]
  have hk := not_keyword_of_not_valid iskeyword hkw _ hv
  have hhead : (!isalpha c && c != underscore_char) = true := by
    simp [hna.1, bne, hna.2]
  have hall2 : ∀ x ∈ options.m_prefix ++ c :: cs, is_name_char x = true := by
    intro x hx
    rcases List.mem_append.mp hx with hx | hx
    · exact valid_identifier_name_chars hp x hx
    · exact hall x hx
  simp only [make_valid_name, hv, Bool.false_and, Bool.false_eq_true, if_false,
    capitalize_no_space false _ hspace, filter_no_space _ hspace, List.isEmpty_cons, hk,
    List.headD_cons, hhead, if_true, replacement_name _ _ hall2]

/-- The documented example: with the prefix `m_`, the key `1` gives `m_1`. -/
theorem make_valid_name_digit_first_witness :
    make_valid_name octave_iskeyword (bytes "1") ⟨bytes "underscore", bytes "m_"⟩
      = (true, bytes "m_1") :=
  make_valid_name_digit_first octave_iskeyword octave_keywords_valid 49 []
    ⟨bytes "underscore", bytes "m_"⟩ (by decide) (by decide) (by decide)

theorem toupper_name_char {c : Nat} (h : is_name_char c = true) :
    is_name_char (toupper c) = true := by
  simp only [is_name_char, isalnum, isalpha, isdigit, underscore_char, Bool.or_eq_true,
    Bool.and_eq_true, decide_eq_true_eq, beq_iff_eq, toupper] at h ⊢
  split_ifs with h1
  · simp only [Bool.and_eq_true, decide_eq_true_eq] at h1
    omega
  · exact h

/-- C26.  A reserved keyword is sanitized to the prefix followed by the keyword with its
first character in upper case, with every style. -/
theorem make_valid_name_keyword (iskeyword : Str → Bool)
    (hkw : ∀ s, iskeyword s = true → valid_identifier s = true)
    (k : Str) (options : make_valid_name_options)
    (hp : valid_identifier options.m_prefix = true) (hk : iskeyword k = true) :
    make_valid_name iskeyword k options = (true, options.m_prefix ++ upper_first k) := by
  have hv := hkw k hk
  have hall := valid_identifier_name_chars hv
  have hspace : ∀ x ∈ k, isspace x = false := fun x hx => name_char_not_space (hall x hx)
  obtain ⟨c, cs, rfl⟩ := List.exists_cons_of_ne_nil (valid_identifier_ne_nil hv)
  obtain ⟨p, ps, hpp⟩ := List.exists_cons_of_ne_nil (valid_identifier_ne_nil hp)
  have hphead : (!isalpha p && p != underscore_char) = false := by
    have h1 := ((valid_identifier_cons p ps).mp (hpp ▸ hp)).1
    revert h1
    cases isalpha p <;> cases hcu : (p == underscore_char) <;> simp [bne, hcu]
  have hall2 : ∀ x ∈ options.m_prefix ++ upper_first (c :: cs), is_name_char x = true := by
    intro x hx
    rcases List.mem_append.mp hx with hx | hx
    · exact valid_identifier_name_chars hp x hx
    · simp only [upper_first] at hx
      rcases List.mem_cons.mp hx with rfl | hx
      · exact toupper_name_char (hall c (List.mem_cons_self _ _))
      · exact hall x (List.mem_cons_of_mem _ hx)
  have hhead : (options.m_prefix ++ upper_first (c :: cs)).headD 0 = p := by
    rw [hpp]; rfl
  simp only [make_valid_name, hv, hk, Bool.not_true, Bool.and_false, Bool.false_eq_true,
    if_false, capitalize_no_space false _ hspace, filter_no_space _ hspace,
    List.isEmpty_cons, if_true, hhead, hphead, replacement_name _ _ hall2]

/-- The keyword `for` with the prefix `x` gives `xFor`. -/
theorem make_valid_name_keyword_witness :
    make_valid_name octave_iskeyword (bytes "for") ⟨bytes "hex", bytes "x"⟩
      = (true, bytes "xFor") :=
  make_valid_name_keyword octave_iskeyword octave_keywords_valid (bytes "for")
    ⟨bytes "hex", bytes "x"⟩ (by decide) (by decide)


theorem isspace_toupper_alpha {c : Nat} (h : isalpha c = true) :
    isspace (toupper c) = false ∧ isspace c = false := by
  simp only [isalpha, Bool.or_eq_true, Bool.and_eq_true, decide_eq_true_eq] at h
  simp only [isspace, toupper, Bool.or_eq_false_iff, beq_eq_false_iff_ne, ne_eq,
    Bool.and_eq_false_iff, decide_eq_false_iff_not]
  split_ifs with h1
  · simp only [Bool.and_eq_true, decide_eq_true_eq] at h1
    omega
  · omega

theorem drop_cons_facts {α : Type} (str : List α) (n : Nat) (c : α) (cs : List α) (d : α)
    (h : str.drop n = c :: cs) :
    str.getD n d = c ∧ str.drop (n + 1) = cs ∧ str.take (n + 1) = str.take n ++ [c] := by
  have hlt : n < str.length := by
    by_contra hc
    rw [List.drop_eq_nil_of_le (by omega)] at h
    exact absurd h (by simp)
  have hget : str[n]? = some c := by
    have := congrArg List.head? h
    rw [List.head?_drop] at this
    simpa using this
  refine ⟨?_, ?_, ?_⟩
  · rw [List.getD_eq_getElem?_getD, hget]; rfl
  · have := congrArg List.tail h
    rw [List.tail_drop] at this
    simpa using this
  · rw [List.take_succ, hget]; rfl

theorem capitalize_after_space_index (str : Str) :
    ∀ (suf : Str) (n : Nat) (p a : Bool), str.drop n = suf →
      a = (str.take n).any (fun x => !isspace x) →
      (a = true → p = isspace (str.getD (n - 1) 0)) →
      capitalize_after_space p a suf
        = (List.range suf.length).map (fun j => collapse_char str (n + j)) := by
  intro suf
  induction suf with
  | nil => intro n p a _ _ _; rfl
  | cons c cs ih =>
    intro n p a hdrop ha hp
    obtain ⟨hget, hdrop1, htake1⟩ := drop_cons_facts str n c cs 0 hdrop
    have hidx : collapse_char str n = if a && p && isalpha c then toupper c else c := by
      unfold collapse_char
      rw [hget, ← ha]
      cases a with
      | false => simp
      | true => rw [hp rfl]
    have hsp : isspace (if a && p && isalpha c then toupper c else c) = isspace c := by
      split_ifs with h
      · simp only [Bool.and_eq_true] at h
        obtain ⟨h1, h2⟩ := isspace_toupper_alpha h.2
        rw [h1, h2]
      · rfl
    rw [List.length_cons, List.range_succ_eq_map, List.map_cons, List.map_map]
    unfold capitalize_after_space
    simp only [hsp, Nat.add_zero, hidx]
    congr 1
    rw [ih (n + 1) (isspace c) (a || !isspace c) hdrop1
      (by rw [htake1, List.any_append, ← ha]; simp)
      (by intro _; rw [Nat.add_sub_cancel, hget])]
    apply List.map_congr_left
    intro j _
    simp only [Function.comp, Nat.add_assoc, Nat.add_comm 1 j]

theorem collapse_eq (str : Str) :
    (capitalize_after_space false false str).filter (fun x => !isspace x) = collapse str := by
  unfold collapse
  rw [capitalize_after_space_index str str 0 false false rfl (by simp) (by simp)]
  simp

theorem collapse_no_space (str : Str) : ∀ c ∈ collapse str, isspace c = false := by
  intro c hc
  unfold collapse at hc
  have := (List.mem_filter.mp hc).2
  simpa using this


/-- C27 as stated, at a keyword behind leading whitespace.  The name ` for` is sanitized
to `xFor`: the letter `f`, which follows only leading whitespace, is put in upper case by
the keyword rule. -/
theorem leading_space_keyword_capitalized :
    make_valid_name octave_iskeyword (bytes " for") make_valid_name_options.default
        = (true, bytes "xFor")
      ∧ (valid_identifier (bytes " for") && !octave_iskeyword (bytes " for")) = false := by
  decide

/-- C27, amended.  For a name that is not already a valid identifier other than a
keyword, the whitespace steps of `make_valid_name` leave the collapsed name: all
whitespace deleted, a letter right behind whitespace that has a character other than
whitespace before it in upper case, every other character as it was.  The sanitized name
is what `make_valid_name` gives for the collapsed name, and it holds no whitespace. -/
theorem make_valid_name_collapse (iskeyword : Str → Bool) (str : Str)
    (options : make_valid_name_options)
    (hstr : (valid_identifier str && !iskeyword str) = false)
    (hstyle : options.m_replacement_style = bytes "underscore"
      ∨ options.m_replacement_style = bytes "delete"
      ∨ options.m_replacement_style = bytes "hex")
    (hp : valid_identifier options.m_prefix = true) :
    (capitalize_after_space false false str).filter (fun x => !isspace x) = collapse str
      ∧ (∀ c ∈ collapse str, isspace c = false)
      ∧ (make_valid_name iskeyword str options).2
          = (make_valid_name iskeyword (collapse str) options).2
      ∧ ∀ c ∈ (make_valid_name iskeyword str options).2, isspace c = false := by
  refine ⟨collapse_eq str, collapse_no_space str, ?_, ?_⟩
  · have hns := collapse_no_space str
    by_cases hB : (valid_identifier (collapse str) && !iskeyword (collapse str)) = true
    · simp only [Bool.and_eq_true, Bool.not_eq_true'] at hB
      obtain ⟨hv, hk⟩ := hB
      have hall := valid_identifier_name_chars hv
      obtain ⟨c, cs, hcs⟩ := List.exists_cons_of_ne_nil (valid_identifier_ne_nil hv)
      have hhead : (!isalpha c && c != underscore_char) = false := by
        have h1 := ((valid_identifier_cons c cs).mp (hcs ▸ hv)).1
        revert h1
        cases isalpha c <;> cases hcu : (c == underscore_char) <;> simp [bne, hcu]
      have hrhs : make_valid_name iskeyword (collapse str) options = (false, collapse str) := by
        simp [make_valid_name, hv, hk]
      rw [hrhs]
      simp only [make_valid_name, hstr, Bool.false_eq_true, if_false, collapse_eq]
      rw [hcs] at hall hk ⊢
      simp only [List.isEmpty_cons, Bool.false_eq_true, if_false, hk, List.headD_cons, hhead,
        replacement_name _ _ hall]
    · have hB1 : (valid_identifier (collapse str) && !iskeyword (collapse str)) = false := by
        simpa using hB
      simp only [make_valid_name, hstr, hB1, Bool.false_eq_true, if_false, collapse_eq,
        capitalize_no_space false _ hns, filter_no_space _ hns]
  · intro c hc
    exact name_char_not_space
      (valid_identifier_name_chars (sanitized_name_valid iskeyword str options hstyle hp) c hc)

/-- The names `a b` and ` ab` give `aB` and `ab`. -/
theorem make_valid_name_collapse_witness :
    (capitalize_after_space false false (bytes "a b")).filter (fun x => !isspace x)
        = collapse (bytes "a b")
      ∧ (∀ c ∈ collapse (bytes "a b"), isspace c = false)
      ∧ (make_valid_name octave_iskeyword (bytes "a b") make_valid_name_options.default).2
          = (make_valid_name octave_iskeyword (collapse (bytes "a b"))
              make_valid_name_options.default).2
      ∧ ∀ c ∈ (make_valid_name octave_iskeyword (bytes "a b")
            make_valid_name_options.default).2, isspace c = false :=
  make_valid_name_collapse octave_iskeyword (bytes "a b") make_valid_name_options.default
    (by decide) (Or.inl rfl) (by decide)

/-- The examples of the whitespace rule: `a b` gives `aB`, ` ab` gives `ab`. -/
theorem collapse_examples :
    collapse (bytes "a b") = bytes "aB" ∧ collapse (bytes " ab") = bytes "ab"
      ∧ make_valid_name octave_iskeyword (bytes "a b") make_valid_name_options.default
          = (true, bytes "aB")
      ∧ make_valid_name octave_iskeyword (bytes " ab") make_valid_name_options.default
          = (true, bytes "ab") := by
  decide

/-- C23 at a failing input.  With the style `hex`, the name of the two bytes `a` and
0xE9 is sanitized to `a0xFF`, not to `a0xE9`: the `char` 0xE9 is negative when it is
passed to `snprintf`, prints as `FFFFFFE9`, and the buffer keeps `0xFF`. -/
theorem hex_style_high_byte :
    make_valid_name octave_iskeyword [97, 233] ⟨bytes "hex", bytes "x"⟩
        = (true, bytes "a0xFF")
      ∧ bytes "a0xFF" ≠ bytes "a0xE9" := by
  decide

/-- The style `hex` on bytes below 0x80: every character that is no letter, digit or
underscore is replaced by `0x` and its two upper-case hex digits, the others are kept. -/
theorem hex_replace_low_bytes (s : Str) (h : ∀ c ∈ s, c < 128) :
    hex_replace s = (s.map (fun c =>
      if is_name_char c then [c] else [48, 120, hex_digit (c / 16), hex_digit (c % 16)])).flatten
    := by
  induction s with
  | nil => rfl
  | cons c cs ih =>
    have hc := h c (List.mem_cons_self _ _)
    rw [hex_replace, ih (fun x hx => h x (List.mem_cons_of_mem _ hx))]
    simp only [List.map_cons, List.flatten_cons, is_name_char]
    split_ifs
    · rfl
    · simp [hex_str, hc]

/-! ## Cell arrays in the encoder -/

/-- C21.  For a cell array of any dimensions `encode` writes one JSON array whose children
are the encodings of the elements of the cell in the order of the flat column-major data,
each element written by the rule of its own type; the dimensions of the cell play no
part. -/
theorem encode_cell_flat (fuel : Nat) (conv : Bool) (dv : List Nat) (data : List octave_value)
    (ev : octave_value → List Event)
    (henc : ∀ v ∈ data, encode fuel v conv = .ok (ev v)) :
    encode (fuel + 1) (octave_value.cell dv data) conv
      = .ok ([Event.StartArray] ++ (data.map ev).flatten ++ [Event.EndArray]) := by
  have h : encode (fuel + 1) (octave_value.cell dv data) conv
      = encode_cell (fun v => encode fuel v conv) (octave_value.cell dv data) := rfl
  rw [h]
  simp only [encode_cell, octave_value.cell_value, mapE_map_ok _ ev data henc, except_map_ok]

/-- The documented example `{'foo'; 'bar'; {'foo'; 'bar'}}`, which is written as
`["foo","bar",["foo","bar"]]`, and the 2x2 cell `{1, 2; 3, 4}`, which is written as the
flat array `[1,3,2,4]`. -/
theorem encode_cell_flat_witness :
    encode 3 (octave_value.cell [3, 1]
        [octave_value.string (bytes "foo"), octave_value.string (bytes "bar"),
         octave_value.cell [2, 1]
           [octave_value.string (bytes "foo"), octave_value.string (bytes "bar")]]) true
      = .ok (JsonValue.array [.string (bytes "foo"), .string (bytes "bar"),
          .array [.string (bytes "foo"), .string (bytes "bar")]]).events
    ∧ encode 2 (octave_value.cell [2, 2]
        [octave_value.scalar (dbl 1), octave_value.scalar (dbl 3),
         octave_value.scalar (dbl 2), octave_value.scalar (dbl 4)]) true
      = .ok (JsonValue.array [jint 1, jint 3, jint 2, jint 4]).events :=
  ⟨(encode_cell_flat 2 true [3, 1]
      [octave_value.string (bytes "foo"), octave_value.string (bytes "bar"),
       octave_value.cell [2, 1]
         [octave_value.string (bytes "foo"), octave_value.string (bytes "bar")]]
      (fun v => match encode 2 v true with
        | .ok es => es
        | .error _ => [])
      (by
        intro v hv
        simp only [List.mem_cons, List.mem_singleton, List.not_mem_nil, or_false] at hv
        rcases hv with rfl | rfl | rfl <;> rfl)).trans rfl,
   (encode_cell_flat 1 true [2, 2]
      [octave_value.scalar (dbl 1), octave_value.scalar (dbl 3),
       octave_value.scalar (dbl 2), octave_value.scalar (dbl 4)]
      (fun v => match encode 1 v true with
        | .ok es => es
        | .error _ => [])
      (by
        intro v hv
        simp only [List.mem_cons, List.mem_singleton, List.not_mem_nil, or_false] at hv
        rcases hv with rfl | rfl | rfl | rfl <;> rfl)).trans rfl⟩

/-! ## The entry point `jsondecode` -/

theorem unpairs_length (ps : List (octave_value × octave_value)) :
    (unpairs ps).length = 2 * ps.length := by
  induction ps with
  | nil => rfl
  | cons p rest ih =>
    obtain ⟨n, v⟩ := p
    simp only [unpairs, List.length_cons, ih]
    omega

theorem unpairs_append (ps qs : List (octave_value × octave_value)) :
    unpairs (ps ++ qs) = unpairs ps ++ unpairs qs := by
  induction ps with
  | nil => rfl
  | cons p rest ih =>
    obtain ⟨n, v⟩ := p
    show n :: v :: unpairs (rest ++ qs) = n :: v :: (unpairs rest ++ unpairs qs)
    rw [ih]

/-- The loop of `jsondecode` over the option pairs: an error at an unreadable pair,
otherwise the last value of `makeValidName` and the other pairs in their order. -/
theorem jsondecode_scan_eq (lib : jsondecode_library)
    (ps : List (octave_value × octave_value)) :
    ∀ (u : Bool) (acc : List (octave_value × octave_value)),
      jsondecode_scan lib (unpairs ps) (u, unpairs acc)
        = if ps.any (unreadable_pair lib) then .error .invalid_option
          else .ok (make_valid_name_on lib ps u,
            unpairs (acc ++ ps.filter (fun p => !is_make_valid_name_pair lib p))) := by
  induction ps with
  | nil => intro u acc; simp [unpairs, jsondecode_scan, make_valid_name_on]
  | cons p rest ih =>
    intro u acc
    obtain ⟨n, v⟩ := p
    rw [List.any_cons, List.filter_cons]
    cases hn : lib.xstring_value n with
    | none =>
      have h1 : unreadable_pair lib (n, v) = true := by simp [unreadable_pair, hn]
      simp only [unpairs, jsondecode_scan, hn, h1, Bool.true_or, if_true]
    | some name =>
      by_cases hm : strcmpi name (bytes "makeValidName") = true
      · have h2 : is_make_valid_name_pair lib (n, v) = true := by
          simp [is_make_valid_name_pair, hn, hm]
        cases hv : lib.xbool_value v with
        | none =>
          have h1 : unreadable_pair lib (n, v) = true := by
            simp [unreadable_pair, hn, hm, hv]
          simp only [unpairs, jsondecode_scan, hn, hm, hv, h1, Bool.true_or, if_true]
        | some b =>
          have h1 : unreadable_pair lib (n, v) = false := by
            simp [unreadable_pair, hn, hm, hv]
          have h3 : make_valid_name_on lib ((n, v) :: rest) u = make_valid_name_on lib rest b := by
            simp [make_valid_name_on, hn, hv, hm]
          simp only [unpairs, jsondecode_scan, hn, hm, hv, h1, h2, h3, Bool.false_or, if_true,
            Bool.not_true, Bool.false_eq_true, if_false]
          exact ih b acc
      · have h1 : unreadable_pair lib (n, v) = false := by
          simp [unreadable_pair, hn, hm]
        have h2 : is_make_valid_name_pair lib (n, v) = false := by
          simp [is_make_valid_name_pair, hn, hm]
        have h3 : make_valid_name_on lib ((n, v) :: rest) u = make_valid_name_on lib rest u := by
          cases hv : lib.xbool_value v <;> simp [make_valid_name_on, hn, hv, hm]
        have hacc : unpairs acc ++ [n, v] = unpairs (acc ++ [(n, v)]) := by
          rw [unpairs_append]; rfl
        simp only [unpairs, jsondecode_scan, hn, hm, h1, h2, h3, Bool.false_or,
          Bool.false_eq_true, if_false, Bool.not_false, if_true]
        rw [hacc, ih u (acc ++ [(n, v)])]
        simp only [List.append_assoc, List.singleton_append]

/-- The loop of the constructor of the sanitizer options over pairs that are not named
`makeValidName`: an error when one of them is refused, the options otherwise. -/
theorem read_pairs_eq (lib : jsondecode_library) (qs : List (octave_value × octave_value))
    (hq : ∀ q ∈ qs, unreadable_pair lib q = false ∧ is_make_valid_name_pair lib q = false) :
    ∀ o : make_valid_name_options,
      (qs.any (refused_pair lib) = true →
        make_valid_name_options.read_pairs lib (unpairs qs) o = .error .invalid_option)
      ∧ (qs.any (refused_pair lib) = false →
        ∃ o1, make_valid_name_options.read_pairs lib (unpairs qs) o = .ok o1) := by
  induction qs with
  | nil =>
    intro o
    exact ⟨fun h => by simp at h, fun _ => ⟨o, rfl⟩⟩
  | cons q rest ih =>
    intro o
    obtain ⟨n, v⟩ := q
    obtain ⟨h1, h2⟩ := hq (n, v) (List.mem_cons_self _ _)
    have ih1 := ih (fun q hq1 => hq q (List.mem_cons_of_mem _ hq1))
    simp only [unreadable_pair, is_make_valid_name_pair] at h1 h2
    cases hn : lib.xstring_value n with
    | none => rw [hn] at h1; simp at h1
    | some name =>
      rw [hn] at h2
      simp only at h2
      simp only [unpairs, make_valid_name_options.read_pairs, hn, List.any_cons, refused_pair,
        h2, Bool.false_eq_true, if_false]
      by_cases hs : str_to_lower name = bytes "replacementstyle"
      · simp only [hs, if_true]
        cases hv : lib.xstring_value v with
        | none => simp
        | some style =>
          simp only
          by_cases hst : str_to_lower style ≠ bytes "underscore"
              ∧ str_to_lower style ≠ bytes "delete" ∧ str_to_lower style ≠ bytes "hex"
          · have hb : (!(str_to_lower style == bytes "underscore"
                || str_to_lower style == bytes "delete"
                || str_to_lower style == bytes "hex")) = true := by
              simp [hst.1, hst.2.1, hst.2.2]
            simp [hst, hb]
          · have hb : (!(str_to_lower style == bytes "underscore"
                || str_to_lower style == bytes "delete"
                || str_to_lower style == bytes "hex")) = false := by
              simp only [ne_eq, not_and_or, not_not] at hst
              rcases hst with h | h | h <;> simp [h]
            simp only [hst, if_false, hb, Bool.false_or]
            exact ih1 _
      · simp only [hs, if_false]
        by_cases hpn : str_to_lower name = bytes "prefix"
        · simp only [hpn, if_true]
          cases hv : lib.xstring_value v with
          | none => simp
          | some pfx =>
            simp only
            by_cases hbad : (!valid_identifier pfx || lib.iskeyword pfx) = true
            · simp [hbad]
            · simp only [hbad, Bool.false_eq_true, if_false]
              have hbad1 : (!valid_identifier pfx || lib.iskeyword pfx) = false := by
                simpa using hbad
              simp only [hbad1, Bool.false_or]
              exact ih1 _
        · simp [hpn]

theorem refused_not_make_valid_name (lib : jsondecode_library)
    (p : octave_value × octave_value) (h : refused_pair lib p = true) :
    is_make_valid_name_pair lib p = false := by
  unfold refused_pair at h
  unfold is_make_valid_name_pair
  cases hn : lib.xstring_value p.1 with
  | none => rfl
  | some name =>
    rw [hn] at h
    simp only at h ⊢
    by_cases hm : strcmpi name (bytes "makeValidName") = true
    · rw [if_pos hm] at h
      exact absurd h (by simp)
    · simpa using hm

theorem Fjsondecode_unfold (lib : jsondecode_library) (txt : octave_value)
    (ps : List (octave_value × octave_value)) :
    Fjsondecode lib (txt :: unpairs ps)
      = match jsondecode_scan lib (unpairs ps) (true, unpairs []) with
        | .error e => .error e
        | .ok (use_makeValidName, make_valid_name_params) =>
          match (if use_makeValidName then
                  (make_valid_name_options.of_args lib make_valid_name_params).map some
                else .ok none) with
          | .error e => .error e
          | .ok options => jsondecode_text lib txt options := by
  have hodd : ¬ ((unpairs ps).length + 1) % 2 = 0 := by
    rw [unpairs_length]; omega
  simp only [Fjsondecode, hodd, if_false]
  rfl

/-- The option pairs other than `makeValidName`, the arguments of the constructor of the
sanitizer options: an error when one of them is refused, the options otherwise. -/
theorem of_args_eq (lib : jsondecode_library) (ps : List (octave_value × octave_value))
    (hread : ps.any (unreadable_pair lib) = false) :
    (ps.any (refused_pair lib) = true →
      make_valid_name_options.of_args lib
          (unpairs (ps.filter (fun p => !is_make_valid_name_pair lib p)))
        = .error .invalid_option)
    ∧ (ps.any (refused_pair lib) = false →
      ∃ o, make_valid_name_options.of_args lib
          (unpairs (ps.filter (fun p => !is_make_valid_name_pair lib p))) = .ok o) := by
  have hq : ∀ q ∈ ps.filter (fun p => !is_make_valid_name_pair lib p),
      unreadable_pair lib q = false ∧ is_make_valid_name_pair lib q = false := by
    intro q hq
    obtain ⟨h1, h2⟩ := List.mem_filter.mp hq
    refine ⟨?_, by simpa using h2⟩
    rw [List.any_eq_false] at hread
    simpa using hread q h1
  have hany : (ps.filter (fun p => !is_make_valid_name_pair lib p)).any (refused_pair lib)
      = ps.any (refused_pair lib) := by
    rw [Bool.eq_iff_iff, List.any_eq_true, List.any_eq_true]
    constructor
    · rintro ⟨q, hq1, hq2⟩
      exact ⟨q, (List.mem_filter.mp hq1).1, hq2⟩
    · rintro ⟨q, hq1, hq2⟩
      exact ⟨q, List.mem_filter.mpr ⟨hq1, by simp [refused_not_make_valid_name lib q hq2]⟩, hq2⟩
  have hrp := read_pairs_eq lib _ hq make_valid_name_options.default
  have heven : ¬ (unpairs (ps.filter (fun p => !is_make_valid_name_pair lib p))).length % 2 ≠ 0
      := by
    rw [unpairs_length]; omega
  constructor
  · intro h
    have hne : ¬ (unpairs (ps.filter (fun p => !is_make_valid_name_pair lib p))).length = 0
        := by
      rw [unpairs_length]
      rw [← hany, List.any_eq_true] at h
      obtain ⟨q, hq1, -⟩ := h
      have := List.length_pos_of_mem hq1
      omega
    unfold make_valid_name_options.of_args
    rw [if_neg hne, if_neg heven]
    exact hrp.1 (hany.trans h)
  · intro h
    unfold make_valid_name_options.of_args
    by_cases hz : (unpairs (ps.filter (fun p => !is_make_valid_name_pair lib p))).length = 0
    · exact ⟨_, by rw [if_pos hz]⟩
    · rw [if_neg hz, if_neg heven]
      exact hrp.2 (hany.trans h)

/-- A call of `jsondecode` whose options are accepted goes on to the text with the
sanitizer options, or with none when `makeValidName` is false. -/
theorem Fjsondecode_text (lib : jsondecode_library) (txt : octave_value)
    (ps : List (octave_value × octave_value))
    (hread : ps.any (unreadable_pair lib) = false)
    (hopts : make_valid_name_on lib ps true = true → ps.any (refused_pair lib) = false) :
    ∃ options, Fjsondecode lib (txt :: unpairs ps) = jsondecode_text lib txt options
      ∧ (make_valid_name_on lib ps true = false → options = none) := by
  rw [Fjsondecode_unfold, jsondecode_scan_eq lib ps true [], hread]
  simp only [Bool.false_eq_true, if_false, List.nil_append]
  cases hu : make_valid_name_on lib ps true with
  | false => exact ⟨none, rfl, fun _ => rfl⟩
  | true =>
    obtain ⟨o, ho⟩ := (of_args_eq lib ps hread).2 (hopts hu)
    refine ⟨some o, ?_, fun h => absurd h (by simp)⟩
    simp only [if_true, ho]
    rfl

theorem jsondecode_text_not_invalid_option (lib : jsondecode_library) (txt : octave_value)
    (options : Option make_valid_name_options) :
    jsondecode_text lib txt options ≠ .error .invalid_option := by
  unfold jsondecode_text
  split_ifs
  · simp
  · cases hs : lib.xstring_value txt with
    | none => simp
    | some json =>
      cases hp : lib.Parse (c_string json) with
      | error offset => simp [hp]
      | ok d =>
        cases hd : decode lib.iskeyword d.depth d options with
        | error e => simp [hp, hd]
        | ok r => simp [hp, hd]

/-- C29 as stated, at calls that the code accepts.  With the options
`'makeValidName', false, 'Prefix', '1x', 'Foo', 'bar'` the call returns the decoded value
although `1x` is no valid prefix and `Foo` is no option: the sanitizer options are not
built, so the other pairs are not examined.  The value of `makeValidName` is converted
and not tested for its type: the number 5, which is no logical value, is read as true
and the keys are sanitized, and the number 0 is read as false, so that the keys are kept
and the invalid prefix `1x` behind it is not examined either. -/
theorem invalid_options_ignored :
    Fjsondecode doc_library
        [octave_value.string empty_object_text,
         octave_value.string (bytes "makeValidName"), octave_value.bool false,
         octave_value.string (bytes "Prefix"), octave_value.string (bytes "1x"),
         octave_value.string (bytes "Foo"), octave_value.string (bytes "bar")]
      = .ok (octave_value.of_scalar_map [])
    ∧ refused_pair doc_library
        (octave_value.string (bytes "Prefix"), octave_value.string (bytes "1x")) = true
    ∧ refused_pair doc_library
        (octave_value.string (bytes "Foo"), octave_value.string (bytes "bar")) = true
    ∧ (octave_value.scalar (dbl 5)).islogical = false
    ∧ Fjsondecode doc_library
        [octave_value.string doc_object_text,
         octave_value.string (bytes "makeValidName"), octave_value.scalar (dbl 5)]
      = .ok (octave_value.of_scalar_map
          [(bytes "nu_m_ber", octave_value.scalar (dbl 7)),
           (bytes "s_tr_ing", octave_value.string (bytes "hi"))])
    ∧ Fjsondecode doc_library
        [octave_value.string doc_object_text,
         octave_value.string (bytes "makeValidName"), octave_value.scalar (dbl 0),
         octave_value.string (bytes "Prefix"), octave_value.string (bytes "1x")]
      = .ok (octave_value.of_scalar_map
          [(bytes "nu#m#ber", octave_value.scalar (dbl 7)),
           (bytes "s#tr#ing", octave_value.string (bytes "hi"))]) := by
  refine ⟨rfl, by decide, by decide, rfl, rfl, rfl⟩

/-- C29, amended.  A call of `jsondecode` with options in pairs ends with the error of an
invalid option, whatever the text and whatever the parser, in these cases and in no
other: the option list holds a pair whose name the conversion `xstring_value` refuses,
or a `makeValidName` pair whose value the conversion `xbool_value` refuses (the value is
converted, not tested for being a logical value); or the last `makeValidName` value is
not read as false and the list holds a pair that the sanitizer options refuse: an
unknown name, a `ReplacementStyle` other than `underscore`, `delete` or `hex` (in any
case of the letters), or a `Prefix` that is no valid identifier or a keyword. -/
theorem jsondecode_invalid_option (lib : jsondecode_library) (txt : octave_value)
    (ps : List (octave_value × octave_value)) :
    Fjsondecode lib (txt :: unpairs ps) = .error .invalid_option
      ↔ (ps.any (unreadable_pair lib) = true
        ∨ (make_valid_name_on lib ps true = true ∧ ps.any (refused_pair lib) = true)) := by
  constructor
  · intro hres
    by_contra hc
    push_neg at hc
    obtain ⟨h1, h2⟩ := hc
    have hread : ps.any (unreadable_pair lib) = false := by simpa using h1
    obtain ⟨options, ho, -⟩ := Fjsondecode_text lib txt ps hread
      (fun hu => by simpa using h2 hu)
    rw [ho] at hres
    exact jsondecode_text_not_invalid_option lib txt options hres
  · intro h
    rw [Fjsondecode_unfold, jsondecode_scan_eq lib ps true []]
    by_cases hread : ps.any (unreadable_pair lib) = true
    · simp only [hread, if_true]
    · have hread1 : ps.any (unreadable_pair lib) = false := by simpa using hread
      rcases h with h | ⟨hu, href⟩
      · exact absurd h hread
      · simp only [hread1, Bool.false_eq_true, if_false, List.nil_append, hu, if_true,
          (of_args_eq lib ps hread1).1 href]
        rfl

/-- Both cases at calls whose first argument is the number 1 and no text: the options
`'makeValidName', 'yes'`, whose value `xbool_value` refuses, and the options
`'ReplacementStyle', 'Hexa'`, which the sanitizer options refuse, end with the error. -/
theorem jsondecode_invalid_option_witness :
    Fjsondecode doc_library
        (octave_value.scalar (dbl 1) :: unpairs
          [(octave_value.string (bytes "makeValidName"), octave_value.string (bytes "yes"))])
      = .error .invalid_option
    ∧ Fjsondecode doc_library
        (octave_value.scalar (dbl 1) :: unpairs
          [(octave_value.string (bytes "ReplacementStyle"), octave_value.string (bytes "Hexa"))])
      = .error .invalid_option :=
  ⟨(jsondecode_invalid_option doc_library (octave_value.scalar (dbl 1))
      [(octave_value.string (bytes "makeValidName"),
        octave_value.string (bytes "yes"))]).mpr (Or.inl (by decide)),
   (jsondecode_invalid_option doc_library (octave_value.scalar (dbl 1))
      [(octave_value.string (bytes "ReplacementStyle"),
        octave_value.string (bytes "Hexa"))]).mpr (Or.inr ⟨by decide, by decide⟩)⟩

/-- The calls with the options `'Prefix', 'for'` and `'makeValidName', 'yes'` end with the
error of an invalid option; the call with `'replacementSTYLE', 'HEX'` is accepted. -/
theorem invalid_option_examples :
    Fjsondecode doc_library
        [octave_value.string empty_object_text,
         octave_value.string (bytes "Prefix"), octave_value.string (bytes "for")]
      = .error .invalid_option
    ∧ Fjsondecode doc_library
        [octave_value.string empty_object_text,
         octave_value.string (bytes "makeValidName"), octave_value.string (bytes "yes")]
      = .error .invalid_option
    ∧ Fjsondecode doc_library
        [octave_value.string empty_object_text,
         octave_value.string (bytes "replacementSTYLE"), octave_value.string (bytes "HEX")]
      = .ok (octave_value.of_scalar_map []) := by
  refine ⟨rfl, rfl, rfl⟩

theorem decode_object_loop_names (iskeyword : Str → Bool)
    (dec : JsonValue → Except Error octave_value) (members : List (Str × JsonValue)) :
    ∀ (retval m : octave_scalar_map),
      decode_object_loop iskeyword dec none members retval = .ok m →
      ∀ name, name ∈ m.fieldnames
        ↔ name ∈ retval.fieldnames ∨ ∃ p ∈ members, c_string p.1 = name := by
  induction members with
  | nil =>
    intro retval m h name
    simp only [decode_object_loop, Except.ok.injEq] at h
    subst h
    simp
  | cons pair rest ih =>
    intro retval m h name
    unfold decode_object_loop at h
    simp only at h
    split at h
    · exact absurd h (by simp)
    · rename_i v hv
      rw [ih _ m h name, assign_fieldnames]
      split_ifs with hmem
      · constructor
        · rintro (h1 | ⟨p, hp, hpn⟩)
          · exact Or.inl h1
          · exact Or.inr ⟨p, List.mem_cons_of_mem _ hp, hpn⟩
        · rintro (h1 | ⟨p, hp, hpn⟩)
          · exact Or.inl h1
          · rcases List.mem_cons.mp hp with rfl | hp
            · exact Or.inl (hpn ▸ hmem)
            · exact Or.inr ⟨p, hp, hpn⟩
      · constructor
        · rintro (h1 | ⟨p, hp, hpn⟩)
          · rcases List.mem_append.mp h1 with h1 | h1
            · exact Or.inl h1
            · simp only [List.mem_singleton] at h1
              exact Or.inr ⟨pair, List.mem_cons_self _ _, h1.symm⟩
          · exact Or.inr ⟨p, List.mem_cons_of_mem _ hp, hpn⟩
        · rintro (h1 | ⟨p, hp, hpn⟩)
          · exact Or.inl (List.mem_append_left _ h1)
          · rcases List.mem_cons.mp hp with rfl | hp
            · exact Or.inl (List.mem_append_right _ (by simp [hpn]))
            · exact Or.inr ⟨p, hp, hpn⟩

/-- C22 as stated, at a key with a NUL character.  Without the sanitizer, the key `a\0b`
(in JSON text `"a\u0000b"`) becomes the field name `a`: the key is read as a C string,
which ends at the first NUL. -/
theorem key_cut_at_nul :
    decode octave_iskeyword 2 (.object [([97, 0, 98], jint 1)]) none
        = .ok (octave_value.of_scalar_map [([97], octave_value.scalar (dbl 1))])
      ∧ ([97] : Str) ≠ [97, 0, 98] := by
  refine ⟨rfl, by decide⟩

/-- C22, amended.  When the option pairs are readable and set `makeValidName` to false,
the call of `jsondecode` goes on to the text without sanitizer options, whatever the
other pairs are; and without sanitizer options a valid JSON object decodes to a struct
whose field names are the keys, each up to its first NUL character. -/
theorem jsondecode_names_unchanged (lib : jsondecode_library) (txt : octave_value)
    (ps : List (octave_value × octave_value))
    (hread : ps.any (unreadable_pair lib) = false)
    (hoff : make_valid_name_on lib ps true = false) :
    Fjsondecode lib (txt :: unpairs ps) = jsondecode_text lib txt none
      ∧ ∀ (fuel : Nat) (members : List (Str × JsonValue)),
          (JsonValue.object members).valid = true → (JsonValue.object members).depth ≤ fuel →
          ∃ m : octave_scalar_map,
            decode lib.iskeyword fuel (.object members) none
                = .ok (octave_value.of_scalar_map m)
              ∧ ∀ name, name ∈ m.fieldnames ↔ ∃ p ∈ members, c_string p.1 = name := by
  constructor
  · obtain ⟨options, ho, hnone⟩ := Fjsondecode_text lib txt ps hread
      (fun h => by rw [hoff] at h; exact absurd h (by simp))
    rw [ho, hnone hoff]
  · intro fuel members hv hd
    obtain ⟨r, hr, hok⟩ := decode_ok lib.iskeyword none fuel (.object members) hv hd
    obtain ⟨m, rfl, -⟩ := hok.1 rfl
    refine ⟨m, hr, ?_⟩
    cases fuel with
    | zero => simp [decode] at hr
    | succ fuel =>
      rw [decode_succ_object] at hr
      unfold decode_object at hr
      cases hl : decode_object_loop lib.iskeyword (fun v => decode lib.iskeyword fuel v none)
          none members [] with
      | error e => rw [hl] at hr; simp [Except.map] at hr
      | ok m1 =>
        rw [hl] at hr
        simp only [except_map_ok, Except.ok.injEq] at hr
        have hm := of_scalar_map_injective m1 m hr
        subst hm
        intro name
        rw [decode_object_loop_names _ _ members [] m1 hl name]
        simp [octave_scalar_map.fieldnames]

/-- The documented example: with `makeValidName` false the keys `nu#m#ber` and `s#tr#ing`
stay as they are, whatever `ReplacementStyle` and `Prefix` are given. -/
theorem jsondecode_names_unchanged_witness :
    Fjsondecode doc_library
        (octave_value.string doc_object_text :: unpairs
          [(octave_value.string (bytes "ReplacementStyle"), octave_value.string (bytes "hex")),
           (octave_value.string (bytes "makeValidName"), octave_value.bool false),
           (octave_value.string (bytes "Prefix"), octave_value.string (bytes "m_"))])
      = .ok (octave_value.of_scalar_map
          [(bytes "nu#m#ber", octave_value.scalar (dbl 7)),
           (bytes "s#tr#ing", octave_value.string (bytes "hi"))]) :=
  ((jsondecode_names_unchanged doc_library (octave_value.string doc_object_text)
    [(octave_value.string (bytes "ReplacementStyle"), octave_value.string (bytes "hex")),
     (octave_value.string (bytes "makeValidName"), octave_value.bool false),
     (octave_value.string (bytes "Prefix"), octave_value.string (bytes "m_"))]
    (by decide) (by decide)).1).trans rfl

/-! ## The invariants of the decoded values -/

theorem well_formed_list_iff (l : List octave_value) :
    well_formed_list l = true ↔ ∀ v ∈ l, v.well_formed = true := by
  induction l with
  | nil => simp [well_formed_list]
  | cons v vs ih => simp [well_formed_list, ih]

theorem well_formed_fields_iff (n : Nat) (f : List (Str × List octave_value)) :
    well_formed_fields n f = true
      ↔ ∀ kv ∈ f, kv.2.length = n ∧ ∀ v ∈ kv.2, v.well_formed = true := by
  induction f with
  | nil => simp [well_formed_fields]
  | cons kv fs ih =>
    obtain ⟨k, c⟩ := kv
    simp [well_formed_fields, ih, well_formed_list_iff, and_assoc]

theorem well_formed_cell (d : List Nat) (x : List octave_value) :
    (octave_value.cell d x).well_formed = true
      ↔ 2 ≤ d.length ∧ x.length = d.prod ∧ ∀ v ∈ x, v.well_formed = true := by
  simp [octave_value.well_formed, well_formed_list_iff, and_assoc]

theorem well_formed_map (d : List Nat) (f : List (Str × List octave_value)) :
    (octave_value.map d f).well_formed = true
      ↔ 2 ≤ d.length ∧ ∀ kv ∈ f, kv.2.length = d.prod ∧ ∀ v ∈ kv.2, v.well_formed = true := by
  simp [octave_value.well_formed, well_formed_fields_iff]

theorem well_formed_fits (v : octave_value) (h : v.well_formed = true) :
    v.data_fits_dims = true := by
  cases v with
  | matrix d x => simp [octave_value.well_formed] at h; simp [octave_value.data_fits_dims, h.2]
  | bool_matrix d x =>
    simp [octave_value.well_formed] at h; simp [octave_value.data_fits_dims, h.2]
  | char_matrix d x =>
    simp [octave_value.well_formed] at h; simp [octave_value.data_fits_dims, h.2]
  | cell d x =>
    rw [well_formed_cell] at h; simp [octave_value.data_fits_dims, h.2.1]
  | map d f =>
    rw [well_formed_map] at h
    simp only [octave_value.data_fits_dims, List.all_eq_true, beq_iff_eq]
    exact fun kv hkv => (h.2 kv hkv).1

theorem well_formed_dims (v : octave_value) (h : v.well_formed = true) : 2 ≤ v.dims.length := by
  cases v <;> simp [octave_value.well_formed] at h <;> simp [octave_value.dims] <;> omega

theorem well_formed_of_scalar_map (m : octave_scalar_map) :
    (octave_value.of_scalar_map m).well_formed = true ↔ ∀ kv ∈ m, kv.2.well_formed = true := by
  unfold octave_value.of_scalar_map
  rw [well_formed_map]
  constructor
  · intro h kv hkv
    have := (h.2 (kv.1, [kv.2]) (List.mem_map.mpr ⟨kv, hkv, rfl⟩)).2
    exact this kv.2 (List.mem_singleton_self _)
  · intro h
    refine ⟨by simp, ?_⟩
    intro kv hkv
    obtain ⟨q, hq, rfl⟩ := List.mem_map.mp hkv
    refine ⟨rfl, ?_⟩
    intro v hv
    simp only [List.mem_singleton] at hv
    subst hv
    exact h q hq

theorem chop_reversed_length (l : List Nat) (h : 2 ≤ l.length) :
    2 ≤ (chop_reversed l).length := by
  induction l with
  | nil => simp at h
  | cons d rest ih =>
    unfold chop_reversed
    split_ifs with hc
    · exact ih hc.1
    · exact h

theorem chop_trailing_singletons_length (dv : List Nat) (h : 2 ≤ dv.length) :
    2 ≤ (chop_trailing_singletons dv).length := by
  unfold chop_trailing_singletons
  rw [List.length_reverse]
  exact chop_reversed_length _ (by rw [List.length_reverse]; exact h)

theorem for_loop_invariant {σ : Type} (Inv : σ → Prop)
    (body : Nat → σ → Except Error σ)
    (hbody : ∀ i s s1, Inv s → body i s = .ok s1 → Inv s1) :
    ∀ (n : Nat) (s s1 : σ), Inv s → for_loop body n s = .ok s1 → Inv s1 := by
  intro n
  induction n with
  | zero =>
    intro s s1 hs h
    simp only [for_loop, Except.ok.injEq] at h
    exact h ▸ hs
  | succ n ih =>
    intro s s1 hs h
    rw [for_loop] at h
    split at h
    · rename_i s2 hs2
      exact hbody n s2 s1 (ih s s2 hs hs2) h
    · exact absurd h (by simp)

theorem populate_inner_all {α : Type} (P : α → Prop) (sub : List α) (k count M : Nat)
    (a a1 : List α) (hsub : ∀ x ∈ sub, P x) (ha : ∀ x ∈ a, P x)
    (h : populate_inner sub k count M a = .ok a1) : ∀ x ∈ a1, P x := by
  refine for_loop_invariant (fun l : List α => ∀ x ∈ l, P x) _ ?_ M a a1 ha h
  intro i s s1 hs hstep
  simp only [elem] at hstep
  split at hstep
  · exact absurd hstep (by simp)
  · rename_i v hv
    split at hv
    · rename_i y hy
      simp only [Except.ok.injEq] at hv
      subst hv
      unfold assign_elem at hstep
      split_ifs at hstep
      simp only [Except.ok.injEq] at hstep
      subst hstep
      intro x hx
      rcases List.mem_or_eq_of_mem_set hx with h1 | h1
      · exact hs x h1
      · exact h1 ▸ hsub y (List.getElem?_mem hy)
    · exact absurd hv (by simp)

theorem mem_of_lookup {β : Type} (l : List (Str × β)) (k : Str) (c : β)
    (h : l.lookup k = some c) : (k, c) ∈ l := by
  induction l with
  | nil => simp at h
  | cons g rest ih =>
    obtain ⟨k1, c1⟩ := g
    by_cases hk : k = k1
    · subst hk
      simp only [List.lookup, beq_self_eq_true, Option.some.injEq] at h
      subst h
      exact List.mem_cons_self _ _
    · have hb : (k == k1) = false := by simpa using hk
      simp only [List.lookup, hb] at h
      exact List.mem_cons_of_mem _ (ih h)

theorem populate_field_all (P : octave_value → Prop) (cell : List octave_value) (name : Str)
    (count M : Nat) (value value1 : List octave_value)
    (hcell : ∀ x ∈ cell, ∀ d f, x = octave_value.map d f → ∀ kv ∈ f, ∀ v ∈ kv.2, P v)
    (hvalue : ∀ x ∈ value, P x)
    (h : populate_field cell name count M value = .ok value1) : ∀ x ∈ value1, P x := by
  refine for_loop_invariant (fun l : List octave_value => ∀ x ∈ l, P x) _ ?_ count value value1
    hvalue h
  intro k s s1 hs hstep
  simp only at hstep
  split at hstep
  · exact absurd hstep (by simp)
  · rename_i sub hsub
    refine populate_inner_all P sub k count M s s1 ?_ hs hstep
    cases hk : cell[k]? with
    | none => simp [elem, hk, Except.bind] at hsub
    | some x =>
      have hx : x ∈ cell := List.getElem?_mem hk
      cases x with
      | map d f =>
        simp only [elem, hk, Except.bind, octave_value.map_value, octave_map.getfield] at hsub
        cases hl : f.lookup name with
        | none => rw [hl] at hsub; simp at hsub
        | some c =>
          rw [hl] at hsub
          simp only [Except.ok.injEq] at hsub
          subst hsub
          exact hcell _ hx d f rfl (name, c) (mem_of_lookup f name c hl)
      | matrix d f => simp [elem, hk, Except.bind, octave_value.map_value] at hsub
      | bool_matrix d f => simp [elem, hk, Except.bind, octave_value.map_value] at hsub
      | char_matrix d f => simp [elem, hk, Except.bind, octave_value.map_value] at hsub
      | cell d f => simp [elem, hk, Except.bind, octave_value.map_value] at hsub

theorem array_of_arrays_fields_all (P : octave_value → Prop) (cell : List octave_value)
    (dims1 : List Nat) (count M : Nat)
    (hcell : ∀ x ∈ cell, ∀ d f, x = octave_value.map d f → ∀ kv ∈ f, ∀ v ∈ kv.2, P v)
    (names : List Str) :
    ∀ (value : List octave_value) (sa sa1 : octave_map),
      (∀ x ∈ value, P x) → (∀ kv ∈ sa.fields, ∀ v ∈ kv.2, P v) →
      array_of_arrays_fields cell dims1 count M names value sa = .ok sa1 →
      ∀ kv ∈ sa1.fields, ∀ v ∈ kv.2, P v := by
  induction names with
  | nil =>
    intro value sa sa1 _ hsa h
    simp only [array_of_arrays_fields, Except.ok.injEq] at h
    exact h ▸ hsa
  | cons name rest ih =>
    intro value sa sa1 hvalue hsa h
    rw [array_of_arrays_fields] at h
    split at h
    · exact absurd h (by simp)
    · rename_i value1 hv1
      have hP1 := populate_field_all P cell name count M value value1 hcell hvalue hv1
      split at h
      · exact absurd h (by simp)
      · rename_i sa2 hsa2
        refine ih value1 sa2 sa1 hP1 ?_ h
        unfold octave_map.assign at hsa2
        split_ifs at hsa2
        · simp only [Except.ok.injEq] at hsa2
          subst hsa2
          intro kv hkv v hv
          simp only [List.mem_singleton] at hkv
          subst hkv
          exact hP1 v hv
        · simp only [Except.ok.injEq] at hsa2
          subst hsa2
          intro kv hkv v hv
          rcases (setfield_cells_mem sa.fields name value1).2 kv hkv with h1 | h1
          · rw [h1] at hv
            exact hP1 v hv
          · exact hsa kv h1 v hv

theorem assign_values (m : octave_scalar_map) (k : Str) (v : octave_value) :
    ∀ kv ∈ m.assign k v, kv.2 = v ∨ kv ∈ m := by
  induction m with
  | nil =>
    intro kv hkv
    simp only [octave_scalar_map.assign, List.mem_singleton] at hkv
    exact Or.inl (hkv ▸ rfl)
  | cons p rest ih =>
    obtain ⟨k1, v1⟩ := p
    intro kv hkv
    unfold octave_scalar_map.assign at hkv
    split_ifs at hkv
    · rcases List.mem_cons.mp hkv with rfl | hkv
      · exact Or.inl rfl
      · exact Or.inr (List.mem_cons_of_mem _ hkv)
    · rcases List.mem_cons.mp hkv with rfl | hkv
      · exact Or.inr (List.mem_cons_self _ _)
      · rcases ih kv hkv with h | h
        · exact Or.inl h
        · exact Or.inr (List.mem_cons_of_mem _ h)

theorem decode_object_loop_all (P : octave_value → Prop) (iskeyword : Str → Bool)
    (dec : JsonValue → Except Error octave_value) (options : Option make_valid_name_options)
    (members : List (Str × JsonValue))
    (hdec : ∀ p ∈ members, ∀ v, dec p.2 = .ok v → P v) :
    ∀ (retval m : octave_scalar_map), (∀ kv ∈ retval, P kv.2) →
      decode_object_loop iskeyword dec options members retval = .ok m →
      ∀ kv ∈ m, P kv.2 := by
  induction members with
  | nil =>
    intro retval m hr h
    simp only [decode_object_loop, Except.ok.injEq] at h
    exact h ▸ hr
  | cons pair rest ih =>
    intro retval m hr h
    unfold decode_object_loop at h
    simp only at h
    split at h
    · exact absurd h (by simp)
    · rename_i v hv
      refine ih (fun p hp => hdec p (List.mem_cons_of_mem _ hp)) _ m ?_ h
      intro kv hkv
      rcases assign_values _ _ _ kv hkv with h1 | h1
      · rw [h1]
        exact hdec pair (List.mem_cons_self _ _) v hv
      · exact hr kv h1

theorem decode_array_of_arrays_shape (dec : JsonValue → Except Error octave_value)
    (val : List JsonValue) (v0 : octave_value) (rest : List octave_value) (r : octave_value)
    (hmap : mapE dec val = .ok (v0 :: rest))
    (h : decode_array_of_arrays dec val = .ok r) :
    r = octave_value.cell [val.length, 1] (v0 :: rest)
      ∨ (∃ x, r = octave_value.matrix
            (chop_trailing_singletons ((v0 :: rest).length :: v0.dims)) x)
      ∨ (∃ x, r = octave_value.bool_matrix
            (chop_trailing_singletons ((v0 :: rest).length :: v0.dims)) x)
      ∨ r = octave_value.map (chop_trailing_singletons ((v0 :: rest).length :: v0.dims)) []
      ∨ ∃ sa names M,
          array_of_arrays_fields (v0 :: rest)
              (chop_trailing_singletons ((v0 :: rest).length :: v0.dims)) (v0 :: rest).length M
              names
              (List.replicate (dim_numel
                (chop_trailing_singletons ((v0 :: rest).length :: v0.dims)))
                (octave_value.matrix [0, 0] []))
              octave_map.empty = .ok sa
            ∧ names ≠ [] ∧ r = octave_value.of_map sa := by
  unfold decode_array_of_arrays at h
  simp only [decode_string_and_mixed_array, hmap, except_map_ok, Except.bind,
    octave_value.of_cell, octave_value.cell_value, except_bind_ok, elem,
    List.getElem?_cons_zero] at h
  simp only [bind, Except.bind] at h
  cases hs : v0.isstruct with
  | false =>
    simp only [hs, Bool.false_eq_true, if_false] at h
    cases hb : any_sub_array_mismatch v0.is_bool_matrix false [] v0.dims (v0 :: rest) with
    | error e => rw [hb] at h; exact absurd h (by simp)
    | ok b =>
      rw [hb] at h
      cases b with
      | true =>
        simp only [if_true, Except.ok.injEq] at h
        exact Or.inl h.symm
      | false =>
        simp only [Bool.false_eq_true, if_false] at h
        cases harr : populate_array (v0 :: rest) (v0 :: rest).length
            (dim_numel (chop_trailing_singletons ((v0 :: rest).length :: v0.dims))
              / (v0 :: rest).length)
            (List.replicate
              (dim_numel (chop_trailing_singletons ((v0 :: rest).length :: v0.dims)))
              (Double.finite 0)) with
        | error e => rw [harr] at h; exact absurd h (by simp)
        | ok arr =>
          rw [harr] at h
          cases hbm : v0.is_bool_matrix with
          | true =>
            simp only [hbm, if_true, Except.ok.injEq] at h
            exact Or.inr (Or.inr (Or.inl ⟨_, h.symm⟩))
          | false =>
            simp only [hbm, Bool.false_eq_true, if_false, Except.ok.injEq,
              octave_value.of_array] at h
            exact Or.inr (Or.inl ⟨_, h.symm⟩)
  | true =>
    simp only [hs, if_true] at h
    cases hnames : Except.map octave_map.fieldnames v0.map_value with
    | error e => rw [hnames] at h; exact absurd h (by simp)
    | ok names =>
      rw [hnames] at h
      simp only at h
      cases hb : any_sub_array_mismatch v0.is_bool_matrix true names v0.dims (v0 :: rest) with
      | error e => rw [hb] at h; exact absurd h (by simp)
      | ok b =>
        rw [hb] at h
        cases b with
        | true =>
          simp only [if_true, Except.ok.injEq] at h
          exact Or.inl h.symm
        | false =>
          simp only [Bool.false_eq_true, if_false] at h
          by_cases hn : names.length ≠ 0
          · rw [if_pos hn] at h
            cases hsa : array_of_arrays_fields (v0 :: rest)
                (chop_trailing_singletons ((v0 :: rest).length :: v0.dims)) (v0 :: rest).length
                (dim_numel v0.dims) names
                (List.replicate (dim_numel
                  (chop_trailing_singletons ((v0 :: rest).length :: v0.dims)))
                  (octave_value.matrix [0, 0] []))
                octave_map.empty with
            | error e => rw [hsa] at h; simp [Except.map] at h
            | ok sa =>
              rw [hsa] at h
              simp only [except_map_ok, Except.ok.injEq] at h
              refine Or.inr (Or.inr (Or.inr (Or.inr ⟨sa, names, _, hsa, ?_, h.symm⟩)))
              intro hnil
              rw [hnil] at hn
              exact hn rfl
          · rw [if_neg hn] at h
            simp only [Except.ok.injEq] at h
            exact Or.inr (Or.inr (Or.inr (Or.inl h.symm)))

theorem array_of_arrays_fields_dims (cell : List octave_value) (dims1 : List Nat)
    (count M : Nat) (names : List Str) :
    ∀ (value : List octave_value) (sa sa1 : octave_map),
      array_of_arrays_fields cell dims1 count M names value sa = .ok sa1 →
      (names ≠ [] ∨ sa.dims = dims1) → sa1.dims = dims1 := by
  induction names with
  | nil =>
    intro value sa sa1 h hd
    simp only [array_of_arrays_fields, Except.ok.injEq] at h
    rcases hd with hd | hd
    · exact absurd rfl hd
    · exact h ▸ hd
  | cons name rest ih =>
    intro value sa sa1 h _
    rw [array_of_arrays_fields] at h
    split at h
    · exact absurd h (by simp)
    · rename_i value1 hv1
      split at h
      · exact absurd h (by simp)
      · rename_i sa2 hsa2
        refine ih value1 sa2 sa1 h (Or.inr ?_)
        unfold octave_map.assign at hsa2
        split_ifs at hsa2 with h1 h2
        · simp only [Except.ok.injEq] at hsa2
          exact hsa2 ▸ rfl
        · simp only [Except.ok.injEq] at hsa2
          subst hsa2
          exact h2.symm

/-- A value returned by `decode_array_of_arrays` is well formed when the decoded
sub-arrays are. -/
theorem decode_array_of_arrays_wf (dec : JsonValue → Except Error octave_value)
    (val : List JsonValue) (vs : List octave_value) (r : octave_value)
    (hmap : mapE dec val = .ok vs) (hne : vs ≠ [])
    (hv : ∀ v ∈ vs, v.well_formed = true ∧ v.is_string = false)
    (h : decode_array_of_arrays dec val = .ok r) : r.well_formed = true := by
  obtain ⟨r1, hr1, hfit, -⟩ := decode_array_of_arrays_ok dec val vs hmap hne
    (fun v hv1 => ⟨well_formed_fits v (hv v hv1).1, (hv v hv1).2⟩)
  rw [h] at hr1
  injection hr1 with hr1
  subst hr1
  obtain ⟨v0, rest, rfl⟩ := List.exists_cons_of_ne_nil hne
  have hlen := mapE_length _ _ _ hmap
  have hd0 : 2 ≤ (chop_trailing_singletons ((v0 :: rest).length :: v0.dims)).length := by
    apply chop_trailing_singletons_length
    have := well_formed_dims v0 (hv v0 (List.mem_cons_self _ _)).1
    simp only [List.length_cons]
    omega
  rcases decode_array_of_arrays_shape dec val v0 rest r hmap h with
    rfl | ⟨x, rfl⟩ | ⟨x, rfl⟩ | rfl | ⟨sa, names, M, hsa, hnames, rfl⟩
  · rw [well_formed_cell]
    exact ⟨by simp, by simp [hlen], fun v hv1 => (hv v hv1).1⟩
  · simp only [octave_value.data_fits_dims] at hfit
    simp only [octave_value.well_formed, hfit, Bool.and_true, decide_eq_true_eq]
    exact hd0
  · simp only [octave_value.data_fits_dims] at hfit
    simp only [octave_value.well_formed, hfit, Bool.and_true, decide_eq_true_eq]
    exact hd0
  · rw [well_formed_map]
    exact ⟨hd0, fun kv hkv => by simp at hkv⟩
  · have hdims := array_of_arrays_fields_dims _ _ _ _ names _ _ sa hsa (Or.inl hnames)
    have hall := array_of_arrays_fields_all (fun v => v.well_formed = true) (v0 :: rest)
      _ _ M
      (by
        intro x hx d f hxe kv hkv v hv1
        have hw := (hv x hx).1
        rw [hxe, well_formed_map] at hw
        exact (hw.2 kv hkv).2 v hv1)
      names _ octave_map.empty sa
      (by
        intro x hx
        rw [List.eq_of_mem_replicate hx]
        rfl)
      (by intro kv hkv; simp [octave_map.empty] at hkv)
      hsa
    simp only [octave_value.of_map] at hfit ⊢
    rw [well_formed_map]
    refine ⟨hdims ▸ hd0, ?_⟩
    intro kv hkv
    simp only [octave_value.data_fits_dims, List.all_eq_true, beq_iff_eq] at hfit
    exact ⟨hfit kv hkv, hall kv hkv⟩


/-- The function `decode_array` returns a well-formed value when the elements are valid
and decode to well-formed values that meet `decoded_ok`. -/
theorem decode_array_wf (dec : JsonValue → Except Error octave_value)
    (val : List JsonValue) (vs : List octave_value)
    (hvalid : ∀ e ∈ val, e.valid = true)
    (hdec : List.Forall₂ (fun e v => dec e = .ok v ∧ decoded_ok e v) val vs)
    (hwf : ∀ v ∈ vs, v.well_formed = true) :
    ∃ r, decode_array dec val = .ok r ∧ r.well_formed = true := by
  have hmap : mapE dec val = .ok vs :=
    forall₂_mapE _ _ _ (hdec.imp (fun _ _ h => h.1))
  have hlen : vs.length = val.length := mapE_length _ _ _ hmap
  have hcell : ∃ r, decode_string_and_mixed_array dec val = .ok r
      ∧ r.well_formed = true := by
    refine ⟨octave_value.cell [val.length, 1] vs, ?_, ?_⟩
    · simp only [decode_string_and_mixed_array, hmap, except_map_ok, octave_value.of_cell]
    · rw [well_formed_cell]
      exact ⟨by simp, by simp [hlen], hwf⟩
  cases hval : val with
  | nil => exact ⟨_, rfl, rfl⟩
  | cons val0 rest =>
    have hne : val ≠ [] := by rw [hval]; simp
    have h0mem : val0 ∈ val := by rw [hval]; exact List.mem_cons_self _ _
    rw [← hval]
    by_cases hnum : val.all null_or_number = true
    · refine ⟨_, decode_array_numeric dec val hne ?_, ?_⟩
      · intro e he
        have h1 := List.all_eq_true.mp hnum e he
        have h2 := hvalid e he
        cases e with
        | null => exact Or.inl rfl
        | number n =>
          simp only [JsonValue.valid] at h2
          exact Or.inr ⟨n, rfl, h2⟩
        | bool b => cases b <;> simp [null_or_number, JsonValue.GetType] at h1
        | string s => simp [null_or_number, JsonValue.GetType] at h1
        | array xs => simp [null_or_number, JsonValue.GetType] at h1
        | object xs => simp [null_or_number, JsonValue.GetType] at h1
      · simp [octave_value.well_formed]
    · have hnumf : val.all null_or_number = false := by simpa using hnum
      by_cases hsame : val.all (same_json_type val0.GetType) = true
      · have hs := List.all_eq_true.mp hsame
        cases h0 : val0.GetType with
        | kNullType =>
          exfalso
          apply hnum
          rw [List.all_eq_true]
          intro e he
          have := hs e he
          rw [h0] at this
          revert this
          unfold same_json_type null_or_number
          cases e.GetType <;> simp
        | kNumberType =>
          exfalso
          apply hnum
          rw [List.all_eq_true]
          intro e he
          have := hs e he
          rw [h0] at this
          revert this
          unfold same_json_type null_or_number
          cases e.GetType <;> simp
        | kFalseType =>
          refine ⟨_, decode_array_booleans dec val hne ?_, ?_⟩
          · intro e he
            have := hs e he
            rw [h0] at this
            revert this
            unfold same_json_type JsonValue.IsBool
            cases e.GetType <;> simp
          · simp [octave_value.well_formed]
        | kTrueType =>
          refine ⟨_, decode_array_booleans dec val hne ?_, ?_⟩
          · intro e he
            have := hs e he
            rw [h0] at this
            revert this
            unfold same_json_type JsonValue.IsBool
            cases e.GetType <;> simp
          · simp [octave_value.well_formed]
        | kStringType =>
          rw [decode_array_mixed dec val (Or.inl ⟨hne, ?_⟩)]
          · exact hcell
          · intro e he
            have := hs e he
            rw [h0] at this
            revert this
            unfold same_json_type
            cases e.GetType <;> simp
        | kObjectType =>
          have hobj : ∀ e ∈ val, e.GetType = JType.kObjectType := by
            intro e he
            have := hs e he
            rw [h0] at this
            revert this
            unfold same_json_type
            cases e.GetType <;> simp
          have hdec1 : List.Forall₂ (fun _ v => ∃ m : octave_scalar_map,
              v = octave_value.of_scalar_map m ∧ m.fieldnames.Nodup) val vs :=
            forall₂_imp_mem _ _ val vs (fun e he v hp => hp.2.1 (hobj e he)) hdec
          obtain ⟨ms, hms, hnd⟩ := scalar_maps_of_decoded val vs hdec1
          cases hmsc : ms with
          | nil =>
            rw [hms, hmsc, hval] at hlen
            simp at hlen
          | cons m0 ms1 =>
            have hmap0 := hmap
            rw [hms, hmsc] at hmap
            rw [decode_array_objects dec val hne hobj,
              decode_object_array_eq dec val m0 ms1 hmap
                (hnd m0 (by rw [hmsc]; exact List.mem_cons_self _ _))]
            have hl2 : (m0 :: ms1).length = val.length := by
              rw [← hlen, hms, hmsc, List.length_map]
            have hmw : ∀ m ∈ m0 :: ms1, ∀ kv ∈ m, kv.2.well_formed = true := by
              intro m hm
              rw [← well_formed_of_scalar_map]
              apply hwf
              rw [hms, hmsc]
              exact List.mem_map.mpr ⟨m, hm, rfl⟩
            split_ifs with hall
            · refine ⟨_, rfl, ?_⟩
              rw [well_formed_map]
              refine ⟨by simp, ?_⟩
              intro kv hkv
              obtain ⟨f, hf, rfl⟩ := List.mem_map.mp hkv
              refine ⟨by simp only [List.length_map, hl2, List.prod_cons, List.prod_nil,
                Nat.mul_one], ?_⟩
              intro v hv
              obtain ⟨m, hm, rfl⟩ := List.mem_map.mp hv
              unfold field_of
              cases hl : List.lookup f m with
              | none => rfl
              | some x => exact hmw m hm (f, x) (mem_of_lookup m f x hl)
            · refine ⟨_, rfl, ?_⟩
              rw [well_formed_cell]
              refine ⟨by simp, by simpa using hl2, ?_⟩
              intro v hv
              apply hwf
              rw [hms, hmsc]
              exact hv
        | kArrayType =>
          have harr : ∀ e ∈ val, e.GetType = JType.kArrayType := by
            intro e he
            have := hs e he
            rw [h0] at this
            revert this
            unfold same_json_type
            cases e.GetType <;> simp
          have hvne : vs ≠ [] := by
            intro h
            rw [h] at hlen
            rw [hval] at hlen
            simp at hlen
          have hvok : ∀ v ∈ vs, v.data_fits_dims = true ∧ v.is_string = false := by
            intro v hv
            obtain ⟨e, he, -, hok⟩ := forall₂_mem_right _ val vs hdec v hv
            exact hok.2 (harr e he)
          rw [decode_array_arrays dec val hne harr]
          obtain ⟨r, hr, -⟩ := decode_array_of_arrays_ok dec val vs hmap hvne hvok
          exact ⟨r, hr, decode_array_of_arrays_wf dec val vs r hmap hvne
            (fun v hv => ⟨hwf v hv, (hvok v hv).2⟩) hr⟩
      · have hsamef : val.all (same_json_type val0.GetType) = false := by simpa using hsame
        rw [decode_array_mixed dec val (Or.inr ⟨hnumf, ?_⟩)]
        · exact hcell
        · by_contra hc
          push_neg at hc
          apply hsame
          rw [List.all_eq_true]
          intro e he
          have := hc val0 h0mem e he
          simpa using this

/-- With a budget that reaches the nesting depth of a valid JSON value, the value that
`decode` returns is well formed. -/
theorem decode_well_formed (iskeyword : Str → Bool)
    (options : Option make_valid_name_options) :
    ∀ (fuel : Nat) (v : JsonValue) (r : octave_value), v.valid = true → v.depth ≤ fuel →
      decode iskeyword fuel v options = .ok r → r.well_formed = true := by
  intro fuel
  induction fuel with
  | zero =>
    intro v r _ hd
    cases v <;> simp [JsonValue.depth] at hd
  | succ fuel ih =>
    intro v r hv hd h
    cases v with
    | null =>
      have h1 : decode iskeyword (fuel + 1) .null options
          = .ok (octave_value.matrix [0, 0] []) := rfl
      rw [h1] at h
      injection h with h
      subst h
      rfl
    | bool b =>
      have h1 : decode iskeyword (fuel + 1) (.bool b) options
          = .ok (octave_value.bool b) := by cases b <;> rfl
      rw [h1] at h
      injection h with h
      subst h
      rfl
    | number n =>
      simp only [JsonValue.valid] at hv
      have h1 : decode iskeyword (fuel + 1) (.number n) options
          = decode_number (.number n) := rfl
      rw [h1, decode_number_valid n hv] at h
      injection h with h
      subst h
      rfl
    | string s =>
      have h1 : decode iskeyword (fuel + 1) (.string s) options
          = .ok (octave_value.string (c_string s)) := rfl
      rw [h1] at h
      injection h with h
      subst h
      unfold octave_value.string
      split_ifs with he
      · simp [octave_value.well_formed, List.isEmpty_iff.mp he]
      · simp [octave_value.well_formed]
    | array elems =>
      simp only [JsonValue.valid] at hv
      simp only [JsonValue.depth, Nat.add_le_add_iff_right] at hd
      obtain ⟨vs, hvs⟩ := exists_forall₂
        (fun e r => decode iskeyword fuel e options = .ok r ∧ decoded_ok e r) elems
        (fun e he => decode_ok iskeyword options fuel e (valid_of_mem_elems elems hv e he)
          (Nat.le_trans (depth_of_mem_elems elems e he) hd))
      obtain ⟨r1, hr1, hw⟩ := decode_array_wf
        (fun v => decode iskeyword fuel v options) elems vs
        (valid_of_mem_elems elems hv) hvs
        (by
          intro v hv1
          obtain ⟨e, he, hde, -⟩ := forall₂_mem_right _ elems vs hvs v hv1
          exact ih e v (valid_of_mem_elems elems hv e he)
            (Nat.le_trans (depth_of_mem_elems elems e he) hd) hde)
      rw [decode_succ_array, hr1] at h
      injection h with h
      subst h
      exact hw
    | object members =>
      simp only [JsonValue.valid] at hv
      simp only [JsonValue.depth, Nat.add_le_add_iff_right] at hd
      rw [decode_succ_object] at h
      unfold decode_object at h
      cases hm : decode_object_loop iskeyword (fun v => decode iskeyword fuel v options)
          options members [] with
      | error e => rw [hm] at h; simp [Except.map] at h
      | ok m =>
        rw [hm] at h
        simp only [except_map_ok, Except.ok.injEq] at h
        subst h
        rw [well_formed_of_scalar_map]
        exact decode_object_loop_all (fun v => v.well_formed = true) iskeyword _ options
          members
          (fun p hp v hpv => ih p.2 v (valid_of_mem_members members hv p hp)
            (Nat.le_trans (depth_of_mem_members members p hp) hd) hpv)
          [] m (fun kv hkv => by simp at hkv) hm

/-- C28 (output invariants of `decode`).  For every JSON value whose numbers a RapidJSON
value can hold, and every recursion budget that reaches the nesting depth of the value,
`decode` returns a value that is well formed: the value itself, every element of a cell
in it and every value of a field in it, at every nesting depth, has at least two
dimensions; the flat data of a `double` array, a logical array, a character array and a
cell has as many elements as the product of the dimensions; and every field of a struct
array holds as many values as the product of the dimensions. -/
theorem decode_output_invariants (iskeyword : Str → Bool)
    (options : Option make_valid_name_options) (fuel : Nat) (v : JsonValue)
    (hv : v.valid = true) (hd : v.depth ≤ fuel) :
    ∃ r, decode iskeyword fuel v options = .ok r ∧ r.well_formed = true := by
  obtain ⟨r, hr, -⟩ := decode_ok iskeyword options fuel v hv hd
  exact ⟨r, hr, decode_well_formed iskeyword options fuel v r hv hd hr⟩

/-- The value `{"a": [[1, 2], [3, 4]], "b": [{"c": [true, false]}, {"c": []}],
"d": [[{"e": 1}], [{"e": "x"}]]}` of depth 5. -/
theorem decode_output_invariants_witness :
    ∃ r, decode octave_iskeyword 5
        (.object [(bytes "a", .array [.array [jint 1, jint 2], .array [jint 3, jint 4]]),
                  (bytes "b", .array [.object [(bytes "c", .array [.bool true, .bool false])],
                                      .object [(bytes "c", .array [])]]),
                  (bytes "d", .array [.array [.object [(bytes "e", jint 1)]],
                                      .array [.object [(bytes "e", .string (bytes "x"))]]])])
        none = .ok r ∧ r.well_formed = true :=
  decode_output_invariants octave_iskeyword none 5 _ (by decide) (by decide)

/-! ## The options of `jsonencode` -/

theorem bool_value_of_bool_scalar (v : octave_value) (hwf : v.well_formed = true)
    (h : v.is_bool_scalar = true) : ∃ b, v.bool_value = .ok b := by
  cases v with
  | bool_matrix d x =>
    simp only [octave_value.is_bool_scalar, beq_iff_eq] at h
    subst h
    simp only [octave_value.well_formed, List.length_cons, List.length_singleton,
      List.length_nil, Nat.reduceAdd, Nat.le_refl, decide_True, List.prod_cons,
      List.prod_nil, Nat.mul_one, Bool.true_and, beq_iff_eq] at hwf
    match x, hwf with
    | [b], _ => exact ⟨b, rfl⟩
  | matrix _ _ => simp [octave_value.is_bool_scalar] at h
  | char_matrix _ _ => simp [octave_value.is_bool_scalar] at h
  | cell _ _ => simp [octave_value.is_bool_scalar] at h
  | map _ _ => simp [octave_value.is_bool_scalar] at h

theorem jsonencode_scan_accepted (string_value : octave_value → Option Str) :
    ∀ (rest : List octave_value) (state : Bool × Bool),
      (∀ a ∈ rest, a.well_formed = true) →
      ((∃ o, jsonencode_scan string_value rest state = .ok o)
        ↔ ∀ p ∈ option_pairs rest, accepted_pair string_value p = true)
  | [], state, _ => by simp [jsonencode_scan, option_pairs]
  | [a], state, _ => by simp [jsonencode_scan, option_pairs]
  | name :: value :: rest, (conv, pretty), hwf => by
    have ih := fun st => jsonencode_scan_accepted string_value rest st
      (fun a ha => hwf a (List.mem_cons_of_mem _ (List.mem_cons_of_mem _ ha)))
    have hwv : value.well_formed = true :=
      hwf value (List.mem_cons_of_mem _ (List.mem_cons_self _ _))
    simp only [option_pairs, List.forall_mem_cons]
    unfold jsonencode_scan
    by_cases hs : name.is_string = true
    · by_cases hb : value.is_bool_scalar = true
      · obtain ⟨b, hbv⟩ := bool_value_of_bool_scalar value hwv hb
        cases hsv : string_value name with
        | none => simp [hs, hb, hsv, accepted_pair]
        | some s =>
          by_cases h1 : strcmpi s (bytes "ConvertInfAndNaN") = true
          · simp only [hs, hb, hsv, h1, hbv, accepted_pair, Bool.not_true, Bool.false_eq_true,
              if_false, if_true, Bool.and_self, Bool.true_or, true_and]
            exact ih _
          · by_cases h2 : strcmpi s (bytes "PrettyPrint") = true
            · simp only [hs, hb, hsv, h1, h2, hbv, accepted_pair, Bool.not_true,
                Bool.false_eq_true, if_false, if_true, Bool.and_self, Bool.or_true, true_and]
              exact ih _
            · simp [hs, hb, hsv, h1, h2, accepted_pair]
      · simp [hs, hb, accepted_pair]
    · simp [hs, accepted_pair]

theorem jsonencode_scan_first_error (string_value : octave_value → Option Str) :
    ∀ (rest : List octave_value) (state : Bool × Bool)
      (pre : List (octave_value × octave_value)) (p : octave_value × octave_value)
      (post : List (octave_value × octave_value)),
      (∀ a ∈ rest, a.well_formed = true) →
      option_pairs rest = pre ++ p :: post →
      (∀ q ∈ pre, accepted_pair string_value q = true) →
      (p.1.is_string = false →
          jsonencode_scan string_value rest state = .error .option_not_string)
        ∧ (p.1.is_string = true → p.2.is_bool_scalar = false →
          jsonencode_scan string_value rest state = .error .value_not_logical)
        ∧ (p.1.is_string = true → p.2.is_bool_scalar = true →
          ∀ s, string_value p.1 = some s → strcmpi s (bytes "ConvertInfAndNaN") = false →
            strcmpi s (bytes "PrettyPrint") = false →
          jsonencode_scan string_value rest state = .error .invalid_option)
  | [], state, pre, p, post, _, hp, _ => by
    simp [option_pairs] at hp
  | [a], state, pre, p, post, _, hp, _ => by
    simp [option_pairs] at hp
  | name :: value :: rest, (conv, pretty), pre, p, post, hwf, hp, hpre => by
    have hwv : value.well_formed = true :=
      hwf value (List.mem_cons_of_mem _ (List.mem_cons_self _ _))
    have hwr : ∀ a ∈ rest, a.well_formed = true :=
      fun a ha => hwf a (List.mem_cons_of_mem _ (List.mem_cons_of_mem _ ha))
    simp only [option_pairs] at hp
    cases pre with
    | nil =>
      simp only [List.nil_append, List.cons.injEq] at hp
      obtain ⟨hp1, -⟩ := hp
      subst hp1
      unfold jsonencode_scan
      refine ⟨?_, ?_, ?_⟩
      · intro h1
        simp [h1]
      · intro h1 h2
        simp [h1, h2]
      · intro h1 h2 s hs hc hpp
        simp [h1, h2, hs, hc, hpp]
    | cons q pre1 =>
      simp only [List.cons_append, List.cons.injEq] at hp
      obtain ⟨hq, hrest⟩ := hp
      subst hq
      have hacc := hpre (name, value) (List.mem_cons_self _ _)
      have ih := fun st => jsonencode_scan_first_error string_value rest st pre1 p post hwr
        hrest (fun r hr => hpre r (List.mem_cons_of_mem _ hr))
      simp only [accepted_pair, Bool.and_eq_true] at hacc
      obtain ⟨⟨hs, hb⟩, hname⟩ := hacc
      obtain ⟨b, hbv⟩ := bool_value_of_bool_scalar value hwv hb
      cases hsv : string_value name with
      | none => simp [hsv] at hname
      | some s =>
        simp only [hsv, Bool.or_eq_true] at hname
        unfold jsonencode_scan
        by_cases h1 : strcmpi s (bytes "ConvertInfAndNaN") = true
        · simp only [hs, hb, hsv, h1, hbv, Bool.not_true, Bool.false_eq_true, if_false,
            if_true]
          exact ih _
        · have h2 : strcmpi s (bytes "PrettyPrint") = true := by
            rcases hname with h | h
            · exact absurd h h1
            · exact h
          simp only [hs, hb, hsv, h1, h2, hbv, Bool.not_true, Bool.false_eq_true, if_false,
            if_true]
          exact ih _

/-- C31 (argument processing of `jsonencode`).  The argument processing gives the options
exactly when there are 1, 3 or 5 arguments and every option pair is accepted: its name is
a string equal to `ConvertInfAndNaN` or `PrettyPrint` up to the case of the letters and its
value is a logical scalar.  With another number of arguments it ends in `print_usage`.
Otherwise the first pair that is not accepted decides the error, by the checks in their
order: `option must be a string` when its name is no string; else `option value must be a
logical scalar` when its value is no logical scalar; else `Valid options are ...` when the
name is neither of the two. -/
theorem jsonencode_options_iff (string_value : octave_value → Option Str)
    (args : List octave_value) (hwf : ∀ a ∈ args, a.well_formed = true) :
    ((∃ o, jsonencode_options string_value args = .ok o)
        ↔ (args.length = 1 ∨ args.length = 3 ∨ args.length = 5)
          ∧ ∀ p ∈ option_pairs args.tail, accepted_pair string_value p = true)
      ∧ (¬ (args.length = 1 ∨ args.length = 3 ∨ args.length = 5) →
          jsonencode_options string_value args = .error .usage)
      ∧ ((args.length = 1 ∨ args.length = 3 ∨ args.length = 5) →
          ∀ pre p post, option_pairs args.tail = pre ++ p :: post →
            (∀ q ∈ pre, accepted_pair string_value q = true) →
            (p.1.is_string = false →
                jsonencode_options string_value args = .error .option_not_string)
              ∧ (p.1.is_string = true → p.2.is_bool_scalar = false →
                jsonencode_options string_value args = .error .value_not_logical)
              ∧ (p.1.is_string = true → p.2.is_bool_scalar = true →
                ∀ s, string_value p.1 = some s →
                  strcmpi s (bytes "ConvertInfAndNaN") = false →
                  strcmpi s (bytes "PrettyPrint") = false →
                jsonencode_options string_value args = .error .invalid_option)) := by
  have hwt : ∀ a ∈ args.tail, a.well_formed = true :=
    fun a ha => hwf a (List.mem_of_mem_tail ha)
  by_cases hlen : args.length = 1 ∨ args.length = 3 ∨ args.length = 5
  · have hopt : jsonencode_options string_value args
        = jsonencode_scan string_value args.tail (true, false) := by
      unfold jsonencode_options
      rw [if_neg]
      intro hc
      rcases hlen with h | h | h
      · exact hc.1 h
      · exact hc.2.1 h
      · exact hc.2.2 h
    rw [hopt]
    refine ⟨?_, fun hn => absurd hlen hn, fun _ => ?_⟩
    · rw [jsonencode_scan_accepted string_value args.tail _ hwt]
      exact ⟨fun h => ⟨hlen, h⟩, fun h => h.2⟩
    · intro pre p post hp hpre
      exact jsonencode_scan_first_error string_value args.tail _ pre p post hwt hp hpre
  · have hopt : jsonencode_options string_value args = .error .usage := by
      unfold jsonencode_options
      rw [if_pos]
      push_neg at hlen
      exact hlen
    refine ⟨?_, fun _ => hopt, fun h => absurd h hlen⟩
    rw [hopt]
    constructor
    · rintro ⟨o, ho⟩
      exact absurd ho (by simp)
    · rintro ⟨h, -⟩
      exact absurd h hlen

/-- The call `jsonencode (1, 'convertinfandnan', false, 'PRETTYPRINT', true)` is accepted. -/
theorem jsonencode_options_iff_witness :
    ∃ o, jsonencode_options octave_xstring_value
      [octave_value.scalar (dbl 1),
       octave_value.string (bytes "convertinfandnan"), octave_value.bool false,
       octave_value.string (bytes "PRETTYPRINT"), octave_value.bool true] = .ok o :=
  (jsonencode_options_iff octave_xstring_value
    [octave_value.scalar (dbl 1),
     octave_value.string (bytes "convertinfandnan"), octave_value.bool false,
     octave_value.string (bytes "PRETTYPRINT"), octave_value.bool true]
    (by decide)).1.mpr ⟨by decide, by decide⟩

/-- The input validation tests of `jsonencode.cc`: the calls `jsonencode ()`,
`jsonencode (1, 2)` and `jsonencode (1, 2, 3, 4)` end in `print_usage`, and the calls
`jsonencode (1, 2, true)`, `jsonencode (1, 'string', ones (2,2))` and
`jsonencode (1, 'foobar', true)` with the three errors; an accepted call gives the two
options. -/
theorem jsonencode_options_tests :
    jsonencode_options octave_xstring_value [] = .error .usage
      ∧ jsonencode_options octave_xstring_value
          [octave_value.scalar (dbl 1), octave_value.scalar (dbl 2)] = .error .usage
      ∧ jsonencode_options octave_xstring_value
          [octave_value.scalar (dbl 1), octave_value.scalar (dbl 2),
           octave_value.scalar (dbl 3), octave_value.scalar (dbl 4)] = .error .usage
      ∧ jsonencode_options octave_xstring_value
          [octave_value.scalar (dbl 1), octave_value.scalar (dbl 2), octave_value.bool true]
          = .error .option_not_string
      ∧ jsonencode_options octave_xstring_value
          [octave_value.scalar (dbl 1), octave_value.string (bytes "string"),
           octave_value.matrix [2, 2] [dbl 1, dbl 1, dbl 1, dbl 1]]
          = .error .value_not_logical
      ∧ jsonencode_options octave_xstring_value
          [octave_value.scalar (dbl 1), octave_value.string (bytes "foobar"),
           octave_value.bool true] = .error .invalid_option
      ∧ jsonencode_options octave_xstring_value
          [octave_value.scalar (dbl 1), octave_value.scalar (dbl 2),
           octave_value.matrix [2, 2] [dbl 1, dbl 1, dbl 1, dbl 1]]
          = .error .option_not_string
      ∧ jsonencode_options octave_xstring_value
          [octave_value.scalar (dbl 1),
           octave_value.string (bytes "convertinfandnan"), octave_value.bool false,
           octave_value.string (bytes "PRETTYPRINT"), octave_value.bool true]
          = .ok (false, true) := by
  refine ⟨rfl, rfl, rfl, rfl, rfl, rfl, rfl, rfl⟩

/-! ## Character matrices in the encoder -/

theorem mapE_elem_range {α : Type} (l : List α) :
    mapE (fun k => elem l k) (List.range l.length) = .ok l := by
  rw [mapE_ok_iff]
  rw [List.forall₂_iff_get]
  refine ⟨by simp, ?_⟩
  intro i h1 h2
  simp only [List.get_eq_getElem, List.getElem_range, elem]
  rw [List.getElem?_eq_getElem h2]

theorem flatten_map_singleton {α β : Type} (f : α → β) (l : List α) :
    (l.map (fun a => [f a])).flatten = l.map f := by
  induction l with
  | nil => rfl
  | cons a l ih => simp [ih]

theorem encode_string_row (fuel : Nat) (n : Nat) (row : Str) (od0 : Nat) (hn : 1 ≤ n)
    (hrow : row.length = n) :
    encode_string (fuel + 1) [1, n] row [od0, n] 1 = .ok [Event.String (c_string row)] := by
  have he : dims_isempty [1, n] = false := by
    simp [dims_isempty, dim_numel]; omega
  have hv : dims_isvector [1, n] = true := by simp [dims_isvector]
  have hdiv : dim_numel [1, n] / n = 1 := by
    simp only [dim_numel, List.prod_cons, List.prod_nil, Nat.mul_one, Nat.one_mul]
    exact Nat.div_self (by omega)
  unfold encode_string
  simp only [he, hv, Bool.false_eq_true, if_false, if_true, elem, List.getElem?_cons_succ,
    List.getElem?_cons_zero, hdiv]
  have h1 : (1 == 0) = false := rfl
  simp only [h1, Bool.false_eq_true, if_false]
  have hr : List.range 1 = [0] := rfl
  rw [hr]
  simp only [mapE, Nat.zero_mul, Nat.zero_add]
  have := mapE_elem_range row
  rw [hrow] at this
  simp only [elem] at this
  rw [this]
  rfl

/-- C32 as stated, at a row with a NUL character.  The 2x3 character matrix with the rows
`a\0b` and `cde` is written as `["a","cde"]`: each row is passed to the writer as a C
string, which ends at the first NUL. -/
theorem encode_char_matrix_row_cut :
    encode 1 (octave_value.char_matrix [2, 3] [97, 99, 0, 100, 98, 101]) true
        = .ok [Event.StartArray, Event.String [97], Event.String [99, 100, 101],
               Event.EndArray]
      ∧ char_row 2 3 [97, 99, 0, 100, 98, 101] 0 = [97, 0, 98]
      ∧ ([97] : Str) ≠ [97, 0, 98] := by
  refine ⟨rfl, rfl, by decide⟩

/-- C32, amended.  For a character matrix with `m >= 2` rows and `n >= 2` columns
`encode` writes one JSON array of `m` strings; the `i`-th string holds the characters of
row `i` in the order of the columns, up to the first NUL character of the row. -/
theorem encode_char_matrix_rows (fuel : Nat) (conv : Bool) (m n : Nat) (data : Str)
    (hm : 2 ≤ m) (hn : 2 ≤ n) :
    encode (fuel + 1) (octave_value.char_matrix [m, n] data) conv
      = .ok ([Event.StartArray]
          ++ (List.range m).map (fun i => Event.String (c_string (char_row m n data i)))
          ++ [Event.EndArray]) := by
  have hmn : m * n ≠ 0 := Nat.mul_ne_zero (by omega) (by omega)
  have he : dims_isempty [m, n] = false := by
    simp [dims_isempty, dim_numel]; omega
  have hv : dims_isvector [m, n] = false := by
    simp [dims_isvector]; omega
  have hones : (num_ones [m, n] == 2 - 1) = false := by
    have h1 : ¬ (1 = m) := by omega
    have h2 : ¬ (1 = n) := by omega
    simp [num_ones, List.count_cons, h1, h2]
  have hm1 : (m == 1) = false := by simp; omega
  have hidx : first_not_one (set_second_to_one [m, n]) = 0 := by
    simp [set_second_to_one, first_not_one]; omega
  have hsplit := num2cell_split (0 : Nat) 0 m [n] data
  simp only [List.replicate_zero, List.nil_append, List.length_singleton, Nat.zero_add,
    Nat.reduceAdd, List.prod_cons, List.prod_nil, Nat.mul_one] at hsplit
  have hchop : chop_trailing_singletons [1, n] = [1, n] := by
    simp [chop_trailing_singletons, chop_reversed]
  have henc : encode (fuel + 1) (octave_value.char_matrix [m, n] data) conv
      = encode_string ([m, n].length + 1) [m, n] data [m, n] 0 := by
    cases fuel <;> rfl
  rw [henc]
  show encode_string (2 + 1) [m, n] data [m, n] 0 = _
  unfold encode_string
  simp only [he, hv, hones, Bool.false_eq_true, if_false, elem, List.getElem?_cons_zero,
    hm1, Bool.false_and, hidx, List.length_cons, List.length_singleton, List.length_nil,
    Nat.reduceAdd, hsplit, hchop]
  rw [mapE_map_ok _ (fun sub : List Nat × Str => [Event.String (c_string sub.2)])]
  · simp only [except_map_ok, List.map_map]
    rw [← flatten_map_singleton (fun i => Event.String (c_string (char_row m n data i)))]
    rfl
  · intro sub hsub
    obtain ⟨c, -, rfl⟩ := List.mem_map.mp hsub
    exact encode_string_row 1 n _ m (by omega) (by simp)

/-- The example of the documentation: `jsonencode (['foo', 'bar'; 'foo', 'bar'])` is
`["foobar","foobar"]`. -/
theorem encode_char_matrix_rows_witness :
    encode 1 (octave_value.char_matrix [2, 6]
        (bytes "ffoooobbaarr")) true
      = .ok (JsonValue.array [.string (bytes "foobar"), .string (bytes "foobar")]).events :=
  (encode_char_matrix_rows 0 true 2 6 (bytes "ffoooobbaarr") (by decide)
    (by decide)).trans rfl

/-! ## Integer literals and empty struct arrays in the encoder -/

theorem numeric_events_below_epsilon (n : Int) (conv : Bool) (h0 : 0 < n)
    (h1 : n < ((1 <<< 1022 : Nat) : Int)) :
    numeric_events (Double.finite n) conv = [Event.Int64 0] := by
  rw [numeric_events_finite]
  have hone : ((1 <<< 1022 : Nat) : Int) < (Double.one : Int) := by decide
  have hmod : n % (Double.one : Int) = n := Int.emod_eq_of_lt (le_of_lt h0) (by omega)
  have hdiv : Int.tdiv n (Double.one : Int) = 0 :=
    Int.tdiv_eq_zero_of_lt (le_of_lt h0) (by omega)
  have h2 : (Double.one : Int) = ((1 <<< 1074 : Nat) : Int) := rfl
  rw [hmod, hdiv, if_pos]
  refine ⟨h1, ?_, ?_⟩ <;> omega

/-- C38 at a failing input.  The value `2 ^ (-60)` passes the integer test of
`encode_numeric` and is written as the integer 0, with either setting of the option,
although it lies strictly between 0 and the machine epsilon. -/
theorem encode_numeric_tiny_as_zero :
    encode_numeric (octave_value.scalar tiny_double) true = .ok [Event.Int64 0]
      ∧ encode_numeric (octave_value.scalar tiny_double) false = .ok [Event.Int64 0]
      ∧ Double.lt (dbl 0) tiny_double = true
      ∧ Double.lt tiny_double Double.epsilon = true
      ∧ tiny_double ≠ dbl 0 := by
  refine ⟨rfl, rfl, by decide, by decide, by decide⟩

theorem events_ne_nil (j : JsonValue) : j.events ≠ [] := by
  cases j with
  | number n => cases n <;> simp [JsonValue.events]
  | null => simp [JsonValue.events]
  | bool b => simp [JsonValue.events]
  | string s => simp [JsonValue.events]
  | array xs => simp [JsonValue.events]
  | object ms => simp [JsonValue.events]

/-- C37 at a failing input.  For the struct array with no element `encode` writes no
event at all, and for the struct whose field `s` holds that struct array it writes the
key `s` with no value behind it; neither is the sequence of events of a JSON value. -/
theorem encode_empty_struct_array_no_value :
    encode 1 empty_struct_array true = .ok []
      ∧ encode 2 (octave_value.of_scalar_map [(bytes "s", empty_struct_array)]) true
          = .ok [Event.StartObject, Event.Key (bytes "s"), Event.EndObject]
      ∧ empty_struct_array.well_formed = true
      ∧ (∀ j : JsonValue, j.events ≠ [])
      ∧ (∀ j : JsonValue,
          j.events ≠ [Event.StartObject, Event.Key (bytes "s"), Event.EndObject]) := by
  refine ⟨rfl, rfl, by decide, events_ne_nil, ?_⟩
  intro j hj
  cases j with
  | object ms =>
    cases ms with
    | nil => simp [JsonValue.events, events_of_members] at hj
    | cons p rest =>
      obtain ⟨k, v⟩ := p
      simp only [JsonValue.events, events_of_members, List.cons_append, List.nil_append,
        List.cons.injEq, true_and] at hj
      have h2 := hj.2
      have hv := events_ne_nil v
      cases hve : v.events with
      | nil => exact hv hve
      | cons e es =>
        rw [hve] at h2
        simp only [List.cons_append, List.append_assoc, List.cons.injEq] at h2
        have h3 := h2.2
        have := congrArg List.length h3
        simp at this
  | null => simp [JsonValue.events] at hj
  | bool b => simp [JsonValue.events] at hj
  | number n => cases n <;> simp [JsonValue.events] at hj
  | string s => simp [JsonValue.events] at hj
  | array xs => simp [JsonValue.events] at hj

/-! ## The fallback of `decode_array_of_arrays` to the cell -/

/-- C33 at a failing input.  In `[[true],[1]]` the first sub-array decodes to a `logical`
value and the second to a `double` value, both 1x1; the result is the `double` array
`[1; 1]` and no cell.  With two elements each, `[[true,false],[1,2]]` does give the
cell. -/
theorem decode_logical_and_double_singletons :
    decode octave_iskeyword 1 (JsonValue.array [.bool true]) none
        = .ok (octave_value.bool_matrix [1, 1] [true])
      ∧ decode octave_iskeyword 1 (JsonValue.array [jint 1]) none
        = .ok (octave_value.matrix [1, 1] [dbl 1])
      ∧ decode octave_iskeyword 2
          (JsonValue.array [.array [.bool true], .array [jint 1]]) none
        = .ok (octave_value.matrix [2, 1] [dbl 1, dbl 1])
      ∧ decode octave_iskeyword 2
          (JsonValue.array [.array [.bool true, .bool false], .array [jint 1, jint 2]]) none
        = .ok (octave_value.cell [2, 1]
            [octave_value.bool_matrix [2, 1] [true, false],
             octave_value.matrix [2, 1] [dbl 1, dbl 2]]) := by
  refine ⟨rfl, rfl, rfl, rfl⟩

/-- The cases in which `decode_array_of_arrays` returns the cell of the decoded
sub-arrays: some sub-array is a cell, or the sub-arrays differ in being an
`octave_bool_matrix`, or in being a struct, or they are structs and differ in the list of
their field names. -/
theorem decode_array_of_arrays_fallback (dec : JsonValue → Except Error octave_value)
    (val : List JsonValue) (v0 : octave_value) (rest : List octave_value)
    (hmap : mapE dec val = .ok (v0 :: rest))
    (h : (∃ x ∈ v0 :: rest, x.iscell = true)
      ∨ (∃ x ∈ v0 :: rest, x.is_bool_matrix ≠ v0.is_bool_matrix)
      ∨ (∃ x ∈ v0 :: rest, x.isstruct ≠ v0.isstruct)
      ∨ (∃ x ∈ v0 :: rest, ∃ m0 m, v0.map_value = .ok m0 ∧ x.map_value = .ok m
          ∧ m0.fieldnames ≠ m.fieldnames)) :
    decode_array_of_arrays dec val
      = .ok (octave_value.cell [val.length, 1] (v0 :: rest)) := by
  have hmis : ∀ names, (v0.isstruct = true → ∃ m0, v0.map_value = .ok m0
        ∧ names = m0.fieldnames) →
      any_sub_array_mismatch v0.is_bool_matrix v0.isstruct names v0.dims (v0 :: rest)
        = .ok true := by
    intro names hnames
    rcases any_sub_array_mismatch_ok v0.is_bool_matrix v0.isstruct names v0.dims (v0 :: rest)
      with h1 | ⟨-, h1⟩
    · exact h1
    · exfalso
      rcases h with ⟨x, hx, hc⟩ | ⟨x, hx, hc⟩ | ⟨x, hx, hc⟩ | ⟨x, hx, m0, m, hm0, hm, hc⟩
      · have := (sub_array_mismatch_false _ _ _ _ x (h1 x hx)).1
        rw [hc] at this
        exact absurd this (by simp)
      · exact hc (sub_array_mismatch_false _ _ _ _ x (h1 x hx)).2.2.2.1
      · exact hc (sub_array_mismatch_false _ _ _ _ x (h1 x hx)).2.2.2.2.1
      · have hs : v0.isstruct = true := by
          cases v0 with
          | map d f => rfl
          | _ => simp [octave_value.map_value] at hm0
        obtain ⟨m1, hm1, hn1⟩ := (sub_array_mismatch_false _ _ _ _ x (h1 x hx)).2.2.2.2.2 hs
        obtain ⟨m2, hm2, hn2⟩ := hnames hs
        rw [hm0] at hm2
        rw [hm] at hm1
        injection hm2 with hm2
        injection hm1 with hm1
        subst hm1 hm2
        exact hc (hn2.symm.trans hn1)
  unfold decode_array_of_arrays
  simp only [decode_string_and_mixed_array, hmap, except_map_ok, Except.bind,
    octave_value.of_cell, octave_value.cell_value, except_bind_ok, elem,
    List.getElem?_cons_zero]
  cases v0 with
  | map d f =>
    have := hmis (octave_map.fieldnames ⟨d, f⟩) (fun _ => ⟨⟨d, f⟩, rfl, rfl⟩)
    simp only [octave_value.isstruct, octave_value.is_bool_matrix, octave_value.dims] at this
    simp [bind, Except.bind, octave_value.isstruct, octave_value.map_value, Except.map,
      octave_value.is_bool_matrix, octave_value.dims, this]
  | matrix d f =>
    have := hmis [] (fun hs => by simp [octave_value.isstruct] at hs)
    simp only [octave_value.isstruct, octave_value.is_bool_matrix, octave_value.dims] at this
    simp [bind, Except.bind, octave_value.isstruct, octave_value.is_bool_matrix,
      octave_value.dims, this]
  | bool_matrix d f =>
    have := hmis [] (fun hs => by simp [octave_value.isstruct] at hs)
    simp only [octave_value.isstruct, octave_value.is_bool_matrix, octave_value.dims] at this
    simp [bind, Except.bind, octave_value.isstruct, octave_value.is_bool_matrix,
      octave_value.dims, this]
  | char_matrix d f =>
    have := hmis [] (fun hs => by simp [octave_value.isstruct] at hs)
    simp only [octave_value.isstruct, octave_value.is_bool_matrix, octave_value.dims] at this
    simp [bind, Except.bind, octave_value.isstruct, octave_value.is_bool_matrix,
      octave_value.dims, this]
  | cell d f =>
    have := hmis [] (fun hs => by simp [octave_value.isstruct] at hs)
    simp only [octave_value.isstruct, octave_value.is_bool_matrix, octave_value.dims] at this
    simp [bind, Except.bind, octave_value.isstruct, octave_value.is_bool_matrix,
      octave_value.dims, this]

/-! ## Field-name collisions in `decode_object` -/

theorem decode_object_loop_eq (iskeyword : Str → Bool)
    (dec : JsonValue → Except Error octave_value) (options : Option make_valid_name_options)
    (val : JsonValue → octave_value) (members : List (Str × JsonValue))
    (hdec : ∀ p ∈ members, dec p.2 = .ok (val p.2)) :
    ∀ retval, decode_object_loop iskeyword dec options members retval
      = .ok (assign_all retval
          (members.map (fun p => (field_name iskeyword options p.1, val p.2)))) := by
  induction members with
  | nil => intro retval; rfl
  | cons p rest ih =>
    intro retval
    unfold decode_object_loop
    simp only [hdec p (List.mem_cons_self _ _)]
    rw [ih (fun q hq => hdec q (List.mem_cons_of_mem _ hq))]
    rfl

theorem assign_lookup (m : octave_scalar_map) (k : Str) (v : octave_value) (k1 : Str) :
    List.lookup k1 (m.assign k v) = if k1 = k then some v else List.lookup k1 m := by
  induction m with
  | nil =>
    simp only [octave_scalar_map.assign, List.lookup]
    by_cases h : k1 = k
    · simp [h]
    · have hb : (k1 == k) = false := by simpa using h
      simp [h, hb]
  | cons q rest ih =>
    obtain ⟨k2, v2⟩ := q
    unfold octave_scalar_map.assign
    by_cases h2 : k2 = k
    · subst h2
      simp only [if_true, List.lookup]
      by_cases h : k1 = k2
      · simp [h]
      · have hb : (k1 == k2) = false := by simpa using h
        simp [h, hb]
    · simp only [h2, if_false, List.lookup]
      by_cases h : k1 = k2
      · subst h
        have hne : ¬ k1 = k := h2
        simp [hne]
      · have hb : (k1 == k2) = false := by simpa using h
        simp only [hb, ih]

theorem assign_all_lookup_of_not_mem (kvs : List (Str × octave_value)) (k : Str)
    (h : ∀ q ∈ kvs, q.1 ≠ k) :
    ∀ m : octave_scalar_map, List.lookup k (assign_all m kvs) = List.lookup k m := by
  induction kvs with
  | nil => intro m; rfl
  | cons q rest ih =>
    intro m
    have h1 : k ≠ q.1 := fun e => h q (List.mem_cons_self _ _) e.symm
    show List.lookup k (assign_all (m.assign q.1 q.2) rest) = _
    rw [ih (fun r hr => h r (List.mem_cons_of_mem _ hr)), assign_lookup, if_neg h1]

theorem assign_all_append (m : octave_scalar_map) (a b : List (Str × octave_value)) :
    assign_all m (a ++ b) = assign_all (assign_all m a) b := by
  unfold assign_all
  rw [List.foldl_append]

theorem assign_all_lookup_last (m : octave_scalar_map)
    (pre post : List (Str × octave_value)) (k : Str) (v : octave_value)
    (h : ∀ q ∈ post, q.1 ≠ k) :
    List.lookup k (assign_all m (pre ++ (k, v) :: post)) = some v := by
  rw [assign_all_append]
  show List.lookup k (assign_all ((assign_all m pre).assign k v) post) = _
  rw [assign_all_lookup_of_not_mem post k h, assign_lookup, if_pos rfl]

theorem assign_all_fieldnames (kvs : List (Str × octave_value)) :
    ∀ m : octave_scalar_map, (assign_all m kvs).fieldnames
      = m.fieldnames
        ++ (first_occurrences (kvs.map Prod.fst)).filter (fun x => !decide (x ∈ m.fieldnames))
    := by
  induction kvs with
  | nil => intro m; simp [assign_all, first_occurrences]
  | cons q rest ih =>
    intro m
    show (assign_all (m.assign q.1 q.2) rest).fieldnames = _
    rw [ih, assign_fieldnames]
    simp only [List.map_cons, first_occurrences]
    by_cases hq : q.1 ∈ m.fieldnames
    · simp only [hq, if_true, List.filter_cons, decide_True, Bool.not_true,
        Bool.false_eq_true, if_false, List.filter_filter]
      congr 1
      apply List.filter_congr
      intro x _
      by_cases hx : x ∈ m.fieldnames
      · simp [hx]
      · have : x ≠ q.1 := fun e => hx (e ▸ hq)
        simp [hx, this]
    · simp only [hq, if_false, List.filter_cons, decide_False, Bool.not_false, if_true,
        List.filter_filter, List.append_assoc, List.singleton_append]
      congr 2
      apply List.filter_congr
      intro x _
      by_cases hx : x ∈ m.fieldnames
      · simp [hx]
      · by_cases hxq : x = q.1
        · simp [hx, hxq]
        · simp [hx, hxq]

theorem first_occurrences_mem (ns : List Str) (x : Str) :
    x ∈ first_occurrences ns ↔ x ∈ ns := by
  induction ns with
  | nil => simp [first_occurrences]
  | cons n rest ih =>
    simp only [first_occurrences, List.mem_cons, List.mem_filter, ih, bne_iff_ne, ne_eq]
    constructor
    · rintro (h | ⟨h, -⟩)
      · exact Or.inl h
      · exact Or.inr h
    · rintro (h | h)
      · exact Or.inl h
      · by_cases hx : x = n
        · exact Or.inl hx
        · exact Or.inr ⟨h, hx⟩

theorem first_occurrences_nodup (ns : List Str) : (first_occurrences ns).Nodup := by
  induction ns with
  | nil => simp [first_occurrences]
  | cons n rest ih =>
    simp only [first_occurrences, List.nodup_cons, List.mem_filter, bne_iff_ne, ne_eq,
      not_true_eq_false, and_false, not_false_eq_true, true_and]
    exact ih.filter _

theorem first_occurrences_length (ns : List Str) :
    (first_occurrences ns).length = ns.dedup.length := by
  apply List.Perm.length_eq
  rw [List.perm_ext_iff_of_nodup (first_occurrences_nodup ns) (List.nodup_dedup ns)]
  intro x
  rw [first_occurrences_mem, List.mem_dedup]

/-- C39 (field-name collisions).  When the values of the members decode, a JSON object
decodes to the struct in which every resulting field name occurs once, at the place of
its first occurrence among the names of the members; the number of fields is the number
of distinct resulting names; and the field of a name holds the decoded value of the last
member that has this name.  The resulting name of a member is its key, read as a C string
and sanitized when the sanitizer is on. -/
theorem decode_object_collisions (iskeyword : Str → Bool) (fuel : Nat)
    (options : Option make_valid_name_options) (members : List (Str × JsonValue))
    (val : JsonValue → octave_value)
    (hdec : ∀ p ∈ members, decode iskeyword fuel p.2 options = .ok (val p.2)) :
    ∃ m : octave_scalar_map,
      decode iskeyword (fuel + 1) (.object members) options
          = .ok (octave_value.of_scalar_map m)
        ∧ m.fieldnames
            = first_occurrences (members.map (fun p => field_name iskeyword options p.1))
        ∧ m.fieldnames.length
            = (members.map (fun p => field_name iskeyword options p.1)).dedup.length
        ∧ ∀ pre p post, members = pre ++ p :: post →
            (∀ q ∈ post, field_name iskeyword options q.1 ≠ field_name iskeyword options p.1) →
            m.getfield (field_name iskeyword options p.1) = .ok (val p.2) := by
  refine ⟨assign_all [] (members.map (fun p => (field_name iskeyword options p.1, val p.2))),
    ?_, ?_, ?_, ?_⟩
  · rw [decode_succ_object]
    unfold decode_object
    rw [decode_object_loop_eq iskeyword _ options val members hdec, except_map_ok]
  · rw [assign_all_fieldnames, List.map_map]
    simp only [octave_scalar_map.fieldnames, List.map_nil, List.not_mem_nil, decide_False,
      Bool.not_false, List.filter_true, List.nil_append]
    rfl
  · rw [assign_all_fieldnames, List.map_map]
    simp only [octave_scalar_map.fieldnames, List.map_nil, List.not_mem_nil, decide_False,
      Bool.not_false, List.filter_true, List.nil_append]
    exact first_occurrences_length _
  · intro pre p post hm hpost
    subst hm
    unfold octave_scalar_map.getfield
    rw [List.map_append, List.map_cons, assign_all_lookup_last]
    intro q hq
    obtain ⟨r, hr, rfl⟩ := List.mem_map.mp hq
    exact hpost r hr

/-- The object `collision_members` with the sanitizer on: there is a struct with the
field names `aB`, `x` in this order. -/
theorem decode_object_collisions_witness :
    ∃ m : octave_scalar_map,
      decode octave_iskeyword 2 (.object collision_members)
          (some make_valid_name_options.default) = .ok (octave_value.of_scalar_map m)
        ∧ m.fieldnames = [bytes "aB", bytes "x"] :=
  let ⟨m, h, hn, _⟩ := decode_object_collisions octave_iskeyword 1
    (some make_valid_name_options.default) collision_members
    (fun j => match decode octave_iskeyword 1 j (some make_valid_name_options.default) with
      | .ok v => v
      | .error _ => octave_value.matrix [0, 0] [])
    (by
      intro p hp
      simp only [collision_members, List.mem_cons, List.mem_singleton, List.not_mem_nil,
        or_false] at hp
      rcases hp with rfl | rfl | rfl | rfl <;> rfl)
  ⟨m, h, hn.trans (by decide)⟩

/-- The object `{"a b": 1, "x": 2, "aB": 3, "x": 4}` with the sanitizer on: the keys
`a b` and `aB` give the one field `aB`, in the first place, with the value 3, and the two
keys `x` the field `x` with the value 4. -/
theorem collision_example :
    decode octave_iskeyword 2 (.object collision_members)
        (some make_valid_name_options.default)
      = .ok (octave_value.of_scalar_map
          [(bytes "aB", octave_value.scalar (dbl 3)), (bytes "x", octave_value.scalar (dbl 4))])
    := by
  rfl

/-! ## Termination of `encode_array` -/

theorem encode_array_level_congr (conv : Bool) (f g : Nat) (o : octave_value)
    (od : List Nat) (level : Nat) (isl : Bool)
    (h : ∀ o1 i1, encode_array f o1 conv od (level + 1) i1
      = encode_array g o1 conv od (level + 1) i1) :
    encode_array (f + 1) o conv od level isl = encode_array (g + 1) o conv od level isl := by
  unfold encode_array
  simp only [h]

theorem encode_of_array (fuel : Nat) (obj : octave_value) (conv : Bool)
    (hobj : (obj.isnumeric || obj.islogical) = true) (hs : obj.is_real_scalar = false) :
    encode (fuel + 1) obj conv
      = encode_array (obj.dims.length + 1) obj conv obj.dims 0 false := by
  unfold encode
  simp only [hs, hobj, Bool.false_eq_true, if_false, if_true, octave_value.ndims]

theorem dims_of_array_value (obj : octave_value) (dv : List Nat) (data : List Double)
    (hval : obj.array_value = .ok ⟨dv, data⟩) : obj.dims = dv := by
  cases obj with
  | matrix d x =>
    simp only [octave_value.array_value, Except.ok.injEq, NDArray.mk.injEq] at hval
    exact hval.1
  | bool_matrix d x =>
    simp only [octave_value.array_value, Except.ok.injEq, NDArray.mk.injEq] at hval
    exact hval.1
  | char_matrix _ _ => simp [octave_value.array_value] at hval
  | cell _ _ => simp [octave_value.array_value] at hval
  | map _ _ => simp [octave_value.array_value] at hval

theorem encode_array_returns (conv : Bool) (obj : octave_value) (dv : List Nat)
    (data : List Double)
    (hobj : (obj.isnumeric || obj.islogical) = true)
    (hval : obj.array_value = .ok ⟨dv, data⟩)
    (h2 : 2 ≤ dv.length) (hchop : chop_trailing_singletons dv = dv)
    (hlen : data.length = dv.prod) :
    ∃ es, encode_array (dv.length + 1) obj conv dv 0 false = .ok es := by
  have hdims := dims_of_array_value obj dv data hval
  by_cases he : dims_isempty dv = true
  · refine ⟨[Event.StartArray, Event.EndArray], ?_⟩
    unfold encode_array
    simp only [hval, he, if_true]
  · have he1 : dims_isempty dv = false := by simpa using he
    have hprod : dv.prod ≠ 0 := by
      simpa [dims_isempty, dim_numel] using he1
    have hpos : ∀ d ∈ dv, 1 ≤ d := by
      intro d hd
      by_contra hc
      have hd0 : d = 0 := by omega
      subst hd0
      exact hprod (List.prod_eq_zero hd)
    by_cases hv : dims_isvector dv = true
    · exact ⟨_, encode_array_vector dv.length obj conv dv 0 false obj.islogical dv data hval
        (by simp) he1 hv⟩
    · have hv1 : dims_isvector dv = false := by simpa using hv
      have hne11 : dv ≠ [1, 1] := by
        rintro rfl
        simp [dims_isvector] at hv1
      have hs : obj.is_real_scalar = false := by
        cases obj <;> simp_all [octave_value.is_real_scalar, octave_value.dims]
      have henc := encode_of_array 0 obj conv hobj hs
      rw [hdims] at henc
      rw [← henc]
      have hcount := count_one_of_countP dv hpos
      by_cases hnv : 2 ≤ dv.countP (fun d => decide (1 < d))
      · exact ⟨_, encode_matrix_nested 0 obj conv dv data hobj hdims hval hpos hchop hnv hlen⟩
      · have hc1 : dv.countP (fun d => decide (1 < d)) = 1 := by
          have hc0 : dv.countP (fun d => decide (1 < d)) ≠ 0 := by
            intro h0
            rw [h0] at hcount
            have hall : dv = List.replicate dv.length 1 := by
              rw [List.eq_replicate_iff]
              exact ⟨rfl, fun b hb => (List.count_eq_length.mp (by omega) b hb).symm⟩
            by_cases hl : dv.length = 2
            · rw [hl] at hall
              exact hne11 hall
            · have : dims_isvector dv = false := hv1
              have hch : chop_trailing_singletons dv ≠ dv := by
                obtain ⟨k, hk⟩ : ∃ k, dv.length = k + 3 := ⟨dv.length - 3, by omega⟩
                rw [hall, hk]
                intro hcc
                have hl2 := congrArg List.length hcc
                unfold chop_trailing_singletons at hl2
                rw [List.reverse_replicate, List.length_reverse] at hl2
                have hstep : chop_reversed (List.replicate (k + 3) 1)
                    = chop_reversed (List.replicate (k + 2) 1) := by
                  rw [List.replicate_succ, chop_reversed]
                  simp
                rw [hstep] at hl2
                have hle := chop_reversed_length_le (List.replicate (k + 2) 1)
                simp only [List.length_replicate] at hl2 hle
                omega
              exact hch hchop
          omega
        have hn : 2 ≤ dv.prod := by
          by_contra hcc
          have hp1 : dv.prod = 1 := by
            have := prod_pos_of_all_pos dv hpos
            omega
          have : ∀ d ∈ dv, d = 1 := by
            intro d hd
            have hdvd : d ∣ dv.prod := List.dvd_prod hd
            rw [hp1] at hdvd
            exact Nat.dvd_one.mp hdvd
          have hz : dv.countP (fun d => decide (1 < d)) = 0 := by
            rw [List.countP_eq_zero]
            intro d hd
            simp [this d hd]
          omega
        exact ⟨_, encode_vector_flat 0 obj conv dv data hobj hdims hval h2 (by omega) hn⟩

/-- C40 (termination of `encode_array`).  For a `double` or `logical` array with `n`
dimensions, the call of `encode_array` at level 0 returns within the budget `n + 1` for the
nesting of its calls.  Every recursive call is made at the next level: the result of a
call at a level is fixed by what the calls at the level above it return. -/
theorem encode_array_terminates (conv : Bool) (obj : octave_value) (dv : List Nat)
    (data : List Double)
    (hobj : (obj.isnumeric || obj.islogical) = true)
    (hval : obj.array_value = .ok ⟨dv, data⟩)
    (h2 : 2 ≤ dv.length) (hchop : chop_trailing_singletons dv = dv)
    (hlen : data.length = dv.prod) :
    (∃ es, encode_array (dv.length + 1) obj conv dv 0 false = .ok es)
      ∧ ∀ (f g : Nat) (o : octave_value) (level : Nat) (isl : Bool),
          (∀ o1 i1, encode_array f o1 conv dv (level + 1) i1
            = encode_array g o1 conv dv (level + 1) i1) →
          encode_array (f + 1) o conv dv level isl
            = encode_array (g + 1) o conv dv level isl :=
  ⟨encode_array_returns conv obj dv data hobj hval h2 hchop hlen,
    fun f g o level isl h => encode_array_level_congr conv f g o dv level isl h⟩

/-- The array of dimensions 1x1x2x2, for which the budget 5 is needed. -/
theorem encode_array_terminates_witness :
    (∃ es, encode_array 5 (octave_value.matrix [1, 1, 2, 2] [dbl 1, dbl 2, dbl 3, dbl 4])
        true [1, 1, 2, 2] 0 false = .ok es)
      ∧ ∀ (f g : Nat) (o : octave_value) (level : Nat) (isl : Bool),
          (∀ o1 i1, encode_array f o1 true [1, 1, 2, 2] (level + 1) i1
            = encode_array g o1 true [1, 1, 2, 2] (level + 1) i1) →
          encode_array (f + 1) o true [1, 1, 2, 2] level isl
            = encode_array (g + 1) o true [1, 1, 2, 2] level isl :=
  encode_array_terminates true (octave_value.matrix [1, 1, 2, 2] [dbl 1, dbl 2, dbl 3, dbl 4])
    [1, 1, 2, 2] [dbl 1, dbl 2, dbl 3, dbl 4] rfl rfl (by decide) (by decide) rfl

/-- The bound `n + 1` is reached: the array of dimensions 1x1x2x2 is written with the
budget 5, as `[[[[1,3],[2,4]]]]`, and not with the budget 4. -/
theorem encode_array_depth_example :
    encode_array 5 (octave_value.matrix [1, 1, 2, 2] [dbl 1, dbl 2, dbl 3, dbl 4])
        true [1, 1, 2, 2] 0 false
      = .ok (JsonValue.array [.array [.array [.array [jint 1, jint 3],
              .array [jint 2, jint 4]]]]).events
    ∧ encode_array 4 (octave_value.matrix [1, 1, 2, 2] [dbl 1, dbl 2, dbl 3, dbl 4])
        true [1, 1, 2, 2] 0 false
      = .error .out_of_fuel := by
  refine ⟨rfl, rfl⟩

/-! ## Struct arrays in arrays of arrays -/

theorem merged_field_length (cell : List octave_value) (M : Nat) (name : Str) :
    (merged_field cell M name).length = cell.length * M := by
  simp [merged_field]

theorem merged_field_index (cell : List octave_value) (M : Nat) (name : Str) (k i : Nat)
    (v : octave_value) (hk : cell[k]? = some v) (hi : i < M)
    (hM : M ≤ (field_cell v name).length) :
    (merged_field cell M name)[k + i * cell.length]? = (field_cell v name)[i]? := by
  have hkl : k < cell.length := by
    rw [List.getElem?_eq_some_iff] at hk
    exact hk.1
  have hlt : k + i * cell.length < cell.length * M := by
    have : (i + 1) * cell.length ≤ M * cell.length := Nat.mul_le_mul_right _ hi
    rw [Nat.mul_comm cell.length M]
    rw [Nat.add_mul] at this
    omega
  unfold merged_field
  rw [List.getElem?_map, List.getElem?_range hlt]
  simp only [Option.map_some']
  have hmod : (k + i * cell.length) % cell.length = k := by
    rw [Nat.add_mul_mod_self_right]
    exact Nat.mod_eq_of_lt hkl
  have hdiv : (k + i * cell.length) / cell.length = i := by
    rw [Nat.add_mul_div_right _ _ (by omega : 0 < cell.length)]
    rw [Nat.div_eq_of_lt hkl]
    omega
  rw [hmod, hdiv]
  have hv : cell.getD k (octave_value.matrix [0, 0] []) = v := by
    rw [List.getD_eq_getElem?_getD, hk]
    rfl
  rw [hv]
  have hil : i < (field_cell v name).length := by omega
  rw [List.getD_eq_getElem?_getD, List.getElem?_eq_getElem hil]
  rfl

theorem populate_field_eq (cell : List octave_value) (name : Str) (M : Nat)
    (value : List octave_value)
    (hcell : ∀ x ∈ cell, ∃ d f, x = octave_value.map d f ∧ name ∈ f.map Prod.fst
      ∧ ∀ kv ∈ f, kv.2.length = M)
    (hvalue : value.length = cell.length * M) :
    populate_field cell name cell.length M value = .ok (merged_field cell M name) := by
  have hk : ∀ k, k < cell.length → ∃ v, cell[k]? = some v ∧ M ≤ (field_cell v name).length
      ∧ ((elem cell k).bind octave_value.map_value).bind (fun m => m.getfield name)
          = .ok (field_cell v name) := by
    intro k hk
    obtain ⟨d, f, hx, hn, hl⟩ := hcell cell[k] (List.getElem_mem _)
    obtain ⟨c, hc1, hc2⟩ := lookup_of_mem_keys f name hn
    refine ⟨cell[k], List.getElem?_eq_getElem hk, ?_, ?_⟩
    · rw [hx]
      simp only [field_cell, hc1, Option.getD_some]
      exact Nat.le_of_eq (hl _ hc2).symm
    · simp only [elem, List.getElem?_eq_getElem hk, hx, Except.bind, octave_value.map_value,
        octave_map.getfield, hc1, field_cell, Option.getD_some]
  obtain ⟨a1, h1, h2, h3, -⟩ := populate_outer_spec
    (fun k a =>
      match ((elem cell k).bind octave_value.map_value).bind (fun m => m.getfield name) with
      | .error e => .error e
      | .ok sub_array_value => populate_inner sub_array_value k cell.length M a)
    (fun k =>
      match ((elem cell k).bind octave_value.map_value).bind (fun m => m.getfield name) with
      | .error _ => []
      | .ok c => c)
    cell.length M cell.length value
    (by
      intro k hk1 b
      obtain ⟨v, -, -, hc⟩ := hk k hk1
      simp only [hc])
    (by
      intro k hk1
      obtain ⟨v, -, hl, hc⟩ := hk k hk1
      simp only [hc]
      exact hl)
    hvalue (Nat.le_refl _)
  have heq : a1 = merged_field cell M name := by
    apply List.ext_getElem?
    intro p
    by_cases hp : p < cell.length * M
    · have hc0 : 0 < cell.length := by
        rcases Nat.eq_zero_or_pos cell.length with h | h
        · rw [h] at hp; simp at hp
        · exact h
      have hkk : p % cell.length < cell.length := Nat.mod_lt _ hc0
      have hii : p / cell.length < M := by
        rw [Nat.div_lt_iff_lt_mul hc0, Nat.mul_comm]
        exact hp
      have hpe : p = p % cell.length + p / cell.length * cell.length := by
        rw [Nat.mul_comm]
        exact (Nat.mod_add_div p cell.length).symm
      obtain ⟨v, hv, hl, hc⟩ := hk _ hkk
      rw [hpe, h3 _ _ hkk hii, merged_field_index cell M name _ _ v hv hii hl]
      simp only [hc]
    · have hl1 : a1.length ≤ p := by rw [h2, hvalue]; omega
      have hl2 : (merged_field cell M name).length ≤ p := by
        rw [merged_field_length]; omega
      rw [List.getElem?_eq_none hl1, List.getElem?_eq_none hl2]
  rw [← heq]
  exact h1

theorem array_of_arrays_fields_eq (cell : List octave_value) (dv : List Nat) (M : Nat)
    (names : List Str) :
    ∀ (fs : List (Str × List octave_value)) (acc_dims : List Nat) (value : List octave_value),
      names.Nodup → (∀ f ∈ names, f ∉ fs.map Prod.fst) →
      (∀ x ∈ cell, ∃ d f, x = octave_value.map d f
        ∧ (∀ name ∈ names, name ∈ f.map Prod.fst) ∧ ∀ kv ∈ f, kv.2.length = M) →
      value.length = cell.length * M →
      (fs = [] ∨ acc_dims = dv) → (names ≠ [] ∨ acc_dims = dv) →
      array_of_arrays_fields cell dv cell.length M names value ⟨acc_dims, fs⟩
        = .ok ⟨dv, fs ++ names.map (fun f => (f, merged_field cell M f))⟩ := by
  induction names with
  | nil =>
    intro fs acc_dims value _ _ _ _ _ hres
    rcases hres with h | h
    · exact absurd rfl h
    · simp [array_of_arrays_fields, h]
  | cons f rest ih =>
    intro fs acc_dims value hnd hdis hcell hvalue hdims _
    have hp := populate_field_eq cell f M value
      (by
        intro x hx
        obtain ⟨d, g, h1, h2, h3⟩ := hcell x hx
        exact ⟨d, g, h1, h2 f (List.mem_cons_self _ _), h3⟩)
      hvalue
    have hassign : octave_map.assign ⟨acc_dims, fs⟩ f ⟨dv, merged_field cell M f⟩
        = .ok ⟨dv, fs ++ [(f, merged_field cell M f)]⟩ := by
      unfold octave_map.assign
      cases fs with
      | nil => rfl
      | cons p ps =>
        have hd : acc_dims = dv := by
          rcases hdims with h | h
          · exact absurd h (by simp)
          · exact h
        subst hd
        simp only [List.isEmpty_cons, Bool.false_eq_true, if_false, if_true]
        rw [setfield_cells_append _ _ _ (hdis f (List.mem_cons_self _ _))]
    rw [array_of_arrays_fields, hp]
    simp only [hassign]
    rw [ih (fs ++ [(f, merged_field cell M f)]) dv (merged_field cell M f)
      (List.nodup_cons.mp hnd).2]
    · simp
    · intro g hg
      simp only [List.map_append, List.map_cons, List.map_nil, List.mem_append,
        List.mem_singleton, not_or]
      refine ⟨hdis g (List.mem_cons_of_mem _ hg), ?_⟩
      rintro rfl
      exact (List.nodup_cons.mp hnd).1 hg
    · intro x hx
      obtain ⟨d, g, h1, h2, h3⟩ := hcell x hx
      exact ⟨d, g, h1, fun n hn => h2 n (List.mem_cons_of_mem _ hn), h3⟩
    · exact merged_field_length cell M f
    · exact Or.inr rfl
    · exact Or.inr rfl

theorem any_sub_array_mismatch_struct_false (names : List Str) (S : List Nat)
    (l : List octave_value) (hS : S ≠ [0, 0])
    (h : ∀ v ∈ l, ∃ f, v = octave_value.map S f ∧ f.map Prod.fst = names) :
    any_sub_array_mismatch false true names S l = .ok false := by
  induction l with
  | nil => rfl
  | cons v rest ih =>
    obtain ⟨f, rfl, hf⟩ := h v (List.mem_cons_self _ _)
    have hstep : sub_array_mismatch false true names S (octave_value.map S f) = .ok false := by
      simp [sub_array_mismatch, octave_value.iscell, octave_value.dims, hS,
        octave_value.is_bool_matrix, octave_value.isstruct, octave_value.map_value,
        octave_map.fieldnames, hf]
    rw [any_sub_array_mismatch, hstep]
    exact ih (fun w hw => h w (List.mem_cons_of_mem _ hw))

/-- The struct branch of `decode_array_of_arrays`: struct arrays of one shape `S` with the
same list of field names are merged field by field, with the outer index running
fastest. -/
theorem decode_array_of_arrays_struct (dec : JsonValue → Except Error octave_value)
    (val : List JsonValue) (vs : List octave_value) (S : List Nat) (names : List Str)
    (hmap : mapE dec val = .ok vs) (hne : vs ≠ []) (hS : S ≠ [0, 0]) (hnd : names.Nodup)
    (hv : ∀ v ∈ vs, ∃ f, v = octave_value.map S f ∧ f.map Prod.fst = names
      ∧ ∀ kv ∈ f, kv.2.length = S.prod) :
    decode_array_of_arrays dec val
      = .ok (octave_value.map (chop_trailing_singletons (vs.length :: S))
          (names.map (fun f => (f, merged_field vs S.prod f)))) := by
  obtain ⟨v0, rest, rfl⟩ := List.exists_cons_of_ne_nil hne
  obtain ⟨f0, rfl, hf0, hl0⟩ := hv _ (List.mem_cons_self _ _)
  have hmis := any_sub_array_mismatch_struct_false names S (octave_value.map S f0 :: rest) hS
    (fun v hv1 => let ⟨f, h1, h2, _⟩ := hv v hv1; ⟨f, h1, h2⟩)
  have hnum : dim_numel (chop_trailing_singletons
        ((octave_value.map S f0 :: rest).length :: S))
      = (octave_value.map S f0 :: rest).length * S.prod := by
    rw [chop_trailing_singletons_prod]; rfl
  unfold decode_array_of_arrays
  simp only [decode_string_and_mixed_array, hmap, except_map_ok, Except.bind,
    octave_value.of_cell, octave_value.cell_value, except_bind_ok, elem,
    List.getElem?_cons_zero]
  simp only [bind, Except.bind, octave_value.isstruct, if_true, octave_value.map_value,
    Except.map, octave_map.fieldnames, hf0, octave_value.is_bool_matrix, octave_value.dims,
    hmis, Bool.false_eq_true, if_false]
  by_cases hn : names.length ≠ 0
  · rw [if_pos hn]
    have hnames : names ≠ [] := by
      intro h
      rw [h] at hn
      exact hn rfl
    have := array_of_arrays_fields_eq (octave_value.map S f0 :: rest)
      (chop_trailing_singletons ((octave_value.map S f0 :: rest).length :: S)) S.prod names
      [] [0, 0]
      (List.replicate (dim_numel (chop_trailing_singletons
        ((octave_value.map S f0 :: rest).length :: S))) (octave_value.matrix [0, 0] []))
      hnd (fun f _ => by simp)
      (by
        intro x hx
        obtain ⟨f, h1, h2, h3⟩ := hv x hx
        exact ⟨S, f, h1, fun n hn1 => h2 ▸ hn1, h3⟩)
      (by rw [List.length_replicate, hnum])
      (Or.inl rfl) (Or.inl hnames)
    simp only [dim_numel, octave_map.empty] at this ⊢
    rw [this]
    rfl
  · rw [if_neg hn]
    have hnil : names = [] := by
      by_contra h
      exact hn (fun hl => h (List.length_eq_zero.mp hl))
    subst hnil
    rfl

/-! ## The forms of the decoded arrays -/

/-- The forms of the value that `decode_array` returns when the elements are valid and
decode to values that meet `decoded_ok`: the empty matrix for the empty array, a column
of numbers or of booleans, the cell of the decoded elements, the struct array of objects
with the same field names, or what `decode_array_of_arrays` returns for elements that are
all arrays. -/
theorem decode_array_forms (dec : JsonValue → Except Error octave_value)
    (val : List JsonValue) (vs : List octave_value)
    (hvalid : ∀ e ∈ val, e.valid = true)
    (hdec : List.Forall₂ (fun e v => dec e = .ok v ∧ decoded_ok e v) val vs) :
    ∃ r, decode_array dec val = .ok r ∧
      ((val = [] ∧ r = octave_value.matrix [0, 0] [])
        ∨ (val ≠ [] ∧ ∃ x, r = octave_value.matrix [val.length, 1] x)
        ∨ (val ≠ [] ∧ ∃ x, r = octave_value.bool_matrix [val.length, 1] x)
        ∨ (val ≠ [] ∧ r = octave_value.cell [val.length, 1] vs)
        ∨ (val ≠ [] ∧ ∃ names : List Str, ∃ x : Str → List octave_value, names.Nodup
            ∧ r = octave_value.map [val.length, 1] (names.map (fun f => (f, x f))))
        ∨ (val ≠ [] ∧ (∀ e ∈ val, e.GetType = JType.kArrayType)
            ∧ decode_array_of_arrays dec val = .ok r)) := by
  have hmap : mapE dec val = .ok vs :=
    forall₂_mapE _ _ _ (hdec.imp (fun _ _ h => h.1))
  have hlen : vs.length = val.length := mapE_length _ _ _ hmap
  cases hval : val with
  | nil => exact ⟨_, rfl, Or.inl ⟨rfl, rfl⟩⟩
  | cons val0 rest =>
    have hne : val ≠ [] := by rw [hval]; simp
    have h0mem : val0 ∈ val := by rw [hval]; exact List.mem_cons_self _ _
    rw [← hval]
    have hcell : ∃ r, decode_string_and_mixed_array dec val = .ok r ∧
        ((val = [] ∧ r = octave_value.matrix [0, 0] [])
        ∨ (val ≠ [] ∧ ∃ x, r = octave_value.matrix [val.length, 1] x)
        ∨ (val ≠ [] ∧ ∃ x, r = octave_value.bool_matrix [val.length, 1] x)
        ∨ (val ≠ [] ∧ r = octave_value.cell [val.length, 1] vs)
        ∨ (val ≠ [] ∧ ∃ names : List Str, ∃ x : Str → List octave_value, names.Nodup
            ∧ r = octave_value.map [val.length, 1] (names.map (fun f => (f, x f))))
        ∨ (val ≠ [] ∧ (∀ e ∈ val, e.GetType = JType.kArrayType)
            ∧ decode_array_of_arrays dec val = .ok r)) := by
      refine ⟨octave_value.cell [val.length, 1] vs, ?_, Or.inr (Or.inr (Or.inr (Or.inl
        ⟨hne, rfl⟩)))⟩
      simp only [decode_string_and_mixed_array, hmap, except_map_ok, octave_value.of_cell]
    by_cases hnum : val.all null_or_number = true
    · refine ⟨_, decode_array_numeric dec val hne ?_, Or.inr (Or.inl ⟨hne, _, rfl⟩)⟩
      intro e he
      have h1 := List.all_eq_true.mp hnum e he
      have h2 := hvalid e he
      cases e with
      | null => exact Or.inl rfl
      | number n =>
        simp only [JsonValue.valid] at h2
        exact Or.inr ⟨n, rfl, h2⟩
      | bool b => cases b <;> simp [null_or_number, JsonValue.GetType] at h1
      | string s => simp [null_or_number, JsonValue.GetType] at h1
      | array xs => simp [null_or_number, JsonValue.GetType] at h1
      | object xs => simp [null_or_number, JsonValue.GetType] at h1
    · have hnumf : val.all null_or_number = false := by simpa using hnum
      by_cases hsame : val.all (same_json_type val0.GetType) = true
      · have hs := List.all_eq_true.mp hsame
        cases h0 : val0.GetType with
        | kNullType =>
          exfalso
          apply hnum
          rw [List.all_eq_true]
          intro e he
          have := hs e he
          rw [h0] at this
          revert this
          unfold same_json_type null_or_number
          cases e.GetType <;> simp
        | kNumberType =>
          exfalso
          apply hnum
          rw [List.all_eq_true]
          intro e he
          have := hs e he
          rw [h0] at this
          revert this
          unfold same_json_type null_or_number
          cases e.GetType <;> simp
        | kFalseType =>
          refine ⟨_, decode_array_booleans dec val hne ?_,
            Or.inr (Or.inr (Or.inl ⟨hne, _, rfl⟩))⟩
          intro e he
          have := hs e he
          rw [h0] at this
          revert this
          unfold same_json_type JsonValue.IsBool
          cases e.GetType <;> simp
        | kTrueType =>
          refine ⟨_, decode_array_booleans dec val hne ?_,
            Or.inr (Or.inr (Or.inl ⟨hne, _, rfl⟩))⟩
          intro e he
          have := hs e he
          rw [h0] at this
          revert this
          unfold same_json_type JsonValue.IsBool
          cases e.GetType <;> simp
        | kStringType =>
          rw [decode_array_mixed dec val (Or.inl ⟨hne, ?_⟩)]
          · exact hcell
          · intro e he
            have := hs e he
            rw [h0] at this
            revert this
            unfold same_json_type
            cases e.GetType <;> simp
        | kObjectType =>
          have hobj : ∀ e ∈ val, e.GetType = JType.kObjectType := by
            intro e he
            have := hs e he
            rw [h0] at this
            revert this
            unfold same_json_type
            cases e.GetType <;> simp
          have hdec1 : List.Forall₂ (fun _ v => ∃ m : octave_scalar_map,
              v = octave_value.of_scalar_map m ∧ m.fieldnames.Nodup) val vs :=
            forall₂_imp_mem _ _ val vs (fun e he v hp => hp.2.1 (hobj e he)) hdec
          obtain ⟨ms, hms, hnd⟩ := scalar_maps_of_decoded val vs hdec1
          cases hmsc : ms with
          | nil =>
            rw [hms, hmsc, hval] at hlen
            simp at hlen
          | cons m0 ms1 =>
            have hmap0 := hmap
            rw [hms, hmsc] at hmap
            rw [decode_array_objects dec val hne hobj,
              decode_object_array_eq dec val m0 ms1 hmap
                (hnd m0 (by rw [hmsc]; exact List.mem_cons_self _ _))]
            split_ifs with hall
            · exact ⟨_, rfl, Or.inr (Or.inr (Or.inr (Or.inr (Or.inl
                ⟨hne, m0.fieldnames, _, hnd m0 (by rw [hmsc]; exact List.mem_cons_self _ _),
                  rfl⟩))))⟩
            · refine ⟨_, rfl, Or.inr (Or.inr (Or.inr (Or.inl ⟨hne, ?_⟩)))⟩
              rw [hms, hmsc]
        | kArrayType =>
          have harr : ∀ e ∈ val, e.GetType = JType.kArrayType := by
            intro e he
            have := hs e he
            rw [h0] at this
            revert this
            unfold same_json_type
            cases e.GetType <;> simp
          have hvne : vs ≠ [] := by
            intro h
            rw [h] at hlen
            rw [hval] at hlen
            simp at hlen
          have hvok : ∀ v ∈ vs, v.data_fits_dims = true ∧ v.is_string = false := by
            intro v hv
            obtain ⟨e, he, -, hok⟩ := forall₂_mem_right _ val vs hdec v hv
            exact hok.2 (harr e he)
          rw [decode_array_arrays dec val hne harr]
          obtain ⟨r, hr, -⟩ := decode_array_of_arrays_ok dec val vs hmap hvne hvok
          exact ⟨r, hr, Or.inr (Or.inr (Or.inr (Or.inr (Or.inr ⟨hne, harr, hr⟩))))⟩
      · have hsamef : val.all (same_json_type val0.GetType) = false := by simpa using hsame
        rw [decode_array_mixed dec val (Or.inr ⟨hnumf, ?_⟩)]
        · exact hcell
        · by_contra hc
          push_neg at hc
          apply hsame
          rw [List.all_eq_true]
          intro e he
          have := hc val0 h0mem e he
          simpa using this

theorem decode_array_of_arrays_of_mismatch (dec : JsonValue → Except Error octave_value)
    (val : List JsonValue) (v0 : octave_value) (rest : List octave_value)
    (hmap : mapE dec val = .ok (v0 :: rest))
    (hmis : ∀ names, (∀ d f, v0 = octave_value.map d f → names = f.map Prod.fst) →
      (v0.isstruct = false → names = []) →
      any_sub_array_mismatch v0.is_bool_matrix v0.isstruct names v0.dims (v0 :: rest)
        = .ok true) :
    decode_array_of_arrays dec val
      = .ok (octave_value.cell [val.length, 1] (v0 :: rest)) := by
  unfold decode_array_of_arrays
  simp only [decode_string_and_mixed_array, hmap, except_map_ok, Except.bind,
    octave_value.of_cell, octave_value.cell_value, except_bind_ok, elem,
    List.getElem?_cons_zero]
  cases v0 with
  | map d f =>
    have := hmis (f.map Prod.fst)
      (fun d1 f1 h => by injection h with _ h2; rw [h2])
      (fun hs => by simp [octave_value.isstruct] at hs)
    simp only [octave_value.isstruct, octave_value.is_bool_matrix, octave_value.dims] at this
    simp [bind, Except.bind, octave_value.isstruct, octave_value.map_value, Except.map,
      octave_value.is_bool_matrix, octave_value.dims, octave_map.fieldnames, this]
  | matrix d f =>
    have := hmis [] (fun d1 f1 h => by cases h) (fun _ => rfl)
    simp only [octave_value.isstruct, octave_value.is_bool_matrix, octave_value.dims] at this
    simp [bind, Except.bind, octave_value.isstruct, octave_value.is_bool_matrix,
      octave_value.dims, this]
  | bool_matrix d f =>
    have := hmis [] (fun d1 f1 h => by cases h) (fun _ => rfl)
    simp only [octave_value.isstruct, octave_value.is_bool_matrix, octave_value.dims] at this
    simp [bind, Except.bind, octave_value.isstruct, octave_value.is_bool_matrix,
      octave_value.dims, this]
  | char_matrix d f =>
    have := hmis [] (fun d1 f1 h => by cases h) (fun _ => rfl)
    simp only [octave_value.isstruct, octave_value.is_bool_matrix, octave_value.dims] at this
    simp [bind, Except.bind, octave_value.isstruct, octave_value.is_bool_matrix,
      octave_value.dims, this]
  | cell d f =>
    have := hmis [] (fun d1 f1 h => by cases h) (fun _ => rfl)
    simp only [octave_value.isstruct, octave_value.is_bool_matrix, octave_value.dims] at this
    simp [bind, Except.bind, octave_value.isstruct, octave_value.is_bool_matrix,
      octave_value.dims, this]

/-- The forms of the value that `decode_array_of_arrays` returns for well-formed
sub-arrays: the cell of the sub-arrays, or, when all sub-arrays have the dimensions of the
first one and these are not 0x0, one array or struct array of the dimensions
`(count, S...)` without trailing singletons. -/
theorem decode_array_of_arrays_forms (dec : JsonValue → Except Error octave_value)
    (val : List JsonValue) (v0 : octave_value) (rest : List octave_value)
    (hmap : mapE dec val = .ok (v0 :: rest))
    (hwf : ∀ v ∈ v0 :: rest, v.well_formed = true ∧ v.is_string = false)
    (hnd : ∀ d f, v0 = octave_value.map d f → (f.map Prod.fst).Nodup) :
    ∃ r, decode_array_of_arrays dec val = .ok r ∧
      (r = octave_value.cell [val.length, 1] (v0 :: rest)
        ∨ (v0.dims ≠ [0, 0] ∧ (∀ v ∈ v0 :: rest, v.dims = v0.dims) ∧
            ((∃ x, r = octave_value.matrix
                (chop_trailing_singletons ((v0 :: rest).length :: v0.dims)) x)
              ∨ (∃ x, r = octave_value.bool_matrix
                (chop_trailing_singletons ((v0 :: rest).length :: v0.dims)) x)
              ∨ ∃ names : List Str, ∃ x : Str → List octave_value, names.Nodup
                ∧ r = octave_value.map
                    (chop_trailing_singletons ((v0 :: rest).length :: v0.dims))
                    (names.map (fun f => (f, x f)))))) := by
  have hne : v0 :: rest ≠ [] := by simp
  cases hs : v0.isstruct with
  | false =>
    rcases any_sub_array_mismatch_ok v0.is_bool_matrix false [] v0.dims (v0 :: rest)
      with hm | ⟨-, hm⟩
    · refine ⟨_, decode_array_of_arrays_of_mismatch dec val v0 rest hmap ?_, Or.inl rfl⟩
      intro names h1 h2
      rw [h2 hs, hs]
      exact hm
    · have hall : ∀ x ∈ v0 :: rest, x.iscell = false ∧ x.dims = v0.dims ∧ v0.dims ≠ [0, 0]
          ∧ x.is_bool_matrix = v0.is_bool_matrix ∧ x.isstruct = false := by
        intro x hx
        obtain ⟨h1, h2, h3, h4, h5, -⟩ := sub_array_mismatch_false _ _ _ _ x (hm x hx)
        exact ⟨h1, h2, h3, h4, h5⟩
      obtain ⟨combined, hres, -, -⟩ := decode_array_of_arrays_merge dec val (v0 :: rest)
        (fun k => match (v0 :: rest)[k]? with
          | some v => (match v.array_value with
            | .ok a => a.data
            | .error _ => [])
          | none => [])
        v0.dims v0.is_bool_matrix hmap hne (hall v0 (List.mem_cons_self _ _)).2.2.1
        (by
          intro k v hk
          have hmem := List.getElem?_mem hk
          obtain ⟨h1, h2, -, h4, h5⟩ := hall v hmem
          obtain ⟨hf, hstr⟩ := hwf v hmem
          have hf := well_formed_fits v hf
          refine ⟨h1, h5, h2, h4, ?_⟩
          simp only [hk]
          cases v with
          | matrix d x =>
            have h2a : d = v0.dims := h2
            simp only [octave_value.data_fits_dims, beq_iff_eq] at hf
            subst h2a
            exact ⟨rfl, hf⟩
          | bool_matrix d x =>
            have h2a : d = v0.dims := h2
            simp only [octave_value.data_fits_dims, beq_iff_eq] at hf
            subst h2a
            refine ⟨rfl, ?_⟩
            show (x.map Double.of_bool).length = _
            rw [List.length_map]
            exact hf
          | char_matrix d x => simp [octave_value.is_string] at hstr
          | cell d x => simp [octave_value.iscell] at h1
          | map d x => simp [octave_value.isstruct] at h5)
      refine ⟨_, hres, Or.inr ⟨(hall v0 (List.mem_cons_self _ _)).2.2.1,
        fun v hv => (hall v hv).2.1, ?_⟩⟩
      cases v0.is_bool_matrix
      · exact Or.inl ⟨_, rfl⟩
      · exact Or.inr (Or.inl ⟨_, rfl⟩)
  | true =>
    obtain ⟨d0, f0, rfl⟩ : ∃ d0 f0, v0 = octave_value.map d0 f0 := by
      cases v0 with
      | map d f => exact ⟨_, _, rfl⟩
      | _ => simp [octave_value.isstruct] at hs
    rcases any_sub_array_mismatch_ok false true (f0.map Prod.fst) d0
      (octave_value.map d0 f0 :: rest) with hm | ⟨-, hm⟩
    · refine ⟨_, decode_array_of_arrays_of_mismatch dec val _ rest hmap ?_, Or.inl rfl⟩
      intro names h1 _
      rw [h1 d0 f0 rfl]
      exact hm
    · have hS : d0 ≠ [0, 0] :=
        (sub_array_mismatch_false _ _ _ _ _ (hm _ (List.mem_cons_self _ _))).2.2.1
      have hv : ∀ v ∈ octave_value.map d0 f0 :: rest, ∃ f, v = octave_value.map d0 f
          ∧ f.map Prod.fst = f0.map Prod.fst ∧ ∀ kv ∈ f, kv.2.length = d0.prod := by
        intro v hv1
        obtain ⟨-, h2, -, -, h5, h6⟩ := sub_array_mismatch_false _ _ _ _ v (hm v hv1)
        obtain ⟨m, hm1, hm2⟩ := h6 rfl
        cases v with
        | map d f =>
          simp only [octave_value.map_value, Except.ok.injEq] at hm1
          subst hm1
          have h2a : d = d0 := h2
          subst h2a
          refine ⟨f, rfl, hm2.symm, ?_⟩
          have hw := (hwf _ hv1).1
          rw [well_formed_map] at hw
          exact fun kv hkv => (hw.2 kv hkv).1
        | matrix _ _ => simp [octave_value.map_value] at hm1
        | bool_matrix _ _ => simp [octave_value.map_value] at hm1
        | char_matrix _ _ => simp [octave_value.map_value] at hm1
        | cell _ _ => simp [octave_value.map_value] at hm1
      have hres := decode_array_of_arrays_struct dec val (octave_value.map d0 f0 :: rest) d0
        (f0.map Prod.fst) hmap hne hS (hnd d0 f0 rfl) hv
      refine ⟨_, hres, Or.inr ⟨hS, fun v hv1 => ?_, Or.inr (Or.inr
        ⟨f0.map Prod.fst, _, hnd d0 f0 rfl, rfl⟩)⟩⟩
      obtain ⟨f, rfl, -⟩ := hv v hv1
      rfl

theorem chop_reversed_mem (l : List Nat) : ∀ x ∈ chop_reversed l, x ∈ l := by
  induction l with
  | nil => intro x hx; simp [chop_reversed] at hx
  | cons d rest ih =>
    intro x hx
    unfold chop_reversed at hx
    split_ifs at hx
    · exact List.mem_cons_of_mem _ (ih x hx)
    · exact hx

theorem chop_trailing_singletons_mem (dv : List Nat) :
    ∀ x ∈ chop_trailing_singletons dv, x ∈ dv := by
  intro x hx
  unfold chop_trailing_singletons at hx
  rw [List.mem_reverse] at hx
  exact List.mem_reverse.mp (chop_reversed_mem _ x hx)

theorem decode_array_inv (dec : JsonValue → Except Error octave_value)
    (val : List JsonValue) (vs : List octave_value)
    (hvalid : ∀ e ∈ val, e.valid = true)
    (hdec : List.Forall₂ (fun e v => dec e = .ok v ∧ decoded_ok e v) val vs)
    (hwf : ∀ v ∈ vs, v.well_formed = true)
    (hinv : (∀ e ∈ val, e.GetType = JType.kArrayType) → ∀ v ∈ vs, decoded_array_inv v) :
    ∃ r, decode_array dec val = .ok r ∧ decoded_array_inv r := by
  have hmap : mapE dec val = .ok vs :=
    forall₂_mapE _ _ _ (hdec.imp (fun _ _ h => h.1))
  have hlen : vs.length = val.length := mapE_length _ _ _ hmap
  obtain ⟨r, hr, hform⟩ := decode_array_forms dec val vs hvalid hdec
  refine ⟨r, hr, ?_⟩
  have hcol : val ≠ [] → ∀ d ∈ [val.length, 1], 1 ≤ d := by
    intro hne d hd
    have : 1 ≤ val.length := by
      cases val with
      | nil => exact absurd rfl hne
      | cons a l => simp
    simp only [List.mem_cons, List.mem_singleton, List.not_mem_nil, or_false] at hd
    rcases hd with rfl | rfl
    · exact this
    · exact Nat.le_refl 1
  rcases hform with ⟨-, rfl⟩ | ⟨hne, x, rfl⟩ | ⟨hne, x, rfl⟩ | ⟨hne, rfl⟩
    | ⟨hne, names, x, hnd, rfl⟩ | ⟨hne, harr, haa⟩
  · exact ⟨Or.inr rfl, fun d f h => by cases h⟩
  · exact ⟨Or.inl (hcol hne), fun d f h => by cases h⟩
  · exact ⟨Or.inl (hcol hne), fun d f h => by cases h⟩
  · exact ⟨Or.inl (hcol hne), fun d f h => by cases h⟩
  · refine ⟨Or.inl (hcol hne), ?_⟩
    intro d f h
    injection h with _ h2
    rw [← h2, List.map_map]
    have : (Prod.fst ∘ fun f => (f, x f)) = id := by
      funext f
      rfl
    rw [this, List.map_id]
    exact hnd
  · have hvne : vs ≠ [] := by
      intro h
      rw [h] at hlen
      exact hne (List.length_eq_zero.mp hlen.symm)
    obtain ⟨v0, rest, rfl⟩ := List.exists_cons_of_ne_nil hvne
    have hi0 := hinv harr v0 (List.mem_cons_self _ _)
    obtain ⟨r1, hr1, hf1⟩ := decode_array_of_arrays_forms dec val v0 rest hmap
      (by
        intro v hv
        obtain ⟨e, he, -, hok⟩ := forall₂_mem_right _ val _ hdec v hv
        exact ⟨hwf v hv, (hok.2 (harr e he)).2⟩)
      hi0.2
    rw [haa] at hr1
    injection hr1 with hr1
    subst hr1
    rcases hf1 with rfl | ⟨hS, -, hforms⟩
    · exact ⟨Or.inl (hcol hne), fun d f h => by cases h⟩
    · have hpos : ∀ d ∈ v0.dims, 1 ≤ d := by
        rcases hi0.1 with h | h
        · exact h
        · rw [h] at hS
          exact absurd rfl hS
      have hdims : ∀ d ∈ chop_trailing_singletons ((v0 :: rest).length :: v0.dims),
          1 ≤ d := by
        intro d hd
        rcases List.mem_cons.mp (chop_trailing_singletons_mem _ d hd) with rfl | h
        · simp
        · exact hpos d h
      rcases hforms with ⟨x, rfl⟩ | ⟨x, rfl⟩ | ⟨names, x, hnd, rfl⟩
      · exact ⟨Or.inl hdims, fun d f h => by cases h⟩
      · exact ⟨Or.inl hdims, fun d f h => by cases h⟩
      · refine ⟨Or.inl hdims, ?_⟩
        intro d f h
        injection h with _ h2
        rw [← h2, List.map_map]
        have : (Prod.fst ∘ fun f => (f, x f)) = id := by
          funext f
          rfl
        rw [this, List.map_id]
        exact hnd

/-- With a budget that reaches the nesting depth of a valid JSON array, the value that
`decode` returns for it meets `decoded_array_inv`. -/
theorem decode_array_value_inv (iskeyword : Str → Bool)
    (options : Option make_valid_name_options) :
    ∀ (fuel : Nat) (elems : List JsonValue) (r : octave_value),
      (JsonValue.array elems).valid = true → (JsonValue.array elems).depth ≤ fuel →
      decode iskeyword fuel (.array elems) options = .ok r → decoded_array_inv r := by
  intro fuel
  induction fuel with
  | zero =>
    intro elems r _ hd
    simp [JsonValue.depth] at hd
  | succ fuel ih =>
    intro elems r hv hd h
    simp only [JsonValue.valid] at hv
    simp only [JsonValue.depth, Nat.add_le_add_iff_right] at hd
    obtain ⟨vs, hvs⟩ := exists_forall₂
      (fun e r => decode iskeyword fuel e options = .ok r ∧ decoded_ok e r) elems
      (fun e he => decode_ok iskeyword options fuel e (valid_of_mem_elems elems hv e he)
        (Nat.le_trans (depth_of_mem_elems elems e he) hd))
    obtain ⟨r1, hr1, hi⟩ := decode_array_inv
      (fun v => decode iskeyword fuel v options) elems vs
      (valid_of_mem_elems elems hv) hvs
      (by
        intro v hv1
        obtain ⟨e, he, hde, -⟩ := forall₂_mem_right _ elems vs hvs v hv1
        exact decode_well_formed iskeyword options fuel e v (valid_of_mem_elems elems hv e he)
          (Nat.le_trans (depth_of_mem_elems elems e he) hd) hde)
      (by
        intro harr v hv1
        obtain ⟨e, he, hde, -⟩ := forall₂_mem_right _ elems vs hvs v hv1
        have hty := harr e he
        cases e with
        | array xs =>
          exact ih xs v (valid_of_mem_elems elems hv _ he)
            (Nat.le_trans (depth_of_mem_elems elems _ he) hd) hde
        | null => simp [JsonValue.GetType] at hty
        | bool b => cases b <;> simp [JsonValue.GetType] at hty
        | number n => simp [JsonValue.GetType] at hty
        | string s => simp [JsonValue.GetType] at hty
        | object ms => simp [JsonValue.GetType] at hty)
    rw [decode_succ_array, hr1] at h
    injection h with h
    subst h
    exact hi

/-! ## The claims on arrays of arrays -/

theorem decoded_elems_facts (iskeyword : Str → Bool)
    (options : Option make_valid_name_options) (fuel : Nat) (elems : List JsonValue)
    (vs : List octave_value)
    (hvalid : (JsonValue.array elems).valid = true)
    (hd : (JsonValue.array elems).depth ≤ fuel + 1)
    (hdec : List.Forall₂ (fun e v => decode iskeyword fuel e options = .ok v) elems vs) :
    List.Forall₂ (fun e v => decode iskeyword fuel e options = .ok v ∧ decoded_ok e v)
        elems vs
      ∧ (∀ v ∈ vs, v.well_formed = true)
      ∧ ((∀ e ∈ elems, e.GetType = JType.kArrayType) → ∀ v ∈ vs, decoded_array_inv v) := by
  simp only [JsonValue.valid] at hvalid
  simp only [JsonValue.depth, Nat.add_le_add_iff_right] at hd
  have hv : ∀ e ∈ elems, e.valid = true := valid_of_mem_elems elems hvalid
  have hde : ∀ e ∈ elems, e.depth ≤ fuel :=
    fun e he => Nat.le_trans (depth_of_mem_elems elems e he) hd
  refine ⟨?_, ?_, ?_⟩
  · refine forall₂_imp_mem _ _ elems vs ?_ hdec
    intro e he v hev
    obtain ⟨r, hr, hok⟩ := decode_ok iskeyword options fuel e (hv e he) (hde e he)
    rw [hev] at hr
    injection hr with hr
    subst hr
    exact ⟨hev, hok⟩
  · intro v hv1
    obtain ⟨e, he, hev⟩ := forall₂_mem_right _ elems vs hdec v hv1
    exact decode_well_formed iskeyword options fuel e v (hv e he) (hde e he) hev
  · intro harr v hv1
    obtain ⟨e, he, hev⟩ := forall₂_mem_right _ elems vs hdec v hv1
    have hty := harr e he
    cases e with
    | array xs => exact decode_array_value_inv iskeyword options fuel xs v (hv _ he) (hde _ he) hev
    | null => simp [JsonValue.GetType] at hty
    | bool b => cases b <;> simp [JsonValue.GetType] at hty
    | number n => simp [JsonValue.GetType] at hty
    | string s => simp [JsonValue.GetType] at hty
    | object ms => simp [JsonValue.GetType] at hty

/-- C34 (zero-length fallback).  When the elements of a JSON array are arrays and one of
them decodes to a value with a dimension of length 0, the array decodes to the cell of
dimensions `(n, 1)` of the decoded sub-arrays, and so to no empty `double` array. -/
theorem decode_zero_length_fallback (iskeyword : Str → Bool)
    (options : Option make_valid_name_options) (fuel : Nat) (elems : List JsonValue)
    (vs : List octave_value)
    (hvalid : (JsonValue.array elems).valid = true)
    (hd : (JsonValue.array elems).depth ≤ fuel + 1)
    (harr : ∀ e ∈ elems, e.GetType = JType.kArrayType)
    (hdec : List.Forall₂ (fun e v => decode iskeyword fuel e options = .ok v) elems vs)
    (hzero : ∃ v ∈ vs, 0 ∈ v.dims) :
    decode iskeyword (fuel + 1) (.array elems) options
      = .ok (octave_value.cell [elems.length, 1] vs) := by
  obtain ⟨hdec1, hwf, hinv⟩ := decoded_elems_facts iskeyword options fuel elems vs hvalid hd
    hdec
  have hmap : mapE (fun v => decode iskeyword fuel v options) elems = .ok vs :=
    forall₂_mapE _ _ _ hdec
  have hlen : vs.length = elems.length := mapE_length _ _ _ hmap
  obtain ⟨z, hz, hz0⟩ := hzero
  have hvne : vs ≠ [] := List.ne_nil_of_mem hz
  have hne : elems ≠ [] := by
    intro h
    rw [h] at hlen
    exact hvne (List.length_eq_zero.mp hlen)
  obtain ⟨v0, rest, rfl⟩ := List.exists_cons_of_ne_nil hvne
  have hi0 := hinv harr v0 (List.mem_cons_self _ _)
  obtain ⟨r, hr, hf⟩ := decode_array_of_arrays_forms
    (fun v => decode iskeyword fuel v options) elems v0 rest hmap
    (by
      intro v hv
      obtain ⟨e, he, -, hok⟩ := forall₂_mem_right _ elems _ hdec1 v hv
      exact ⟨hwf v hv, (hok.2 (harr e he)).2⟩)
    hi0.2
  rw [decode_succ_array, decode_array_arrays _ elems hne harr, hr]
  rcases hf with rfl | ⟨hS, hsame, -⟩
  · rfl
  · exfalso
    rw [hsame z hz] at hz0
    rcases hi0.1 with h | h
    · have := h 0 hz0
      omega
    · rw [h] at hS
      exact hS rfl

/-- The arrays `[[],[]]`: both sub-arrays decode to the 0x0 matrix, and the result is the
cell of the two. -/
theorem decode_zero_length_fallback_witness :
    decode octave_iskeyword 2 (.array [.array [], .array []]) none
      = .ok (octave_value.cell [2, 1]
          [octave_value.matrix [0, 0] [], octave_value.matrix [0, 0] []]) :=
  decode_zero_length_fallback octave_iskeyword none 1 [.array [], .array []]
    [octave_value.matrix [0, 0] [], octave_value.matrix [0, 0] []]
    (by decide) (by decide) (by decide)
    (List.Forall₂.cons rfl (List.Forall₂.cons rfl List.Forall₂.nil))
    ⟨octave_value.matrix [0, 0] [], List.mem_cons_self _ _, List.mem_cons_self _ _⟩

/-- More arrays with an empty sub-array: `[[1,2],[]]` and `[[],[1,2]]` decode to cells. -/
theorem zero_length_examples :
    decode octave_iskeyword 2 (.array [.array [jint 1, jint 2], .array []]) none
        = .ok (octave_value.cell [2, 1]
            [octave_value.matrix [2, 1] [dbl 1, dbl 2], octave_value.matrix [0, 0] []])
      ∧ decode octave_iskeyword 2 (.array [.array [], .array [jint 1, jint 2]]) none
        = .ok (octave_value.cell [2, 1]
            [octave_value.matrix [0, 0] [], octave_value.matrix [2, 1] [dbl 1, dbl 2]]) := by
  refine ⟨rfl, rfl⟩

theorem lookup_map_self {β : Type} (names : List Str) (g : Str → β) (f : Str)
    (h : f ∈ names) : (names.map (fun n => (n, g n))).lookup f = some (g f) := by
  induction names with
  | nil => simp at h
  | cons n rest ih =>
    by_cases hf : f = n
    · subst hf
      simp [List.lookup]
    · have hb : (f == n) = false := by simpa using hf
      simp only [List.map_cons, List.lookup, hb]
      rcases List.mem_cons.mp h with h1 | h1
      · exact absurd h1 hf
      · exact ih h1

/-- C35 (struct arrays in an array of arrays).  When the elements of a JSON array are
arrays that all decode to struct arrays of the same dimensions `S` and the same list of
field names, the array decodes to the struct array with these field names and the
dimensions `(count, S...)` without trailing singletons; for every field, the value at the
flat offset `k + i * count` is the value at the flat offset `i` of the field in the
`k`-th struct array. -/
theorem decode_struct_arrays_merge (iskeyword : Str → Bool)
    (options : Option make_valid_name_options) (fuel : Nat) (elems : List JsonValue)
    (vs : List octave_value) (S : List Nat) (names : List Str)
    (hvalid : (JsonValue.array elems).valid = true)
    (hd : (JsonValue.array elems).depth ≤ fuel + 1)
    (harr : ∀ e ∈ elems, e.GetType = JType.kArrayType) (hne : elems ≠ [])
    (hdec : List.Forall₂ (fun e v => decode iskeyword fuel e options = .ok v) elems vs)
    (hstruct : ∀ v ∈ vs, ∃ f, v = octave_value.map S f ∧ f.map Prod.fst = names) :
    ∃ fields,
      decode iskeyword (fuel + 1) (.array elems) options
          = .ok (octave_value.map (chop_trailing_singletons (elems.length :: S)) fields)
        ∧ fields.map Prod.fst = names
        ∧ ∀ f ∈ names, ∃ merged, fields.lookup f = some merged
            ∧ merged.length = elems.length * S.prod
            ∧ ∀ k i v, vs[k]? = some v → i < S.prod →
                merged[k + i * elems.length]? = (field_cell v f)[i]? := by
  obtain ⟨hdec1, hwf, hinv⟩ := decoded_elems_facts iskeyword options fuel elems vs hvalid hd
    hdec
  have hmap : mapE (fun v => decode iskeyword fuel v options) elems = .ok vs :=
    forall₂_mapE _ _ _ hdec
  have hlen : vs.length = elems.length := mapE_length _ _ _ hmap
  have hvne : vs ≠ [] := by
    intro h
    rw [h] at hlen
    exact hne (List.length_eq_zero.mp hlen.symm)
  obtain ⟨v0, hv0⟩ := List.exists_mem_of_ne_nil vs hvne
  obtain ⟨f0, rfl, hf0⟩ := hstruct v0 hv0
  have hi0 := hinv harr _ hv0
  have hS : S ≠ [0, 0] := by
    rcases hi0.1 with h | h
    · rintro rfl
      have := h 0 (by simp [octave_value.dims])
      omega
    · cases h
  have hnd : names.Nodup := hf0 ▸ hi0.2 S f0 rfl
  have hv : ∀ v ∈ vs, ∃ f, v = octave_value.map S f ∧ f.map Prod.fst = names
      ∧ ∀ kv ∈ f, kv.2.length = S.prod := by
    intro v hv1
    obtain ⟨f, rfl, hf⟩ := hstruct v hv1
    have hw := hwf _ hv1
    rw [well_formed_map] at hw
    exact ⟨f, rfl, hf, fun kv hkv => (hw.2 kv hkv).1⟩
  have hres := decode_array_of_arrays_struct (fun v => decode iskeyword fuel v options)
    elems vs S names hmap hvne hS hnd hv
  refine ⟨names.map (fun f => (f, merged_field vs S.prod f)), ?_, ?_, ?_⟩
  · rw [decode_succ_array, decode_array_arrays _ elems hne harr, hres, hlen]
  · rw [List.map_map]
    have : (Prod.fst ∘ fun f => (f, merged_field vs S.prod f)) = id := by
      funext f
      rfl
    rw [this, List.map_id]
  · intro f hf
    refine ⟨merged_field vs S.prod f, lookup_map_self names _ f hf, ?_, ?_⟩
    · rw [merged_field_length, hlen]
    · intro k i v hk hi
      have hvm := List.getElem?_mem hk
      obtain ⟨g, rfl, hg1, hg2⟩ := hv v hvm
      rw [← hlen]
      apply merged_field_index vs S.prod f k i _ hk hi
      obtain ⟨c, hc1, hc2⟩ := lookup_of_mem_keys g f (hg1 ▸ hf)
      simp only [field_cell, hc1, Option.getD_some]
      exact Nat.le_of_eq (hg2 _ hc2).symm

/-- The array `struct_rows`: the two sub-arrays decode to 2x1 struct arrays with the
field `a`, and the array decodes to a 2x2 struct array with the field `a`. -/
theorem decode_struct_arrays_merge_witness :
    ∃ fields,
      decode octave_iskeyword 4 (.array struct_rows) none
          = .ok (octave_value.map [2, 2] fields)
        ∧ fields.map Prod.fst = [bytes "a"] :=
  let ⟨fields, h1, h2, _⟩ := decode_struct_arrays_merge octave_iskeyword none 3 struct_rows
    [octave_value.map [2, 1]
       [(bytes "a", [octave_value.scalar (dbl 1), octave_value.scalar (dbl 2)])],
     octave_value.map [2, 1]
       [(bytes "a", [octave_value.scalar (dbl 3), octave_value.scalar (dbl 4)])]]
    [2, 1] [bytes "a"] (by decide) (by decide) (by decide) (by simp [struct_rows])
    (List.Forall₂.cons rfl (List.Forall₂.cons rfl List.Forall₂.nil))
    (by
      intro v hv
      simp only [List.mem_cons, List.mem_singleton, List.not_mem_nil, or_false] at hv
      rcases hv with rfl | rfl
      · exact ⟨_, rfl, rfl⟩
      · exact ⟨_, rfl, rfl⟩)
  ⟨fields, h1, h2⟩

/-- The example of the claim: `[[{"a":1},{"a":2}],[{"a":3},{"a":4}]]` decodes to the 2x2
struct array whose field `a` holds 1, 3, 2, 4 in column-major order. -/
theorem struct_rows_example :
    decode octave_iskeyword 4 (.array struct_rows) none
      = .ok (octave_value.map [2, 2]
          [(bytes "a", [octave_value.scalar (dbl 1), octave_value.scalar (dbl 3),
                        octave_value.scalar (dbl 2), octave_value.scalar (dbl 4)])]) := by
  rfl

/-! ## The index law of the decoder -/

theorem ind2sub_sub2ind (dv path : List Nat) (h : valid_index dv path = true) :
    ind2sub dv (sub2ind dv path) = path := by
  induction dv generalizing path with
  | nil =>
    cases path with
    | nil => rfl
    | cons i rest => simp [valid_index] at h
  | cons d ds ih =>
    cases path with
    | nil => simp [valid_index] at h
    | cons i rest =>
      simp only [valid_index, Bool.and_eq_true, decide_eq_true_eq] at h
      obtain ⟨hi, hrest⟩ := h
      simp only [sub2ind, ind2sub]
      have h1 : (i + d * sub2ind ds rest) % d = i := by
        rw [Nat.add_mul_mod_self_left]
        exact Nat.mod_eq_of_lt hi
      have h2 : (i + d * sub2ind ds rest) / d = sub2ind ds rest := by
        rw [Nat.add_mul_div_left _ _ (by omega : 0 < d), Nat.div_eq_of_lt hi]
        omega
      rw [h1, h2, ih rest hrest]

theorem chop_reversed_append (r : List Nat) (d : Nat) (h : 2 ≤ r.length) :
    chop_reversed (chop_reversed r ++ [d]) = chop_reversed (r ++ [d]) := by
  induction r with
  | nil => simp at h
  | cons x rest ih =>
    by_cases hc : 2 ≤ rest.length ∧ x = 1
    · have h1 : chop_reversed (x :: rest) = chop_reversed rest := by
        rw [chop_reversed, if_pos hc]
      have h2 : chop_reversed (x :: rest ++ [d]) = chop_reversed (rest ++ [d]) := by
        rw [List.cons_append, chop_reversed, if_pos]
        refine ⟨?_, hc.2⟩
        rw [List.length_append]
        omega
      rw [h1, h2]
      exact ih hc.1
    · have h1 : chop_reversed (x :: rest) = x :: rest := by
        rw [chop_reversed, if_neg hc]
      rw [h1]

theorem chop_cons_chop (d : Nat) (l : List Nat) (h : 2 ≤ l.length) :
    chop_trailing_singletons (d :: chop_trailing_singletons l)
      = chop_trailing_singletons (d :: l) := by
  unfold chop_trailing_singletons
  rw [List.reverse_cons, List.reverse_reverse, List.reverse_cons,
    chop_reversed_append _ _ (by rw [List.length_reverse]; exact h)]

theorem nested_json_type (d : Nat) (ds : List Nat) (leaf : List Nat → JsonValue) :
    (nested_json (d :: ds) leaf).GetType = JType.kArrayType := rfl

theorem mapE_map_range {β : Type} (f : JsonValue → Except Error β) (n : Nat)
    (F : Nat → JsonValue) (G : Nat → β) (h : ∀ i, i < n → f (F i) = .ok (G i)) :
    mapE f ((List.range n).map F) = .ok ((List.range n).map G) := by
  rw [mapE_ok_iff, List.forall₂_map_left_iff, List.forall₂_map_right_iff, List.forall₂_same]
  intro i hi
  exact h i (List.mem_range.mp hi)

/-- The decoding of a rectangular nested array of numbers and nulls, for any keyword
predicate and options. -/
theorem decode_nested_json (iskeyword : Str → Bool)
    (options : Option make_valid_name_options) (ds : List Nat) :
    ∀ (d0 : Nat) (leaf : List Nat → JsonValue) (fuel : Nat),
      (∀ d ∈ d0 :: ds, 1 ≤ d) →
      (∀ path, leaf path = JsonValue.null
        ∨ ∃ n, leaf path = JsonValue.number n ∧ n.valid = true) →
      (d0 :: ds).length ≤ fuel →
      decode iskeyword fuel (nested_json (d0 :: ds) leaf) options
        = .ok (octave_value.matrix (chop_trailing_singletons ((d0 :: ds) ++ [1]))
            ((List.range (d0 :: ds).prod).map
              (fun p => element_value (leaf (ind2sub (d0 :: ds) p))))) := by
  induction ds with
  | nil =>
    intro d0 leaf fuel hpos hleaf hfuel
    obtain ⟨f, rfl⟩ : ∃ f, fuel = f + 1 := ⟨fuel - 1, by simp at hfuel; omega⟩
    have hd0 : 1 ≤ d0 := hpos d0 (List.mem_cons_self _ _)
    have hne : (List.range d0).map (fun i => leaf [i]) ≠ [] := by
      intro h
      have := congrArg List.length h
      simp at this
      omega
    show decode iskeyword (f + 1) (.array ((List.range d0).map (fun i => leaf [i]))) options
      = _
    rw [decode_succ_array, decode_array_numeric _ _ hne]
    · simp only [List.length_map, List.length_range, List.map_map, List.prod_cons,
        List.prod_nil, Nat.mul_one]
      congr 2
      apply List.map_congr_left
      intro p hp
      have hp1 : p < d0 := List.mem_range.mp hp
      simp only [Function.comp, ind2sub, Nat.mod_eq_of_lt hp1]
    · intro e he
      obtain ⟨i, -, rfl⟩ := List.mem_map.mp he
      exact hleaf [i]
  | cons d1 ds ih =>
    intro d0 leaf fuel hpos hleaf hfuel
    obtain ⟨f, rfl⟩ : ∃ f, fuel = f + 1 := ⟨fuel - 1, by simp at hfuel; omega⟩
    have hd0 : 1 ≤ d0 := hpos d0 (List.mem_cons_self _ _)
    have hpos1 : ∀ d ∈ d1 :: ds, 1 ≤ d := fun d hd => hpos d (List.mem_cons_of_mem _ hd)
    have hf : (d1 :: ds).length ≤ f := by
      simp only [List.length_cons] at hfuel ⊢
      omega
    let S := chop_trailing_singletons ((d1 :: ds) ++ [1])
    let data : Nat → List Double := fun i =>
      (List.range (d1 :: ds).prod).map
        (fun p => element_value (leaf (i :: ind2sub (d1 :: ds) p)))
    let val := (List.range d0).map
      (fun i => nested_json (d1 :: ds) (fun path => leaf (i :: path)))
    let vs := (List.range d0).map (fun i => octave_value.matrix S (data i))
    have hSprod : S.prod = (d1 :: ds).prod := by
      have := chop_trailing_singletons_prod ((d1 :: ds) ++ [1])
      simp only [dim_numel, List.prod_append, List.prod_cons, List.prod_nil,
        Nat.mul_one] at this
      exact this
    have hS : S ≠ [0, 0] := by
      intro h
      have hmem : (0 : Nat) ∈ S := by rw [h]; simp
      have := chop_trailing_singletons_mem _ 0 hmem
      rcases List.mem_append.mp this with h1 | h1
      · have := hpos1 0 h1
        omega
      · simp at h1
    have hmap : mapE (fun v => decode iskeyword f v options) val = .ok vs :=
      mapE_map_range _ d0 _ _
        (fun i _ => ih d1 (fun path => leaf (i :: path)) f hpos1
          (fun path => hleaf (i :: path)) hf)
    have hvlen : vs.length = d0 := by simp [vs]
    have hne : val ≠ [] := by
      intro h
      have := congrArg List.length h
      simp [val] at this
      omega
    have hvne : vs ≠ [] := by
      intro h
      rw [h] at hvlen
      simp at hvlen
      omega
    have harr : ∀ e ∈ val, e.GetType = JType.kArrayType := by
      intro e he
      obtain ⟨i, -, rfl⟩ := List.mem_map.mp he
      rfl
    obtain ⟨combined, hres, hcl, hidx⟩ := decode_array_of_arrays_merge
      (fun v => decode iskeyword f v options) val vs data S false hmap hvne hS
      (by
        intro k v hk
        have hk1 : k < d0 := by
          have := (List.getElem?_eq_some_iff.mp hk).1
          rw [hvlen] at this
          exact this
        simp only [vs, List.getElem?_map, List.getElem?_range hk1, Option.map_some',
          Option.some.injEq] at hk
        subst hk
        refine ⟨rfl, rfl, rfl, rfl, rfl, ?_⟩
        simp only [data, List.length_map, List.length_range]
        exact hSprod.symm)
    show decode iskeyword (f + 1) (.array val) options = _
    rw [decode_succ_array, decode_array_arrays _ val hne harr, hres]
    simp only [Bool.false_eq_true, if_false, hvlen]
    have hdims : chop_trailing_singletons (d0 :: S)
        = chop_trailing_singletons ((d0 :: d1 :: ds) ++ [1]) := by
      simp only [S]
      rw [chop_cons_chop]
      · rfl
      · simp
    rw [hdims]
    congr 2
    apply List.ext_getElem?
    intro p
    have htot : (d0 :: d1 :: ds).prod = d0 * (d1 :: ds).prod := List.prod_cons
    by_cases hp : p < d0 * (d1 :: ds).prod
    · have hkk : p % d0 < d0 := Nat.mod_lt _ (by omega)
      have hii : p / d0 < S.prod := by
        rw [hSprod, Nat.div_lt_iff_lt_mul (by omega : 0 < d0), Nat.mul_comm]
        exact hp
      have hpe : p = p % d0 + p / d0 * d0 := by
        rw [Nat.mul_comm]
        exact (Nat.mod_add_div p d0).symm
      have h1 := hidx (p % d0) (p / d0) (by rw [hvlen]; exact hkk) hii
      rw [hvlen, ← hpe] at h1
      rw [h1]
      rw [hSprod] at hii
      simp only [data, List.getElem?_map, List.getElem?_range hii, Option.map_some']
      rw [htot, List.getElem?_range hp]
      simp only [Option.map_some', ind2sub]
    · have hl1 : combined.length ≤ p := by
        rw [hcl, hvlen, hSprod]
        omega
      rw [List.getElem?_eq_none hl1, List.getElem?_eq_none]
      rw [List.length_map, List.length_range, htot]
      omega

theorem chop_append_one (dv : List Nat) (h : 2 ≤ dv.length) :
    chop_trailing_singletons (dv ++ [1]) = chop_trailing_singletons dv := by
  unfold chop_trailing_singletons
  rw [List.reverse_append, List.reverse_singleton, List.singleton_append, chop_reversed,
    if_pos ⟨by rw [List.length_reverse]; exact h, rfl⟩]

/-- C36 (decode index law).  A rectangular nested JSON array of depth `n >= 2` with the
shape `dv`, every `dv[j] >= 1`, whose leaves are numbers or nulls, decodes to the `double`
array with the dimensions `dv` without trailing singletons; the element at the
multi-index `path` is the value of the leaf at `path`, `NaN` for `null`. -/
theorem decode_index_law (iskeyword : Str → Bool)
    (options : Option make_valid_name_options) (dv : List Nat)
    (leaf : List Nat → JsonValue) (fuel : Nat)
    (hn : 2 ≤ dv.length) (hpos : ∀ d ∈ dv, 1 ≤ d)
    (hleaf : ∀ path, leaf path = JsonValue.null
      ∨ ∃ n, leaf path = JsonValue.number n ∧ n.valid = true)
    (hfuel : dv.length ≤ fuel) :
    ∃ data, decode iskeyword fuel (nested_json dv leaf) options
          = .ok (octave_value.matrix (chop_trailing_singletons dv) data)
      ∧ data.length = dv.prod
      ∧ ∀ path, valid_index dv path = true →
          data[sub2ind dv path]? = some (element_value (leaf path)) := by
  cases dv with
  | nil => simp at hn
  | cons d0 ds =>
    refine ⟨(List.range (d0 :: ds).prod).map
      (fun p => element_value (leaf (ind2sub (d0 :: ds) p))), ?_, ?_, ?_⟩
    · rw [decode_nested_json iskeyword options ds d0 leaf fuel hpos hleaf hfuel,
        chop_append_one _ hn]
    · simp
    · intro path hpath
      have hlt := sub2ind_lt _ _ hpath
      rw [List.getElem?_map, List.getElem?_range hlt]
      simp only [Option.map_some']
      rw [ind2sub_sub2ind _ _ hpath]

/-- The array `[[[1, null]], [[3, 4]]]` of the shape `(2, 1, 2)`. -/
theorem decode_index_law_witness :
    ∃ data, decode octave_iskeyword 3 (nested_json [2, 1, 2] example_leaf) none
          = .ok (octave_value.matrix (chop_trailing_singletons [2, 1, 2]) data)
      ∧ data.length = [2, 1, 2].prod
      ∧ ∀ path, valid_index [2, 1, 2] path = true →
          data[sub2ind [2, 1, 2] path]? = some (element_value (example_leaf path)) :=
  decode_index_law octave_iskeyword none [2, 1, 2] example_leaf 3 (by decide) (by decide)
    (by
      intro path
      unfold example_leaf
      split
      · exact Or.inr ⟨_, rfl, by decide⟩
      · exact Or.inr ⟨_, rfl, by decide⟩
      · exact Or.inr ⟨_, rfl, by decide⟩
      · exact Or.inl rfl)
    (by decide)

/-- The array `[[[1, null]], [[3, 4]]]` decodes to the array of dimensions `(2, 1, 2)`
with the column-major data 1, 3, NaN, 4; `[[1],[2]]` of the shape `(2, 1)` decodes to
the column `[1; 2]`. -/
theorem index_law_examples :
    nested_json [2, 1, 2] example_leaf
        = .array [.array [.array [jint 1, .null]], .array [.array [jint 3, jint 4]]]
      ∧ decode octave_iskeyword 3
          (.array [.array [.array [jint 1, .null]], .array [.array [jint 3, jint 4]]]) none
        = .ok (octave_value.matrix [2, 1, 2] [dbl 1, dbl 3, Double.nan, dbl 4])
      ∧ decode octave_iskeyword 2 (.array [.array [jint 1], .array [jint 2]]) none
        = .ok (octave_value.matrix [2, 1] [dbl 1, dbl 2]) := by
  refine ⟨rfl, rfl, rfl⟩

end PkgJson
